import Mathlib

/-!
Virtual file system engine: a shallow embedding.

Embedding of `VFSNode` and `VirtualFileSystem` (VirtualFileSystem.h / VirtualFileSystem.cpp).

Representation choices, all of them fixed by the C++ data layout:

* `std::string` is a list of characters (`Str`).
* A node owns its children through `std::vector<std::unique_ptr<VFSNode>>`, so the heap is
  always a tree; `VFSNode` is the tree itself.
* A `VFSNode*` is the position of the node in the tree: the list of child indices that leads
  from the root to it (`Pos`).  `nullptr` is `none`.  The `parent` back pointer of a node is the
  position without its last index; the root (position `[]`) has no parent.
* `current` is a position, or `none` once the node it pointed to has been destroyed
  (a dangling pointer).  Reading a dangling `current` is undefined behaviour; operations
  that do so have no result (`none`).
* Console output is returned as text; the lines typed after `write` are an argument.
* `copyNodeRecursive` takes a recursion budget (`fuel`); it has no result when the budget
  runs out, which is how the unbounded recursion of a copy into itself shows up.
-/

/-- A `std::string`. -/
abbrev Str := List Char

/-- A `VFSNode*` that is not null: child indices from the root down to the node. -/
abbrev Pos := List Nat

/-- `VFSNode::Type`. -/
inductive NodeType where
  | Directory
  | File
  deriving DecidableEq, Repr

/-- `class VFSNode`: name, type, owned children, content, permissions.  The `parent` pointer
is positional (see the header comment). -/
inductive VFSNode where
  | mk (name : Str) (type : NodeType) (children : List VFSNode) (content : Str)
      (permissions : Str)
  deriving Repr

namespace VFSNode

mutual
/-- Decidable equality of nodes (structural). -/
def decEq : (a b : VFSNode) → Decidable (a = b)
  | .mk n1 t1 cs1 c1 p1, .mk n2 t2 cs2 c2 p2 =>
    if hn : n1 = n2 then
      if ht : t1 = t2 then
        if hc : c1 = c2 then
          if hp : p1 = p2 then
            match decEqList cs1 cs2 with
            | isTrue h => isTrue (by subst hn ht hc hp h; rfl)
            | isFalse h => isFalse (by intro e; cases e; exact h rfl)
          else isFalse (by intro e; cases e; exact hp rfl)
        else isFalse (by intro e; cases e; exact hc rfl)
      else isFalse (by intro e; cases e; exact ht rfl)
    else isFalse (by intro e; cases e; exact hn rfl)
/-- Decidable equality of child vectors. -/
def decEqList : (a b : List VFSNode) → Decidable (a = b)
  | [], [] => isTrue rfl
  | [], _ :: _ => isFalse (by intro e; cases e)
  | _ :: _, [] => isFalse (by intro e; cases e)
  | a :: as, b :: bs =>
    match decEq a b with
    | isTrue h =>
      match decEqList as bs with
      | isTrue h2 => isTrue (by subst h h2; rfl)
      | isFalse h2 => isFalse (by intro e; cases e; exact h2 rfl)
    | isFalse h => isFalse (by intro e; cases e; exact h rfl)
end

instance : DecidableEq VFSNode := decEq

/-- `VFSNode::VFSNode(name, type, parent)`: no children, empty content, permissions `rwx`. -/
def new (name : Str) (type : NodeType) : VFSNode :=
  .mk name type [] [] "rwx".toList

/-- `getName`. -/
def getName : VFSNode → Str
  | .mk n _ _ _ _ => n

/-- `getType`. -/
def getType : VFSNode → NodeType
  | .mk _ t _ _ _ => t

/-- `getChildren` / `getChildrenConst`. -/
def getChildren : VFSNode → List VFSNode
  | .mk _ _ cs _ _ => cs

/-- `getContent` / `getContentConst` (read). -/
def getContent : VFSNode → Str
  | .mk _ _ _ c _ => c

/-- `getPermissions`. -/
def getPermissions : VFSNode → Str
  | .mk _ _ _ _ p => p

/-- `setPermissions`. -/
def setPermissions (perms : Str) : VFSNode → VFSNode
  | .mk n t cs c _ => .mk n t cs c perms

/-- Assignment through `getContent()`. -/
def setContent (content : Str) : VFSNode → VFSNode
  | .mk n t cs _ p => .mk n t cs content p

/-- Replace the child vector (used by the mutators below). -/
def setChildren (children : List VFSNode) : VFSNode → VFSNode
  | .mk n t _ c p => .mk n t children c p

/-- `isDirectory`. -/
def isDirectory (n : VFSNode) : Bool :=
  n.getType = NodeType.Directory

/-- `isFile`. -/
def isFile (n : VFSNode) : Bool :=
  n.getType = NodeType.File

/-- The loop of `findChild` over a child vector: index of the first child called `name`. -/
def findIn : List VFSNode → Str → Option Nat
  | [], _ => none
  | c :: cs, name =>
    if c.getName = name then some 0 else (findIn cs name).map (· + 1)

/-- `findChild` / `findChildConst`: the first child called `name`, as an index into the
child vector, or `none` for `nullptr`. -/
def findChild (n : VFSNode) (name : Str) : Option Nat :=
  findIn n.getChildren name

/-- `push_back` of a node onto the child vector. -/
def pushChild (child : VFSNode) (n : VFSNode) : VFSNode :=
  n.setChildren (n.getChildren ++ [child])

/-- `addDirectory`: the new child is the last one (`children.back()`). -/
def addDirectory (name : Str) (n : VFSNode) : VFSNode :=
  pushChild (VFSNode.new name NodeType.Directory) n

/-- `addFile`. -/
def addFile (name : Str) (n : VFSNode) : VFSNode :=
  pushChild (VFSNode.new name NodeType.File) n

/-- The children that `removeChild(name)` keeps: those not called `name`. -/
def notNamed (name : Str) (c : VFSNode) : Bool :=
  decide (c.getName ≠ name)

/-- `removeChild`: `remove_if` + `erase` drops every child called `name`. -/
def removeChild (name : Str) (n : VFSNode) : VFSNode :=
  n.setChildren (n.getChildren.filter (notNamed name))

/-- The node at a position below `n`, if the position exists (pointer dereference). -/
def getNode : VFSNode → Pos → Option VFSNode
  | n, [] => some n
  | .mk _ _ cs _ _, i :: rest =>
    match cs[i]? with
    | some c => getNode c rest
    | none => none

/-- Apply `f` to the node at a position (a mutation through a pointer). -/
def updateNode (f : VFSNode → VFSNode) : VFSNode → Pos → VFSNode
  | n, [] => f n
  | .mk nm t cs c p, i :: rest =>
    match cs[i]? with
    | some ch => .mk nm t (cs.set i (updateNode f ch rest)) c p
    | none => .mk nm t cs c p

mutual
/-- The node kinds of the data model hold in a tree: a file has no children and a directory
has no content, at every node. -/
def kindsOk : VFSNode → Bool
  | .mk _ t cs c _ =>
    (match t with
      | NodeType.File => cs.isEmpty
      | NodeType.Directory => c.isEmpty) && kindsOkList cs
/-- `kindsOk` for every node of a child vector. -/
def kindsOkList : List VFSNode → Bool
  | [] => true
  | c :: cs => kindsOk c && kindsOkList cs
end

mutual
/-- Sibling names are unique in a tree: no node has two children of the same name. -/
def namesUnique : VFSNode → Bool
  | .mk _ _ cs _ _ => decide ((namesOf cs).Nodup) && namesUniqueList cs
/-- `namesUnique` for every node of a child vector. -/
def namesUniqueList : List VFSNode → Bool
  | [] => true
  | c :: cs => namesUnique c && namesUniqueList cs
/-- The names of a child vector, in order. -/
def namesOf : List VFSNode → List Str
  | [] => []
  | .mk n _ _ _ _ :: cs => n :: namesOf cs
end

mutual
/-- The node that `copyNodeRecursive(src, dst, newName)` builds from `src` when `dst` is not
inside `src`: the type and permissions of `src`, the new name, the content when `src` is a
file, and copies of the children, under their own names, when it is a directory. -/
def copyTree (newName : Str) : VFSNode → VFSNode
  | .mk _ t cs c p =>
    .mk newName t
      (match t with
        | NodeType.Directory => copyTrees cs
        | NodeType.File => [])
      (match t with
        | NodeType.Directory => []
        | NodeType.File => c) p
/-- The copies of a child vector. -/
def copyTrees : List VFSNode → List VFSNode
  | [] => []
  | .mk n t cs c p :: ks => copyTree n (.mk n t cs c p) :: copyTrees ks
end

end VFSNode

/-- `getParent` on positions: the root has none. -/
def parentPos : Pos → Option Pos
  | [] => none
  | p => some p.dropLast

/-- The items that successive `std::getline(ss, item, delim)` calls return on `s`: the text
between delimiters; after a final delimiter the stream is exhausted and no further (empty)
item is produced. -/
def getlineItems (delim : Char) : Str → List Str
  | [] => []
  | c :: cs =>
    if c = delim then [] :: getlineItems delim cs
    else
      match getlineItems delim cs with
      | [] => [[c]]
      | item :: items => (c :: item) :: items

/-- `std::string::find_last_of(c)`: index of the last occurrence, `none` for `npos`. -/
def findLastOf (c : Char) : Str → Option Nat
  | [] => none
  | x :: xs =>
    match findLastOf c xs with
    | some i => some (i + 1)
    | none => if x = c then some 0 else none

/-- The `parentPath` of the commands: `path.substr(0, slash)`, empty without a slash. -/
def parentPathOf (path : Str) : Str :=
  match findLastOf '/' path with
  | none => []
  | some slash => path.take slash

/-- The `name` of the commands: `path.substr(slash + 1)`, the whole path without a slash. -/
def leafNameOf (path : Str) : Str :=
  match findLastOf '/' path with
  | none => path
  | some slash => path.drop (slash + 1)

/-- `class VirtualFileSystem`: the owned root and the `current` pointer. -/
structure VirtualFileSystem where
  root : VFSNode
  current : Option Pos
  deriving DecidableEq, Repr

/-- What a command gives back: its `bool`, what it printed, and the engine afterwards. -/
structure Result where
  ok : Bool
  out : Str
  fs : VirtualFileSystem
  deriving DecidableEq, Repr

namespace VirtualFileSystem

/-- The constructor: a root directory `/` with permissions `rwx`, `current` at the root. -/
def init : VirtualFileSystem :=
  { root := (VFSNode.new "/".toList NodeType.Directory).setPermissions "rwx".toList
    current := some [] }

/-- `splitPath`: the `getline` items on `/` that are neither empty nor `.`. -/
def splitPath (path : Str) : List Str :=
  (getlineItems '/' path).filter (fun item => decide (item ≠ [] ∧ item ≠ ".".toList))

/-- The loop of `resolvePath`: `..` goes to the parent when there is one, any other part to
the first child of that name; `none` is `nullptr`. -/
def walk (root : VFSNode) : Pos → List Str → Option Pos
  | node, [] => some node
  | node, part :: parts =>
    if part = "..".toList then
      match parentPos node with
      | some par => walk root par parts
      | none => walk root node parts
    else
      match root.getNode node with
      | none => none
      | some n =>
        match n.findChild part with
        | none => none
        | some i => walk root (node ++ [i]) parts

/-- `resolvePath` / `resolvePathConst`.  Outer `none`: a dangling `current` was read.
Inner `none`: `nullptr`. -/
def resolvePath (fs : VirtualFileSystem) (path : Str) : Option (Option Pos) :=
  match path with
  | [] => fs.current.map some
  | c :: _ =>
    if c = '/' then some (walk fs.root [] (splitPath path))
    else fs.current.map (fun cur => walk fs.root cur (splitPath path))

/-- `checkPermission`: `permissions.find(need) != npos`. -/
def checkPermission (node : VFSNode) (need : Char) : Bool :=
  node.getPermissions.contains need

/-- The names of the nodes on the way from the root down to a position (the `parts` vector
of `getCurrentPath`, read from its far end). -/
def namesTo (root : VFSNode) : Pos → List Str
  | [] => []
  | i :: rest =>
    match root.getChildren[i]? with
    | some c => c.getName :: namesTo c rest
    | none => []

/-- `getCurrentPath`: `/` followed by the names from the root down to `current`, with `/`
between them. -/
def getCurrentPath (fs : VirtualFileSystem) : Option Str :=
  fs.current.map (fun cur => '/' :: "/".toList.intercalate (namesTo fs.root cur))

/-- `VFSNode* parent = parentPath.empty() ? current : resolvePath(parentPath);` -/
def parentPtr (fs : VirtualFileSystem) (path : Str) : Option (Option Pos) :=
  if parentPathOf path = [] then fs.current.map some
  else resolvePath fs (parentPathOf path)

/-- `cmdCd`. -/
def cmdCd (fs : VirtualFileSystem) (path : Str) : Option Result :=
  if path = [] then some ⟨true, [], { fs with current := some [] }⟩
  else
    match resolvePath fs path with
    | none => none
    | some none => some ⟨false, "cd: no such directory\n".toList, fs⟩
    | some (some target) =>
      match fs.root.getNode target with
      | none => none
      | some t =>
        if !t.isDirectory then some ⟨false, "cd: not a directory\n".toList, fs⟩
        else if !checkPermission t 'x' then some ⟨false, "Permission denied.\n".toList, fs⟩
        else some ⟨true, [], { fs with current := some target }⟩

/-- `cmdMkdir`. -/
def cmdMkdir (fs : VirtualFileSystem) (path : Str) : Option Result :=
  if path = [] then some ⟨false, "mkdir: missing operand\n".toList, fs⟩
  else
    match parentPtr fs path with
    | none => none
    | some none => some ⟨false, "mkdir: invalid parent directory\n".toList, fs⟩
    | some (some par) =>
      match fs.root.getNode par with
      | none => none
      | some parent =>
        if !parent.isDirectory then
          some ⟨false, "mkdir: invalid parent directory\n".toList, fs⟩
        else if (parent.findChild (leafNameOf path)).isSome then
          some ⟨false, "mkdir: already exists\n".toList, fs⟩
        else if !checkPermission parent 'w' then
          some ⟨false, "Permission denied.\n".toList, fs⟩
        else
          let root1 := fs.root.updateNode (VFSNode.addDirectory (leafNameOf path)) par
          let dir := par ++ [parent.getChildren.length]
          some ⟨true, [],
            { fs with root := root1.updateNode (VFSNode.setPermissions "rwx".toList) dir }⟩

/-- `cmdTouch`. -/
def cmdTouch (fs : VirtualFileSystem) (path : Str) : Option Result :=
  if path = [] then some ⟨false, "touch: missing operand\n".toList, fs⟩
  else
    match parentPtr fs path with
    | none => none
    | some none => some ⟨false, "touch: invalid directory\n".toList, fs⟩
    | some (some par) =>
      match fs.root.getNode par with
      | none => none
      | some parent =>
        if !parent.isDirectory then
          some ⟨false, "touch: invalid directory\n".toList, fs⟩
        else if (parent.findChild (leafNameOf path)).isSome then
          some ⟨true, [], fs⟩
        else if !checkPermission parent 'w' then
          some ⟨false, "Permission denied.\n".toList, fs⟩
        else
          let root1 := fs.root.updateNode (VFSNode.addFile (leafNameOf path)) par
          let file := par ++ [parent.getChildren.length]
          some ⟨true, [],
            { fs with root := root1.updateNode (VFSNode.setPermissions "rw-".toList) file }⟩

/-- The index of child `i` of `kids` once the children called `name` have been erased. -/
def shiftedIndex (kids : List VFSNode) (name : Str) (i : Nat) : Nat :=
  ((kids.take i).filter (VFSNode.notNamed name)).length

/-- Where a pointer `p` points after `removeChild(name)` on the node at `par`, whose child
vector was `kids`: `none` when its node was destroyed, the same node (under its new index)
otherwise. -/
def rebase (kids : List VFSNode) (name : Str) : Pos → Pos → Option Pos
  | [], [] => some []
  | [], i :: rest =>
    match kids[i]? with
    | none => some (i :: rest)
    | some c =>
      if c.getName = name then none
      else some (shiftedIndex kids name i :: rest)
  | _ :: _, [] => some []
  | a :: par, b :: p =>
    if a = b then (rebase kids name par p).map (a :: ·) else some (b :: p)

/-- `parent->removeChild(name)` on the engine: the tree loses the children, and `current`
dangles if it pointed into one of them. -/
def removeAt (fs : VirtualFileSystem) (par : Pos) (parent : VFSNode) (name : Str) :
    VirtualFileSystem :=
  { root := fs.root.updateNode (VFSNode.removeChild name) par
    current := fs.current.bind (rebase parent.getChildren name par) }

/-- `cmdRm`. -/
def cmdRm (fs : VirtualFileSystem) (path : Str) (recursive : Bool) : Option Result :=
  if path = [] then some ⟨false, "rm: missing operand\n".toList, fs⟩
  else if path = "/".toList then some ⟨false, "rm: cannot remove root\n".toList, fs⟩
  else
    match parentPtr fs path with
    | none => none
    | some none => some ⟨false, "rm: invalid parent\n".toList, fs⟩
    | some (some par) =>
      match fs.root.getNode par with
      | none => none
      | some parent =>
        if !parent.isDirectory then some ⟨false, "rm: invalid parent\n".toList, fs⟩
        else
          match (parent.findChild (leafNameOf path)).bind (parent.getChildren[·]?) with
          | none => some ⟨false, "rm: not found\n".toList, fs⟩
          | some target =>
            if !checkPermission parent 'w' then
              some ⟨false, "Permission denied.\n".toList, fs⟩
            else if target.isDirectory && !recursive && !target.getChildren.isEmpty then
              some ⟨false, "rm: directory not empty (use -r)\n".toList, fs⟩
            else
              some ⟨true, [], removeAt fs par parent (leafNameOf path)⟩

/-- `cmdCat` (const: the engine is returned as it was). -/
def cmdCat (fs : VirtualFileSystem) (path : Str) : Option Result :=
  match resolvePath fs path with
  | none => none
  | some none => some ⟨false, "cat: invalid file\n".toList, fs⟩
  | some (some p) =>
    match fs.root.getNode p with
    | none => none
    | some node =>
      if !node.isFile then some ⟨false, "cat: invalid file\n".toList, fs⟩
      else if !checkPermission node 'r' then some ⟨false, "Permission denied.\n".toList, fs⟩
      else some ⟨true, node.getContent ++ "\n".toList, fs⟩

/-- The input loop of `cmdWrite`: every line before the first `.end` goes into the buffer
with a newline behind it.  When the input ends without `.end` the loop does not end. -/
def readBody : List Str → Option Str
  | [] => none
  | line :: rest =>
    if line = ".end".toList then some []
    else (readBody rest).map (fun buffer => line ++ "\n".toList ++ buffer)

/-- The part of `cmdWrite` after `node` has been found: the two checks, the input loop and
the assignment.  `out` is what has been printed so far. -/
def writeInto (fs : VirtualFileSystem) (out : Str) (p : Pos) (input : List Str) :
    Option Result :=
  match fs.root.getNode p with
  | none => none
  | some node =>
    if !node.isFile then some ⟨false, out ++ "write: not a file\n".toList, fs⟩
    else if !checkPermission node 'w' then
      some ⟨false, out ++ "Permission denied.\n".toList, fs⟩
    else
      match readBody input with
      | none => none
      | some buffer =>
        some ⟨true, out ++ "Enter text. End with .end\n".toList,
          { fs with root := fs.root.updateNode (VFSNode.setContent buffer) p }⟩

/-- `cmdWrite`; `input` holds the lines that `std::getline(std::cin, line)` will read.
When the path does not resolve even after `cmdTouch` succeeded, `node->isFile()` is a call
through `nullptr`: no result. -/
def cmdWrite (fs : VirtualFileSystem) (path : Str) (input : List Str) : Option Result :=
  match resolvePath fs path with
  | none => none
  | some (some p) => writeInto fs [] p input
  | some none =>
    match cmdTouch fs path with
    | none => none
    | some r =>
      if !r.ok then some ⟨false, r.out, r.fs⟩
      else
        match resolvePath r.fs path with
        | none => none
        | some none => none
        | some (some p) => writeInto r.fs r.out p input

/-- `copyNodeRecursive(src, dst, newName)` on the tree `root`, with a recursion budget.
The new node is pushed onto `dst` first; the loop then runs over the child vector of `src`
as it is at that moment (`begin()`/`end()` of the range-for), reading each child from the
tree as the copy has left it so far. -/
def copyNodeRecursive : Nat → VFSNode → Pos → Pos → Str → Option VFSNode
  | 0, _, _, _, _ => none
  | fuel + 1, root, src, dst, newName =>
    match root.getNode src, root.getNode dst with
    | some s, some d =>
      let newNode := dst ++ [d.getChildren.length]
      let root1 :=
        if s.isDirectory then root.updateNode (VFSNode.addDirectory newName) dst
        else
          (root.updateNode (VFSNode.addFile newName) dst).updateNode
            (VFSNode.setContent s.getContent) newNode
      let root2 := root1.updateNode (VFSNode.setPermissions s.getPermissions) newNode
      if s.isDirectory then
        match root2.getNode src with
        | none => none
        | some s2 =>
          (List.range s2.getChildren.length).foldlM
            (fun cur i =>
              match cur.getNode (src ++ [i]) with
              | none => none
              | some child => copyNodeRecursive fuel cur (src ++ [i]) newNode child.getName)
            root2
      else some root2
    | _, _ => none

/-- `cmdCp`. -/
def cmdCp (fuel : Nat) (fs : VirtualFileSystem) (srcPath dstPath : Str) : Option Result :=
  match resolvePath fs srcPath with
  | none => none
  | some none => some ⟨false, "cp: invalid source\n".toList, fs⟩
  | some (some src) =>
    match fs.root.getNode src with
    | none => none
    | some s =>
      if !checkPermission s 'r' then some ⟨false, "Permission denied.\n".toList, fs⟩
      else
        match parentPtr fs dstPath with
        | none => none
        | some none => some ⟨false, "cp: invalid target\n".toList, fs⟩
        | some (some par) =>
          match fs.root.getNode par with
          | none => none
          | some parent =>
            if !parent.isDirectory then some ⟨false, "cp: invalid target\n".toList, fs⟩
            else if (parent.findChild (leafNameOf dstPath)).isSome then
              some ⟨false, "cp: target exists\n".toList, fs⟩
            else
              match copyNodeRecursive fuel fs.root src par (leafNameOf dstPath) with
              | none => none
              | some root1 => some ⟨true, [], { fs with root := root1 }⟩

/-- The loop of `std::remove_if` behind the first match, in
`oldParent->removeChild(src->getName())`, where `name` is a reference to the name of the
child at index `s`: `result` is the slot that the next kept child is moved to, and `freed`
says that such a move has overwritten slot `s`, which destroys the source node and with it
the string that `name` refers to.  The value says whether a later comparison
`n->getName() == name` reads the freed string. -/
def readsFreedName (name : Str) (s : Nat) : Nat → Bool → List VFSNode → Bool
  | _, _, [] => false
  | result, freed, c :: rest =>
    if freed then true
    else if c.getName = name then readsFreedName name s result false rest
    else readsFreedName name s (result + 1) (result == s) rest

/-- The call `oldParent->removeChild(src->getName())` of `cmdMv`, with the source at index
`s` of the child vector `kids`, reads the name of the source after the source has been
destroyed: `std::remove_if` finds the first child of that name and then runs
`readsFreedName` over the children behind it. -/
def removeReadsFreed (kids : List VFSNode) (s : Nat) : Bool :=
  match kids[s]? with
  | none => false
  | some src =>
    match VFSNode.findIn kids src.getName with
    | none => false
    | some first => readsFreedName src.getName s first false (kids.drop (first + 1))

/-- `cmdMv`.  The removal gets a reference to the name of the node that it destroys; when
it reads that name after the destruction the behaviour is undefined: no result.  The last
index of the position `src` is the index of the source among the children of its
parent. -/
def cmdMv (fuel : Nat) (fs : VirtualFileSystem) (srcPath dstPath : Str) : Option Result :=
  match resolvePath fs srcPath with
  | none => none
  | some none => some ⟨false, "mv: invalid source\n".toList, fs⟩
  | some (some src) =>
    match parentPos src with
    | none => some ⟨false, "mv: cannot move root\n".toList, fs⟩
    | some oldParent =>
      match parentPtr fs dstPath with
      | none => none
      | some none => some ⟨false, "mv: invalid target\n".toList, fs⟩
      | some (some par) =>
        match fs.root.getNode par with
        | none => none
        | some parent =>
          if !parent.isDirectory then some ⟨false, "mv: invalid target\n".toList, fs⟩
          else if (parent.findChild (leafNameOf dstPath)).isSome then
            some ⟨false, "mv: target exists\n".toList, fs⟩
          else
            match copyNodeRecursive fuel fs.root src par (leafNameOf dstPath) with
            | none => none
            | some root1 =>
              match root1.getNode src, root1.getNode oldParent with
              | some s, some old =>
                if removeReadsFreed old.getChildren (src.getLastD 0) then none
                else
                  some ⟨true, [], removeAt { fs with root := root1 } oldParent old s.getName⟩
              | _, _ => none

/-- `cmdChmod`. -/
def cmdChmod (fs : VirtualFileSystem) (perms path : Str) : Option Result :=
  if perms.length ≠ 3 then some ⟨false, "chmod: invalid permissions\n".toList, fs⟩
  else
    match resolvePath fs path with
    | none => none
    | some none => some ⟨false, "chmod: no such file\n".toList, fs⟩
    | some (some n) =>
      some ⟨true, [], { fs with root := fs.root.updateNode (VFSNode.setPermissions perms) n }⟩

mutual
/-- `saveNodeRecursive(node, path, out)`: the text appended to `out`.  `isRoot` is the
comparison `node == root.get()`; it holds for the outermost call of `save` only. -/
def saveNodeRecursive (isRoot : Bool) : VFSNode → Str → Str
  | .mk name type children content permissions, path =>
    let fullPath :=
      if isRoot then path
      else (if path ≠ "/".toList then path ++ "/".toList else path) ++ name
    "NODE ".toList ++ (if type = NodeType.Directory then "DIR ".toList else "FILE ".toList)
      ++ permissions ++ " ".toList ++ fullPath ++ "\n".toList
      ++ (if type = NodeType.File then
            "CONTENT_BEGIN\n".toList ++ content ++ "CONTENT_END\n".toList
          else [])
      ++ saveChildren children fullPath
/-- The loop of `saveNodeRecursive` over the children. -/
def saveChildren : List VFSNode → Str → Str
  | [], _ => []
  | c :: cs, fullPath => saveNodeRecursive false c fullPath ++ saveChildren cs fullPath
end

/-- `save`: the text written to the save file. -/
def save (fs : VirtualFileSystem) : Str :=
  saveNodeRecursive true fs.root "/".toList

/-- The loop of `ensureDirectory`: walk down from `node`, creating each missing part as a
directory with permissions `rwx`. -/
def ensureLoop : VFSNode → Pos → List Str → VFSNode × Pos
  | root, node, [] => (root, node)
  | root, node, part :: parts =>
    match root.getNode node with
    | none => (root, node)
    | some n =>
      match n.findChild part with
      | some i => ensureLoop root (node ++ [i]) parts
      | none =>
        let root1 := root.updateNode (VFSNode.addDirectory part) node
        let child := node ++ [n.getChildren.length]
        ensureLoop (root1.updateNode (VFSNode.setPermissions "rwx".toList) child) child parts

/-- `ensureDirectory`: the tree afterwards and the directory found or made. -/
def ensureDirectory (root : VFSNode) (dirPath : Str) : VFSNode × Pos :=
  if dirPath = [] ∨ dirPath = "/".toList then (root, [])
  else ensureLoop root [] (splitPath dirPath)

/-- `createFileAtPath`: the tree afterwards and the node found or made. -/
def createFileAtPath (root : VFSNode) (filePath : Str) : VFSNode × Pos :=
  let parentPath :=
    match findLastOf '/' filePath with
    | none => "/".toList
    | some slash => filePath.take slash
  let filename := leafNameOf filePath
  let (root1, parent) := ensureDirectory root parentPath
  match root1.getNode parent with
  | none => (root1, parent)
  | some par =>
    match par.findChild filename with
    | some i => (root1, parent ++ [i])
    | none =>
      let file := parent ++ [par.getChildren.length]
      ((root1.updateNode (VFSNode.addFile filename) parent).updateNode
        (VFSNode.setPermissions "rw-".toList) file, file)

/-- `std::isspace` in the C locale. -/
def isspace (c : Char) : Bool :=
  c = ' ' || c = '\t' || c = '\n' || c = '\x0b' || c = '\x0c' || c = '\r'

/-- The words that successive `ss >> word` extractions return on a line. -/
def words : Str → List Str
  | [] => []
  | c :: cs =>
    if isspace c then words cs
    else
      match cs with
      | [] => [[c]]
      | d :: _ =>
        if isspace d then [c] :: words cs
        else
          match words cs with
          | [] => [[c]]
          | w :: ws => (c :: w) :: ws

/-- The local variables of the read loop of `load`. -/
structure LoadState where
  root : VFSNode
  readingContent : Bool
  lastFile : Option Pos
  buffer : Str

/-- One turn of the `while (std::getline(in, line))` loop of `load`. -/
def loadLine (st : LoadState) (line : Str) : LoadState :=
  if "NODE ".toList.isPrefixOf line then
    let st1 : LoadState :=
      match st.readingContent, st.lastFile with
      | true, some f =>
        { st with root := st.root.updateNode (VFSNode.setContent st.buffer) f
                  buffer := [], readingContent := false }
      | _, _ => st
    let type := (words line).getD 1 []
    let perms := (words line).getD 2 []
    let path := (words line).getD 3 []
    if type = "DIR".toList then
      let (root1, d) := ensureDirectory st1.root path
      { st1 with root := root1.updateNode (VFSNode.setPermissions perms) d }
    else if type = "FILE".toList then
      let (root1, f) := createFileAtPath st1.root path
      { st1 with root := root1.updateNode (VFSNode.setPermissions perms) f
                 lastFile := some f }
    else st1
  else if line = "CONTENT_BEGIN".toList then
    { st with readingContent := true, buffer := [] }
  else if line = "CONTENT_END".toList then
    { root :=
        match st.lastFile with
        | some f => st.root.updateNode (VFSNode.setContent st.buffer) f
        | none => st.root
      readingContent := false, lastFile := none, buffer := [] }
  else if st.readingContent then
    { st with buffer := st.buffer ++ line ++ "\n".toList }
  else st

/-- The welcome text of the first-run layout. -/
def welcome : Str :=
  ("Welcome to the Virtual File System Shell.\n" ++
    "Use commands like ls, cd, mkdir, touch, cat, write, rm, cp, mv.\n").toList

/-- `load`; `file` is the text of the save file, `none` when it cannot be opened. -/
def load (fs : VirtualFileSystem) (file : Option Str) : VirtualFileSystem :=
  match file with
  | none =>
    let home := [fs.root.getChildren.length]
    let root1 := (fs.root.updateNode (VFSNode.addDirectory "home".toList) []).updateNode
      (VFSNode.setPermissions "rwx".toList) home
    let docs := home ++ [0]
    let root2 := (root1.updateNode (VFSNode.addDirectory "docs".toList) home).updateNode
      (VFSNode.setPermissions "rwx".toList) docs
    let readme := docs ++ [0]
    let root3 := (root2.updateNode (VFSNode.addFile "readme.txt".toList) docs).updateNode
      (VFSNode.setPermissions "rw-".toList) readme
    { root := root3.updateNode (VFSNode.setContent welcome) readme, current := some [] }
  | some text =>
    let st0 : LoadState :=
      { root := (VFSNode.new "/".toList NodeType.Directory).setPermissions "rwx".toList
        readingContent := false, lastFile := none, buffer := [] }
    let st := (getlineItems '\n' text).foldl loadLine st0
    let root :=
      match st.readingContent, st.lastFile with
      | true, some f => st.root.updateNode (VFSNode.setContent st.buffer) f
      | _, _ => st.root
    { root := root, current := some [] }

end VirtualFileSystem

/-! ## Concrete trees used by the evaluation theorems -/

namespace Scenario

/-- A file node. -/
def file (name content perms : String) : VFSNode :=
  .mk name.toList NodeType.File [] content.toList perms.toList

/-- A directory node. -/
def dir (name perms : String) (children : List VFSNode) : VFSNode :=
  .mk name.toList NodeType.Directory children [] perms.toList

/-- `/f`, empty, after `touch f`. -/
def touchedFs : VirtualFileSystem :=
  ⟨dir "/" "rwx" [file "f" "" "rw-"], some []⟩

/-- `/f` after `write f` with the one body line `CONTENT_END`. -/
def sentinelFs : VirtualFileSystem :=
  ⟨dir "/" "rwx" [file "f" "CONTENT_END\n" "rw-"], some []⟩

/-- An empty directory `/home`, with `current` in it. -/
def homeFs : VirtualFileSystem :=
  ⟨dir "/" "rwx" [dir "home" "rwx" []], some [0]⟩

/-- A file `/n` and an empty directory `/home`, with `current` at `/home`. -/
def besideFs : VirtualFileSystem :=
  ⟨dir "/" "rwx" [file "n" "old\n" "rw-", dir "home" "rwx" []], some [1]⟩

/-- A file `/f` and a directory `/d` without the `w` permission. -/
def readOnlyDirFs : VirtualFileSystem :=
  ⟨dir "/" "rwx" [file "f" "x\n" "rw-", dir "d" "r-x" []], some []⟩

/-- A directory `/d` without `w` holding the directory `sub`, which holds the file `x`. -/
def lockedParentFs : VirtualFileSystem :=
  ⟨dir "/" "rwx" [dir "d" "r-x" [dir "sub" "rwx" [file "x" "" "rw-"]]], some []⟩

/-- The scenario of the specification: `/a/b.txt` holding `hi`. -/
def hiFs : VirtualFileSystem :=
  ⟨dir "/" "rwx" [dir "a" "rwx" [file "b.txt" "hi\n" "rw-"]], some []⟩

/-- The fresh engine after `chmod --- /`. -/
def noExecRootFs : VirtualFileSystem :=
  ⟨dir "/" "---" [], some []⟩

/-- The scenario of the specification after `mv a c`: `/c/b.txt` holding `hi`. -/
def movedFs : VirtualFileSystem :=
  ⟨dir "/" "rwx" [dir "c" "rwx" [file "b.txt" "hi\n" "rw-"]], some []⟩

/-- `homeFs` after `mkdir /a` issued from `/home`: the directory is `/home/a`. -/
def homeWithAFs : VirtualFileSystem :=
  ⟨dir "/" "rwx" [dir "home" "rwx" [dir "a" "rwx" []]], some [0]⟩

/-- `homeFs` after `touch /t` issued from `/home`: the file is `/home/t`. -/
def homeWithTFs : VirtualFileSystem :=
  ⟨dir "/" "rwx" [dir "home" "rwx" [file "t" "" "rw-"]], some [0]⟩

/-- `besideFs` after `cp ../n /g` issued from `/home`: the copy is `/home/g`. -/
def besideWithGFs : VirtualFileSystem :=
  ⟨dir "/" "rwx" [file "n" "old\n" "rw-", dir "home" "rwx" [file "g" "old\n" "rw-"]],
    some [1]⟩

/-- `besideFs` after `cp ../n /n` issued from `/home`: the copy is `/home/n`. -/
def besideWithNFs : VirtualFileSystem :=
  ⟨dir "/" "rwx" [file "n" "old\n" "rw-", dir "home" "rwx" [file "n" "old\n" "rw-"]],
    some [1]⟩

/-- `besideWithNFs` after `write /n` with the body line `new`: `/n` itself was written. -/
def besideWrittenFs : VirtualFileSystem :=
  ⟨dir "/" "rwx" [file "n" "new\n" "rw-", dir "home" "rwx" [file "n" "old\n" "rw-"]],
    some [1]⟩

end Scenario


/-! ## Definitions used to state the theorems -/

/-- The items of a text that is followed by a delimiter: like `getlineItems`, with the empty
item after a final delimiter (or of the empty text) kept. -/
def openItems (delim : Char) : Str → List Str
  | [] => [[]]
  | c :: cs =>
    if c = delim then [] :: openItems delim cs
    else
      match openItems delim cs with
      | [] => [[c]]
      | item :: items => (c :: item) :: items

/-- A leaf that `splitPath` keeps as one ordinary part: not empty, not `.`, not `..`. -/
def ProperLeaf (path : Str) : Prop :=
  leafNameOf path ≠ [] ∧ leafNameOf path ≠ ".".toList ∧ leafNameOf path ≠ "..".toList

instance (path : Str) : Decidable (ProperLeaf path) := by
  unfold ProperLeaf; infer_instance

/-- The path is a slash followed by a leaf without a slash (`/name`): the only slash is the
first character, so the `parentPath` of the commands is empty. -/
def RootedLeaf (path : Str) : Prop :=
  findLastOf '/' path = some 0

instance (path : Str) : Decidable (RootedLeaf path) := by
  unfold RootedLeaf; infer_instance

namespace VFSNode

/-- The names of the children, in order: all that `findChild` reads. -/
def childNames (n : VFSNode) : List Str :=
  n.getChildren.map getName

end VFSNode

namespace VirtualFileSystem

/-- One step of the loop of `resolvePath` for a part other than `..`. -/
def stepChild (root : VFSNode) (node : Pos) (part : Str) : Option Pos :=
  (root.getNode node).bind (fun n => (n.findChild part).map (fun i => node ++ [i]))

/-- An engine whose `current` points at a node of the tree. -/
def CurrentValid (fs : VirtualFileSystem) : Prop :=
  ∃ cur c, fs.current = some cur ∧ fs.root.getNode cur = some c

/-- The body lines of a `write`, each followed by a newline. -/
def bodyText : List Str → Str
  | [] => []
  | line :: rest => line ++ "\n".toList ++ bodyText rest

/-- The directory under construction by `copyNodeRecursive` after the first `i` children of
the source have been copied. -/
def partialCopy (newName : Str) (s : VFSNode) (i : Nat) : VFSNode :=
  .mk newName NodeType.Directory (VFSNode.copyTrees (s.getChildren.take i)) []
    s.getPermissions

/-- The body of the range-for loop of `copyNodeRecursive`. -/
def copyLoopBody (fuel : Nat) (src newNode : Pos) (cur : VFSNode) (i : Nat) :
    Option VFSNode :=
  match cur.getNode (src ++ [i]) with
  | none => none
  | some child => copyNodeRecursive fuel cur (src ++ [i]) newNode child.getName

end VirtualFileSystem

/-! ## Definitions for the round trip of `save` and `load` -/

/-- A name that the save format carries: not empty, not `.` or `..`, without `/` and
without white space. -/
def properName (name : Str) : Bool :=
  !name.isEmpty && name != ".".toList && name != "..".toList && !name.contains '/'
    && name.all (fun c => !VirtualFileSystem.isspace c)

/-- A permission string that the save format carries: not empty and without white space. -/
def properPerms (perms : Str) : Bool :=
  !perms.isEmpty && perms.all (fun c => !VirtualFileSystem.isspace c)

/-- A line that `load` takes as markup: it starts with `NODE `, or is `CONTENT_BEGIN` or
`CONTENT_END`. -/
def reservedLine (line : Str) : Bool :=
  "NODE ".toList.isPrefixOf line || line == "CONTENT_BEGIN".toList
    || line == "CONTENT_END".toList

/-- A file content that the save format carries: empty or ending in a newline, with no
reserved line. -/
def properContent (content : Str) : Bool :=
  (content.isEmpty || content.getLast? == some '\n')
    && (getlineItems '\n' content).all (fun line => !reservedLine line)

/-- A text that is empty or ends in a newline. -/
def EndsLine (s : Str) : Prop :=
  s = [] ∨ ∃ a, s = a ++ ['\n']

namespace VFSNode

mutual
/-- A subtree that the save format carries: proper names, permissions and contents, files
without children, directories without content, unique sibling names. -/
def savable : VFSNode → Bool
  | .mk name t cs c p =>
    properName name && properPerms p && properContent c
      && (match t with
          | NodeType.File => cs.isEmpty
          | NodeType.Directory => c.isEmpty)
      && decide ((cs.map getName).Nodup) && savableList cs
/-- `savable` for every node of a child vector. -/
def savableList : List VFSNode → Bool
  | [] => true
  | c :: cs => savable c && savableList cs
end

/-- A root that the save format carries: a directory called `/` without content, with
proper permissions and unique, savable children. -/
def savableRoot : VFSNode → Bool
  | .mk name t cs c p =>
    name == "/".toList && t == NodeType.Directory && c.isEmpty && properPerms p
      && decide ((cs.map getName).Nodup) && savableList cs

end VFSNode

namespace VirtualFileSystem

/-- A word: not empty and without white space. -/
def IsWord (w : Str) : Prop :=
  w ≠ [] ∧ ∀ c ∈ w, isspace c = false

/-- The read loop of `load` run over a text. -/
def feed (st : LoadState) (text : Str) : LoadState :=
  (getlineItems '\n' text).foldl loadLine st

/-- The path that `saveNodeRecursive` writes for the node reached from the root through the
names `names`, for a node other than the root: every name behind a slash. -/
def slashJoin : List Str → Str
  | [] => []
  | n :: ns => '/' :: (n ++ slashJoin ns)

/-- The `path` argument of `saveNodeRecursive` for the children of the node reached through
`names`: `/` for the children of the root. -/
def pathOf (names : List Str) : Str :=
  if names = [] then "/".toList else slashJoin names

end VirtualFileSystem

/-! ## Definitions for permissions, reachable states and the invariants of the tree -/

/-- The fixed position of a capability letter in a permission string: `r` at 0, `w` at 1,
`x` at 2. -/
def capabilityIndex (c : Char) : Option Nat :=
  if c = 'r' then some 0 else if c = 'w' then some 1 else if c = 'x' then some 2 else none

/-- The positional reading of a permission string, as the specification words it: the
string has the letter at the letter's own position. -/
def grantsAtPosition (perms : Str) (c : Char) : Bool :=
  match capabilityIndex c with
  | some i => perms[i]? == some c
  | none => false

/-- A permission string in the form of the specification: three characters, each of them the
letter of its position or `-`. -/
def canonicalPerms : Str → Bool
  | [a, b, c] => (a == 'r' || a == '-') && (b == 'w' || b == '-') && (c == 'x' || c == '-')
  | _ => false

/-- The pieces of a path between `/` characters, as the specification words `splitPath`. -/
def piecesBetweenSlashes (path : Str) : List Str :=
  path.splitOn '/'

namespace VFSNode

/-- What a node holds besides its permissions and the nodes below it: name, type, content
and the number of children. -/
def ownData (n : VFSNode) : Str × NodeType × Str × Nat :=
  (n.getName, n.getType, n.getContent, n.getChildren.length)

mutual
/-- The number of nodes on the longest way down from a node, the node included: a recursion
budget within which `copyNodeRecursive` copies the node. -/
def height : VFSNode → Nat
  | .mk _ _ cs _ _ => heightList cs + 1
/-- The largest `height` in a child vector. -/
def heightList : List VFSNode → Nat
  | [] => 0
  | c :: cs => max (height c) (heightList cs)
end

mutual
/-- Sibling names are unique in every directory of a tree: no directory node has two
children of the same name. -/
def siblingsUnique : VFSNode → Bool
  | .mk _ t cs _ _ =>
    (match t with
      | NodeType.File => true
      | NodeType.Directory => decide ((cs.map getName).Nodup)) && siblingsUniqueList cs
/-- `siblingsUnique` for every node of a child vector. -/
def siblingsUniqueList : List VFSNode → Bool
  | [] => true
  | c :: cs => siblingsUnique c && siblingsUniqueList cs
end

end VFSNode

namespace VirtualFileSystem

/-- The default layout of the first run: `/home/docs/readme.txt` holding the welcome
text. -/
def defaultLayout : VFSNode :=
  .mk "/".toList NodeType.Directory
    [.mk "home".toList NodeType.Directory
      [.mk "docs".toList NodeType.Directory
        [.mk "readme.txt".toList NodeType.File [] welcome "rw-".toList] [] "rwx".toList]
      [] "rwx".toList]
    [] "rwx".toList

/-- One operation of the engine with its arguments.  `cp` and `mv` carry the recursion
budget within which they return; `write` carries the lines typed; `load` carries the text of
the save file, if there is one. -/
inductive Op where
  | cd (path : Str)
  | mkdir (path : Str)
  | touch (path : Str)
  | rm (path : Str) (recursive : Bool)
  | cat (path : Str)
  | write (path : Str) (input : List Str)
  | cp (fuel : Nat) (src dst : Str)
  | mv (fuel : Nat) (src dst : Str)
  | chmod (perms path : Str)
  | load (file : Option Str)

/-- The result of one operation, when it returns. -/
def Op.result : Op → VirtualFileSystem → Option Result
  | .cd path, fs => cmdCd fs path
  | .mkdir path, fs => cmdMkdir fs path
  | .touch path, fs => cmdTouch fs path
  | .rm path recursive, fs => cmdRm fs path recursive
  | .cat path, fs => cmdCat fs path
  | .write path input, fs => cmdWrite fs path input
  | .cp fuel src dst, fs => cmdCp fuel fs src dst
  | .mv fuel src dst, fs => cmdMv fuel fs src dst
  | .chmod perms path, fs => cmdChmod fs perms path
  | .load file, fs => some ⟨true, [], VirtualFileSystem.load fs file⟩

/-- The engine after one operation, when it returns. -/
def Op.run (op : Op) (fs : VirtualFileSystem) : Option VirtualFileSystem :=
  (op.result fs).map (fun r => r.fs)

/-- The engine after a sequence of operations, when each of them returns. -/
def runAll : List Op → VirtualFileSystem → Option VirtualFileSystem
  | [], fs => some fs
  | op :: ops, fs => (op.run fs).bind (runAll ops)

/-- The states that the engine reaches from its construction by operations that `allowed`
admits in the state they are applied to. -/
inductive ReachableBy (allowed : Op → VirtualFileSystem → Prop) : VirtualFileSystem → Prop
  | init : ReachableBy allowed init
  | step (op : Op) (fs fs' : VirtualFileSystem) : ReachableBy allowed fs → allowed op fs →
      op.run fs = some fs' → ReachableBy allowed fs'

/-- The states that the engine reaches from its construction by any sequence of
operations. -/
def Reachable : VirtualFileSystem → Prop :=
  ReachableBy (fun _ _ => True)

/-- An operation that cannot write the permissions of the root: not a `chmod` whose path
resolves to the root, and not a load from a save file. -/
def keepsRootPermissions : Op → VirtualFileSystem → Prop
  | .chmod _ path, fs => resolvePath fs path ≠ some (some [])
  | .load (some _), _ => False
  | _, _ => True

/-- One change that a command makes to the tree: the push of a new childless node or of a
copy onto a directory that has no child of that name, the removal of the children of one
name, the assignment of a content to a file, the assignment of permissions.  With
`keepRoot`, permissions are not assigned to the root. -/
inductive Mutation (keepRoot : Bool) : VFSNode → VFSNode → Prop
  | leaf (root : VFSNode) (par : Pos) (parent : VFSNode) (name : Str) (t : NodeType)
      (perms : Str) : root.getNode par = some parent → parent.isDirectory = true →
      parent.findChild name = none →
      Mutation keepRoot root
        (root.updateNode (VFSNode.pushChild (.mk name t [] [] perms)) par)
  | copy (root : VFSNode) (src : Pos) (s : VFSNode) (par : Pos) (parent : VFSNode)
      (name : Str) : root.getNode src = some s → root.getNode par = some parent →
      parent.isDirectory = true → parent.findChild name = none →
      Mutation keepRoot root
        (root.updateNode (VFSNode.pushChild (VFSNode.copyTree name s)) par)
  | remove (root : VFSNode) (par : Pos) (name : Str) :
      Mutation keepRoot root (root.updateNode (VFSNode.removeChild name) par)
  | content (root : VFSNode) (p : Pos) (node : VFSNode) (buffer : Str) :
      root.getNode p = some node → node.isFile = true →
      Mutation keepRoot root (root.updateNode (VFSNode.setContent buffer) p)
  | perms (root : VFSNode) (p : Pos) (perms : Str) : (keepRoot = true → p ≠ []) →
      Mutation keepRoot root (root.updateNode (VFSNode.setPermissions perms) p)

/-- One change that `load` makes to the tree it builds: the push of a new childless node
onto a node that has no child of that name, the assignment of a content, the assignment of
permissions. -/
inductive Growth : VFSNode → VFSNode → Prop
  | push (root : VFSNode) (par : Pos) (parent : VFSNode) (name : Str) (t : NodeType)
      (perms : Str) : root.getNode par = some parent → parent.findChild name = none →
      Growth root (root.updateNode (VFSNode.pushChild (.mk name t [] [] perms)) par)
  | content (root : VFSNode) (p : Pos) (buffer : Str) :
      Growth root (root.updateNode (VFSNode.setContent buffer) p)
  | perms (root : VFSNode) (p : Pos) (perms : Str) :
      Growth root (root.updateNode (VFSNode.setPermissions perms) p)

/-- The `current` pointer refers to a directory of the tree. -/
def CurrentIsDirectory (fs : VirtualFileSystem) : Prop :=
  ∃ cur c, fs.current = some cur ∧ fs.root.getNode cur = some c ∧ c.isDirectory = true

end VirtualFileSystem

/-! ## Definitions for the tree printer, the write path and the current path -/

namespace VirtualFileSystem

open VFSNode

mutual
/-- `Helper::print(node, prefix, last, root)` of `cmdTree`: what it writes.  `isRoot` is the
comparison `node == root`; it holds for the outermost call only.  `lead` is the argument
`prefix`. -/
def printNode (isRoot : Bool) (lead : Str) (last : Bool) : VFSNode → Str
  | .mk name _ cs _ _ =>
    lead ++ (if isRoot then [] else if last then "`-- ".toList else "|-- ".toList)
      ++ (if isRoot then "/\n".toList else name ++ "\n".toList)
      ++ printKids
        (if isRoot then lead else lead ++ (if last then "    ".toList else "|   ".toList)) cs
/-- The loop over `kids` in `Helper::print`: `childLast` holds for the last child. -/
def printKids (newLead : Str) : List VFSNode → Str
  | [] => []
  | [c] => printNode false newLead true c
  | c :: d :: cs => printNode false newLead false c ++ printKids newLead (d :: cs)
end

/-- `cmdTree`: what it writes to the standard output. -/
def cmdTree (fs : VirtualFileSystem) : Str :=
  printNode true [] true fs.root

end VirtualFileSystem

/-! ## The tree listing as the specification words it -/

namespace TreeSpec

open VFSNode

mutual
/-- The positions of the nodes of a tree in pre-order, children in stored order. -/
def preorderPositions : VFSNode → List Pos
  | .mk _ _ cs _ _ => [] :: preorderBelow 0 cs
/-- The positions, in pre-order, of the nodes under the children `i`, `i + 1`, ... of a
node, the list holding these children. -/
def preorderBelow (i : Nat) : List VFSNode → List Pos
  | [] => []
  | c :: cs => (preorderPositions c).map (i :: ·) ++ preorderBelow (i + 1) cs
end

/-- The node at a position other than the root is the last child of its parent. -/
def isLastChild (root : VFSNode) (p : Pos) : Bool :=
  match p.getLast?, root.getNode p.dropLast with
  | some i, some parent => i + 1 == parent.getChildren.length
  | _, _ => false

/-- The proper ancestors of a position other than the root, from the top down. -/
def nonRootProperAncestors (p : Pos) : List Pos :=
  p.inits.tail.dropLast

/-- The branch lead of a node: four spaces for every non-root proper ancestor that is the
last child of its parent, a bar and three spaces for every other one, from the top down. -/
def branchLead (root : VFSNode) (p : Pos) : Str :=
  ((nonRootProperAncestors p).map
    (fun a => if isLastChild root a then "    ".toList else "|   ".toList)).flatten

/-- The branch lead of the children of the node at a position: one item for every non-root
ancestor of theirs, the position itself included. -/
def leadBelow (root : VFSNode) (q : Pos) : Str :=
  (q.inits.tail.map
    (fun a => if isLastChild root a then "    ".toList else "|   ".toList)).flatten

/-- The line of a node: `/` for the root; for another node its branch lead, its branch
marker and its name. -/
def treeLine (root : VFSNode) (p : Pos) : Str :=
  if p = [] then "/".toList
  else
    branchLead root p ++ (if isLastChild root p then "`-- ".toList else "|-- ".toList)
      ++ ((root.getNode p).map getName).getD []

/-- The lines of the tree, one for every node, in pre-order. -/
def treeLines (root : VFSNode) : List Str :=
  (preorderPositions root).map (treeLine root)

/-- No name in the subtree holds a newline. -/
def namesOnOneLine (root : VFSNode) : Prop :=
  ∀ p n, root.getNode p = some n → '\n' ∉ n.getName

end TreeSpec

/-! ## The restrictions of the round trip as the specification words them -/

namespace RoundTripSpec

open VFSNode

mutual
/-- The restrictions of the round trip, as stated, on a node other than the root and on
the nodes under it: a proper name, proper permissions, no children and a proper content for
a file, unique names among the children. -/
def restrictedAsStated : VFSNode → Bool
  | .mk name t cs c p =>
    properName name && properPerms p
      && (match t with
          | NodeType.File => cs.isEmpty && properContent c
          | NodeType.Directory => true)
      && decide ((cs.map getName).Nodup) && restrictedAsStatedList cs
/-- The restrictions as stated, for every node of a child vector. -/
def restrictedAsStatedList : List VFSNode → Bool
  | [] => true
  | c :: cs => restrictedAsStated c && restrictedAsStatedList cs
end

/-- The restrictions of the round trip, as stated, on the tree of an engine: the root is
the directory `/`, its permissions are proper, the names of its children are unique and the
restrictions hold under it. -/
def restrictedRootAsStated : VFSNode → Bool
  | .mk name t cs _ p =>
    name == "/".toList && t == NodeType.Directory && properPerms p
      && decide ((cs.map getName).Nodup) && restrictedAsStatedList cs

end RoundTripSpec

namespace VirtualFileSystem

open VFSNode

/-- A part of a path that names a child: not empty, not `.`, not `..`, without `/`. -/
def IsPart (part : Str) : Prop :=
  part ≠ [] ∧ part ≠ ".".toList ∧ part ≠ "..".toList ∧ '/' ∉ part

/-- The position is reached from the root by a walk over child names. -/
def Anchored (root : VFSNode) (cur : Pos) : Prop :=
  ∃ parts : List Str, (∀ part ∈ parts, IsPart part) ∧ walk root [] parts = some cur

/-- The invariant of `current`: when it refers to a node, that node is a directory that a
walk over child names reaches from the root. -/
def CurrentAnchored (fs : VirtualFileSystem) : Prop :=
  ∀ cur, fs.current = some cur →
    Anchored fs.root cur ∧ ∃ c, fs.root.getNode cur = some c ∧ c.isDirectory = true

end VirtualFileSystem

/-! ## Definitions for the removal commands: childless files, the nodes a resolution stands on -/

namespace VFSNode

mutual
/-- Files have no children, at every node of the tree. -/
def filesChildless : VFSNode → Bool
  | .mk _ t cs _ _ =>
    (match t with
      | NodeType.File => cs.isEmpty
      | NodeType.Directory => true) && filesChildlessList cs
/-- `filesChildless` for every node of a child vector. -/
def filesChildlessList : List VFSNode → Bool
  | [] => true
  | c :: cs => filesChildless c && filesChildlessList cs
end

end VFSNode

namespace VirtualFileSystem

/-- The node that the loop of `resolvePath` starts from:
`(path[0] == '/') ? root.get() : current`; `none` is a dangling `current`. -/
def startNode (fs : VirtualFileSystem) (path : Str) : Option Pos :=
  if path.head? = some '/' then some [] else fs.current

/-- The nodes that the loop of `resolvePath` stands on, in order: the node it starts from and
the value of `node` after every part, up to the part that finds no child. -/
def walkTrace (root : VFSNode) : Pos → List Str → List Pos
  | node, [] => [node]
  | node, part :: parts =>
    node ::
      (if part = "..".toList then
        match parentPos node with
        | some par => walkTrace root par parts
        | none => walkTrace root node parts
      else
        match root.getNode node with
        | none => []
        | some n =>
          match n.findChild part with
          | none => []
          | some i => walkTrace root (node ++ [i]) parts)

/-- The nodes that `resolvePath(path)` stands on. -/
def visited (fs : VirtualFileSystem) (path : Str) : List Pos :=
  match startNode fs path with
  | none => []
  | some start => walkTrace fs.root start (splitPath path)

end VirtualFileSystem

/-! ## Nodes and positions -/

namespace VFSNode

@[simp] theorem getName_mk (n : Str) (t : NodeType) (cs : List VFSNode) (c p : Str) :
    (VFSNode.mk n t cs c p).getName = n := rfl

@[simp] theorem getType_mk (n : Str) (t : NodeType) (cs : List VFSNode) (c p : Str) :
    (VFSNode.mk n t cs c p).getType = t := rfl

@[simp] theorem getChildren_mk (n : Str) (t : NodeType) (cs : List VFSNode) (c p : Str) :
    (VFSNode.mk n t cs c p).getChildren = cs := rfl

@[simp] theorem getContent_mk (n : Str) (t : NodeType) (cs : List VFSNode) (c p : Str) :
    (VFSNode.mk n t cs c p).getContent = c := rfl

@[simp] theorem getPermissions_mk (n : Str) (t : NodeType) (cs : List VFSNode) (c p : Str) :
    (VFSNode.mk n t cs c p).getPermissions = p := rfl

theorem eta (n : VFSNode) :
    n = .mk n.getName n.getType n.getChildren n.getContent n.getPermissions := by
  cases n; rfl

@[simp] theorem setPermissions_mk (q : Str) (n : Str) (t : NodeType) (cs : List VFSNode)
    (c p : Str) : (VFSNode.mk n t cs c p).setPermissions q = .mk n t cs c q := rfl

@[simp] theorem setContent_mk (q : Str) (n : Str) (t : NodeType) (cs : List VFSNode)
    (c p : Str) : (VFSNode.mk n t cs c p).setContent q = .mk n t cs q p := rfl

@[simp] theorem setChildren_mk (q : List VFSNode) (n : Str) (t : NodeType)
    (cs : List VFSNode) (c p : Str) : (VFSNode.mk n t cs c p).setChildren q = .mk n t q c p :=
  rfl

@[simp] theorem pushChild_mk (x : VFSNode) (n : Str) (t : NodeType) (cs : List VFSNode)
    (c p : Str) : pushChild x (VFSNode.mk n t cs c p) = .mk n t (cs ++ [x]) c p := rfl

@[simp] theorem removeChild_mk (nm : Str) (n : Str) (t : NodeType) (cs : List VFSNode)
    (c p : Str) :
    removeChild nm (VFSNode.mk n t cs c p)
      = .mk n t (cs.filter (notNamed nm)) c p := rfl

@[simp] theorem getNode_nil (n : VFSNode) : n.getNode [] = some n := by
  cases n; rfl

theorem getNode_cons (n : VFSNode) (i : Nat) (rest : Pos) :
    n.getNode (i :: rest) = (n.getChildren[i]?).bind (fun c => c.getNode rest) := by
  cases n with
  | mk nm t cs c p =>
    simp only [getNode, getChildren_mk]
    cases cs[i]? <;> rfl

theorem getNode_append (n : VFSNode) (p q : Pos) :
    n.getNode (p ++ q) = (n.getNode p).bind (fun m => m.getNode q) := by
  induction p generalizing n with
  | nil => simp
  | cons i rest ih =>
    simp only [List.cons_append, getNode_cons]
    cases n.getChildren[i]? with
    | none => rfl
    | some c => simpa using ih c

@[simp] theorem updateNode_nil (f : VFSNode → VFSNode) (n : VFSNode) :
    n.updateNode f [] = f n := by
  cases n; rfl

theorem updateNode_cons (f : VFSNode → VFSNode) (n : VFSNode) (i : Nat) (rest : Pos) :
    n.updateNode f (i :: rest)
      = match n.getChildren[i]? with
        | some ch => n.setChildren (n.getChildren.set i (ch.updateNode f rest))
        | none => n := by
  cases n with
  | mk nm t cs c p =>
    simp only [updateNode, getChildren_mk]
    cases cs[i]? <;> rfl

theorem updateNode_invalid (f : VFSNode → VFSNode) (n : VFSNode) (p : Pos)
    (h : n.getNode p = none) : n.updateNode f p = n := by
  induction p generalizing n with
  | nil => simp at h
  | cons i rest ih =>
    rw [updateNode_cons]
    rw [getNode_cons] at h
    cases hc : n.getChildren[i]? with
    | none => rfl
    | some ch =>
      simp only [hc, Option.some_bind] at h
      simp only [ih ch h]
      have hi : i < n.getChildren.length := (List.getElem?_eq_some_iff.mp hc).1
      have : n.getChildren.set i ch = n.getChildren := by
        apply List.ext_getElem? 
        intro j
        by_cases hj : i = j
        · subst hj; simp [hc, hi]
        · simp [List.getElem?_set_ne hj]
      rw [this]; cases n; rfl

end VFSNode

namespace VFSNode

theorem getChildren_updateNode_cons (f : VFSNode → VFSNode) (n : VFSNode) (i : Nat)
    (rest : Pos) (ch : VFSNode) (h : n.getChildren[i]? = some ch) :
    (n.updateNode f (i :: rest)).getChildren = n.getChildren.set i (ch.updateNode f rest) := by
  rw [updateNode_cons, h]; cases n; rfl

/-- Reading at the position just written, and below it. -/
theorem getNode_updateNode_below (f : VFSNode → VFSNode) (n : VFSNode) (p r : Pos) :
    (n.updateNode f p).getNode (p ++ r)
      = (n.getNode p).bind (fun d => (f d).getNode r) := by
  induction p generalizing n with
  | nil => simp
  | cons i rest ih =>
    rw [List.cons_append, getNode_cons, getNode_cons]
    cases hc : n.getChildren[i]? with
    | none =>
      rw [updateNode_cons, hc]; simp [hc]
    | some ch =>
      have hi : i < n.getChildren.length := (List.getElem?_eq_some_iff.mp hc).1
      rw [getChildren_updateNode_cons f n i rest ch hc]
      simp [hi, ih ch]

theorem getNode_updateNode_same (f : VFSNode → VFSNode) (n : VFSNode) (p : Pos) :
    (n.updateNode f p).getNode p = (n.getNode p).map f := by
  have := getNode_updateNode_below f n p []
  simp only [List.append_nil, getNode_nil] at this
  rw [this]; cases n.getNode p <;> rfl

/-- Reading above the position written. -/
theorem getNode_updateNode_above (f : VFSNode → VFSNode) (n : VFSNode) (q r : Pos) :
    (n.updateNode f (q ++ r)).getNode q = (n.getNode q).map (fun m => m.updateNode f r) := by
  induction q generalizing n with
  | nil => simp
  | cons i rest ih =>
    rw [List.cons_append, getNode_cons, getNode_cons]
    cases hc : n.getChildren[i]? with
    | none =>
      rw [updateNode_cons, hc]; simp [hc]
    | some ch =>
      have hi : i < n.getChildren.length := (List.getElem?_eq_some_iff.mp hc).1
      rw [getChildren_updateNode_cons f n i (rest ++ r) ch hc]
      simp [hi, ih ch]

/-- Reading beside the position written. -/
theorem getNode_updateNode_beside (f : VFSNode → VFSNode) (n : VFSNode) (common : Pos)
    (a b : Nat) (p q : Pos) (hab : a ≠ b) :
    (n.updateNode f (common ++ a :: p)).getNode (common ++ b :: q)
      = n.getNode (common ++ b :: q) := by
  induction common generalizing n with
  | nil =>
    simp only [List.nil_append]
    rw [getNode_cons, getNode_cons]
    cases hc : n.getChildren[a]? with
    | none => rw [updateNode_cons, hc]
    | some ch =>
      rw [getChildren_updateNode_cons f n a p ch hc, List.getElem?_set_ne hab]
  | cons i rest ih =>
    rw [List.cons_append, List.cons_append, getNode_cons, getNode_cons]
    cases hc : n.getChildren[i]? with
    | none =>
      rw [updateNode_cons, hc]; simp [hc]
    | some ch =>
      have hi : i < n.getChildren.length := (List.getElem?_eq_some_iff.mp hc).1
      rw [getChildren_updateNode_cons f n i _ ch hc]
      simp [hi, ih ch]

end VFSNode

/-- Two positions: the second lies at or below the first, strictly above it, or beside it. -/
theorem pos_trichotomy (P q : Pos) :
    (∃ r, q = P ++ r) ∨ (∃ i r, P = q ++ i :: r) ∨
    (∃ common a b p' q', a ≠ b ∧ P = common ++ a :: p' ∧ q = common ++ b :: q') := by
  induction P generalizing q with
  | nil => exact Or.inl ⟨q, rfl⟩
  | cons a P ih =>
    cases q with
    | nil => exact Or.inr (Or.inl ⟨a, P, rfl⟩)
    | cons b q =>
      by_cases hab : a = b
      · subst hab
        rcases ih q with ⟨r, hr⟩ | ⟨i, r, hr⟩ | ⟨common, x, y, p', q', hxy, hP, hq⟩
        · exact Or.inl ⟨r, by rw [hr]; rfl⟩
        · exact Or.inr (Or.inl ⟨i, r, by rw [hr]; rfl⟩)
        · exact Or.inr (Or.inr
            ⟨a :: common, x, y, p', q', hxy, by rw [hP]; rfl, by rw [hq]; rfl⟩)
      · exact Or.inr (Or.inr ⟨[], a, b, P, q, hab, rfl, rfl⟩)

/-! ## Splitting paths -/

theorem findLastOf_eq_none (c : Char) (s : Str) : findLastOf c s = none ↔ c ∉ s := by
  induction s with
  | nil => simp [findLastOf]
  | cons x xs ih =>
    simp only [findLastOf]
    cases h : findLastOf c xs with
    | some i =>
      have : ¬ c ∉ xs := fun hn => by rw [ih.mpr hn] at h; cases h
      simp only [List.mem_cons, not_or]
      constructor
      · intro h'; cases h'
      · intro h'; exact absurd h'.2 this
    | none =>
      have hx : c ∉ xs := ih.mp h
      by_cases hxc : x = c
      · subst hxc; simp
      · simp only [hxc, if_false, List.mem_cons, not_or, true_iff]
        exact ⟨fun e => hxc e.symm, hx⟩

theorem findLastOf_eq_some (c : Char) (s : Str) (i : Nat) (h : findLastOf c s = some i) :
    s = s.take i ++ c :: s.drop (i + 1) ∧ c ∉ s.drop (i + 1) := by
  induction s generalizing i with
  | nil => simp [findLastOf] at h
  | cons x xs ih =>
    simp only [findLastOf] at h
    cases hl : findLastOf c xs with
    | some j =>
      rw [hl] at h
      simp only [Option.some.injEq] at h
      subst h
      have := ih j hl
      simp only [List.take_succ_cons, List.drop_succ_cons, List.cons_append]
      exact ⟨by rw [← this.1], this.2⟩
    | none =>
      rw [hl] at h
      by_cases hxc : x = c
      · simp only [hxc, if_true, Option.some.injEq] at h
        subst h; subst hxc
        simp only [List.take_zero, List.nil_append, zero_add, List.drop_succ_cons, List.drop_zero,
          true_and]
        exact (findLastOf_eq_none _ xs).mp hl
      · simp [hxc] at h

/-- A path with a slash is its parent part, a slash, and its leaf; the leaf has no slash. -/
theorem path_eq_parent_slash_leaf (path : Str) (i : Nat) (h : findLastOf '/' path = some i) :
    path = parentPathOf path ++ '/' :: leafNameOf path ∧ '/' ∉ leafNameOf path := by
  have := findLastOf_eq_some '/' path i h
  simp only [parentPathOf, leafNameOf, h]
  exact this

theorem leafNameOf_of_no_slash (path : Str) (h : findLastOf '/' path = none) :
    leafNameOf path = path ∧ parentPathOf path = [] := by
  simp [leafNameOf, parentPathOf, h]

theorem openItems_ne_nil (d : Char) (s : Str) : openItems d s ≠ [] := by
  cases s with
  | nil => simp [openItems]
  | cons c cs =>
    simp only [openItems]
    split
    · simp
    · split <;> simp

theorem getlineItems_cons (d c : Char) (cs : Str) :
    getlineItems d (c :: cs)
      = if c = d then [] :: getlineItems d cs
        else
          match getlineItems d cs with
          | [] => [[c]]
          | item :: items => (c :: item) :: items := rfl

theorem openItems_cons (d c : Char) (cs : Str) :
    openItems d (c :: cs)
      = if c = d then [] :: openItems d cs
        else
          match openItems d cs with
          | [] => [[c]]
          | item :: items => (c :: item) :: items := rfl

theorem getlineItems_append_delim (d : Char) (a b : Str) :
    getlineItems d (a ++ d :: b) = openItems d a ++ getlineItems d b := by
  induction a with
  | nil => simp [getlineItems, openItems]
  | cons c a ih =>
    rw [List.cons_append, getlineItems_cons, openItems_cons, ih]
    by_cases hc : c = d
    · simp [hc]
    · simp only [hc, if_false]
      cases ho : openItems d a with
      | nil => exact absurd ho (openItems_ne_nil d a)
      | cons it its => rfl

theorem openItems_eq (d : Char) (s : Str) :
    openItems d s = getlineItems d s ∨ openItems d s = getlineItems d s ++ [[]] := by
  induction s with
  | nil => right; simp [openItems, getlineItems]
  | cons c s ih =>
    simp only [openItems, getlineItems]
    by_cases hc : c = d
    · simp only [hc, if_true]
      rcases ih with h | h
      · left; rw [h]
      · right; rw [h]; rfl
    · simp only [hc, if_false]
      rcases ih with h | h
      · left; rw [h]
      · rw [h]
        cases hg : getlineItems d s with
        | nil => left; simp
        | cons it its => right; simp

theorem filter_openItems (d : Char) (s : Str) (keep : Str → Bool) (hk : keep [] = false) :
    (openItems d s).filter keep = (getlineItems d s).filter keep := by
  rcases openItems_eq d s with h | h
  · rw [h]
  · rw [h, List.filter_append]; simp [hk]

theorem getlineItems_of_not_mem (d : Char) (s : Str) (h : d ∉ s) :
    getlineItems d s = if s = [] then [] else [s] := by
  induction s with
  | nil => simp [getlineItems]
  | cons c s ih =>
    simp only [List.mem_cons, not_or] at h
    have hc : ¬ c = d := fun e => h.1 e.symm
    simp only [getlineItems, hc, if_false, ih h.2]
    by_cases hs : s = []
    · simp [hs]
    · simp [hs]

namespace VirtualFileSystem

theorem splitPath_append_slash (a b : Str) :
    splitPath (a ++ '/' :: b) = splitPath a ++ splitPath b := by
  simp only [splitPath]
  rw [getlineItems_append_delim, List.filter_append, filter_openItems]
  simp

theorem splitPath_leaf (b : Str) (h : '/' ∉ b) (h1 : b ≠ []) (h2 : b ≠ ".".toList) :
    splitPath b = [b] := by
  simp only [splitPath]
  rw [getlineItems_of_not_mem '/' b h]
  have h2' : ¬ b = ['.'] := h2
  simp [h1, h2']

end VirtualFileSystem

/-! ## Resolution -/

namespace VirtualFileSystem

theorem walk_nil (root : VFSNode) (node : Pos) : walk root node [] = some node := rfl

theorem walk_cons_up (root : VFSNode) (node : Pos) (parts : List Str) :
    walk root node ("..".toList :: parts) = walk root node.dropLast parts := by
  cases node with
  | nil => simp [walk, parentPos]
  | cons i rest => simp [walk, parentPos]

theorem walk_cons_child (root : VFSNode) (node : Pos) (part : Str) (parts : List Str)
    (h : part ≠ "..".toList) :
    walk root node (part :: parts)
      = (stepChild root node part).bind (fun q => walk root q parts) := by
  simp only [walk, h, if_false, stepChild]
  cases root.getNode node with
  | none => rfl
  | some n =>
    simp only [Option.some_bind]
    cases hf : n.findChild part with
    | none => rfl
    | some i => rfl

theorem walk_append (root : VFSNode) (node : Pos) (A B : List Str) :
    walk root node (A ++ B) = (walk root node A).bind (fun q => walk root q B) := by
  induction A generalizing node with
  | nil => simp [walk_nil]
  | cons part A ih =>
    rw [List.cons_append]
    by_cases h : part = "..".toList
    · subst h; rw [walk_cons_up, walk_cons_up, ih]
    · rw [walk_cons_child _ _ _ _ h, walk_cons_child _ _ _ _ h]
      cases stepChild root node part with
      | none => rfl
      | some q => simpa using ih q

/-- With a proper leaf, a path without a slash splits into the one part that is the path;
a path with a slash and a non-empty parent part splits into the parts of the parent part
followed by the leaf. -/
theorem splitPath_parent_leaf (path : Str) (hleaf : ProperLeaf path)
    (hslash : findLastOf '/' path ≠ none) :
    splitPath path = splitPath (parentPathOf path) ++ [leafNameOf path] := by
  cases h : findLastOf '/' path with
  | none => exact absurd h hslash
  | some i =>
    have hd := path_eq_parent_slash_leaf path i h
    conv_lhs => rw [hd.1]
    rw [splitPath_append_slash, splitPath_leaf _ hd.2 hleaf.1 hleaf.2.1]

theorem splitPath_no_slash (path : Str) (hleaf : ProperLeaf path)
    (hslash : findLastOf '/' path = none) : splitPath path = [path] := by
  have h := leafNameOf_of_no_slash path hslash
  have hl := hleaf
  unfold ProperLeaf at hl
  rw [h.1] at hl
  exact splitPath_leaf path ((findLastOf_eq_none _ _).mp hslash) hl.1 hl.2.1

/-- Resolution of a whole path in terms of the parent pointer of the commands and the leaf:
for a proper leaf, and a path that is not of the form `/name`, the path resolves to the
first child called like the leaf in the directory the commands take as parent. -/
theorem resolvePath_eq_parentPtr (fs : VirtualFileSystem) (path : Str)
    (hleaf : ProperLeaf path) (hrooted : ¬ RootedLeaf path) :
    resolvePath fs path
      = (parentPtr fs path).map (fun o =>
          o.bind (fun par => stepChild fs.root par (leafNameOf path))) := by
  have hne : leafNameOf path ≠ "..".toList := hleaf.2.2
  cases h : findLastOf '/' path with
  | none =>
    have hl := leafNameOf_of_no_slash path h
    have hsp := splitPath_no_slash path hleaf h
    have hpne : path ≠ [] := by
      intro e; apply hleaf.1; rw [hl.1]; exact e
    have hns : '/' ∉ path := (findLastOf_eq_none _ _).mp h
    rw [hl.1] at hne ⊢
    simp only [parentPtr, hl.2, if_true]
    cases path with
    | nil => exact absurd rfl hpne
    | cons c cs =>
      have hc : ¬ c = '/' := fun e => hns (by rw [e]; exact List.mem_cons_self _ _)
      simp only [resolvePath, hc, if_false, hsp]
      cases fs.current with
      | none => rfl
      | some cur =>
        simp only [Option.map_some', Option.some_bind]
        rw [walk_cons_child _ _ _ _ hne]
        cases stepChild fs.root cur (c :: cs) <;> rfl
  | some i =>
    have hd := path_eq_parent_slash_leaf path i h
    have hsp := splitPath_parent_leaf path hleaf (by rw [h]; simp)
    have hi : i ≠ 0 := by
      intro e; apply hrooted; unfold RootedLeaf; rw [h, e]
    have hppne : parentPathOf path ≠ [] := by
      intro e
      have hlen : i < path.length := by
        have := congrArg List.length hd.1
        simp only [parentPathOf, leafNameOf, h, List.length_append, List.length_cons,
          List.length_take, List.length_drop] at this
        omega
      have : (parentPathOf path).length = i := by
        simp only [parentPathOf, h, List.length_take]; omega
      rw [e] at this; exact hi this.symm
    simp only [parentPtr, hppne, if_false]
    cases hpp : parentPathOf path with
    | nil => exact absurd hpp hppne
    | cons c cs =>
      have hpath : path = c :: (cs ++ '/' :: leafNameOf path) := by
        conv_lhs => rw [hd.1, hpp]
        rfl
      have hsp' : splitPath path = splitPath (c :: cs) ++ [leafNameOf path] := by
        rw [hsp, hpp]
      have hres : ∀ (start : Pos),
          walk fs.root start (splitPath path)
            = (walk fs.root start (splitPath (c :: cs))).bind
                (fun par => stepChild fs.root par (leafNameOf path)) := by
        intro start
        rw [hsp', walk_append]
        cases walk fs.root start (splitPath (c :: cs)) with
        | none => rfl
        | some q =>
          simp only [Option.some_bind]
          rw [walk_cons_child _ _ _ _ hne]
          cases stepChild fs.root q (leafNameOf path) <;> rfl
      have hr1 : resolvePath fs path
          = if c = '/' then some (walk fs.root [] (splitPath path))
            else fs.current.map (fun cur => walk fs.root cur (splitPath path)) := by
        conv_lhs => rw [hpath]
        simp only [resolvePath]
        rw [← hpath]
      rw [hr1]
      simp only [resolvePath]
      by_cases hc : c = '/'
      · simp only [hc, if_true, Option.map_some', hres]
      · simp only [hc, if_false, Option.map_map]
        cases fs.current with
        | none => rfl
        | some cur => simp only [Option.map_some', Function.comp, hres]

end VirtualFileSystem

namespace VFSNode

theorem findIn_some (kids : List VFSNode) (name : Str) (i : Nat)
    (h : findIn kids name = some i) :
    ∃ c, kids[i]? = some c ∧ c.getName = name ∧
      ∀ j c', j < i → kids[j]? = some c' → c'.getName ≠ name := by
  induction kids generalizing i with
  | nil => simp [findIn] at h
  | cons k kids ih =>
    simp only [findIn] at h
    by_cases hk : k.getName = name
    · simp only [hk, if_true, Option.some.injEq] at h
      subst h
      exact ⟨k, by simp, hk, fun j c' hj => absurd hj (Nat.not_lt_zero j)⟩
    · simp only [hk, if_false, Option.map_eq_some'] at h
      obtain ⟨i', hi', rfl⟩ := h
      obtain ⟨c, hc, hn, hfirst⟩ := ih i' hi'
      refine ⟨c, by simpa using hc, hn, ?_⟩
      intro j c' hj hc'
      cases j with
      | zero =>
        simp only [List.getElem?_cons_zero, Option.some.injEq] at hc'
        subst hc'; exact hk
      | succ j =>
        simp only [List.getElem?_cons_succ] at hc'
        exact hfirst j c' (by omega) hc'

theorem findIn_none (kids : List VFSNode) (name : Str) :
    findIn kids name = none ↔ ∀ c ∈ kids, c.getName ≠ name := by
  induction kids with
  | nil => simp [findIn]
  | cons k kids ih =>
    simp only [findIn]
    by_cases hk : k.getName = name
    · simp [hk]
    · simp [hk, ih]

theorem findIn_append_some (kids more : List VFSNode) (name : Str) (i : Nat)
    (h : findIn kids name = some i) : findIn (kids ++ more) name = some i := by
  induction kids generalizing i with
  | nil => simp [findIn] at h
  | cons k kids ih =>
    simp only [findIn, List.cons_append] at h ⊢
    by_cases hk : k.getName = name
    · simpa [hk] using h
    · simp only [hk, if_false, Option.map_eq_some'] at h ⊢
      obtain ⟨i', hi', rfl⟩ := h
      exact ⟨i', ih i' hi', rfl⟩

theorem findIn_append_none (kids : List VFSNode) (x : VFSNode) (name : Str)
    (h : findIn kids name = none) :
    findIn (kids ++ [x]) name = if x.getName = name then some kids.length else none := by
  induction kids with
  | nil => simp [findIn]
  | cons k kids ih =>
    simp only [findIn, List.cons_append] at h ⊢
    by_cases hk : k.getName = name
    · simp [hk] at h
    · simp only [hk, if_false, Option.map_eq_none'] at h
      have ih' := ih h
      by_cases hx : x.getName = name
      · rw [if_pos hx] at ih' ⊢
        simp [hk, ih']
      · rw [if_neg hx] at ih' ⊢
        simp [hk, ih']

/-- What `findChild` reads of a node: the names of its children, in order. -/
theorem findIn_congr (kids kids' : List VFSNode) (name : Str)
    (h : kids.map getName = kids'.map getName) : findIn kids name = findIn kids' name := by
  induction kids generalizing kids' with
  | nil =>
    cases kids' with
    | nil => rfl
    | cons k' kids' => simp at h
  | cons k kids ih =>
    cases kids' with
    | nil => simp at h
    | cons k' kids' =>
      simp only [List.map_cons, List.cons.injEq] at h
      simp only [findIn, h.1, ih kids' h.2]

theorem getNode_dropLast_isSome (root : VFSNode) (p : Pos) (n : VFSNode)
    (h : root.getNode p = some n) : ∃ m, root.getNode p.dropLast = some m := by
  rcases List.eq_nil_or_concat p with hp | ⟨q, i, hp⟩
  · subst hp; exact ⟨root, by simp⟩
  · subst hp
    rw [List.concat_eq_append] at h ⊢
    rw [List.dropLast_concat]
    rw [getNode_append] at h
    cases hq : root.getNode q with
    | none => rw [hq] at h; simp at h
    | some m => exact ⟨m, rfl⟩

end VFSNode

namespace VirtualFileSystem

theorem stepChild_eq_some (root : VFSNode) (node : Pos) (part : Str) (q : Pos)
    (h : stepChild root node part = some q) :
    ∃ n i c, root.getNode node = some n ∧ n.findChild part = some i ∧ q = node ++ [i] ∧
      n.getChildren[i]? = some c ∧ c.getName = part ∧ root.getNode q = some c := by
  simp only [stepChild] at h
  cases hn : root.getNode node with
  | none => rw [hn] at h; simp at h
  | some n =>
    rw [hn] at h
    simp only [Option.some_bind, Option.map_eq_some'] at h
    obtain ⟨i, hi, rfl⟩ := h
    obtain ⟨c, hc, hname, -⟩ := VFSNode.findIn_some _ _ _ hi
    refine ⟨n, i, c, rfl, hi, rfl, hc, hname, ?_⟩
    rw [VFSNode.getNode_append, hn]
    simp [VFSNode.getNode_cons, hc]

/-- The loop of `resolvePath` only visits nodes of the tree. -/
theorem walk_valid (root : VFSNode) (node : Pos) (parts : List Str) (n : VFSNode) (q : Pos)
    (hn : root.getNode node = some n) (h : walk root node parts = some q) :
    ∃ m, root.getNode q = some m := by
  induction parts generalizing node n with
  | nil =>
    simp only [walk_nil, Option.some.injEq] at h
    subst h; exact ⟨n, hn⟩
  | cons part parts ih =>
    by_cases hp : part = "..".toList
    · subst hp
      rw [walk_cons_up] at h
      obtain ⟨m, hm⟩ := VFSNode.getNode_dropLast_isSome root node n hn
      exact ih _ m hm h
    · rw [walk_cons_child _ _ _ _ hp] at h
      cases hs : stepChild root node part with
      | none => rw [hs] at h; simp at h
      | some q' =>
        rw [hs] at h
        obtain ⟨_, _, c, _, _, _, _, _, hc⟩ := stepChild_eq_some _ _ _ _ hs
        exact ih q' c hc h

theorem resolvePath_of_valid (fs : VirtualFileSystem) (path : Str) (h : CurrentValid fs) :
    ∃ o : Option Pos, resolvePath fs path = some o ∧
      ∀ t, o = some t → ∃ n, fs.root.getNode t = some n := by
  obtain ⟨cur, c, hcur, hc⟩ := h
  cases path with
  | nil =>
    refine ⟨some cur, by simp [resolvePath, hcur], ?_⟩
    intro t ht; cases ht; exact ⟨c, hc⟩
  | cons x xs =>
    simp only [resolvePath, hcur, Option.map_some']
    by_cases hx : x = '/'
    · simp only [hx, if_true]
      refine ⟨_, rfl, ?_⟩
      intro t ht
      exact walk_valid fs.root [] _ fs.root t (by simp) ht
    · simp only [hx, if_false]
      refine ⟨_, rfl, ?_⟩
      intro t ht
      exact walk_valid fs.root cur _ c t hc ht

end VirtualFileSystem

/-! ## Updates that keep names and shape -/

namespace VFSNode

theorem getName_updateNode (f : VFSNode → VFSNode) (hf : ∀ x, (f x).getName = x.getName)
    (n : VFSNode) (p : Pos) : (n.updateNode f p).getName = n.getName := by
  cases p with
  | nil => simp [hf]
  | cons i rest =>
    rw [updateNode_cons]
    cases n.getChildren[i]? with
    | none => rfl
    | some ch => cases n; rfl

theorem getType_updateNode (f : VFSNode → VFSNode) (hf : ∀ x, (f x).getType = x.getType)
    (n : VFSNode) (p : Pos) : (n.updateNode f p).getType = n.getType := by
  cases p with
  | nil => simp [hf]
  | cons i rest =>
    rw [updateNode_cons]
    cases n.getChildren[i]? with
    | none => rfl
    | some ch => cases n; rfl

theorem findChild_congr (n n' : VFSNode) (name : Str) (h : childNames n = childNames n') :
    n.findChild name = n'.findChild name :=
  findIn_congr _ _ _ h

theorem childNames_updateNode_cons (f : VFSNode → VFSNode)
    (hf : ∀ x, (f x).getName = x.getName) (n : VFSNode) (i : Nat) (rest : Pos) :
    childNames (n.updateNode f (i :: rest)) = childNames n := by
  rw [updateNode_cons]
  cases hc : n.getChildren[i]? with
  | none => rfl
  | some ch =>
    have hi : i < n.getChildren.length := (List.getElem?_eq_some_iff.mp hc).1
    have hci : n.getChildren[i] = ch := (List.getElem?_eq_some_iff.mp hc).2
    cases n with
    | mk nm t cs c p =>
      simp only [childNames, setChildren_mk, getChildren_mk] at hi hci ⊢
      apply List.ext_getElem?
      intro j
      by_cases hj : i = j
      · subst hj
        simp [hi, getName_updateNode f hf, hci]
      · simp [List.getElem?_set_ne hj]

/-- An update that keeps the name and the child vector of the node it is applied to leaves
the child names of every node of the tree as they were. -/
theorem childNames_getNode_updateNode (f : VFSNode → VFSNode)
    (hname : ∀ x, (f x).getName = x.getName)
    (hkids : ∀ x, (f x).getChildren = x.getChildren) (root : VFSNode) (P q : Pos) :
    ((root.updateNode f P).getNode q).map childNames = (root.getNode q).map childNames := by
  rcases pos_trichotomy P q with ⟨r, rfl⟩ | ⟨i, r, rfl⟩ |
    ⟨common, a, b, p', q', hab, rfl, rfl⟩
  · rw [getNode_updateNode_below, getNode_append]
    cases root.getNode P with
    | none => rfl
    | some d =>
      simp only [Option.some_bind]
      cases r with
      | nil => simp [childNames, hkids]
      | cons i r => rw [getNode_cons, getNode_cons, hkids]
  · rw [getNode_updateNode_above]
    cases root.getNode q with
    | none => rfl
    | some m => simp [childNames_updateNode_cons f hname]
  · rw [getNode_updateNode_beside _ _ _ _ _ _ _ hab]

end VFSNode

namespace VirtualFileSystem

theorem stepChild_congr (root root' : VFSNode) (node : Pos) (part : Str)
    (h : (root.getNode node).map VFSNode.childNames
        = (root'.getNode node).map VFSNode.childNames) :
    stepChild root node part = stepChild root' node part := by
  simp only [stepChild]
  cases h1 : root.getNode node with
  | none =>
    cases h2 : root'.getNode node with
    | none => rfl
    | some n' => rw [h1, h2] at h; simp at h
  | some n =>
    cases h2 : root'.getNode node with
    | none => rw [h1, h2] at h; simp at h
    | some n' =>
      rw [h1, h2] at h
      simp only [Option.map_some', Option.some.injEq] at h
      simp only [Option.some_bind, VFSNode.findChild_congr n n' part h]

theorem walk_congr (root root' : VFSNode)
    (h : ∀ q, (root.getNode q).map VFSNode.childNames
        = (root'.getNode q).map VFSNode.childNames)
    (node : Pos) (parts : List Str) : walk root node parts = walk root' node parts := by
  induction parts generalizing node with
  | nil => rfl
  | cons part parts ih =>
    by_cases hp : part = "..".toList
    · subst hp; rw [walk_cons_up, walk_cons_up, ih]
    · rw [walk_cons_child _ _ _ _ hp, walk_cons_child _ _ _ _ hp,
        stepChild_congr root root' node part (h node)]
      cases stepChild root' node part with
      | none => rfl
      | some q => simp [ih]

theorem resolvePath_congr (fs : VirtualFileSystem) (root' : VFSNode)
    (h : ∀ q, (fs.root.getNode q).map VFSNode.childNames
        = (root'.getNode q).map VFSNode.childNames) (path : Str) :
    resolvePath { fs with root := root' } path = resolvePath fs path := by
  cases path with
  | nil => rfl
  | cons c cs =>
    simp only [resolvePath]
    have hw : ∀ node, walk root' node (splitPath (c :: cs))
        = walk fs.root node (splitPath (c :: cs)) :=
      fun node => (walk_congr fs.root root' h node _).symm
    simp only [hw]

theorem readBody_cons (line : Str) (rest : List Str) :
    readBody (line :: rest)
      = if line = ".end".toList then some []
        else (readBody rest).map (fun buffer => line ++ "\n".toList ++ buffer) := rfl

theorem readBody_body (body rest : List Str) (h : ∀ l ∈ body, l ≠ ".end".toList) :
    readBody (body ++ ".end".toList :: rest) = some (bodyText body) := by
  induction body with
  | nil => simp [readBody, bodyText]
  | cons l body ih =>
    have hl : l ≠ ".end".toList := h l (List.mem_cons_self _ _)
    have ih' := ih (fun x hx => h x (List.mem_cons_of_mem _ hx))
    rw [List.cons_append, readBody_cons, if_neg hl, ih']
    rfl

end VirtualFileSystem

/-! ## Pointers across `removeChild` -/

namespace VirtualFileSystem

theorem rebase_nil_cons (kids : List VFSNode) (name : Str) (i : Nat) (rest : Pos) :
    rebase kids name [] (i :: rest)
      = match kids[i]? with
        | none => some (i :: rest)
        | some c =>
          if c.getName = name then none
          else some (shiftedIndex kids name i :: rest) := rfl

theorem rebase_cons_cons (kids : List VFSNode) (name : Str) (a b : Nat) (par p : Pos) :
    rebase kids name (a :: par) (b :: p)
      = if a = b then (rebase kids name par p).map (a :: ·) else some (b :: p) := rfl

theorem rebase_below (kids : List VFSNode) (name : Str) (Q : Pos) (i : Nat) (rest : Pos) :
    rebase kids name Q (Q ++ i :: rest)
      = match kids[i]? with
        | none => some (Q ++ i :: rest)
        | some c =>
          if c.getName = name then none
          else some (Q ++ shiftedIndex kids name i :: rest) := by
  induction Q with
  | nil => rfl
  | cons a Q ih =>
    rw [List.cons_append, rebase_cons_cons, if_pos rfl, ih]
    cases kids[i]? with
    | none => rfl
    | some c =>
      by_cases hc : c.getName = name
      · simp [hc]
      · simp [hc]

theorem rebase_below_kept (kids : List VFSNode) (name : Str) (Q : Pos) (i : Nat) (rest : Pos)
    (c : VFSNode) (hc : kids[i]? = some c) (hkeep : c.getName ≠ name) :
    rebase kids name Q (Q ++ i :: rest) = some (Q ++ shiftedIndex kids name i :: rest) := by
  rw [rebase_below, hc]
  simp [hkeep]

theorem rebase_below_removed (kids : List VFSNode) (name : Str) (Q : Pos) (i : Nat)
    (rest : Pos) (c : VFSNode) (hc : kids[i]? = some c) (hrem : c.getName = name) :
    rebase kids name Q (Q ++ i :: rest) = none := by
  rw [rebase_below, hc]
  simp [hrem]

theorem rebase_below_invalid (kids : List VFSNode) (name : Str) (Q : Pos) (i : Nat)
    (rest : Pos) (hc : kids[i]? = none) :
    rebase kids name Q (Q ++ i :: rest) = some (Q ++ i :: rest) := by
  rw [rebase_below, hc]

theorem rebase_elsewhere (kids : List VFSNode) (name : Str) (Q q : Pos)
    (h : ∀ i rest, q ≠ Q ++ i :: rest) : rebase kids name Q q = some q := by
  induction Q generalizing q with
  | nil =>
    cases q with
    | nil => rfl
    | cons i rest => exact absurd rfl (h i rest)
  | cons a Q ih =>
    cases q with
    | nil => rfl
    | cons b q =>
      rw [rebase_cons_cons]
      by_cases hab : a = b
      · subst hab
        rw [if_pos rfl, ih q (fun i rest e => h i rest (by rw [e]; rfl))]
        rfl
      · rw [if_neg hab]

theorem rebase_self (kids : List VFSNode) (name : Str) (Q : Pos) :
    rebase kids name Q Q = some Q := by
  apply rebase_elsewhere
  intro i rest e
  have := congrArg List.length e
  simp at this

theorem rebase_above (kids : List VFSNode) (name : Str) (q : Pos) (i : Nat) (r : Pos) :
    rebase kids name (q ++ i :: r) q = some q := by
  apply rebase_elsewhere
  intro j rest e
  have := congrArg List.length e
  simp at this

theorem rebase_beside (kids : List VFSNode) (name : Str) (common : Pos) (a b : Nat)
    (p q : Pos) (hab : a ≠ b) :
    rebase kids name (common ++ a :: p) (common ++ b :: q) = some (common ++ b :: q) := by
  apply rebase_elsewhere
  intro j rest e
  rw [List.append_assoc] at e
  have := List.append_cancel_left e
  simp only [List.cons_append, List.cons.injEq] at this
  exact hab this.1.symm

theorem notNamed_eq_true (name : Str) (c : VFSNode) :
    VFSNode.notNamed name c = true ↔ c.getName ≠ name := by
  simp [VFSNode.notNamed]

theorem shiftedIndex_zero (kids : List VFSNode) (name : Str) :
    shiftedIndex kids name 0 = 0 := rfl

theorem shiftedIndex_succ (k : VFSNode) (kids : List VFSNode) (name : Str) (i : Nat) :
    shiftedIndex (k :: kids) name (i + 1)
      = if k.getName = name then shiftedIndex kids name i
        else shiftedIndex kids name i + 1 := by
  simp only [shiftedIndex, List.take_succ_cons]
  by_cases hk : k.getName = name
  · rw [if_pos hk, List.filter_cons_of_neg]
    rw [notNamed_eq_true]; exact fun h => h hk
  · rw [if_neg hk, List.filter_cons_of_pos ((notNamed_eq_true _ _).mpr hk)]
    rfl

/-- The kept child `i` sits at its shifted index in the filtered vector. -/
theorem getElem?_filter_shiftedIndex (kids : List VFSNode) (name : Str) (i : Nat)
    (c : VFSNode) (hc : kids[i]? = some c) (hkeep : c.getName ≠ name) :
    (kids.filter (VFSNode.notNamed name))[shiftedIndex kids name i]? = some c := by
  induction kids generalizing i with
  | nil => simp at hc
  | cons k kids ih =>
    cases i with
    | zero =>
      simp only [List.getElem?_cons_zero, Option.some.injEq] at hc
      subst hc
      rw [List.filter_cons_of_pos ((notNamed_eq_true _ _).mpr hkeep), shiftedIndex_zero]
      simp
    | succ i =>
      simp only [List.getElem?_cons_succ] at hc
      have := ih i hc
      rw [shiftedIndex_succ]
      by_cases hk : k.getName = name
      · rw [if_pos hk, List.filter_cons_of_neg]
        · exact this
        · rw [notNamed_eq_true]; exact fun h => h hk
      · rw [if_neg hk, List.filter_cons_of_pos ((notNamed_eq_true _ _).mpr hk)]
        simpa using this

theorem findIn_filter_removed (kids : List VFSNode) (name : Str) :
    VFSNode.findIn (kids.filter (VFSNode.notNamed name)) name = none := by
  rw [VFSNode.findIn_none]
  intro c hc
  exact (notNamed_eq_true _ _).mp (List.mem_filter.mp hc).2

theorem findIn_cons (k : VFSNode) (kids : List VFSNode) (name : Str) :
    VFSNode.findIn (k :: kids) name
      = if k.getName = name then some 0 else (VFSNode.findIn kids name).map (· + 1) := rfl

theorem findIn_filter_kept (kids : List VFSNode) (name part : Str) (hne : part ≠ name) :
    VFSNode.findIn (kids.filter (VFSNode.notNamed name)) part
      = (VFSNode.findIn kids part).map (shiftedIndex kids name) := by
  induction kids with
  | nil => rfl
  | cons k kids ih =>
    by_cases hk : k.getName = name
    · have hp : ¬ k.getName = part := fun e => hne (e.symm.trans hk)
      rw [List.filter_cons_of_neg (by rw [notNamed_eq_true]; exact fun h => h hk), ih,
        findIn_cons, if_neg hp, Option.map_map]
      congr 1
      funext j
      simp only [Function.comp, shiftedIndex_succ, if_pos hk]
    · rw [List.filter_cons_of_pos ((notNamed_eq_true _ _).mpr hk), findIn_cons, findIn_cons]
      by_cases hp : k.getName = part
      · rw [if_pos hp, if_pos hp]; rfl
      · rw [if_neg hp, if_neg hp, ih, Option.map_map, Option.map_map]
        congr 1
        funext j
        simp only [Function.comp, shiftedIndex_succ, if_neg hk]

end VirtualFileSystem

namespace VirtualFileSystem

theorem removeChild_getChildren (name : Str) (n : VFSNode) :
    (VFSNode.removeChild name n).getChildren = n.getChildren.filter (VFSNode.notNamed name) := by
  cases n; rfl

theorem removeChild_getName (name : Str) (n : VFSNode) :
    (VFSNode.removeChild name n).getName = n.getName := by
  cases n; rfl

/-- One child step of the loop of `resolvePath`, before and after `removeChild(name)` on the
node at `Q`: from the same node, the step after the removal finds nothing when the step
before it entered a destroyed child, and finds the same node otherwise. -/
theorem stepChild_removeChild (T : VFSNode) (Q : Pos) (parent : VFSNode) (nm : Str)
    (hQ : T.getNode Q = some parent) (q q' : Pos) (part : Str) (q1 : Pos)
    (hq : rebase parent.getChildren nm Q q = some q')
    (hstep : stepChild T q part = some q1) :
    (rebase parent.getChildren nm Q q1 = none ∧
      stepChild (T.updateNode (VFSNode.removeChild nm) Q) q' part = none) ∨
    (∃ q1', rebase parent.getChildren nm Q q1 = some q1' ∧
      stepChild (T.updateNode (VFSNode.removeChild nm) Q) q' part = some q1') := by
  obtain ⟨n, j, c, hn, hfind, rfl, hcj, hcname, -⟩ := stepChild_eq_some _ _ _ _ hstep
  rcases pos_trichotomy Q q with ⟨r, rfl⟩ | ⟨i, r, rfl⟩ |
    ⟨common, a, b, p', q'', hab, rfl, rfl⟩
  · cases r with
    | nil =>
      rw [List.append_nil] at hq hn ⊢
      rw [rebase_self] at hq
      cases hq
      rw [hQ] at hn
      cases hn
      have hT' : (T.updateNode (VFSNode.removeChild nm) Q).getNode Q
          = some (VFSNode.removeChild nm parent) := by
        rw [VFSNode.getNode_updateNode_same, hQ]; rfl
      simp only [stepChild, hT', Option.some_bind, VFSNode.findChild, removeChild_getChildren]
      by_cases hc : c.getName = nm
      · left
        refine ⟨rebase_below_removed _ _ _ _ _ _ hcj hc, ?_⟩
        rw [← hcname, hc, findIn_filter_removed]; rfl
      · right
        refine ⟨_, rebase_below_kept _ _ _ _ _ _ hcj hc, ?_⟩
        have hpn : part ≠ nm := by rw [← hcname]; exact hc
        rw [findIn_filter_kept _ _ _ hpn]
        have : VFSNode.findIn parent.getChildren part = some j := hfind
        rw [this]; rfl
    | cons i rest =>
      rw [VFSNode.getNode_append, hQ, Option.some_bind, VFSNode.getNode_cons] at hn
      cases hci : parent.getChildren[i]? with
      | none => rw [hci] at hn; simp at hn
      | some ci =>
        rw [hci, Option.some_bind] at hn
        by_cases hc : ci.getName = nm
        · rw [rebase_below_removed _ _ _ _ _ _ hci hc] at hq; cases hq
        · rw [rebase_below_kept _ _ _ _ _ _ hci hc] at hq
          cases hq
          right
          have hT' : (T.updateNode (VFSNode.removeChild nm) Q).getNode
              (Q ++ shiftedIndex parent.getChildren nm i :: rest) = some n := by
            rw [VFSNode.getNode_updateNode_below, hQ, Option.some_bind, VFSNode.getNode_cons,
              removeChild_getChildren, getElem?_filter_shiftedIndex _ _ _ _ hci hc,
              Option.some_bind, hn]
          refine ⟨(Q ++ shiftedIndex parent.getChildren nm i :: rest) ++ [j], ?_, ?_⟩
          · have := rebase_below_kept parent.getChildren nm Q i (rest ++ [j]) ci hci hc
            simpa using this
          · simp only [stepChild, hT', Option.some_bind, hfind, Option.map_some']
  · right
    rw [rebase_above] at hq
    cases hq
    have hT' : (T.updateNode (VFSNode.removeChild nm) (q ++ i :: r)).getNode q
        = some (n.updateNode (VFSNode.removeChild nm) (i :: r)) := by
      rw [VFSNode.getNode_updateNode_above, hn]; rfl
    refine ⟨q ++ [j], ?_, ?_⟩
    · apply rebase_elsewhere
      intro k rest e
      have := congrArg List.length e
      simp at this
    · have hnames := VFSNode.childNames_updateNode_cons (VFSNode.removeChild nm)
        (removeChild_getName nm) n i r
      simp only [stepChild, hT', Option.some_bind,
        VFSNode.findChild_congr _ _ part hnames, hfind, Option.map_some']
  · right
    rw [rebase_beside _ _ _ _ _ _ _ hab] at hq
    cases hq
    refine ⟨(common ++ b :: q'') ++ [j], ?_, ?_⟩
    · have := rebase_beside parent.getChildren nm common a b p' (q'' ++ [j]) hab
      simpa using this
    · simp only [stepChild, VFSNode.getNode_updateNode_beside _ _ _ _ _ _ _ hab, hn,
        Option.some_bind, hfind, Option.map_some']

theorem rebase_length (kids : List VFSNode) (name : Str) (Q q q' : Pos)
    (h : rebase kids name Q q = some q') : q'.length = q.length := by
  induction Q generalizing q q' with
  | nil =>
    cases q with
    | nil => cases h; rfl
    | cons i rest =>
      have hb := rebase_below kids name [] i rest
      simp only [List.nil_append] at hb
      cases hk : kids[i]? with
      | none =>
        have := rebase_below_invalid kids name [] i rest hk
        simp only [List.nil_append] at this
        rw [this] at h; cases h; rfl
      | some c =>
        by_cases hc : c.getName = name
        · have := rebase_below_removed kids name [] i rest c hk hc
          simp only [List.nil_append] at this
          rw [this] at h; cases h
        · have := rebase_below_kept kids name [] i rest c hk hc
          simp only [List.nil_append] at this
          rw [this] at h; cases h; rfl
  | cons a Q ih =>
    cases q with
    | nil => cases h; rfl
    | cons b q =>
      rw [rebase_cons_cons] at h
      by_cases hab : a = b
      · rw [if_pos hab] at h
        cases hr : rebase kids name Q q with
        | none => rw [hr] at h; simp at h
        | some x =>
          rw [hr] at h
          simp only [Option.map_some', Option.some.injEq] at h
          subst h
          simp [ih q x hr]
      · rw [if_neg hab] at h
        cases h; rfl

/-- The parent step of the loop of `resolvePath` commutes with `rebase`. -/
theorem rebase_dropLast (kids : List VFSNode) (name : Str) (Q q q' : Pos)
    (h : rebase kids name Q q = some q') :
    rebase kids name Q q.dropLast = some q'.dropLast := by
  rcases List.eq_nil_or_concat q with hq | ⟨q0, l, hq⟩
  · subst hq
    have := rebase_length _ _ _ _ _ h
    simp only [List.length_nil, List.length_eq_zero] at this
    subst this
    exact h
  · subst hq
    rw [List.concat_eq_append] at h ⊢
    rw [List.dropLast_concat]
    by_cases hform : ∃ i rest, q0 ++ [l] = Q ++ i :: rest
    · obtain ⟨i, rest, e⟩ := hform
      rcases List.eq_nil_or_concat rest with hr | ⟨rest0, l', hr⟩
      · subst hr
        have e' : q0 ++ [l] = Q ++ [i] := e
        have hq0 : q0 = Q := (List.append_inj' e' rfl).1
        subst hq0
        rw [rebase_self]
        rw [e'] at h
        cases hk : kids[i]? with
        | none =>
          rw [rebase_below_invalid _ _ _ _ _ hk] at h; cases h; simp
        | some c =>
          by_cases hc : c.getName = name
          · rw [rebase_below_removed _ _ _ _ _ _ hk hc] at h; cases h
          · rw [rebase_below_kept _ _ _ _ _ _ hk hc] at h; cases h; simp
      · subst hr
        rw [List.concat_eq_append] at e
        have e' : q0 ++ [l] = (Q ++ i :: rest0) ++ [l'] := by rw [e]; simp
        have hq0 : q0 = Q ++ i :: rest0 := (List.append_inj' e' rfl).1
        subst hq0
        have hl : l = l' := by
          have := (List.append_inj' e' rfl).2; simpa using this
        subst hl
        rw [List.append_assoc, List.cons_append] at h
        cases hk : kids[i]? with
        | none =>
          rw [rebase_below_invalid _ _ _ _ _ hk] at h; cases h
          rw [rebase_below_invalid _ _ _ _ _ hk]
          rw [← List.cons_append, ← List.append_assoc, List.dropLast_concat]
        | some c =>
          by_cases hc : c.getName = name
          · rw [rebase_below_removed _ _ _ _ _ _ hk hc] at h; cases h
          · rw [rebase_below_kept _ _ _ _ _ _ hk hc] at h; cases h
            rw [rebase_below_kept _ _ _ _ _ _ hk hc]
            rw [← List.cons_append, ← List.append_assoc, List.dropLast_concat]
    · have hq : rebase kids name Q (q0 ++ [l]) = some (q0 ++ [l]) :=
        rebase_elsewhere _ _ _ _ (fun i rest e => hform ⟨i, rest, e⟩)
      rw [hq] at h
      cases h
      rw [List.dropLast_concat]
      apply rebase_elsewhere
      intro i rest e
      exact hform ⟨i, rest ++ [l], by rw [e]; simp⟩

end VirtualFileSystem

namespace VFSNode

theorem kindsOk_mk (nm : Str) (t : NodeType) (cs : List VFSNode) (c p : Str) :
    kindsOk (.mk nm t cs c p)
      = ((match t with
          | NodeType.File => cs.isEmpty
          | NodeType.Directory => c.isEmpty) && kindsOkList cs) := by
  simp only [kindsOk]

theorem kindsOkList_cons (c : VFSNode) (cs : List VFSNode) :
    kindsOkList (c :: cs) = (kindsOk c && kindsOkList cs) := by
  simp only [kindsOkList]

theorem kindsOkList_getElem? (cs : List VFSNode) (i : Nat) (c : VFSNode)
    (h : kindsOkList cs = true) (hc : cs[i]? = some c) : kindsOk c = true := by
  induction cs generalizing i with
  | nil => simp at hc
  | cons k cs ih =>
    rw [kindsOkList_cons, Bool.and_eq_true] at h
    cases i with
    | zero =>
      simp only [List.getElem?_cons_zero, Option.some.injEq] at hc
      subst hc; exact h.1
    | succ i =>
      simp only [List.getElem?_cons_succ] at hc
      exact ih i h.2 hc

theorem kindsOk_children (n : VFSNode) (h : kindsOk n = true) :
    kindsOkList n.getChildren = true := by
  cases n with
  | mk nm t cs c p =>
    rw [kindsOk_mk, Bool.and_eq_true] at h
    exact h.2

theorem kindsOk_getNode (root : VFSNode) (q : Pos) (n : VFSNode)
    (h : kindsOk root = true) (hn : root.getNode q = some n) : kindsOk n = true := by
  induction q generalizing root with
  | nil => simp at hn; subst hn; exact h
  | cons i rest ih =>
    rw [getNode_cons] at hn
    cases hc : root.getChildren[i]? with
    | none => rw [hc] at hn; simp at hn
    | some c =>
      rw [hc, Option.some_bind] at hn
      exact ih c (kindsOkList_getElem? _ i c (kindsOk_children root h) hc) hn

/-- In a tree with `kindsOk`, a node that has a child is a directory. -/
theorem isDirectory_of_child (n : VFSNode) (h : kindsOk n = true) (i : Nat) (c : VFSNode)
    (hc : n.getChildren[i]? = some c) : n.isDirectory = true := by
  cases n with
  | mk nm t cs cont p =>
    rw [kindsOk_mk, Bool.and_eq_true] at h
    cases t with
    | Directory => rfl
    | File =>
      have h1 : cs.isEmpty = true := h.1
      rw [List.isEmpty_iff] at h1
      subst h1
      simp at hc

end VFSNode

namespace VirtualFileSystem

/-- The loop of `resolvePath` before and after `removeChild(name)` on the node at `Q`,
started from the same node: after the removal it fails, or ends at the same node as
before. -/
theorem walk_removeChild (T : VFSNode) (Q : Pos) (parent : VFSNode) (nm : Str)
    (hQ : T.getNode Q = some parent) (parts : List Str) (q q' r : Pos)
    (hq : rebase parent.getChildren nm Q q = some q')
    (hw : walk T q parts = some r) :
    walk (T.updateNode (VFSNode.removeChild nm) Q) q' parts = none ∨
    ∃ r', rebase parent.getChildren nm Q r = some r' ∧
      walk (T.updateNode (VFSNode.removeChild nm) Q) q' parts = some r' := by
  induction parts generalizing q q' with
  | nil =>
    right
    rw [walk_nil] at hw; cases hw
    exact ⟨q', hq, rfl⟩
  | cons part parts ih =>
    by_cases hp : part = "..".toList
    · subst hp
      rw [walk_cons_up] at hw ⊢
      exact ih _ _ (rebase_dropLast _ _ _ _ _ hq) hw
    · rw [walk_cons_child _ _ _ _ hp] at hw ⊢
      cases hs : stepChild T q part with
      | none => rw [hs] at hw; simp at hw
      | some q1 =>
        rw [hs, Option.some_bind] at hw
        rcases stepChild_removeChild T Q parent nm hQ q q' part q1 hq hs with
          ⟨-, hnone⟩ | ⟨q1', hq1, hsome⟩
        · left; rw [hnone]; rfl
        · rw [hsome, Option.some_bind]
          exact ih q1 q1' hq1 hw

end VirtualFileSystem

/-! ## Trees whose files have no children -/

namespace VFSNode

theorem filesChildless_mk (nm : Str) (t : NodeType) (cs : List VFSNode) (c p : Str) :
    filesChildless (.mk nm t cs c p)
      = ((match t with
          | NodeType.File => cs.isEmpty
          | NodeType.Directory => true) && filesChildlessList cs) := by
  cases t <;> simp only [filesChildless]

theorem filesChildlessList_cons (c : VFSNode) (cs : List VFSNode) :
    filesChildlessList (c :: cs) = (filesChildless c && filesChildlessList cs) := by
  simp only [filesChildlessList]

theorem filesChildlessList_getElem? (cs : List VFSNode) (i : Nat) (c : VFSNode)
    (h : filesChildlessList cs = true) (hc : cs[i]? = some c) : filesChildless c = true := by
  induction cs generalizing i with
  | nil => simp at hc
  | cons k cs ih =>
    rw [filesChildlessList_cons, Bool.and_eq_true] at h
    cases i with
    | zero =>
      simp only [List.getElem?_cons_zero, Option.some.injEq] at hc
      subst hc; exact h.1
    | succ i =>
      simp only [List.getElem?_cons_succ] at hc
      exact ih i h.2 hc

theorem filesChildless_children (n : VFSNode) (h : filesChildless n = true) :
    filesChildlessList n.getChildren = true := by
  cases n with
  | mk nm t cs c p =>
    rw [filesChildless_mk, Bool.and_eq_true] at h
    exact h.2

theorem filesChildless_getNode (root : VFSNode) (q : Pos) (n : VFSNode)
    (h : filesChildless root = true) (hn : root.getNode q = some n) :
    filesChildless n = true := by
  induction q generalizing root with
  | nil => simp at hn; subst hn; exact h
  | cons i rest ih =>
    rw [getNode_cons] at hn
    cases hc : root.getChildren[i]? with
    | none => rw [hc] at hn; simp at hn
    | some c =>
      rw [hc, Option.some_bind] at hn
      exact ih c (filesChildlessList_getElem? _ i c (filesChildless_children root h) hc) hn

/-- In a tree whose files have no children, a node that has a child is a directory. -/
theorem isDirectory_of_child_files (n : VFSNode) (h : filesChildless n = true) (i : Nat)
    (c : VFSNode) (hc : n.getChildren[i]? = some c) : n.isDirectory = true := by
  cases n with
  | mk nm t cs cont p =>
    rw [filesChildless_mk, Bool.and_eq_true] at h
    cases t with
    | Directory => rfl
    | File =>
      have h1 : cs.isEmpty = true := h.1
      rw [List.isEmpty_iff] at h1
      subst h1
      simp at hc

mutual
/-- A tree with the node kinds of the data model has childless files. -/
theorem filesChildless_of_kindsOk : ∀ (n : VFSNode), kindsOk n = true →
    filesChildless n = true
  | .mk nm t cs c p, h => by
    rw [kindsOk_mk, Bool.and_eq_true] at h
    rw [filesChildless_mk, Bool.and_eq_true]
    refine ⟨?_, filesChildlessList_of_kindsOkList cs h.2⟩
    cases t with
    | File => exact h.1
    | Directory => rfl
/-- The same for a child vector. -/
theorem filesChildlessList_of_kindsOkList : ∀ (cs : List VFSNode), kindsOkList cs = true →
    filesChildlessList cs = true
  | [], _ => rfl
  | c :: cs, h => by
    rw [kindsOkList_cons, Bool.and_eq_true] at h
    rw [filesChildlessList_cons, Bool.and_eq_true]
    exact ⟨filesChildless_of_kindsOk c h.1, filesChildlessList_of_kindsOkList cs h.2⟩
end

end VFSNode

namespace VirtualFileSystem

theorem properLeaf_ne (path : Str) (h : ProperLeaf path) :
    path ≠ [] ∧ path ≠ "/".toList := by
  constructor
  · intro e; subst e; exact h.1 (by decide)
  · intro e; subst e; exact h.1 (by decide)

/-- What the commands find for a path that resolves: the parent pointer, the parent node (a
directory), and the target as the first child called like the leaf. -/
theorem locate_of_resolvePath (fs : VirtualFileSystem) (path : Str) (t : Pos)
    (target : VFSNode) (hleaf : ProperLeaf path) (hrooted : ¬ RootedLeaf path)
    (hfiles : fs.root.filesChildless = true)
    (hres : resolvePath fs path = some (some t)) (ht : fs.root.getNode t = some target) :
    ∃ par parent i, parentPtr fs path = some (some par) ∧ fs.root.getNode par = some parent ∧
      parent.isDirectory = true ∧ parent.findChild (leafNameOf path) = some i ∧
      parent.getChildren[i]? = some target ∧ t = par ++ [i] := by
  rw [resolvePath_eq_parentPtr fs path hleaf hrooted] at hres
  cases hpp : parentPtr fs path with
  | none => rw [hpp] at hres; simp at hres
  | some o =>
    rw [hpp] at hres
    simp only [Option.map_some', Option.some.injEq] at hres
    cases o with
    | none => simp at hres
    | some par =>
      simp only [Option.some_bind] at hres
      obtain ⟨n, i, c, hn, hfind, rfl, hci, -, hc⟩ := stepChild_eq_some _ _ _ _ hres
      rw [ht] at hc
      cases hc
      exact ⟨par, n, i, rfl, hn,
        VFSNode.isDirectory_of_child_files n
          (VFSNode.filesChildless_getNode _ _ _ hfiles hn) i _ hci,
        hfind, hci, rfl⟩

end VirtualFileSystem

section RmClaims
open VirtualFileSystem Scenario

/-- C6, as amended.  In a tree where files have no children, for a path with a proper leaf
(not empty, `.` or `..`) that is not of the form `/name`, whose target is a directory with
at least one child: `cmdRm(path, false)` fails and leaves the engine as it was; it reports
`rm: directory not empty (use -r)` when the parent directory has the `w` permission, and
`Permission denied.` when it has not. -/
theorem cmdRm_nonempty_directory (fs : VirtualFileSystem) (path : Str) (t : Pos)
    (target : VFSNode) (hleaf : ProperLeaf path) (hrooted : ¬ RootedLeaf path)
    (hfiles : fs.root.filesChildless = true)
    (hres : resolvePath fs path = some (some t)) (ht : fs.root.getNode t = some target)
    (hdir : target.isDirectory = true) (hne : target.getChildren ≠ []) :
    ∃ par parent, parentPtr fs path = some (some par) ∧ fs.root.getNode par = some parent ∧
      (checkPermission parent 'w' = true →
        cmdRm fs path false
          = some ⟨false, "rm: directory not empty (use -r)\n".toList, fs⟩) ∧
      (checkPermission parent 'w' = false →
        cmdRm fs path false = some ⟨false, "Permission denied.\n".toList, fs⟩) := by
  obtain ⟨par, parent, i, hpp, hpar, hpdir, hfind, hci, -⟩ :=
    locate_of_resolvePath fs path t target hleaf hrooted hfiles hres ht
  obtain ⟨hp1, hp2⟩ := properLeaf_ne path hleaf
  have hempty : target.getChildren.isEmpty = false := by
    cases hc : target.getChildren with
    | nil => exact absurd hc hne
    | cons a b => rfl
  refine ⟨par, parent, hpp, hpar, ?_, ?_⟩
  · intro hw
    unfold cmdRm
    rw [if_neg hp1, if_neg hp2, hpp]
    simp [hpar, hpdir, hfind, hci, hw, hdir, hempty]
  · intro hw
    unfold cmdRm
    rw [if_neg hp1, if_neg hp2, hpp]
    simp [hpar, hpdir, hfind, hci, hw]

set_option maxRecDepth 100000 in
/-- Witness of `cmdRm_nonempty_directory`: on the tree `/a/b.txt`, whose root has the `w`
permission, `rm a` is refused with the not-empty outcome and the engine is as before. -/
theorem cmdRm_nonempty_directory_witness :
    hiFs.root.filesChildless = true ∧
    resolvePath hiFs "a".toList = some (some [0]) ∧
    hiFs.root.getNode [0] = some (dir "a" "rwx" [file "b.txt" "hi\n" "rw-"]) ∧
    cmdRm hiFs "a".toList false
      = some ⟨false, "rm: directory not empty (use -r)\n".toList, hiFs⟩ := by
  obtain ⟨par, parent, hpp, hpar, hw, -⟩ :=
    cmdRm_nonempty_directory hiFs "a".toList [0]
      (dir "a" "rwx" [file "b.txt" "hi\n" "rw-"]) (by decide) (by decide) (by decide)
      (by decide) (by decide) (by decide) (by decide)
  have hp : parentPtr hiFs "a".toList = some (some []) := by decide
  rw [hp] at hpp
  cases hpp
  cases hpar
  exact ⟨by decide, by decide, by decide, hw (by decide)⟩

set_option maxRecDepth 100000 in
/-- C6 as stated fails when the parent directory lacks `w`: `/d/sub` is a directory with one
child, and `cmdRm("d/sub", false)` reports `Permission denied.`, not the not-empty
outcome. -/
theorem cmdRm_nonempty_reports_denied :
    resolvePath lockedParentFs "d/sub".toList = some (some [0, 0]) ∧
    lockedParentFs.root.getNode [0, 0] = some (dir "sub" "rwx" [file "x" "" "rw-"]) ∧
    cmdRm lockedParentFs "d/sub".toList false
      = some ⟨false, "Permission denied.\n".toList, lockedParentFs⟩ ∧
    "Permission denied.\n".toList ≠ "rm: directory not empty (use -r)\n".toList := by
  decide

end RmClaims

namespace VirtualFileSystem

theorem rebase_root (kids : List VFSNode) (name : Str) (Q : Pos) :
    rebase kids name Q [] = some [] := by
  cases Q <;> rfl

/-- Resolution before and after `removeChild(name)` on the node at `Q`: a path that
resolved to `r` has no result (a dangling `current` is read), or does not resolve, or
resolves to the same node. -/
theorem resolvePath_removeAt (fs : VirtualFileSystem) (Q : Pos) (parent : VFSNode)
    (nm : Str) (hQ : fs.root.getNode Q = some parent) (path : Str) (r : Pos)
    (hres : resolvePath fs path = some (some r)) :
    resolvePath (removeAt fs Q parent nm) path = none ∨
    resolvePath (removeAt fs Q parent nm) path = some none ∨
    ∃ r', rebase parent.getChildren nm Q r = some r' ∧
      resolvePath (removeAt fs Q parent nm) path = some (some r') := by
  cases path with
  | nil =>
    simp only [resolvePath, Option.map_eq_some'] at hres
    obtain ⟨cur, hcur, hr⟩ := hres
    cases hr
    simp only [resolvePath, removeAt, hcur, Option.some_bind]
    cases hφ : rebase parent.getChildren nm Q r with
    | none => left; rfl
    | some r' => right; right; exact ⟨r', rfl, rfl⟩
  | cons c cs =>
    simp only [resolvePath] at hres ⊢
    by_cases hc : c = '/'
    · simp only [hc, if_true, Option.some.injEq] at hres ⊢
      simp only [removeAt]
      rcases walk_removeChild fs.root Q parent nm hQ _ [] [] r (rebase_root _ _ _) hres with
        h | ⟨r', hr', h⟩
      · right; left; rw [h]
      · right; right; exact ⟨r', hr', by rw [h]⟩
    · simp only [hc, if_false] at hres ⊢
      rw [Option.map_eq_some'] at hres
      obtain ⟨cur, hcur, hw⟩ := hres
      simp only [removeAt, hcur, Option.some_bind]
      cases hφ : rebase parent.getChildren nm Q cur with
      | none => left; rfl
      | some cur' =>
        simp only [Option.map_some']
        rcases walk_removeChild fs.root Q parent nm hQ _ cur cur' r hφ hw with
          h | ⟨r', hr', h⟩
        · right; left; rw [h]
        · right; right; exact ⟨r', hr', by rw [h]⟩

theorem parentPtr_removeAt (fs : VirtualFileSystem) (Q : Pos) (parent : VFSNode)
    (nm : Str) (hQ : fs.root.getNode Q = some parent) (path : Str) (r : Pos)
    (hres : parentPtr fs path = some (some r)) :
    parentPtr (removeAt fs Q parent nm) path = none ∨
    parentPtr (removeAt fs Q parent nm) path = some none ∨
    ∃ r', rebase parent.getChildren nm Q r = some r' ∧
      parentPtr (removeAt fs Q parent nm) path = some (some r') := by
  unfold parentPtr at hres ⊢
  by_cases hp : parentPathOf path = []
  · rw [if_pos hp] at hres ⊢
    have h1 : resolvePath fs [] = some (some r) := hres
    exact resolvePath_removeAt fs Q parent nm hQ [] r h1
  · rw [if_neg hp] at hres ⊢
    exact resolvePath_removeAt fs Q parent nm hQ _ r hres

/-- After `removeChild(name)` on the node a path's parent part leads to, a path with that
leaf no longer resolves to a node. -/
theorem resolvePath_removed (fs : VirtualFileSystem) (path : Str) (par : Pos)
    (parent : VFSNode) (hleaf : ProperLeaf path) (hrooted : ¬ RootedLeaf path)
    (hpp : parentPtr fs path = some (some par)) (hpar : fs.root.getNode par = some parent)
    (q : Pos) :
    resolvePath (removeAt fs par parent (leafNameOf path)) path ≠ some (some q) := by
  intro hres
  rw [resolvePath_eq_parentPtr _ path hleaf hrooted] at hres
  rcases parentPtr_removeAt fs par parent (leafNameOf path) hpar path par hpp with
    h | h | ⟨r', hr', h⟩
  · rw [h] at hres; simp at hres
  · rw [h] at hres; simp at hres
  · rw [h] at hres
    rw [rebase_self] at hr'
    cases hr'
    simp only [Option.map_some', Option.some_bind, Option.some.injEq] at hres
    have hT' : (removeAt fs par parent (leafNameOf path)).root.getNode par
        = some (VFSNode.removeChild (leafNameOf path) parent) := by
      simp only [removeAt]
      rw [VFSNode.getNode_updateNode_same, hpar]; rfl
    simp only [stepChild, hT', Option.some_bind, VFSNode.findChild, removeChild_getChildren,
      findIn_filter_removed] at hres
    simp at hres

end VirtualFileSystem

section RmRecursiveClaims
open VirtualFileSystem Scenario

/-- C7, as amended.  In a tree where files have no children, for a path with a proper leaf
(not empty, `.` or `..`) that is not of the form `/name` and that resolves to a node:
`cmdRm(path, true)` is refused with `Permission denied.`, leaving the engine as it was,
when the parent directory lacks the `w` permission; when it has it the command succeeds,
the parent directory keeps exactly its children that are not called like the leaf (so the
target is no longer in the tree), and the path never again resolves to a node: resolution
gives not-found, or has no result when `current` itself was inside the removed subtree. -/
theorem cmdRm_recursive (fs : VirtualFileSystem) (path : Str) (t : Pos) (target : VFSNode)
    (hleaf : ProperLeaf path) (hrooted : ¬ RootedLeaf path)
    (hfiles : fs.root.filesChildless = true)
    (hres : resolvePath fs path = some (some t)) (ht : fs.root.getNode t = some target) :
    ∃ par parent, parentPtr fs path = some (some par) ∧ fs.root.getNode par = some parent ∧
      (checkPermission parent 'w' = false →
        cmdRm fs path true = some ⟨false, "Permission denied.\n".toList, fs⟩) ∧
      (checkPermission parent 'w' = true →
        cmdRm fs path true = some ⟨true, [], removeAt fs par parent (leafNameOf path)⟩ ∧
        (removeAt fs par parent (leafNameOf path)).root.getNode par
          = some (parent.setChildren
              (parent.getChildren.filter (fun c => decide (c.getName ≠ leafNameOf path)))) ∧
        ∀ q, resolvePath (removeAt fs par parent (leafNameOf path)) path ≠ some (some q)) := by
  obtain ⟨par, parent, i, hpp, hpar, hpdir, hfind, hci, -⟩ :=
    locate_of_resolvePath fs path t target hleaf hrooted hfiles hres ht
  obtain ⟨hp1, hp2⟩ := properLeaf_ne path hleaf
  refine ⟨par, parent, hpp, hpar, ?_, ?_⟩
  · intro hw
    unfold cmdRm
    rw [if_neg hp1, if_neg hp2, hpp]
    simp [hpar, hpdir, hfind, hci, hw]
  · intro hw
    refine ⟨?_, ?_, resolvePath_removed fs path par parent hleaf hrooted hpp hpar⟩
    · unfold cmdRm
      rw [if_neg hp1, if_neg hp2, hpp]
      simp [hpar, hpdir, hfind, hci, hw]
    · simp only [removeAt]
      rw [VFSNode.getNode_updateNode_same, hpar]
      rfl

set_option maxRecDepth 100000 in
/-- Witness of `cmdRm_recursive`: on the tree `/a/b.txt`, whose root has the `w`
permission, `rm -r a` succeeds, leaves the empty root, and `a` no longer resolves. -/
theorem cmdRm_recursive_witness :
    hiFs.root.filesChildless = true ∧
    resolvePath hiFs "a".toList = some (some [0]) ∧
    cmdRm hiFs "a".toList true = some ⟨true, [], ⟨dir "/" "rwx" [], some []⟩⟩ ∧
    ∀ q, resolvePath ⟨dir "/" "rwx" [], some []⟩ "a".toList ≠ some (some q) := by
  obtain ⟨par, parent, hpp, hpar, -, hw⟩ :=
    cmdRm_recursive hiFs "a".toList [0] (dir "a" "rwx" [file "b.txt" "hi\n" "rw-"])
      (by decide) (by decide) (by decide) (by decide) (by decide)
  have hp : parentPtr hiFs "a".toList = some (some []) := by decide
  rw [hp] at hpp
  cases hpp
  cases hpar
  obtain ⟨h1, -, h3⟩ := hw (by decide)
  exact ⟨by decide, by decide, h1, h3⟩

set_option maxRecDepth 100000 in
/-- C7 as stated fails when the parent directory lacks `w`: `d/sub` resolves to a node
other than the root, `cmdRm("d/sub", true)` fails, and the path still resolves. -/
theorem cmdRm_recursive_denied :
    resolvePath lockedParentFs "d/sub".toList = some (some [0, 0]) ∧
    cmdRm lockedParentFs "d/sub".toList true
      = some ⟨false, "Permission denied.\n".toList, lockedParentFs⟩ := by
  decide

end RmRecursiveClaims

/-! ## Deep copy -/

namespace VFSNode

theorem copyTree_mk (newName : Str) (nm : Str) (t : NodeType) (cs : List VFSNode) (c p : Str) :
    copyTree newName (.mk nm t cs c p)
      = .mk newName t
          (match t with
            | NodeType.Directory => copyTrees cs
            | NodeType.File => [])
          (match t with
            | NodeType.Directory => []
            | NodeType.File => c) p := by
  simp only [copyTree]

theorem copyTrees_nil : copyTrees [] = [] := by
  simp only [copyTrees]

theorem copyTrees_cons (k : VFSNode) (ks : List VFSNode) :
    copyTrees (k :: ks) = copyTree k.getName k :: copyTrees ks := by
  cases k
  simp only [copyTrees, getName_mk]

theorem copyTrees_append (ks ls : List VFSNode) :
    copyTrees (ks ++ ls) = copyTrees ks ++ copyTrees ls := by
  induction ks with
  | nil => simp [copyTrees_nil]
  | cons k ks ih => simp [copyTrees_cons, ih]

theorem copyTrees_take_succ (kids : List VFSNode) (i : Nat) (k : VFSNode)
    (h : kids[i]? = some k) :
    copyTrees (kids.take (i + 1)) = copyTrees (kids.take i) ++ [copyTree k.getName k] := by
  have hi : i < kids.length := (List.getElem?_eq_some_iff.mp h).1
  have hk : kids[i] = k := (List.getElem?_eq_some_iff.mp h).2
  rw [List.take_succ, h]
  simp [copyTrees_append, copyTrees_cons, copyTrees_nil]

mutual
/-- With `kindsOk`, the copy of a node is the node under its new name. -/
theorem copyTree_of_kindsOk : ∀ (newName : Str) (n : VFSNode), kindsOk n = true →
    copyTree newName n
      = .mk newName n.getType n.getChildren n.getContent n.getPermissions
  | newName, .mk nm t cs c p, h => by
    rw [kindsOk_mk, Bool.and_eq_true] at h
    rw [copyTree_mk]
    cases t with
    | Directory =>
      have hc : c = [] := List.isEmpty_iff.mp h.1
      simp [copyTrees_of_kindsOk cs h.2, hc]
    | File =>
      have hc : cs = [] := List.isEmpty_iff.mp h.1
      simp [hc]
/-- With `kindsOk`, the copies of a child vector are the children. -/
theorem copyTrees_of_kindsOk : ∀ (ks : List VFSNode), kindsOkList ks = true →
    copyTrees ks = ks
  | [], _ => copyTrees_nil
  | k :: ks, h => by
    rw [kindsOkList_cons, Bool.and_eq_true] at h
    rw [copyTrees_cons, copyTree_of_kindsOk k.getName k h.1, copyTrees_of_kindsOk ks h.2]
    cases k; rfl
end

theorem pushChild_getChildren (c n : VFSNode) :
    (pushChild c n).getChildren = n.getChildren ++ [c] := by
  cases n; rfl

/-- A write to the child that was just pushed is a push of the written child. -/
theorem updateNode_pushChild_last (g : VFSNode → VFSNode) (c n : VFSNode) :
    (pushChild c n).updateNode g [n.getChildren.length] = pushChild (g c) n := by
  cases n with
  | mk nm t cs cont p =>
    rw [updateNode_cons]
    simp [pushChild_getChildren]

theorem updateNode_congr (f g : VFSNode → VFSNode) (root : VFSNode) (p : Pos) (d : VFSNode)
    (hd : root.getNode p = some d) (h : f d = g d) :
    root.updateNode f p = root.updateNode g p := by
  induction p generalizing root with
  | nil => simp at hd; subst hd; simpa using h
  | cons i rest ih =>
    rw [updateNode_cons, updateNode_cons]
    rw [getNode_cons] at hd
    cases hc : root.getChildren[i]? with
    | none => rfl
    | some ch =>
      rw [hc, Option.some_bind] at hd
      simp only [ih ch hd]

/-- Two writes, the second at or below the first, are one write. -/
theorem updateNode_updateNode_below (f g : VFSNode → VFSNode) (root : VFSNode) (p r : Pos) :
    (root.updateNode f p).updateNode g (p ++ r)
      = root.updateNode (fun d => (f d).updateNode g r) p := by
  induction p generalizing root with
  | nil => simp
  | cons i rest ih =>
    rw [List.cons_append]
    cases hc : root.getChildren[i]? with
    | none =>
      have h1 : root.updateNode f (i :: rest) = root := by rw [updateNode_cons, hc]
      have h2 : root.updateNode (fun d => (f d).updateNode g r) (i :: rest) = root := by
        rw [updateNode_cons, hc]
      rw [h1, h2, updateNode_cons, hc]
    | some ch =>
      have hi : i < root.getChildren.length := (List.getElem?_eq_some_iff.mp hc).1
      have h1 := getChildren_updateNode_cons f root i rest ch hc
      rw [updateNode_cons g, h1]
      simp only [List.getElem?_set_self hi, List.set_set, ih ch]
      rw [updateNode_cons (fun d => (f d).updateNode g r), hc]
      rw [updateNode_cons f, hc]
      cases root; rfl

/-- The push of a child onto the node at `dst`, followed by a write to that child. -/
theorem updateNode_after_push (g : VFSNode → VFSNode) (c : VFSNode) (root : VFSNode)
    (dst : Pos) (d : VFSNode) (hd : root.getNode dst = some d) :
    (root.updateNode (pushChild c) dst).updateNode g (dst ++ [d.getChildren.length])
      = root.updateNode (pushChild (g c)) dst := by
  rw [updateNode_updateNode_below]
  apply updateNode_congr _ _ _ _ d hd
  exact updateNode_pushChild_last g c d

/-- A push onto the node at `dst` leaves every node that is not `dst` or above it as it
was. -/
theorem getNode_after_push (c : VFSNode) (root : VFSNode) (dst q : Pos) (n : VFSNode)
    (hq : root.getNode q = some n) (hnot : ¬ q <+: dst) :
    (root.updateNode (pushChild c) dst).getNode q = some n := by
  rcases pos_trichotomy dst q with ⟨r, rfl⟩ | ⟨i, r, rfl⟩ |
    ⟨common, a, b, p', q', hab, rfl, rfl⟩
  · cases r with
    | nil => exact absurd (by simp) hnot
    | cons i r =>
      rw [getNode_updateNode_below]
      rw [getNode_append] at hq
      cases hd : root.getNode dst with
      | none => rw [hd] at hq; simp at hq
      | some d =>
        rw [hd, Option.some_bind] at hq
        rw [Option.some_bind]
        rw [getNode_cons] at hq ⊢
        cases hc : d.getChildren[i]? with
        | none => rw [hc] at hq; simp at hq
        | some ch =>
          have hi : i < d.getChildren.length := (List.getElem?_eq_some_iff.mp hc).1
          rw [hc] at hq
          rw [pushChild_getChildren, List.getElem?_append_left hi, hc]
          exact hq
  · exact absurd ⟨i :: r, rfl⟩ hnot
  · rw [getNode_updateNode_beside _ _ _ _ _ _ _ hab]; exact hq

/-- The node at `dst` after a push onto it. -/
theorem getNode_pushed (c : VFSNode) (root : VFSNode) (dst : Pos) (d : VFSNode)
    (hd : root.getNode dst = some d) :
    (root.updateNode (pushChild c) dst).getNode dst = some (pushChild c d) := by
  rw [getNode_updateNode_same, hd]; rfl

/-- The child that was pushed onto the node at `dst`. -/
theorem getNode_pushed_child (c : VFSNode) (root : VFSNode) (dst : Pos) (d : VFSNode)
    (hd : root.getNode dst = some d) :
    (root.updateNode (pushChild c) dst).getNode (dst ++ [d.getChildren.length]) = some c := by
  rw [getNode_updateNode_below, hd, Option.some_bind, getNode_cons, pushChild_getChildren]
  simp

end VFSNode

namespace VirtualFileSystem
open VFSNode

theorem copyNodeRecursive_zero (root : VFSNode) (src dst : Pos) (nm : Str) :
    copyNodeRecursive 0 root src dst nm = none := rfl

theorem isDirectory_eq_false (n : VFSNode) (h : n.isDirectory = false) :
    n.getType = NodeType.File := by
  cases n with
  | mk nm t cs c p =>
    cases t with
    | Directory => simp [isDirectory] at h
    | File => rfl

theorem isDirectory_eq_true (n : VFSNode) (h : n.isDirectory = true) :
    n.getType = NodeType.Directory := by
  cases n with
  | mk nm t cs c p =>
    cases t with
    | Directory => rfl
    | File => simp [isDirectory] at h

/-- One call of `copyNodeRecursive` on a file. -/
theorem copyNodeRecursive_file (fuel : Nat) (root : VFSNode) (src dst : Pos) (nm : Str)
    (s d : VFSNode) (hs : root.getNode src = some s) (hd : root.getNode dst = some d)
    (hfile : s.isDirectory = false) :
    copyNodeRecursive (fuel + 1) root src dst nm
      = some (root.updateNode (pushChild (copyTree nm s)) dst) := by
  simp only [copyNodeRecursive, hs, hd, hfile, Bool.false_eq_true, if_false]
  have h1 : (root.updateNode (addFile nm) dst).updateNode (setContent s.getContent)
      (dst ++ [d.getChildren.length])
      = root.updateNode (pushChild ((VFSNode.new nm NodeType.File).setContent s.getContent))
          dst := updateNode_after_push _ _ root dst d hd
  rw [h1, updateNode_after_push _ _ root dst d hd]
  have ht := isDirectory_eq_false s hfile
  cases s with
  | mk snm t cs c p =>
    simp only [getType_mk] at ht
    subst ht
    rfl

/-- One call of `copyNodeRecursive` on a directory: the push of the empty copy, then the
loop. -/
theorem copyNodeRecursive_dir (fuel : Nat) (root : VFSNode) (src dst : Pos) (nm : Str)
    (s d : VFSNode) (hs : root.getNode src = some s) (hd : root.getNode dst = some d)
    (hdir : s.isDirectory = true) :
    copyNodeRecursive (fuel + 1) root src dst nm
      = match (root.updateNode (pushChild (partialCopy nm s 0)) dst).getNode src with
        | none => none
        | some s2 =>
          (List.range s2.getChildren.length).foldlM
            (copyLoopBody fuel src (dst ++ [d.getChildren.length]))
            (root.updateNode (pushChild (partialCopy nm s 0)) dst) := by
  simp only [copyNodeRecursive, hs, hd, hdir, if_true]
  have h1 : (root.updateNode (addDirectory nm) dst).updateNode
      (setPermissions s.getPermissions) (dst ++ [d.getChildren.length])
      = root.updateNode (pushChild (partialCopy nm s 0)) dst := by
    rw [show addDirectory nm = pushChild (VFSNode.new nm NodeType.Directory) from rfl,
      updateNode_after_push _ _ root dst d hd]
    rfl
  rw [h1]
  rfl

theorem snoc_extends (a dst : Pos) (x : Nat) (h : a <+: dst) : a <+: dst ++ [x] :=
  h.trans (List.prefix_append dst [x])

theorem pushChild_partialCopy (nm : Str) (s : VFSNode) (i : Nat) (k : VFSNode)
    (hk : s.getChildren[i]? = some k) :
    pushChild (copyTree k.getName k) (partialCopy nm s i) = partialCopy nm s (i + 1) := by
  simp only [partialCopy, pushChild_mk, copyTrees_take_succ _ _ _ hk]

/-- The loop of `copyNodeRecursive` over a run of children none of which contains the new
node: each turn pushes the copy of one child. -/
theorem copyLoop_spec (fuel : Nat)
    (IH : ∀ (root : VFSNode) (src dst : Pos) (nm : Str) (s d r : VFSNode),
      root.getNode src = some s → root.getNode dst = some d → ¬ src <+: dst →
      copyNodeRecursive fuel root src dst nm = some r →
      r = root.updateNode (pushChild (copyTree nm s)) dst)
    (root : VFSNode) (src dst : Pos) (nm : Str) (s d : VFSNode)
    (hs : root.getNode src = some s) (hd : root.getNode dst = some d)
    (m start : Nat)
    (hgood : ∀ i, start ≤ i → i < start + m →
      i < s.getChildren.length ∧ ¬ (src ++ [i]) <+: (dst ++ [d.getChildren.length]))
    (r : VFSNode)
    (h : (List.range' start m).foldlM (copyLoopBody fuel src (dst ++ [d.getChildren.length]))
        (root.updateNode (pushChild (partialCopy nm s start)) dst) = some r) :
    r = root.updateNode (pushChild (partialCopy nm s (start + m))) dst := by
  induction m generalizing start with
  | zero =>
    simp only [List.range'_zero, List.foldlM_nil] at h
    cases h; rfl
  | succ m ih =>
    rw [List.range'_succ, List.foldlM_cons] at h
    obtain ⟨hlen, hnot⟩ := hgood start (Nat.le_refl _) (by omega)
    have hk : s.getChildren[start]? = some s.getChildren[start] :=
      List.getElem?_eq_getElem hlen
    have hread : (root.updateNode (pushChild (partialCopy nm s start)) dst).getNode
        (src ++ [start]) = some s.getChildren[start] := by
      apply getNode_after_push
      · rw [getNode_append, hs, Option.some_bind, getNode_cons, hk]; simp
      · exact fun hp => hnot (snoc_extends _ _ _ hp)
    cases hstep : copyLoopBody fuel src (dst ++ [d.getChildren.length])
        (root.updateNode (pushChild (partialCopy nm s start)) dst) start with
    | none => rw [hstep] at h; simp at h
    | some y =>
      rw [hstep] at h
      simp only [Option.bind_eq_bind, Option.some_bind] at h
      have hy : y = root.updateNode (pushChild (partialCopy nm s (start + 1))) dst := by
        simp only [copyLoopBody, hread] at hstep
        have := IH _ _ _ _ _ _ _ hread (getNode_pushed_child _ root dst d hd) hnot hstep
        rw [this, updateNode_after_push _ _ root dst d hd, pushChild_partialCopy _ _ _ _ hk]
      rw [hy] at h
      have := ih (start + 1) (fun i h1 h2 => hgood i (by omega) (by omega)) h
      have e : start + 1 + m = start + (m + 1) := by omega
      rw [e] at this
      exact this

theorem partialCopy_full (nm : Str) (s : VFSNode) (hdir : s.isDirectory = true) :
    partialCopy nm s s.getChildren.length = copyTree nm s := by
  have ht := isDirectory_eq_true s hdir
  cases s with
  | mk snm t cs c p =>
    simp only [getType_mk] at ht
    subst ht
    simp [partialCopy, copyTree_mk]

/-- When the destination is not the source or inside it, a call of `copyNodeRecursive` that
returns has pushed the copy of the source onto the destination and changed nothing else. -/
theorem copyNodeRecursive_eq (fuel : Nat) (root : VFSNode) (src dst : Pos) (nm : Str)
    (s d r : VFSNode) (hs : root.getNode src = some s) (hd : root.getNode dst = some d)
    (hnot : ¬ src <+: dst) (h : copyNodeRecursive fuel root src dst nm = some r) :
    r = root.updateNode (pushChild (copyTree nm s)) dst := by
  induction fuel generalizing root src dst nm s d r with
  | zero => rw [copyNodeRecursive_zero] at h; cases h
  | succ fuel ih =>
    by_cases hdir : s.isDirectory = true
    · rw [copyNodeRecursive_dir fuel root src dst nm s d hs hd hdir,
        getNode_after_push _ root dst src s hs hnot] at h
      simp only at h
      rw [List.range_eq_range'] at h
      have := copyLoop_spec fuel ih root src dst nm s d hs hd s.getChildren.length 0
        (fun i _ hi => ⟨by omega, fun hp => by
          rcases hp with ⟨t, ht⟩
          rcases List.eq_nil_or_concat t with rfl | ⟨t', x, rfl⟩
          · rw [List.append_nil] at ht
            have := List.append_inj' ht rfl
            exact hnot ⟨[], by rw [List.append_nil]; exact this.1⟩
          · rw [List.concat_eq_append, ← List.append_assoc] at ht
            have := List.append_inj' ht rfl
            exact hnot ⟨[i] ++ t', by rw [← this.1, List.append_assoc]⟩⟩) r h
      rw [this, Nat.zero_add, partialCopy_full nm s hdir]
    · have hfile : s.isDirectory = false := by simpa using hdir
      rw [copyNodeRecursive_file fuel root src dst nm s d hs hd hfile] at h
      cases h; rfl

end VirtualFileSystem

namespace VirtualFileSystem
open VFSNode

theorem foldlM_range_none {α : Type} (F : α → Nat → Option α) (x0 : α) (n j : Nat)
    (hj : j < n)
    (hbad : ∀ y, (List.range' 0 j).foldlM F x0 = some y → F y j = none) :
    (List.range n).foldlM F x0 = none := by
  have hsplit : List.range n = List.range' 0 j ++ (j :: List.range' (j + 1) (n - j - 1)) := by
    rw [List.range_eq_range']
    have h1 : List.range' 0 n = List.range' 0 j ++ List.range' (0 + 1 * j) (n - j) := by
      rw [List.range'_append]; congr 1; omega
    rw [h1]
    have h2 : n - j = (n - j - 1) + 1 := by omega
    rw [h2, List.range'_succ]
    simp
  rw [hsplit, List.foldlM_append]
  cases hy : (List.range' 0 j).foldlM F x0 with
  | none => rfl
  | some y =>
    simp only [Option.bind_eq_bind, Option.some_bind, List.foldlM_cons, hbad y hy,
      Option.none_bind]

theorem prefix_snoc_cases (q dst : Pos) (x : Nat) (h : q <+: dst ++ [x]) :
    q <+: dst ∨ q = dst ++ [x] := by
  obtain ⟨t, ht⟩ := h
  rcases List.eq_nil_or_concat t with rfl | ⟨t', y, rfl⟩
  · right; simpa using ht
  · left
    rw [List.concat_eq_append, ← List.append_assoc] at ht
    exact ⟨t', (List.append_inj' ht rfl).1⟩

/-- A node at or above the destination of a push keeps its type. -/
theorem getNode_push_above (c : VFSNode) (root : VFSNode) (dst q : Pos) (n : VFSNode)
    (hq : root.getNode q = some n) (hpre : q <+: dst) :
    ∃ n', (root.updateNode (pushChild c) dst).getNode q = some n' ∧
      n'.getType = n.getType := by
  obtain ⟨r, rfl⟩ := hpre
  refine ⟨n.updateNode (pushChild c) r, ?_, ?_⟩
  · rw [getNode_updateNode_above, hq]; rfl
  · exact getType_updateNode _ (fun x => by cases x; rfl) n r

theorem snoc_prefix_snoc (src : Pos) (i j : Nat) (rest : Pos)
    (h : src ++ [i] <+: src ++ j :: rest) : i = j := by
  obtain ⟨t, ht⟩ := h
  rw [List.append_assoc] at ht
  have := List.append_cancel_left ht
  simp only [List.singleton_append, List.cons.injEq] at this
  exact this.1

/-- A copy of a directory into itself or into one of its descendants does not return,
whatever the recursion budget. -/
theorem copyNodeRecursive_into_itself (fuel : Nat) (root : VFSNode) (src dst : Pos)
    (nm : Str) (hpre : src <+: dst)
    (hdirs : ∀ q, src <+: q → q <+: dst →
      ∃ n, root.getNode q = some n ∧ n.isDirectory = true) :
    copyNodeRecursive fuel root src dst nm = none := by
  induction fuel generalizing root src dst nm with
  | zero => rfl
  | succ fuel ih =>
    obtain ⟨s, hs, hsdir⟩ := hdirs src (List.prefix_refl _) hpre
    obtain ⟨d, hd, -⟩ := hdirs dst hpre (List.prefix_refl _)
    rw [copyNodeRecursive_dir fuel root src dst nm s d hs hd hsdir]
    obtain ⟨rest, rfl⟩ := hpre
    have hloop : ∀ (j : Nat), j ≤ s.getChildren.length →
        (∀ i, i < j → ¬ (src ++ [i]) <+: (src ++ rest ++ [d.getChildren.length])) → ∀ y,
        (List.range' 0 j).foldlM
          (copyLoopBody fuel src (src ++ rest ++ [d.getChildren.length]))
          (root.updateNode (pushChild (partialCopy nm s 0)) (src ++ rest)) = some y →
        y = root.updateNode (pushChild (partialCopy nm s j)) (src ++ rest) := by
      intro j hj hgood y hy
      have := copyLoop_spec fuel (copyNodeRecursive_eq fuel) root src (src ++ rest) nm s d
        hs hd j 0 (fun i _ hi => ⟨by omega, hgood i (by omega)⟩) y hy
      rw [this, Nat.zero_add]
    cases rest with
    | nil =>
      rw [List.append_nil] at hd hloop ⊢
      rw [hs] at hd
      cases hd
      rw [getNode_pushed _ root src s hs]
      simp only
      apply foldlM_range_none _ _ _ s.getChildren.length
      · rw [pushChild_getChildren]; simp
      · intro y hy
        have hyeq := hloop s.getChildren.length (Nat.le_refl _) (fun i hi hp => by
          have := snoc_prefix_snoc src i s.getChildren.length [] hp
          omega) y hy
        subst hyeq
        simp only [copyLoopBody, getNode_pushed_child _ root src s hs]
        apply ih
        · exact List.prefix_refl _
        · intro q h1 h2
          have hq : q = src ++ [s.getChildren.length] := h2.eq_of_length_le h1.length_le
          subst hq
          exact ⟨_, getNode_pushed_child _ root src s hs, rfl⟩
    | cons j rest =>
      have hchild : ∃ k, s.getChildren[j]? = some k := by
        rw [getNode_append, hs, Option.some_bind, getNode_cons] at hd
        cases hk : s.getChildren[j]? with
        | none => rw [hk] at hd; simp at hd
        | some k => exact ⟨k, rfl⟩
      obtain ⟨k, hk⟩ := hchild
      have hjlen : j < s.getChildren.length := (List.getElem?_eq_some_iff.mp hk).1
      have hs2 : (root.updateNode (pushChild (partialCopy nm s 0)) (src ++ j :: rest)).getNode src
          = some (s.updateNode (pushChild (partialCopy nm s 0)) (j :: rest)) := by
        rw [getNode_updateNode_above, hs]; rfl
      rw [hs2]
      simp only
      apply foldlM_range_none _ _ _ j
      · rw [getChildren_updateNode_cons _ s j rest k hk, List.length_set]; exact hjlen
      · intro y hy
        have hyeq := hloop j (Nat.le_of_lt hjlen) (fun i hi hp => by
          rw [List.append_assoc, List.cons_append] at hp
          have := snoc_prefix_snoc src i j _ hp
          omega) y hy
        subst hyeq
        obtain ⟨kn, hkn, hkdir⟩ := hdirs (src ++ [j]) (List.prefix_append _ _)
          ⟨rest, by simp⟩
        obtain ⟨k', hk', -⟩ := getNode_push_above (partialCopy nm s j) root
          (src ++ j :: rest) (src ++ [j]) kn hkn ⟨rest, by simp⟩
        simp only [copyLoopBody, hk']
        apply ih
        · exact ⟨rest ++ [d.getChildren.length], by simp⟩
        · intro q h1 h2
          rcases prefix_snoc_cases _ _ _ h2 with h3 | h3
          · obtain ⟨n, hn, hndir⟩ := hdirs q ((List.prefix_append _ _).trans h1) h3
            obtain ⟨n', hn', hty⟩ := getNode_push_above (partialCopy nm s j) root
              (src ++ j :: rest) q n hn h3
            refine ⟨n', hn', ?_⟩
            simp only [isDirectory, hty] at hndir ⊢
            exact hndir
          · subst h3
            exact ⟨_, getNode_pushed_child _ root _ d hd, rfl⟩

end VirtualFileSystem

/-! ## Resolution across a push -/

namespace VirtualFileSystem
open VFSNode

theorem pushChild_getName (c n : VFSNode) : (pushChild c n).getName = n.getName := by
  cases n; rfl

theorem stepChild_push (c : VFSNode) (T : VFSNode) (dst : Pos) (d : VFSNode)
    (hd : T.getNode dst = some d) (q : Pos) (part : Str) (q1 : Pos)
    (h : stepChild T q part = some q1) :
    stepChild (T.updateNode (pushChild c) dst) q part = some q1 := by
  obtain ⟨n, j, k, hn, hfind, rfl, -, -, -⟩ := stepChild_eq_some _ _ _ _ h
  by_cases hpre : q <+: dst
  · obtain ⟨r, rfl⟩ := hpre
    cases r with
    | nil =>
      rw [List.append_nil] at hd ⊢
      simp only [stepChild, getNode_pushed _ T q n hn, Option.some_bind, findChild,
        pushChild_getChildren]
      rw [findIn_append_some _ _ _ _ hfind]; rfl
    | cons i r =>
      have hT : (T.updateNode (pushChild c) (q ++ i :: r)).getNode q
          = some (n.updateNode (pushChild c) (i :: r)) := by
        rw [getNode_updateNode_above, hn]; rfl
      have hnames := childNames_updateNode_cons (pushChild c) (pushChild_getName c) n i r
      simp only [stepChild, hT, Option.some_bind, findChild_congr _ _ part hnames, hfind,
        Option.map_some']
  · simp only [stepChild, getNode_after_push c T dst q n hn hpre, Option.some_bind, hfind,
      Option.map_some']

/-- A path part sequence that leads somewhere before a push leads to the same node after
it. -/
theorem walk_push (c : VFSNode) (T : VFSNode) (dst : Pos) (d : VFSNode)
    (hd : T.getNode dst = some d) (parts : List Str) (q r : Pos)
    (h : walk T q parts = some r) :
    walk (T.updateNode (pushChild c) dst) q parts = some r := by
  induction parts generalizing q with
  | nil => exact h
  | cons part parts ih =>
    by_cases hp : part = "..".toList
    · subst hp
      rw [walk_cons_up] at h ⊢
      exact ih _ h
    · rw [walk_cons_child _ _ _ _ hp] at h ⊢
      cases hs : stepChild T q part with
      | none => rw [hs] at h; simp at h
      | some q1 =>
        rw [hs, Option.some_bind] at h
        rw [stepChild_push c T dst d hd q part q1 hs, Option.some_bind]
        exact ih q1 h

theorem resolvePath_push (c : VFSNode) (fs : VirtualFileSystem) (dst : Pos) (d : VFSNode)
    (hd : fs.root.getNode dst = some d) (path : Str) (r : Pos)
    (h : resolvePath fs path = some (some r)) :
    resolvePath { fs with root := fs.root.updateNode (pushChild c) dst } path
      = some (some r) := by
  cases path with
  | nil => exact h
  | cons x xs =>
    simp only [resolvePath] at h ⊢
    by_cases hx : x = '/'
    · simp only [hx, if_true, Option.some.injEq] at h ⊢
      exact walk_push c fs.root dst d hd _ _ _ h
    · simp only [hx, if_false] at h ⊢
      rw [Option.map_eq_some'] at h
      obtain ⟨cur, hcur, hw⟩ := h
      rw [hcur, Option.map_some', walk_push c fs.root dst d hd _ _ _ hw]

theorem parentPtr_push (c : VFSNode) (fs : VirtualFileSystem) (dst : Pos) (d : VFSNode)
    (hd : fs.root.getNode dst = some d) (path : Str) (r : Pos)
    (h : parentPtr fs path = some (some r)) :
    parentPtr { fs with root := fs.root.updateNode (pushChild c) dst } path
      = some (some r) := by
  unfold parentPtr at h ⊢
  by_cases hp : parentPathOf path = []
  · rw [if_pos hp] at h ⊢; exact h
  · rw [if_neg hp] at h ⊢
    exact resolvePath_push c fs dst d hd _ r h

/-! ## Resolution across `removeChild`, for paths that only go down -/

theorem walk_extends (T : VFSNode) (parts : List Str) (q r : Pos)
    (hup : "..".toList ∉ parts) (h : walk T q parts = some r) : q <+: r := by
  induction parts generalizing q with
  | nil => rw [walk_nil] at h; cases h; exact List.prefix_refl _
  | cons part parts ih =>
    have hp : part ≠ "..".toList := fun e => hup (by rw [e]; exact List.mem_cons_self _ _)
    have hup' : "..".toList ∉ parts := fun e => hup (List.mem_cons_of_mem _ e)
    rw [walk_cons_child _ _ _ _ hp] at h
    cases hs : stepChild T q part with
    | none => rw [hs] at h; simp at h
    | some q1 =>
      rw [hs, Option.some_bind] at h
      obtain ⟨_, j, _, _, _, rfl, _, _, _⟩ := stepChild_eq_some _ _ _ _ hs
      exact (List.prefix_append q [j]).trans (ih _ hup' h)

theorem rebase_of_prefix (kids : List VFSNode) (name : Str) (Q a r r' : Pos)
    (hr : rebase kids name Q r = some r') (ha : a <+: r) :
    ∃ a', rebase kids name Q a = some a' := by
  by_cases hform : ∃ i rest, a = Q ++ i :: rest
  · obtain ⟨i, rest, rfl⟩ := hform
    obtain ⟨t, rfl⟩ := ha
    rw [List.append_assoc, List.cons_append] at hr
    cases hk : kids[i]? with
    | none => exact ⟨_, rebase_below_invalid _ _ _ _ _ hk⟩
    | some c =>
      by_cases hc : c.getName = name
      · rw [rebase_below_removed _ _ _ _ _ _ hk hc] at hr; cases hr
      · exact ⟨_, rebase_below_kept _ _ _ _ _ _ hk hc⟩
  · exact ⟨a, rebase_elsewhere _ _ _ _ (fun i rest e => hform ⟨i, rest, e⟩)⟩

/-- The loop of `resolvePath` on parts without `..`, before and after `removeChild(name)`
on the node at `Q`: when the node it led to survives, it still leads to that node. -/
theorem walk_removeChild_down (T : VFSNode) (Q : Pos) (parent : VFSNode) (nm : Str)
    (hQ : T.getNode Q = some parent) (parts : List Str) (q q' r r' : Pos)
    (hup : "..".toList ∉ parts)
    (hq : rebase parent.getChildren nm Q q = some q')
    (hw : walk T q parts = some r)
    (hr : rebase parent.getChildren nm Q r = some r') :
    walk (T.updateNode (removeChild nm) Q) q' parts = some r' := by
  induction parts generalizing q q' with
  | nil =>
    rw [walk_nil] at hw; cases hw
    rw [hq] at hr; cases hr; rfl
  | cons part parts ih =>
    have hp : part ≠ "..".toList := fun e => hup (by rw [e]; exact List.mem_cons_self _ _)
    have hup' : "..".toList ∉ parts := fun e => hup (List.mem_cons_of_mem _ e)
    rw [walk_cons_child _ _ _ _ hp] at hw ⊢
    cases hs : stepChild T q part with
    | none => rw [hs] at hw; simp at hw
    | some q1 =>
      rw [hs, Option.some_bind] at hw
      have hext := walk_extends T parts q1 r hup' hw
      rcases stepChild_removeChild T Q parent nm hQ q q' part q1 hq hs with
        ⟨hnone, -⟩ | ⟨q1', hq1, hsome⟩
      · obtain ⟨a', ha'⟩ := rebase_of_prefix _ _ _ _ _ _ hr hext
        rw [hnone] at ha'; cases ha'
      · rw [hsome, Option.some_bind]
        exact ih q1 q1' hup' hq1 hw

/-- A node that is kept by `removeChild(name)` on the node at `Q`, and is not `Q` or above
it, is unchanged. -/
theorem getNode_removeChild_kept (T : VFSNode) (Q : Pos) (parent : VFSNode) (nm : Str)
    (hQ : T.getNode Q = some parent) (r r' : Pos) (n : VFSNode)
    (hr : rebase parent.getChildren nm Q r = some r') (hn : T.getNode r = some n)
    (hnot : ¬ r <+: Q) :
    (T.updateNode (removeChild nm) Q).getNode r' = some n := by
  rcases pos_trichotomy Q r with ⟨t, rfl⟩ | ⟨i, t, rfl⟩ |
    ⟨common, a, b, p', q', hab, rfl, rfl⟩
  · cases t with
    | nil => exact absurd (by simp) hnot
    | cons i rest =>
      rw [getNode_append, hQ, Option.some_bind, getNode_cons] at hn
      cases hci : parent.getChildren[i]? with
      | none => rw [hci] at hn; simp at hn
      | some ci =>
        rw [hci, Option.some_bind] at hn
        by_cases hc : ci.getName = nm
        · rw [rebase_below_removed _ _ _ _ _ _ hci hc] at hr; cases hr
        · rw [rebase_below_kept _ _ _ _ _ _ hci hc] at hr
          cases hr
          rw [getNode_updateNode_below, hQ, Option.some_bind, getNode_cons,
            removeChild_getChildren, getElem?_filter_shiftedIndex _ _ _ _ hci hc,
            Option.some_bind, hn]
  · exact absurd ⟨i :: t, rfl⟩ hnot
  · rw [rebase_beside _ _ _ _ _ _ _ hab] at hr
    cases hr
    rw [getNode_updateNode_beside _ _ _ _ _ _ _ hab]; exact hn

theorem resolvePath_eq_none (fs : VirtualFileSystem) (path : Str)
    (h : resolvePath fs path = none) : fs.current = none := by
  cases path with
  | nil => simpa [resolvePath] using h
  | cons x xs =>
    simp only [resolvePath] at h
    by_cases hx : x = '/'
    · simp [hx] at h
    · simpa [hx] using h

/-- Resolution of a path without `..` parts, before and after `removeChild(name)` on the
node at `Q`: when the node it resolved to survives, it still resolves to that node. -/
theorem resolvePath_removeAt_down (fs : VirtualFileSystem) (Q : Pos) (parent : VFSNode)
    (nm : Str) (hQ : fs.root.getNode Q = some parent) (path : Str) (r r' : Pos)
    (hne : path ≠ []) (hup : "..".toList ∉ splitPath path)
    (hres : resolvePath fs path = some (some r))
    (hr : rebase parent.getChildren nm Q r = some r') :
    resolvePath (removeAt fs Q parent nm) path = some (some r') := by
  cases path with
  | nil => exact absurd rfl hne
  | cons x xs =>
    simp only [resolvePath] at hres ⊢
    by_cases hx : x = '/'
    · simp only [hx, if_true, Option.some.injEq] at hres ⊢
      simp only [removeAt]
      exact walk_removeChild_down fs.root Q parent nm hQ _ [] [] r r' (hx ▸ hup)
        (rebase_root _ _ _) hres hr
    · simp only [hx, if_false] at hres ⊢
      rw [Option.map_eq_some'] at hres
      obtain ⟨cur, hcur, hw⟩ := hres
      obtain ⟨cur', hcur'⟩ := rebase_of_prefix _ _ _ _ _ _ hr (walk_extends _ _ _ _ hup hw)
      simp only [removeAt, hcur, Option.some_bind, hcur', Option.map_some']
      rw [walk_removeChild_down fs.root Q parent nm hQ _ cur cur' r r' hup hcur' hw hr]

end VirtualFileSystem

namespace VFSNode

theorem namesOf_eq_map (cs : List VFSNode) : namesOf cs = cs.map getName := by
  induction cs with
  | nil => simp only [namesOf, List.map_nil]
  | cons c cs ih =>
    cases c
    simp only [namesOf, List.map_cons, getName_mk, ih]

theorem namesUnique_mk (nm : Str) (t : NodeType) (cs : List VFSNode) (c p : Str) :
    namesUnique (.mk nm t cs c p) = (decide ((namesOf cs).Nodup) && namesUniqueList cs) := by
  simp only [namesUnique]

theorem namesUniqueList_cons (c : VFSNode) (cs : List VFSNode) :
    namesUniqueList (c :: cs) = (namesUnique c && namesUniqueList cs) := by
  simp only [namesUniqueList]

theorem namesUniqueList_getElem? (cs : List VFSNode) (i : Nat) (c : VFSNode)
    (h : namesUniqueList cs = true) (hc : cs[i]? = some c) : namesUnique c = true := by
  induction cs generalizing i with
  | nil => simp at hc
  | cons k cs ih =>
    rw [namesUniqueList_cons, Bool.and_eq_true] at h
    cases i with
    | zero =>
      simp only [List.getElem?_cons_zero, Option.some.injEq] at hc
      subst hc; exact h.1
    | succ i =>
      simp only [List.getElem?_cons_succ] at hc
      exact ih i h.2 hc

theorem namesUnique_nodup (n : VFSNode) (h : namesUnique n = true) :
    (n.getChildren.map getName).Nodup ∧ namesUniqueList n.getChildren = true := by
  cases n with
  | mk nm t cs c p =>
    rw [namesUnique_mk, Bool.and_eq_true, decide_eq_true_eq, namesOf_eq_map] at h
    exact h

theorem namesUnique_getNode (root : VFSNode) (q : Pos) (n : VFSNode)
    (h : namesUnique root = true) (hn : root.getNode q = some n) : namesUnique n = true := by
  induction q generalizing root with
  | nil => simp at hn; subst hn; exact h
  | cons i rest ih =>
    rw [getNode_cons] at hn
    cases hc : root.getChildren[i]? with
    | none => rw [hc] at hn; simp at hn
    | some c =>
      rw [hc, Option.some_bind] at hn
      exact ih c (namesUniqueList_getElem? _ i c (namesUnique_nodup root h).2 hc) hn

/-- With unique sibling names, two children of one node with the same name are the same
child. -/
theorem index_eq_of_name_eq (kids : List VFSNode) (h : (kids.map getName).Nodup)
    (i j : Nat) (a b : VFSNode) (ha : kids[i]? = some a) (hb : kids[j]? = some b)
    (hname : a.getName = b.getName) : i = j := by
  have hi : i < kids.length := (List.getElem?_eq_some_iff.mp ha).1
  have hj : j < kids.length := (List.getElem?_eq_some_iff.mp hb).1
  have hai : kids[i] = a := (List.getElem?_eq_some_iff.mp ha).2
  have hbj : kids[j] = b := (List.getElem?_eq_some_iff.mp hb).2
  have hi' : i < (kids.map getName).length := by simpa using hi
  have hj' : j < (kids.map getName).length := by simpa using hj
  have key : (kids.map getName)[i] = (kids.map getName)[j] := by
    simp [hai, hbj, hname]
  exact (List.Nodup.getElem_inj_iff h).mp key

theorem getNode_of_append (root : VFSNode) (a b : Pos) (n : VFSNode)
    (h : root.getNode (a ++ b) = some n) : ∃ m, root.getNode a = some m := by
  rw [getNode_append] at h
  cases hm : root.getNode a with
  | none => rw [hm] at h; simp at h
  | some m => exact ⟨m, rfl⟩

theorem getNode_snoc (root : VFSNode) (a : Pos) (i : Nat) (m : VFSNode)
    (hm : root.getNode a = some m) : root.getNode (a ++ [i]) = m.getChildren[i]? := by
  rw [getNode_append, hm, Option.some_bind, getNode_cons]
  cases m.getChildren[i]? <;> simp

end VFSNode

namespace VirtualFileSystem
open VFSNode

/-- A node at or above the destination of a push keeps its name and type. -/
theorem getNode_push_above_name (c : VFSNode) (root : VFSNode) (dst q : Pos) (n : VFSNode)
    (hq : root.getNode q = some n) (hpre : q <+: dst) :
    ∃ n', (root.updateNode (pushChild c) dst).getNode q = some n' ∧
      n'.getName = n.getName := by
  obtain ⟨r, rfl⟩ := hpre
  refine ⟨n.updateNode (pushChild c) r, ?_, ?_⟩
  · rw [getNode_updateNode_above, hq]; rfl
  · exact getName_updateNode _ (pushChild_getName c) n r

theorem rebase_eq_none (kids : List VFSNode) (name : Str) (Q p : Pos)
    (h : rebase kids name Q p = none) :
    ∃ i rest c, p = Q ++ i :: rest ∧ kids[i]? = some c ∧ c.getName = name := by
  by_cases hform : ∃ i rest, p = Q ++ i :: rest
  · obtain ⟨i, rest, rfl⟩ := hform
    cases hk : kids[i]? with
    | none => rw [rebase_below_invalid _ _ _ _ _ hk] at h; cases h
    | some c =>
      by_cases hc : c.getName = name
      · exact ⟨i, rest, c, rfl, hk, hc⟩
      · rw [rebase_below_kept _ _ _ _ _ _ hk hc] at h; cases h
  · rw [rebase_elsewhere _ _ _ _ (fun i rest e => hform ⟨i, rest, e⟩)] at h; cases h

theorem copyNodeRecursive_some (fuel : Nat) (root : VFSNode) (src dst : Pos) (nm : Str)
    (r : VFSNode) (h : copyNodeRecursive fuel root src dst nm = some r) :
    ∃ s d, root.getNode src = some s ∧ root.getNode dst = some d := by
  cases fuel with
  | zero => rw [copyNodeRecursive_zero] at h; cases h
  | succ fuel =>
    cases hs : root.getNode src with
    | none => simp [copyNodeRecursive, hs] at h
    | some s =>
      cases hd : root.getNode dst with
      | none => simp [copyNodeRecursive, hs, hd] at h
      | some d => exact ⟨s, d, rfl, rfl⟩

theorem parentPos_eq_some (src oldParent : Pos) (h : parentPos src = some oldParent) :
    ∃ i, src = oldParent ++ [i] := by
  rcases List.eq_nil_or_concat src with rfl | ⟨q, i, rfl⟩
  · simp [parentPos] at h
  · rw [List.concat_eq_append] at h ⊢
    cases hq : q ++ [i] with
    | nil => simp at hq
    | cons a b =>
      rw [hq] at h
      simp only [parentPos, Option.some.injEq] at h
      rw [← hq, List.dropLast_concat] at h
      subst h
      exact ⟨i, hq.symm⟩

/-- What a successful `cmdMv` went through. -/
theorem cmdMv_ok (fuel : Nat) (fs : VirtualFileSystem) (srcPath dstPath : Str) (r : Result)
    (h : cmdMv fuel fs srcPath dstPath = some r) (hok : r.ok = true) :
    ∃ src oldParent par parent root1 s1 old,
      resolvePath fs srcPath = some (some src) ∧ parentPos src = some oldParent ∧
      parentPtr fs dstPath = some (some par) ∧ fs.root.getNode par = some parent ∧
      parent.isDirectory = true ∧ parent.findChild (leafNameOf dstPath) = none ∧
      copyNodeRecursive fuel fs.root src par (leafNameOf dstPath) = some root1 ∧
      root1.getNode src = some s1 ∧ root1.getNode oldParent = some old ∧
      r = ⟨true, [], removeAt { fs with root := root1 } oldParent old s1.getName⟩ := by
  unfold cmdMv at h
  cases h1 : resolvePath fs srcPath with
  | none => rw [h1] at h; cases h
  | some o1 =>
    cases o1 with
    | none => rw [h1] at h; cases h; cases hok
    | some src =>
      rw [h1] at h
      simp only at h
      cases h2 : parentPos src with
      | none => rw [h2] at h; cases h; cases hok
      | some oldParent =>
        rw [h2] at h
        simp only at h
        cases h3 : parentPtr fs dstPath with
        | none => rw [h3] at h; cases h
        | some o3 =>
          cases o3 with
          | none => rw [h3] at h; cases h; cases hok
          | some par =>
            rw [h3] at h
            simp only at h
            cases h4 : fs.root.getNode par with
            | none => rw [h4] at h; cases h
            | some parent =>
              rw [h4] at h
              simp only at h
              by_cases h5 : parent.isDirectory = true
              · simp only [h5, Bool.not_true, Bool.false_eq_true, if_false] at h
                cases h6 : parent.findChild (leafNameOf dstPath) with
                | some j =>
                  rw [h6] at h
                  simp only [Option.isSome_some, if_true] at h
                  cases h; cases hok
                | none =>
                  rw [h6] at h
                  simp only [Option.isSome_none, Bool.false_eq_true, if_false] at h
                  cases h7 : copyNodeRecursive fuel fs.root src par (leafNameOf dstPath) with
                  | none => rw [h7] at h; cases h
                  | some root1 =>
                    rw [h7] at h
                    simp only at h
                    cases h8 : root1.getNode src with
                    | none => rw [h8] at h; cases h
                    | some s1 =>
                      cases h9 : root1.getNode oldParent with
                      | none => rw [h8, h9] at h; cases h
                      | some old =>
                        rw [h8, h9] at h
                        simp only at h
                        split at h
                        · cases h
                        · simp only [Option.some.injEq] at h
                          exact ⟨src, oldParent, par, parent, root1, s1, old, rfl, h2, rfl,
                            h4, h5, h6, h7, h8, h9, h.symm⟩
              · have h5' : parent.isDirectory = false := by simpa using h5
                simp only [h5', Bool.not_false, if_true] at h
                cases h; cases hok

end VirtualFileSystem

namespace VirtualFileSystem
open VFSNode

/-- The destination of a copy that returned is not the source or inside it. -/
theorem not_prefix_of_copy (fuel : Nat) (root : VFSNode) (src par : Pos) (nm : Str)
    (parent root1 : VFSNode) (hkinds : root.kindsOk = true)
    (hpar : root.getNode par = some parent) (hpdir : parent.isDirectory = true)
    (h : copyNodeRecursive fuel root src par nm = some root1) : ¬ src <+: par := by
  intro hpre
  have : copyNodeRecursive fuel root src par nm = none := by
    apply copyNodeRecursive_into_itself fuel root src par nm hpre
    intro q _ h2
    obtain ⟨t, rfl⟩ := h2
    cases t with
    | nil => rw [List.append_nil] at hpar; exact ⟨parent, hpar, hpdir⟩
    | cons i t =>
      obtain ⟨m, hm⟩ := getNode_of_append root q (i :: t) parent hpar
      refine ⟨m, hm, ?_⟩
      rw [getNode_append, hm, Option.some_bind, getNode_cons] at hpar
      cases hc : m.getChildren[i]? with
      | none => rw [hc] at hpar; simp at hpar
      | some c => exact isDirectory_of_child m (kindsOk_getNode _ _ _ hkinds hm) i c hc
  rw [this] at h; cases h

end VirtualFileSystem

section CdClaims
open VirtualFileSystem Scenario

/-- C8, as amended.  With `current` pointing at a node of the tree and a non-empty path, the
path resolves or not, and a resolved path names a node of the tree; `cmdCd` succeeds and
moves `current` to the resolved node when that node is a directory whose permissions
contain `x`; when the path does not resolve, resolves to a file, or `x` is missing, it fails
and leaves the engine as it was.  In particular, with `current` at the root, `cmdCd("..")`
succeeds and leaves `current` at the root provided the root is a directory whose permissions
contain `x`. -/
theorem cmdCd_characterisation (fs : VirtualFileSystem) (path : Str)
    (hcur : CurrentValid fs) (hpath : path ≠ []) :
    (∃ o : Option Pos, resolvePath fs path = some o ∧
        ∀ t, o = some t → ∃ n, fs.root.getNode t = some n) ∧
    (∀ t n, resolvePath fs path = some (some t) → fs.root.getNode t = some n →
        n.isDirectory = true → checkPermission n 'x' = true →
        cmdCd fs path = some ⟨true, [], { fs with current := some t }⟩) ∧
    (resolvePath fs path = some none →
        cmdCd fs path = some ⟨false, "cd: no such directory\n".toList, fs⟩) ∧
    (∀ t n, resolvePath fs path = some (some t) → fs.root.getNode t = some n →
        n.isDirectory = false →
        cmdCd fs path = some ⟨false, "cd: not a directory\n".toList, fs⟩) ∧
    (∀ t n, resolvePath fs path = some (some t) → fs.root.getNode t = some n →
        n.isDirectory = true → checkPermission n 'x' = false →
        cmdCd fs path = some ⟨false, "Permission denied.\n".toList, fs⟩) ∧
    (fs.current = some [] → fs.root.isDirectory = true → checkPermission fs.root 'x' = true →
        cmdCd fs "..".toList = some ⟨true, [], fs⟩) := by
  refine ⟨resolvePath_of_valid fs path hcur, ?_, ?_, ?_, ?_, ?_⟩
  · intro t n hres hn hdir hx
    simp [cmdCd, hpath, hres, hn, hdir, hx]
  · intro hres
    simp [cmdCd, hpath, hres]
  · intro t n hres hn hdir
    simp [cmdCd, hpath, hres, hn, hdir]
  · intro t n hres hn hdir hx
    simp [cmdCd, hpath, hres, hn, hdir, hx]
  · intro h0 hdir hx
    have hres : resolvePath fs "..".toList = some (some []) := by
      have hw : walk fs.root [] ["..".toList] = some [] := by
        rw [walk_cons_up]; rfl
      show resolvePath fs ['.', '.'] = _
      simp only [resolvePath, h0, Option.map_some']
      rw [if_neg (by decide)]
      have h2 : splitPath ['.', '.'] = ["..".toList] := by decide
      rw [h2, hw]
    have hfs : ({ fs with current := some [] } : VirtualFileSystem) = fs := by
      cases fs; simp only at h0; subst h0; rfl
    have hne : "..".toList ≠ [] := by decide
    unfold cmdCd
    rw [if_neg hne, hres]
    simp [hdir, hx, hfs]

/-- Witness of `cmdCd_characterisation` on the tree with `/a/b.txt`, at the path `a`. -/
theorem cmdCd_characterisation_witness :
    (∃ o : Option Pos, resolvePath hiFs "a".toList = some o ∧
        ∀ t, o = some t → ∃ n, hiFs.root.getNode t = some n) ∧
    (∀ t n, resolvePath hiFs "a".toList = some (some t) → hiFs.root.getNode t = some n →
        n.isDirectory = true → checkPermission n 'x' = true →
        cmdCd hiFs "a".toList = some ⟨true, [], { hiFs with current := some t }⟩) ∧
    (resolvePath hiFs "a".toList = some none →
        cmdCd hiFs "a".toList = some ⟨false, "cd: no such directory\n".toList, hiFs⟩) ∧
    (∀ t n, resolvePath hiFs "a".toList = some (some t) → hiFs.root.getNode t = some n →
        n.isDirectory = false →
        cmdCd hiFs "a".toList = some ⟨false, "cd: not a directory\n".toList, hiFs⟩) ∧
    (∀ t n, resolvePath hiFs "a".toList = some (some t) → hiFs.root.getNode t = some n →
        n.isDirectory = true → checkPermission n 'x' = false →
        cmdCd hiFs "a".toList = some ⟨false, "Permission denied.\n".toList, hiFs⟩) ∧
    (hiFs.current = some [] → hiFs.root.isDirectory = true →
        checkPermission hiFs.root 'x' = true →
        cmdCd hiFs "..".toList = some ⟨true, [], hiFs⟩) :=
  cmdCd_characterisation hiFs "a".toList ⟨[], hiFs.root, rfl, rfl⟩ (by decide)

set_option maxRecDepth 100000 in
/-- C8 as stated fails after `chmod --- /`: with `current` at the root, `cmdCd("..")` is
refused because the root no longer grants `x`. -/
theorem cmdCd_dotdot_at_root_denied :
    cmdChmod init "---".toList "/".toList = some ⟨true, [], noExecRootFs⟩ ∧
    noExecRootFs.current = some [] ∧
    cmdCd noExecRootFs "..".toList
      = some ⟨false, "Permission denied.\n".toList, noExecRootFs⟩ := by
  decide

end CdClaims

section WriteClaims
open VirtualFileSystem Scenario

/-- C9, as amended.  For a path that resolves to a file whose permissions contain `w`, and
body lines (none of them `.end`) followed by the line `.end`: `cmdWrite` succeeds and
replaces the content of that file by the body lines, each followed by a newline, changing
nothing else; a following `cmdCat` on the same path prints that content followed by one
more newline when the permissions contain `r`, and is refused otherwise. -/
theorem cmdWrite_then_cmdCat (fs : VirtualFileSystem) (path : Str) (p : Pos) (node : VFSNode)
    (body rest : List Str)
    (hres : resolvePath fs path = some (some p)) (hnode : fs.root.getNode p = some node)
    (hfile : node.isFile = true) (hw : checkPermission node 'w' = true)
    (hbody : ∀ l ∈ body, l ≠ ".end".toList) :
    ∃ fs', cmdWrite fs path (body ++ ".end".toList :: rest)
        = some ⟨true, "Enter text. End with .end\n".toList, fs'⟩ ∧
      fs' = { fs with root := fs.root.updateNode (VFSNode.setContent (bodyText body)) p } ∧
      fs'.root.getNode p = some (node.setContent (bodyText body)) ∧
      (checkPermission node 'r' = true →
        cmdCat fs' path = some ⟨true, bodyText body ++ "\n".toList, fs'⟩) ∧
      (checkPermission node 'r' = false →
        cmdCat fs' path = some ⟨false, "Permission denied.\n".toList, fs'⟩) := by
  have hget : (fs.root.updateNode (VFSNode.setContent (bodyText body)) p).getNode p
      = some (node.setContent (bodyText body)) := by
    rw [VFSNode.getNode_updateNode_same, hnode]; rfl
  have hres' : resolvePath
      { fs with root := fs.root.updateNode (VFSNode.setContent (bodyText body)) p } path
      = some (some p) := by
    rw [resolvePath_congr fs _ _ path, hres]
    intro q
    exact (VFSNode.childNames_getNode_updateNode _ (fun x => by cases x; rfl)
      (fun x => by cases x; rfl) fs.root p q).symm
  have hfile' : (node.setContent (bodyText body)).isFile = true := by
    cases node; exact hfile
  have hperm : ∀ c, checkPermission (node.setContent (bodyText body)) c
      = checkPermission node c := by
    intro c; cases node; rfl
  have hcontent : (node.setContent (bodyText body)).getContent = bodyText body := by
    cases node; rfl
  refine ⟨_, ?_, rfl, hget, ?_, ?_⟩
  · simp only [cmdWrite, hres, writeInto, hnode, hfile, hw, readBody_body body rest hbody]
    simp
  · intro hr
    simp only [cmdCat, hres', hget, hfile', hperm, hr, hcontent]
    simp
  · intro hr
    simp only [cmdCat, hres', hget, hfile', hperm, hr]
    simp

/-- Witness of `cmdWrite_then_cmdCat`: the scenario of the specification, writing the body
line `hi` to `/a/b.txt`. -/
theorem cmdWrite_then_cmdCat_witness :
    ∃ fs', cmdWrite hiFs "a/b.txt".toList (["hi".toList] ++ ".end".toList :: [])
        = some ⟨true, "Enter text. End with .end\n".toList, fs'⟩ ∧
      fs' = { hiFs with
        root := hiFs.root.updateNode (VFSNode.setContent (bodyText ["hi".toList])) [0, 0] } ∧
      fs'.root.getNode [0, 0]
        = some ((file "b.txt" "hi\n" "rw-").setContent (bodyText ["hi".toList])) ∧
      (checkPermission (file "b.txt" "hi\n" "rw-") 'r' = true →
        cmdCat fs' "a/b.txt".toList
          = some ⟨true, bodyText ["hi".toList] ++ "\n".toList, fs'⟩) ∧
      (checkPermission (file "b.txt" "hi\n" "rw-") 'r' = false →
        cmdCat fs' "a/b.txt".toList = some ⟨false, "Permission denied.\n".toList, fs'⟩) :=
  cmdWrite_then_cmdCat hiFs "a/b.txt".toList [0, 0] (file "b.txt" "hi\n" "rw-")
    ["hi".toList] [] (by decide) (by decide) (by decide) (by decide) (by decide)

set_option maxRecDepth 100000 in
/-- C9 as stated fails on the scenario of the specification: after `write a/b.txt` with the
body line `hi`, the content is `hi\n` and `cmdCat` prints `hi\n\n`, not `hi\n`. -/
theorem cmdCat_prints_extra_newline :
    cmdWrite hiFs "a/b.txt".toList ["hi".toList, ".end".toList]
      = some ⟨true, "Enter text. End with .end\n".toList, hiFs⟩ ∧
    (hiFs.root.getNode [0, 0]).map VFSNode.getContent = some "hi\n".toList ∧
    cmdCat hiFs "a/b.txt".toList = some ⟨true, "hi\n\n".toList, hiFs⟩ ∧
    "hi\n\n".toList ≠ "hi\n".toList := by
  decide

end WriteClaims

/-! ## Creation and copy under ordinary paths

Away from paths of the form `/name` and from leaves that are empty, `.` or `..`, creation
and copy put the new node where the path resolves to, the copy is independent of the
original, and `cmdMkdir`, `cmdTouch` and `cmdRm` are gated by the `w` permission of the
parent. -/

namespace VirtualFileSystem
open VFSNode

/-- After the push of a child called like the leaf of `path` onto the directory that the
commands take as parent of `path`, where no child had that name, `path` resolves to the
pushed child. -/
theorem resolvePath_pushed (fs : VirtualFileSystem) (path : Str) (par : Pos)
    (parent c : VFSNode) (hleaf : ProperLeaf path) (hrooted : ¬ RootedLeaf path)
    (hptr : parentPtr fs path = some (some par)) (hpar : fs.root.getNode par = some parent)
    (hfind : parent.findChild (leafNameOf path) = none)
    (hname : c.getName = leafNameOf path) :
    resolvePath { fs with root := fs.root.updateNode (pushChild c) par } path
      = some (some (par ++ [parent.getChildren.length])) := by
  rw [resolvePath_eq_parentPtr _ path hleaf hrooted,
    parentPtr_push _ fs par parent hpar path par hptr]
  simp only [Option.map_some', Option.some_bind, stepChild,
    getNode_pushed _ fs.root par parent hpar, findChild, pushChild_getChildren]
  rw [findIn_append_none _ _ _ hfind, if_pos hname]
  rfl

/-- What a successful `cmdMkdir` went through. -/
theorem cmdMkdir_ok (fs : VirtualFileSystem) (path : Str) (r : Result)
    (h : cmdMkdir fs path = some r) (hok : r.ok = true) :
    ∃ par parent, parentPtr fs path = some (some par) ∧ fs.root.getNode par = some parent ∧
      parent.isDirectory = true ∧ parent.findChild (leafNameOf path) = none ∧
      checkPermission parent 'w' = true ∧
      r = ⟨true, [], ⟨fs.root.updateNode
        (pushChild (.mk (leafNameOf path) NodeType.Directory [] [] "rwx".toList)) par,
        fs.current⟩⟩ := by
  unfold cmdMkdir at h
  by_cases hp : path = []
  · rw [if_pos hp] at h; cases h; cases hok
  · rw [if_neg hp] at h
    cases h3 : parentPtr fs path with
    | none => rw [h3] at h; cases h
    | some o3 =>
      cases o3 with
      | none => rw [h3] at h; cases h; cases hok
      | some par =>
        rw [h3] at h
        simp only at h
        cases h4 : fs.root.getNode par with
        | none => rw [h4] at h; cases h
        | some parent =>
          rw [h4] at h
          simp only at h
          cases h5 : parent.isDirectory with
          | false => simp only [h5, Bool.not_false, if_true] at h; cases h; cases hok
          | true =>
            simp only [h5, Bool.not_true, Bool.false_eq_true, if_false] at h
            cases h6 : parent.findChild (leafNameOf path) with
            | some j =>
              simp only [h6, Option.isSome_some, if_true] at h; cases h; cases hok
            | none =>
              simp only [h6, Option.isSome_none, Bool.false_eq_true, if_false] at h
              cases h7 : checkPermission parent 'w' with
              | false => simp only [h7, Bool.not_false, if_true] at h; cases h; cases hok
              | true =>
                simp only [h7, Bool.not_true, Bool.false_eq_true, if_false,
                  Option.some.injEq] at h
                refine ⟨par, parent, rfl, h4, h5, h6, h7, ?_⟩
                rw [← h]
                have := updateNode_after_push (setPermissions "rwx".toList)
                  (VFSNode.new (leafNameOf path) NodeType.Directory) fs.root par parent h4
                rw [show addDirectory (leafNameOf path)
                  = pushChild (VFSNode.new (leafNameOf path) NodeType.Directory) from rfl, this]
                rfl

/-- What a `cmdTouch` that made a new file went through. -/
theorem cmdTouch_ok (fs : VirtualFileSystem) (path : Str) (r : Result)
    (h : cmdTouch fs path = some r) (hok : r.ok = true) :
    ∃ par parent, parentPtr fs path = some (some par) ∧ fs.root.getNode par = some parent ∧
      parent.isDirectory = true ∧
      ((∃ j, parent.findChild (leafNameOf path) = some j) ∧ r = ⟨true, [], fs⟩ ∨
        parent.findChild (leafNameOf path) = none ∧ checkPermission parent 'w' = true ∧
        r = ⟨true, [], ⟨fs.root.updateNode
          (pushChild (.mk (leafNameOf path) NodeType.File [] [] "rw-".toList)) par,
          fs.current⟩⟩) := by
  unfold cmdTouch at h
  by_cases hp : path = []
  · rw [if_pos hp] at h; cases h; cases hok
  · rw [if_neg hp] at h
    cases h3 : parentPtr fs path with
    | none => rw [h3] at h; cases h
    | some o3 =>
      cases o3 with
      | none => rw [h3] at h; cases h; cases hok
      | some par =>
        rw [h3] at h
        simp only at h
        cases h4 : fs.root.getNode par with
        | none => rw [h4] at h; cases h
        | some parent =>
          rw [h4] at h
          simp only at h
          cases h5 : parent.isDirectory with
          | false => simp only [h5, Bool.not_false, if_true] at h; cases h; cases hok
          | true =>
            simp only [h5, Bool.not_true, Bool.false_eq_true, if_false] at h
            cases h6 : parent.findChild (leafNameOf path) with
            | some j =>
              simp only [h6, Option.isSome_some, if_true, Option.some.injEq] at h
              exact ⟨par, parent, rfl, h4, h5, Or.inl ⟨⟨j, h6⟩, h.symm⟩⟩
            | none =>
              simp only [h6, Option.isSome_none, Bool.false_eq_true, if_false] at h
              cases h7 : checkPermission parent 'w' with
              | false => simp only [h7, Bool.not_false, if_true] at h; cases h; cases hok
              | true =>
                simp only [h7, Bool.not_true, Bool.false_eq_true, if_false,
                  Option.some.injEq] at h
                refine ⟨par, parent, rfl, h4, h5, Or.inr ⟨h6, h7, ?_⟩⟩
                rw [← h]
                have := updateNode_after_push (setPermissions "rw-".toList)
                  (VFSNode.new (leafNameOf path) NodeType.File) fs.root par parent h4
                rw [show addFile (leafNameOf path)
                  = pushChild (VFSNode.new (leafNameOf path) NodeType.File) from rfl, this]
                rfl

/-- For a path with a proper leaf that is not of the form `/name`, a successful `cmdMkdir`
is followed by a resolution of the path to the new node, an empty directory called like the
leaf with permissions `rwx`. -/
theorem cmdMkdir_then_resolve (fs : VirtualFileSystem) (path : Str) (r : Result)
    (hleaf : ProperLeaf path) (hrooted : ¬ RootedLeaf path)
    (h : cmdMkdir fs path = some r) (hok : r.ok = true) :
    ∃ q, resolvePath r.fs path = some (some q) ∧
      r.fs.root.getNode q
        = some (.mk (leafNameOf path) NodeType.Directory [] [] "rwx".toList) ∧
      fs.root.getNode q = none := by
  obtain ⟨par, parent, hptr, hpar, -, hfind, -, rfl⟩ := cmdMkdir_ok fs path r h hok
  refine ⟨par ++ [parent.getChildren.length], ?_, ?_, ?_⟩
  · exact resolvePath_pushed fs path par parent
      (.mk (leafNameOf path) NodeType.Directory [] [] "rwx".toList) hleaf hrooted hptr hpar
      hfind rfl
  · exact getNode_pushed_child _ fs.root par parent hpar
  · rw [getNode_snoc _ par _ parent hpar]; simp

/-- For a path with a proper leaf that is not of the form `/name` and that did not resolve,
a successful `cmdTouch` is followed by a resolution of the path to the new node, an empty
file called like the leaf with permissions `rw-`. -/
theorem cmdTouch_then_resolve (fs : VirtualFileSystem) (path : Str) (r : Result)
    (hleaf : ProperLeaf path) (hrooted : ¬ RootedLeaf path)
    (habsent : resolvePath fs path = some none)
    (h : cmdTouch fs path = some r) (hok : r.ok = true) :
    ∃ q, resolvePath r.fs path = some (some q) ∧
      r.fs.root.getNode q = some (.mk (leafNameOf path) NodeType.File [] [] "rw-".toList) ∧
      fs.root.getNode q = none := by
  obtain ⟨par, parent, hptr, hpar, -, hcase⟩ := cmdTouch_ok fs path r h hok
  rcases hcase with ⟨⟨j, hj⟩, -⟩ | ⟨hfind, -, rfl⟩
  · exfalso
    rw [resolvePath_eq_parentPtr fs path hleaf hrooted, hptr] at habsent
    simp [stepChild, hpar, hj] at habsent
  · refine ⟨par ++ [parent.getChildren.length], ?_, ?_, ?_⟩
    · exact resolvePath_pushed fs path par parent
        (.mk (leafNameOf path) NodeType.File [] [] "rw-".toList) hleaf hrooted hptr hpar
        hfind rfl
    · exact getNode_pushed_child _ fs.root par parent hpar
    · rw [getNode_snoc _ par _ parent hpar]; simp

/-- What a successful `cmdCp` went through. -/
theorem cmdCp_ok (fuel : Nat) (fs : VirtualFileSystem) (srcPath dstPath : Str) (r : Result)
    (h : cmdCp fuel fs srcPath dstPath = some r) (hok : r.ok = true) :
    ∃ src s par parent root1,
      resolvePath fs srcPath = some (some src) ∧ fs.root.getNode src = some s ∧
      checkPermission s 'r' = true ∧
      parentPtr fs dstPath = some (some par) ∧ fs.root.getNode par = some parent ∧
      parent.isDirectory = true ∧ parent.findChild (leafNameOf dstPath) = none ∧
      copyNodeRecursive fuel fs.root src par (leafNameOf dstPath) = some root1 ∧
      r = ⟨true, [], { fs with root := root1 }⟩ := by
  unfold cmdCp at h
  cases h1 : resolvePath fs srcPath with
  | none => rw [h1] at h; cases h
  | some o1 =>
    cases o1 with
    | none => rw [h1] at h; cases h; cases hok
    | some src =>
      rw [h1] at h
      simp only at h
      cases h2 : fs.root.getNode src with
      | none => rw [h2] at h; cases h
      | some s =>
        rw [h2] at h
        simp only at h
        cases hr : checkPermission s 'r' with
        | false => simp only [hr, Bool.not_false, if_true] at h; cases h; cases hok
        | true =>
          simp only [hr, Bool.not_true, Bool.false_eq_true, if_false] at h
          cases h3 : parentPtr fs dstPath with
          | none => rw [h3] at h; cases h
          | some o3 =>
            cases o3 with
            | none => rw [h3] at h; cases h; cases hok
            | some par =>
              rw [h3] at h
              simp only at h
              cases h4 : fs.root.getNode par with
              | none => rw [h4] at h; cases h
              | some parent =>
                rw [h4] at h
                simp only at h
                cases h5 : parent.isDirectory with
                | false => simp only [h5, Bool.not_false, if_true] at h; cases h; cases hok
                | true =>
                  simp only [h5, Bool.not_true, Bool.false_eq_true, if_false] at h
                  cases h6 : parent.findChild (leafNameOf dstPath) with
                  | some j =>
                    simp only [h6, Option.isSome_some, if_true] at h; cases h; cases hok
                  | none =>
                    simp only [h6, Option.isSome_none, Bool.false_eq_true, if_false] at h
                    cases h7 : copyNodeRecursive fuel fs.root src par (leafNameOf dstPath) with
                    | none => rw [h7] at h; cases h
                    | some root1 =>
                      rw [h7] at h
                      simp only [Option.some.injEq] at h
                      exact ⟨src, s, par, parent, root1, rfl, h2, hr, rfl, h4, h5, h6, h7,
                        h.symm⟩

/-- Where a successful `cmdCp` puts the copy, for a destination with a proper leaf that is
not of the form `/name`. -/
theorem cmdCp_places_copy (fuel : Nat) (fs : VirtualFileSystem) (srcPath dstPath : Str)
    (r : Result) (hkinds : fs.root.kindsOk = true)
    (hleaf : ProperLeaf dstPath) (hrooted : ¬ RootedLeaf dstPath)
    (h : cmdCp fuel fs srcPath dstPath = some r) (hok : r.ok = true) :
    ∃ src s q, resolvePath fs srcPath = some (some src) ∧ fs.root.getNode src = some s ∧
      resolvePath r.fs dstPath = some (some q) ∧
      r.fs.root.getNode q
        = some (.mk (leafNameOf dstPath) s.getType s.getChildren s.getContent
            s.getPermissions) ∧
      fs.root.getNode q = none ∧
      r.fs.root.getNode src = some s ∧ resolvePath r.fs srcPath = some (some src) := by
  obtain ⟨src, s, par, parent, root1, hsrc, hs, -, hptr, hpar, hpdir, hfind, hcopy, rfl⟩ :=
    cmdCp_ok fuel fs srcPath dstPath r h hok
  have hnot := not_prefix_of_copy fuel fs.root src par _ parent root1 hkinds hpar hpdir hcopy
  have hroot1 := copyNodeRecursive_eq fuel fs.root src par _ s parent root1 hs hpar hnot hcopy
  subst hroot1
  have hsks : (copyTree (leafNameOf dstPath) s)
      = .mk (leafNameOf dstPath) s.getType s.getChildren s.getContent s.getPermissions :=
    copyTree_of_kindsOk _ s (kindsOk_getNode _ _ _ hkinds hs)
  refine ⟨src, s, par ++ [parent.getChildren.length], hsrc, hs, ?_, ?_, ?_, ?_, ?_⟩
  · exact resolvePath_pushed fs dstPath par parent _ hleaf hrooted hptr hpar hfind
      (by rw [hsks]; rfl)
  · rw [← hsks]; exact getNode_pushed_child _ fs.root par parent hpar
  · rw [getNode_snoc _ par _ parent hpar]; simp
  · exact getNode_after_push _ fs.root par src s hs hnot
  · exact resolvePath_push _ fs par parent hpar srcPath src hsrc

/-- A write at one position leaves the node at an unrelated position as it was. -/
theorem getNode_updateNode_unrelated (f : VFSNode → VFSNode) (root : VFSNode) (p q : Pos)
    (h1 : ¬ p <+: q) (h2 : ¬ q <+: p) :
    (root.updateNode f q).getNode p = root.getNode p := by
  rcases pos_trichotomy q p with ⟨r, rfl⟩ | ⟨i, r, rfl⟩ |
    ⟨common, a, b, p', q', hab, rfl, rfl⟩
  · exact absurd ⟨r, rfl⟩ h2
  · exact absurd ⟨i :: r, rfl⟩ h1
  · exact getNode_updateNode_beside _ _ _ _ _ _ _ hab

/-- What a successful `cmdWrite` on a path that resolves went through. -/
theorem cmdWrite_ok (fs : VirtualFileSystem) (path : Str) (input : List Str) (p : Pos)
    (w : Result) (hres : resolvePath fs path = some (some p))
    (h : cmdWrite fs path input = some w) (hok : w.ok = true) :
    ∃ buffer, w.fs = { fs with root := fs.root.updateNode (setContent buffer) p } := by
  simp only [cmdWrite, hres, writeInto] at h
  cases hn : fs.root.getNode p with
  | none => rw [hn] at h; cases h
  | some node =>
    rw [hn] at h
    simp only at h
    cases hf : node.isFile with
    | false => simp only [hf, Bool.not_false, if_true] at h; cases h; cases hok
    | true =>
      simp only [hf, Bool.not_true, Bool.false_eq_true, if_false] at h
      cases hw : checkPermission node 'w' with
      | false => simp only [hw, Bool.not_false, if_true] at h; cases h; cases hok
      | true =>
        simp only [hw, Bool.not_true, Bool.false_eq_true, if_false] at h
        cases hb : readBody input with
        | none => rw [hb] at h; cases h
        | some buffer =>
          rw [hb] at h
          simp only [Option.some.injEq] at h
          exact ⟨buffer, by rw [← h]⟩

/-- Independence of the copy: in a tree where files have no children and directories have
no content, after a successful `cmdCp` of a file to a destination with a proper leaf that is
not of the form `/name`, the destination resolves to a node other than the source; a
successful `cmdWrite` on the destination leaves the source node as it was, and a successful
`cmdWrite` on the source leaves the copy as it was. -/
theorem cmdCp_then_cmdWrite_independent (fuel : Nat) (fs : VirtualFileSystem)
    (srcPath dstPath : Str) (r : Result) (hkinds : fs.root.kindsOk = true)
    (hleaf : ProperLeaf dstPath) (hrooted : ¬ RootedLeaf dstPath)
    (h : cmdCp fuel fs srcPath dstPath = some r) (hok : r.ok = true) :
    ∃ src s q copy, resolvePath r.fs srcPath = some (some src) ∧
      r.fs.root.getNode src = some s ∧
      resolvePath r.fs dstPath = some (some q) ∧ r.fs.root.getNode q = some copy ∧
      q ≠ src ∧
      (s.isFile = true → ∀ input w, cmdWrite r.fs dstPath input = some w → w.ok = true →
        w.fs.root.getNode src = some s) ∧
      (s.isFile = true → ∀ input w, cmdWrite r.fs srcPath input = some w → w.ok = true →
        w.fs.root.getNode q = some copy) := by
  obtain ⟨src, s, q, hsrc, hs, hdst, hq, hqnew, hs', hsrc'⟩ :=
    cmdCp_places_copy fuel fs srcPath dstPath r hkinds hleaf hrooted h hok
  have hne : q ≠ src := by
    intro e; rw [e, hs] at hqnew; cases hqnew
  have hq_not_above : ¬ q <+: src := by
    intro hpre
    obtain ⟨t, ht⟩ := hpre
    rw [← ht] at hs
    obtain ⟨m, hm⟩ := getNode_of_append _ _ _ _ hs
    rw [hqnew] at hm; cases hm
  have hsrc_not_above : s.isFile = true → ¬ src <+: q := by
    intro hfile hpre
    obtain ⟨t, ht⟩ := hpre
    cases t with
    | nil => exact hne (by simpa using ht.symm)
    | cons i t =>
      rw [← ht, getNode_append, hs', Option.some_bind, getNode_cons] at hq
      cases hc : s.getChildren[i]? with
      | none => rw [hc] at hq; simp at hq
      | some c =>
        have hdir := isDirectory_of_child s (kindsOk_getNode _ _ _ hkinds hs) i c hc
        have ht1 := isDirectory_eq_true s hdir
        simp only [isFile, ht1] at hfile
        cases hfile
  refine ⟨src, s, q, _, hsrc', hs', hdst, hq, hne, ?_, ?_⟩
  · intro hfile input w hw hwok
    obtain ⟨buffer, hwfs⟩ := cmdWrite_ok r.fs dstPath input q w hdst hw hwok
    rw [hwfs]
    simp only
    rw [getNode_updateNode_unrelated _ _ _ _ (hsrc_not_above hfile) hq_not_above, hs']
  · intro hfile input w hw hwok
    obtain ⟨buffer, hwfs⟩ := cmdWrite_ok r.fs srcPath input src w hsrc' hw hwok
    rw [hwfs]
    simp only
    rw [getNode_updateNode_unrelated _ _ _ _ hq_not_above (hsrc_not_above hfile), hq]

/-- The gate that `cmdMkdir`, `cmdTouch` and `cmdRm` have: when the directory that the
commands take as parent of `path` lacks the `w` permission, `cmdMkdir` and `cmdTouch` of an
absent leaf and `cmdRm` of a present leaf are refused with `Permission denied.` and leave
the engine as it was. -/
theorem write_permission_gates_mkdir_touch_rm (fs : VirtualFileSystem) (path : Str)
    (par : Pos) (parent : VFSNode) (hne : path ≠ []) (hnr : path ≠ "/".toList)
    (hptr : parentPtr fs path = some (some par)) (hpar : fs.root.getNode par = some parent)
    (hpdir : parent.isDirectory = true) (hw : checkPermission parent 'w' = false) :
    (parent.findChild (leafNameOf path) = none →
      cmdMkdir fs path = some ⟨false, "Permission denied.\n".toList, fs⟩ ∧
      cmdTouch fs path = some ⟨false, "Permission denied.\n".toList, fs⟩) ∧
    (∀ i, parent.findChild (leafNameOf path) = some i → ∀ recursive,
      cmdRm fs path recursive = some ⟨false, "Permission denied.\n".toList, fs⟩) := by
  refine ⟨?_, ?_⟩
  · intro hfind
    constructor
    · unfold cmdMkdir
      rw [if_neg hne, hptr]
      simp [hpar, hpdir, hfind, hw]
    · unfold cmdTouch
      rw [if_neg hne, hptr]
      simp [hpar, hpdir, hfind, hw]
  · intro i hfind recursive
    obtain ⟨c, hc, -, -⟩ := findIn_some _ _ _ hfind
    unfold cmdRm
    rw [if_neg hne, if_neg hnr, hptr]
    simp [hpar, hpdir, hfind, hc, hw]

/-- C2, amended (creation, then resolution): for every engine state and every path whose
leaf is not empty, `.` or `..` and that is not of the form `/name`, a successful
`cmdMkdir(path)` is followed by a resolution of the path to the node just made, which was
not there before and is an empty directory called like the leaf with permissions `rwx`; a
successful `cmdTouch(path)` on a path that did not resolve is followed by a resolution of
the path to the node just made, an empty file called like the leaf with permissions
`rw-`. -/
theorem created_path_resolves (fs : VirtualFileSystem) (path : Str)
    (hleaf : ProperLeaf path) (hrooted : ¬ RootedLeaf path) :
    (∀ r, cmdMkdir fs path = some r → r.ok = true →
      ∃ q, resolvePath r.fs path = some (some q) ∧
        r.fs.root.getNode q
          = some (.mk (leafNameOf path) NodeType.Directory [] [] "rwx".toList) ∧
        fs.root.getNode q = none) ∧
    (∀ r, resolvePath fs path = some none → cmdTouch fs path = some r → r.ok = true →
      ∃ q, resolvePath r.fs path = some (some q) ∧
        r.fs.root.getNode q
          = some (.mk (leafNameOf path) NodeType.File [] [] "rw-".toList) ∧
        fs.root.getNode q = none) :=
  ⟨fun r h hok => cmdMkdir_then_resolve fs path r hleaf hrooted h hok,
    fun r habsent h hok => cmdTouch_then_resolve fs path r hleaf hrooted habsent h hok⟩

/-- C3, amended (copy, then resolution): in a tree where files have no children and
directories have no content, for every src and every dst whose leaf is not empty, `.` or
`..` and that is not of the form `/name`, a successful `cmdCp(src, dst)` is followed by a
resolution of dst to a node that was not there before, called like the leaf of dst, whose
type, permissions, content and children (in order) are those of the node that src resolved
to before the call; that source node is unchanged and src still resolves to it. -/
theorem cmdCp_then_resolve (fuel : Nat) (fs : VirtualFileSystem) (srcPath dstPath : Str)
    (r : Result) (hkinds : fs.root.kindsOk = true)
    (hleaf : ProperLeaf dstPath) (hrooted : ¬ RootedLeaf dstPath)
    (h : cmdCp fuel fs srcPath dstPath = some r) (hok : r.ok = true) :
    ∃ src s q, resolvePath fs srcPath = some (some src) ∧ fs.root.getNode src = some s ∧
      resolvePath r.fs dstPath = some (some q) ∧
      r.fs.root.getNode q
        = some (.mk (leafNameOf dstPath) s.getType s.getChildren s.getContent
            s.getPermissions) ∧
      fs.root.getNode q = none ∧
      r.fs.root.getNode src = some s ∧ resolvePath r.fs srcPath = some (some src) :=
  cmdCp_places_copy fuel fs srcPath dstPath r hkinds hleaf hrooted h hok

end VirtualFileSystem

/-! ## Round trip of `save` and `load` -/

theorem endsLine_append (a b : Str) (ha : EndsLine a) (hb : EndsLine b) :
    EndsLine (a ++ b) := by
  rcases hb with rfl | ⟨b', rfl⟩
  · simpa using ha
  · right; exact ⟨a ++ b', by simp⟩

theorem endsLine_line (l : Str) : EndsLine (l ++ "\n".toList) :=
  Or.inr ⟨l, rfl⟩

theorem openItems_of_not_mem (d : Char) (s : Str) (h : d ∉ s) : openItems d s = [s] := by
  induction s with
  | nil => rfl
  | cons c s ih =>
    simp only [List.mem_cons, not_or] at h
    have hc : ¬ c = d := fun e => h.1 e.symm
    rw [openItems_cons, if_neg hc, ih h.2]

theorem getlineItems_append_endsLine (d : Char) (a b : Str)
    (ha : a = [] ∨ ∃ a', a = a' ++ [d]) :
    getlineItems d (a ++ b) = getlineItems d a ++ getlineItems d b := by
  rcases ha with rfl | ⟨a', rfl⟩
  · simp [getlineItems]
  · have h1 : a' ++ [d] ++ b = a' ++ d :: b := by simp
    have h2 := getlineItems_append_delim d a' []
    rw [h1, getlineItems_append_delim, h2]
    simp [getlineItems]

namespace VirtualFileSystem

theorem feed_nil (st : LoadState) : feed st [] = st := rfl

theorem feed_append (st : LoadState) (a b : Str) (ha : EndsLine a) :
    feed st (a ++ b) = feed (feed st a) b := by
  simp only [feed]
  rw [getlineItems_append_endsLine '\n' a b ha, List.foldl_append]

theorem feed_line (st : LoadState) (l : Str) (h : '\n' ∉ l) :
    feed st (l ++ "\n".toList) = loadLine st l := by
  simp only [feed]
  have h2 := getlineItems_append_delim '\n' l []
  have h3 : l ++ "\n".toList = l ++ '\n' :: [] := rfl
  rw [h3, h2, openItems_of_not_mem '\n' l h]
  simp [getlineItems]

theorem words_cons_space (c : Char) (cs : Str) (h : isspace c = true) :
    words (c :: cs) = words cs := by
  simp only [words, h, if_true]

theorem words_word (w : Str) (hw : IsWord w) : words w = [w] := by
  obtain ⟨hne, hsp⟩ := hw
  induction w with
  | nil => exact absurd rfl hne
  | cons c w ih =>
    have hc : isspace c = false := hsp c (List.mem_cons_self _ _)
    cases w with
    | nil => simp [words, hc]
    | cons d w =>
      have hd : isspace d = false := hsp d (by simp)
      have := ih (by simp) (fun x hx => hsp x (List.mem_cons_of_mem _ hx))
      simp only [words, hc, hd, Bool.false_eq_true, if_false] at this ⊢
      rw [this]

theorem words_word_space (w rest : Str) (hw : IsWord w) :
    words (w ++ ' ' :: rest) = w :: words rest := by
  obtain ⟨hne, hsp⟩ := hw
  induction w with
  | nil => exact absurd rfl hne
  | cons c w ih =>
    have hc : isspace c = false := hsp c (List.mem_cons_self _ _)
    cases w with
    | nil =>
      have hs : isspace ' ' = true := by decide
      show words (c :: ' ' :: rest) = [c] :: words rest
      rw [words]
      simp only [hc, hs, Bool.false_eq_true, if_false, if_true]
      rw [words_cons_space ' ' rest hs]
    | cons d w =>
      have hd : isspace d = false := hsp d (by simp)
      have h := ih (by simp) (fun x hx => hsp x (List.mem_cons_of_mem _ hx))
      show words (c :: d :: (w ++ ' ' :: rest)) = (c :: d :: w) :: words rest
      rw [words]
      simp only [hc, hd, Bool.false_eq_true, if_false]
      have h2 : words (d :: (w ++ ' ' :: rest)) = (d :: w) :: words rest := h
      rw [h2]

end VirtualFileSystem

theorem properName_spec (name : Str) (h : properName name = true) :
    name ≠ [] ∧ name ≠ ".".toList ∧ name ≠ "..".toList ∧ '/' ∉ name ∧
      ∀ c ∈ name, VirtualFileSystem.isspace c = false := by
  simp only [properName, Bool.and_eq_true, Bool.not_eq_true', List.isEmpty_eq_false,
    bne_iff_ne, ne_eq, List.all_eq_true] at h
  obtain ⟨⟨⟨⟨h1, h2⟩, h3⟩, h4⟩, h5⟩ := h
  refine ⟨h1, h2, h3, ?_, h5⟩
  intro hm
  have : name.contains '/' = true := by simpa using hm
  rw [this] at h4
  cases h4

theorem properPerms_spec (perms : Str) (h : properPerms perms = true) :
    VirtualFileSystem.IsWord perms := by
  simp only [properPerms, Bool.and_eq_true, Bool.not_eq_true', List.isEmpty_eq_false,
    ne_eq, List.all_eq_true] at h
  exact ⟨h.1, h.2⟩

theorem findLastOf_append_delim (c : Char) (a b : Str) (h : c ∉ b) :
    findLastOf c (a ++ c :: b) = some a.length := by
  induction a with
  | nil =>
    simp only [List.nil_append, findLastOf, (findLastOf_eq_none c b).mpr h, if_true,
      List.length_nil]
  | cons x a ih =>
    show (match findLastOf c (a ++ c :: b) with
      | some i => some (i + 1)
      | none => if x = c then some 0 else none) = some (a.length + 1)
    rw [ih]

namespace VirtualFileSystem

theorem slashJoin_append (ns : List Str) (n : Str) :
    slashJoin (ns ++ [n]) = slashJoin ns ++ '/' :: n := by
  induction ns with
  | nil => simp [slashJoin]
  | cons m ns ih => simp [slashJoin, ih]

theorem splitPath_slashJoin (ns : List Str) (h : ∀ n ∈ ns, properName n = true) :
    splitPath (slashJoin ns) = ns := by
  induction ns using List.reverseRecOn with
  | nil => rfl
  | append_singleton ns n ih =>
    obtain ⟨h1, h2, _, h4, _⟩ := properName_spec n (h n (by simp))
    rw [slashJoin_append, splitPath_append_slash, ih (fun m hm => h m (by simp [hm])),
      splitPath_leaf n h4 h1 h2]

theorem slashJoin_length (ns : List Str) (h : ∀ n ∈ ns, properName n = true)
    (hne : ns ≠ []) : 2 ≤ (slashJoin ns).length := by
  cases ns with
  | nil => exact absurd rfl hne
  | cons n ns =>
    obtain ⟨h1, _⟩ := properName_spec n (h n (by simp))
    have : 0 < n.length := List.length_pos.mpr h1
    simp only [slashJoin, List.length_cons, List.length_append]
    omega

theorem slashJoin_word (ns : List Str) (h : ∀ n ∈ ns, properName n = true)
    (hne : ns ≠ []) : IsWord (slashJoin ns) := by
  refine ⟨fun e => ?_, ?_⟩
  · have := slashJoin_length ns h hne
    rw [e] at this
    simp at this
  · clear hne
    induction ns with
    | nil => intro c hc; simp [slashJoin] at hc
    | cons n ns ih =>
      intro c hc
      simp only [slashJoin, List.mem_cons, List.mem_append] at hc
      rcases hc with rfl | hc | hc
      · decide
      · exact (properName_spec n (h n (by simp))).2.2.2.2 c hc
      · exact ih (fun m hm => h m (by simp [hm])) c hc

/-- The `fullPath` that `saveNodeRecursive` computes for a child called `name` of the node
reached through `ns`. -/
theorem fullPath_eq (ns : List Str) (name : Str) (h : ∀ n ∈ ns, properName n = true) :
    (if pathOf ns ≠ "/".toList then pathOf ns ++ "/".toList else pathOf ns) ++ name
      = slashJoin (ns ++ [name]) := by
  by_cases hne : ns = []
  · subst hne
    simp [pathOf, slashJoin]
  · have h2 := slashJoin_length ns h hne
    have h3 : slashJoin ns ≠ "/".toList := by
      intro e
      rw [e] at h2
      simp at h2
    simp only [pathOf, hne, if_false, ne_eq, h3, not_false_eq_true, if_true]
    rw [slashJoin_append]
    simp

theorem ensureLoop_walk (root : VFSNode) (parts more : List Str)
    (hp : ∀ p ∈ parts, p ≠ "..".toList) (node q : Pos)
    (h : walk root node parts = some q) :
    ensureLoop root node (parts ++ more) = ensureLoop root q more := by
  induction parts generalizing node with
  | nil =>
    rw [walk_nil] at h
    obtain rfl : node = q := Option.some.inj h
    rfl
  | cons part parts ih =>
    have hpart : part ≠ "..".toList := hp part (by simp)
    rw [walk_cons_child _ _ _ _ hpart] at h
    simp only [stepChild] at h
    rw [List.cons_append]
    simp only [ensureLoop]
    cases hn : root.getNode node with
    | none => rw [hn] at h; simp at h
    | some n =>
      rw [hn] at h
      simp only [Option.some_bind] at h
      cases hf : n.findChild part with
      | none => rw [hf] at h; simp at h
      | some i =>
        rw [hf] at h
        simp only [Option.map_some', Option.some_bind] at h
        simp only [hf]
        exact ih (fun p hp' => hp p (by simp [hp'])) _ h

theorem ensureLoop_create (root : VFSNode) (q : Pos) (n : VFSNode) (name : Str)
    (hn : root.getNode q = some n) (hf : n.findChild name = none) :
    ensureLoop root q [name]
      = (root.updateNode
          (VFSNode.pushChild (.mk name NodeType.Directory [] [] "rwx".toList)) q,
         q ++ [n.getChildren.length]) := by
  simp only [ensureLoop, hn, hf]
  have h := VFSNode.updateNode_after_push (VFSNode.setPermissions "rwx".toList)
    (VFSNode.new name NodeType.Directory) root q n hn
  have e : VFSNode.addDirectory name
      = VFSNode.pushChild (VFSNode.new name NodeType.Directory) := rfl
  rw [e, h]
  rfl

end VirtualFileSystem

namespace VirtualFileSystem

theorem bodyText_openItems (a : Str) : bodyText (openItems '\n' a) = a ++ ['\n'] := by
  induction a with
  | nil => rfl
  | cons c a ih =>
    rw [openItems_cons]
    by_cases hc : c = '\n'
    · subst hc
      rw [if_pos rfl]
      show [] ++ "\n".toList ++ bodyText (openItems '\n' a) = _
      rw [ih]; rfl
    · rw [if_neg hc]
      cases ho : openItems '\n' a with
      | nil => exact absurd ho (openItems_ne_nil _ _)
      | cons l ls =>
        rw [ho] at ih
        show (c :: l) ++ "\n".toList ++ bodyText ls = c :: a ++ ['\n']
        have : l ++ "\n".toList ++ bodyText ls = a ++ ['\n'] := ih
        simp only [List.cons_append, this]

theorem bodyText_getlineItems (content : Str)
    (h : content = [] ∨ ∃ a, content = a ++ ['\n']) :
    bodyText (getlineItems '\n' content) = content := by
  rcases h with rfl | ⟨a, rfl⟩
  · rfl
  · have h2 := getlineItems_append_delim '\n' a []
    rw [h2, show getlineItems '\n' [] = [] from rfl, List.append_nil, bodyText_openItems]

end VirtualFileSystem

theorem properContent_spec (content : Str) (h : properContent content = true) :
    EndsLine content ∧ ∀ l ∈ getlineItems '\n' content, reservedLine l = false := by
  simp only [properContent, Bool.and_eq_true, Bool.or_eq_true, List.isEmpty_iff,
    beq_iff_eq, List.all_eq_true, Bool.not_eq_true'] at h
  refine ⟨?_, h.2⟩
  rcases h.1 with h1 | h1
  · exact Or.inl h1
  · right
    rcases List.eq_nil_or_concat content with e | ⟨a, b, e⟩
    · rw [e] at h1; simp at h1
    · rw [e] at h1 ⊢
      simp only [List.concat_eq_append, List.getLast?_append, List.getLast?_singleton,
        Option.or, Option.some.injEq] at h1
      exact ⟨a, by rw [h1]; simp⟩

namespace VirtualFileSystem

theorem loadLine_body (st : LoadState) (l : Str) (hr : st.readingContent = true)
    (hl : reservedLine l = false) :
    loadLine st l = { st with buffer := st.buffer ++ l ++ "\n".toList } := by
  simp only [reservedLine, Bool.or_eq_false_iff, beq_eq_false_iff_ne, ne_eq] at hl
  obtain ⟨⟨h1, h2⟩, h3⟩ := hl
  simp only [loadLine, h1, Bool.false_eq_true, if_false, h2, h3, hr, if_true]

theorem foldl_body (lines : List Str) (st : LoadState) (hr : st.readingContent = true)
    (hl : ∀ l ∈ lines, reservedLine l = false) :
    lines.foldl loadLine st = { st with buffer := st.buffer ++ bodyText lines } := by
  induction lines generalizing st with
  | nil => simp [bodyText]
  | cons l lines ih =>
    rw [List.foldl_cons, loadLine_body st l hr (hl l (by simp)),
      ih ⟨st.root, st.readingContent, st.lastFile, st.buffer ++ l ++ "\n".toList⟩ hr
        (fun m hm => hl m (by simp [hm]))]
    simp [bodyText]

/-- The content of a file, read back between `CONTENT_BEGIN` and `CONTENT_END`. -/
theorem feed_content (st : LoadState) (content : Str) (hr : st.readingContent = true)
    (hc : properContent content = true) :
    feed st content = { st with buffer := st.buffer ++ content } := by
  obtain ⟨h1, h2⟩ := properContent_spec content hc
  simp only [feed]
  rw [foldl_body _ st hr h2, bodyText_getlineItems content h1]

theorem loadLine_begin (st : LoadState) :
    loadLine st "CONTENT_BEGIN".toList = { st with readingContent := true, buffer := [] } := by
  simp [loadLine]

theorem loadLine_end (st : LoadState) (f : Pos) (hf : st.lastFile = some f) :
    loadLine st "CONTENT_END".toList
      = { root := st.root.updateNode (VFSNode.setContent st.buffer) f,
          readingContent := false, lastFile := none, buffer := [] } := by
  have h1 : ("NODE ".toList.isPrefixOf "CONTENT_END".toList) = false := by decide
  have h2 : ¬ "CONTENT_END".toList = "CONTENT_BEGIN".toList := by decide
  simp only [loadLine, h1, Bool.false_eq_true, if_false, h2, if_true, hf]

theorem words_header (kind perms path : Str) (hk : IsWord kind) (hperms : IsWord perms)
    (hpath : IsWord path) :
    words ("NODE ".toList ++ (kind ++ " ".toList) ++ perms ++ " ".toList ++ path)
      = ["NODE".toList, kind, perms, path] := by
  have e : "NODE ".toList ++ (kind ++ " ".toList) ++ perms ++ " ".toList ++ path
      = "NODE".toList ++ ' ' :: (kind ++ ' ' :: (perms ++ ' ' :: path)) := by
    simp
  have hn : IsWord "NODE".toList := ⟨by decide, by decide⟩
  rw [e, words_word_space _ _ hn, words_word_space _ _ hk, words_word_space _ _ hperms,
    words_word _ hpath]

theorem header_starts_node (rest : Str) :
    "NODE ".toList.isPrefixOf ("NODE ".toList ++ rest) = true := by
  simp [List.isPrefixOf]

theorem loadLine_dir (st : LoadState) (perms path : Str) (hr : st.readingContent = false)
    (hperms : IsWord perms) (hpath : IsWord path) :
    loadLine st ("NODE ".toList ++ "DIR ".toList ++ perms ++ " ".toList ++ path)
      = ⟨VFSNode.updateNode (VFSNode.setPermissions perms) (ensureDirectory st.root path).1
            (ensureDirectory st.root path).2, false, st.lastFile, st.buffer⟩ := by
  have hw := words_header "DIR".toList perms path ⟨by decide, by decide⟩ hperms hpath
  have e : "NODE ".toList ++ ("DIR".toList ++ " ".toList) = "NODE ".toList ++ "DIR ".toList :=
    rfl
  rw [e] at hw
  have hp : "NODE ".toList.isPrefixOf
      ("NODE ".toList ++ "DIR ".toList ++ perms ++ " ".toList ++ path) = true := by
    simp only [List.append_assoc]
    exact header_starts_node _
  simp only [loadLine, hp, if_true, hw, hr, List.getD_cons_succ, List.getD_cons_zero]

theorem loadLine_file (st : LoadState) (perms path : Str) (hr : st.readingContent = false)
    (hperms : IsWord perms) (hpath : IsWord path) :
    loadLine st ("NODE ".toList ++ "FILE ".toList ++ perms ++ " ".toList ++ path)
      = ⟨VFSNode.updateNode (VFSNode.setPermissions perms) (createFileAtPath st.root path).1
            (createFileAtPath st.root path).2, false,
          some (createFileAtPath st.root path).2, st.buffer⟩ := by
  have hw := words_header "FILE".toList perms path ⟨by decide, by decide⟩ hperms hpath
  have e : "NODE ".toList ++ ("FILE".toList ++ " ".toList)
      = "NODE ".toList ++ "FILE ".toList := rfl
  rw [e] at hw
  have hp : "NODE ".toList.isPrefixOf
      ("NODE ".toList ++ "FILE ".toList ++ perms ++ " ".toList ++ path) = true := by
    simp only [List.append_assoc]
    exact header_starts_node _
  have hne : ¬ "FILE".toList = "DIR".toList := by decide
  simp only [loadLine, hp, if_true, hw, hr, List.getD_cons_succ, List.getD_cons_zero, hne,
    if_false]

theorem ensureDirectory_found (root : VFSNode) (ns : List Str) (q : Pos)
    (hns : ∀ n ∈ ns, properName n = true) (hw : walk root [] ns = some q) :
    ensureDirectory root (slashJoin ns) = (root, q) := by
  by_cases hne : ns = []
  · subst hne
    obtain rfl : [] = q := Option.some.inj hw
    rfl
  · have h2 := slashJoin_length ns hns hne
    have h3 : ¬ (slashJoin ns = [] ∨ slashJoin ns = "/".toList) := by
      rintro (e | e) <;> rw [e] at h2 <;> simp at h2
    simp only [ensureDirectory, h3, if_false]
    rw [splitPath_slashJoin ns hns]
    have := ensureLoop_walk root ns []
      (fun p hp => (properName_spec p (hns p hp)).2.2.1) [] q hw
    rw [List.append_nil] at this
    rw [this]
    rfl

theorem ensureDirectory_create (root : VFSNode) (ns : List Str) (name : Str) (q : Pos)
    (n : VFSNode) (hns : ∀ m ∈ ns, properName m = true) (hname : properName name = true)
    (hw : walk root [] ns = some q) (hn : root.getNode q = some n)
    (hf : n.findChild name = none) :
    ensureDirectory root (slashJoin (ns ++ [name]))
      = (root.updateNode
          (VFSNode.pushChild (.mk name NodeType.Directory [] [] "rwx".toList)) q,
         q ++ [n.getChildren.length]) := by
  have hall : ∀ m ∈ ns ++ [name], properName m = true := by
    intro m hm
    rcases List.mem_append.mp hm with h | h
    · exact hns m h
    · rw [List.mem_singleton.mp h]; exact hname
  have h2 := slashJoin_length (ns ++ [name]) hall (by simp)
  have h3 : ¬ (slashJoin (ns ++ [name]) = [] ∨ slashJoin (ns ++ [name]) = "/".toList) := by
    rintro (e | e) <;> rw [e] at h2 <;> simp at h2
  simp only [ensureDirectory, h3, if_false]
  rw [splitPath_slashJoin _ hall,
    ensureLoop_walk root ns [name] (fun p hp => (properName_spec p (hns p hp)).2.2.1) [] q hw,
    ensureLoop_create root q n name hn hf]

theorem createFileAtPath_create (root : VFSNode) (ns : List Str) (name : Str) (q : Pos)
    (n : VFSNode) (hns : ∀ m ∈ ns, properName m = true) (hname : properName name = true)
    (hw : walk root [] ns = some q) (hn : root.getNode q = some n)
    (hf : n.findChild name = none) :
    createFileAtPath root (slashJoin (ns ++ [name]))
      = (root.updateNode
          (VFSNode.pushChild (.mk name NodeType.File [] [] "rw-".toList)) q,
         q ++ [n.getChildren.length]) := by
  obtain ⟨_, _, _, hslash, _⟩ := properName_spec name hname
  have hl := findLastOf_append_delim '/' (slashJoin ns) name hslash
  simp only [createFileAtPath, leafNameOf, slashJoin_append, hl, List.take_left,
    List.drop_left', ensureDirectory_found root ns q hns hw, hn, hf]
  have h := VFSNode.updateNode_after_push (VFSNode.setPermissions "rw-".toList)
    (VFSNode.new name NodeType.File) root q n hn
  have e : VFSNode.addFile name = VFSNode.pushChild (VFSNode.new name NodeType.File) := rfl
  have hd : List.drop ((slashJoin ns).length + 1) (slashJoin ns ++ '/' :: name) = name := by
    rw [show slashJoin ns ++ '/' :: name = (slashJoin ns ++ ['/']) ++ name by simp]
    exact List.drop_left' (by simp)
  rw [hd]
  simp only [hf]
  rw [e, h]
  rfl

end VirtualFileSystem

namespace VirtualFileSystem

theorem savable_mk (name : Str) (t : NodeType) (cs : List VFSNode) (c p : Str) :
    VFSNode.savable (.mk name t cs c p)
      = (properName name && properPerms p && properContent c
          && (match t with
              | NodeType.File => cs.isEmpty
              | NodeType.Directory => c.isEmpty)
          && decide ((cs.map VFSNode.getName).Nodup) && VFSNode.savableList cs) := by
  simp only [VFSNode.savable]

theorem savableList_cons (c : VFSNode) (cs : List VFSNode) :
    VFSNode.savableList (c :: cs) = (VFSNode.savable c && VFSNode.savableList cs) := by
  simp only [VFSNode.savableList]

theorem saveChildren_nil (path : Str) : saveChildren [] path = [] := by
  simp only [saveChildren]

theorem saveChildren_cons (c : VFSNode) (cs : List VFSNode) (path : Str) :
    saveChildren (c :: cs) path = saveNodeRecursive false c path ++ saveChildren cs path := by
  simp only [saveChildren]

theorem saveNodeRecursive_dir (name : Str) (cs : List VFSNode) (c p path : Str) :
    saveNodeRecursive false (.mk name NodeType.Directory cs c p) path
      = (("NODE ".toList ++ "DIR ".toList ++ p ++ " ".toList
          ++ ((if path ≠ "/".toList then path ++ "/".toList else path) ++ name))
        ++ "\n".toList)
        ++ saveChildren cs ((if path ≠ "/".toList then path ++ "/".toList else path) ++ name)
    := by
  simp only [saveNodeRecursive]
  simp

theorem saveNodeRecursive_file (name : Str) (cs : List VFSNode) (c p path : Str) :
    saveNodeRecursive false (.mk name NodeType.File cs c p) path
      = (("NODE ".toList ++ "FILE ".toList ++ p ++ " ".toList
          ++ ((if path ≠ "/".toList then path ++ "/".toList else path) ++ name))
        ++ "\n".toList)
        ++ (("CONTENT_BEGIN".toList ++ "\n".toList)
          ++ (c ++ (("CONTENT_END".toList ++ "\n".toList)
            ++ saveChildren cs
              ((if path ≠ "/".toList then path ++ "/".toList else path) ++ name)))) := by
  simp only [saveNodeRecursive]
  simp

theorem saveNodeRecursive_root (name : Str) (cs : List VFSNode) (c p path : Str) :
    saveNodeRecursive true (.mk name NodeType.Directory cs c p) path
      = (("NODE ".toList ++ "DIR ".toList ++ p ++ " ".toList ++ path) ++ "\n".toList)
        ++ saveChildren cs path := by
  simp only [saveNodeRecursive]
  simp

mutual
/-- The text that `saveNodeRecursive` writes ends in a newline. -/
theorem endsLine_saveNodeRecursive : ∀ (b : Bool) (n : VFSNode) (path : Str),
    EndsLine (saveNodeRecursive b n path)
  | b, .mk name t cs c p, path => by
    simp only [saveNodeRecursive]
    apply endsLine_append
    · apply endsLine_append
      · exact endsLine_line _
      · split
        · exact Or.inr ⟨"CONTENT_BEGIN\n".toList ++ c ++ "CONTENT_END".toList,
            (List.append_assoc _ "CONTENT_END".toList ['\n']).symm⟩
        · exact Or.inl rfl
    · exact endsLine_saveChildren cs _
/-- The text that the loop over the children writes is empty or ends in a newline. -/
theorem endsLine_saveChildren : ∀ (cs : List VFSNode) (path : Str),
    EndsLine (saveChildren cs path)
  | [], path => Or.inl (saveChildren_nil path)
  | c :: cs, path => by
    rw [saveChildren_cons]
    exact endsLine_append _ _ (endsLine_saveNodeRecursive false c path)
      (endsLine_saveChildren cs path)
end

theorem header_no_newline (kind perms path : Str) (hk : '\n' ∉ kind) (hperms : IsWord perms)
    (hpath : IsWord path) :
    '\n' ∉ "NODE ".toList ++ kind ++ perms ++ " ".toList ++ path := by
  have hs : isspace '\n' = true := by decide
  have h1 : '\n' ∉ perms := fun h => by
    have := hperms.2 _ h
    rw [hs] at this
    cases this
  have h2 : '\n' ∉ path := fun h => by
    have := hpath.2 _ h
    rw [hs] at this
    cases this
  have h3 : '\n' ∉ "NODE ".toList := by decide
  have h4 : '\n' ∉ " ".toList := by decide
  simp only [List.mem_append, not_or]
  exact ⟨⟨⟨⟨h3, hk⟩, h1⟩, h4⟩, h2⟩

theorem walk_pushed (root : VFSNode) (ns : List Str) (q : Pos) (n x : VFSNode) (name : Str)
    (hw : walk root [] ns = some q) (hn : root.getNode q = some n)
    (hf : n.findChild name = none) (hx : x.getName = name) (hname : name ≠ "..".toList) :
    walk (root.updateNode (VFSNode.pushChild x) q) [] (ns ++ [name])
      = some (q ++ [n.getChildren.length]) := by
  rw [walk_append, walk_push x root q n hn ns [] q hw, Option.some_bind,
    walk_cons_child _ _ _ _ hname]
  simp only [stepChild, VFSNode.getNode_updateNode_same, hn, Option.map_some',
    Option.some_bind, VFSNode.findChild, VFSNode.pushChild_getChildren]
  have hf2 : VFSNode.findIn n.getChildren name = none := hf
  rw [VFSNode.findIn_append_none _ _ _ hf2, if_pos hx]
  rfl

theorem getNode_pushed_last (root : VFSNode) (q : Pos) (n x : VFSNode)
    (hn : root.getNode q = some n) :
    (root.updateNode (VFSNode.pushChild x) q).getNode (q ++ [n.getChildren.length])
      = some x := by
  rw [VFSNode.getNode_updateNode_below, hn, Option.some_bind, VFSNode.getNode_cons,
    VFSNode.pushChild_getChildren]
  simp

/-- Pushes onto a child that was itself just pushed. -/
theorem foldl_push_below (cs : List VFSNode) (root : VFSNode) (q : Pos) (n x : VFSNode)
    (hn : root.getNode q = some n) :
    cs.foldl (fun r c => r.updateNode (VFSNode.pushChild c) (q ++ [n.getChildren.length]))
        (root.updateNode (VFSNode.pushChild x) q)
      = root.updateNode (VFSNode.pushChild (x.setChildren (x.getChildren ++ cs))) q := by
  induction cs generalizing x with
  | nil => cases x; simp [VFSNode.setChildren]
  | cons c cs ih =>
    rw [List.foldl_cons, VFSNode.updateNode_after_push _ _ _ _ n hn, ih]
    cases x
    simp [VFSNode.setChildren]

theorem foldl_push_root (cs : List VFSNode) (root : VFSNode) :
    cs.foldl (fun r c => r.updateNode (VFSNode.pushChild c) []) root
      = root.setChildren (root.getChildren ++ cs) := by
  induction cs generalizing root with
  | nil => cases root; simp [VFSNode.setChildren]
  | cons c cs ih =>
    rw [List.foldl_cons, ih]
    cases root
    simp [VFSNode.setChildren]

mutual
/-- Reading back what `saveNodeRecursive` wrote for a savable node whose parent is there
and has no child of that name yet: the node is appended to the parent. -/
theorem feed_saveNodeRecursive : ∀ (n : VFSNode) (st : LoadState) (ns : List Str) (q : Pos)
    (par : VFSNode), n.savable = true → (∀ m ∈ ns, properName m = true) →
    st.readingContent = false → walk st.root [] ns = some q →
    st.root.getNode q = some par → par.findChild n.getName = none →
    (feed st (saveNodeRecursive false n (pathOf ns))).readingContent = false ∧
      (feed st (saveNodeRecursive false n (pathOf ns))).root
        = st.root.updateNode (VFSNode.pushChild n) q
  | .mk name t cs c p, st, ns, q, par, hs, hns, hr, hw, hq, hf => by
    rw [savable_mk] at hs
    simp only [Bool.and_eq_true, decide_eq_true_eq] at hs
    obtain ⟨⟨⟨⟨⟨hname, hperms⟩, hcontent⟩, hkind⟩, hnodup⟩, hkids⟩ := hs
    have hf2 : par.findChild name = none := hf
    have hpw := properPerms_spec p hperms
    have hall : ∀ m ∈ ns ++ [name], properName m = true := by
      intro m hm
      rcases List.mem_append.mp hm with h | h
      · exact hns m h
      · rw [List.mem_singleton.mp h]; exact hname
    have hfw := slashJoin_word (ns ++ [name]) hall (by simp)
    have hpath : pathOf (ns ++ [name]) = slashJoin (ns ++ [name]) := by
      simp [pathOf]
    cases t with
    | Directory =>
      have hc : c = [] := List.isEmpty_iff.mp hkind
      subst hc
      rw [saveNodeRecursive_dir, fullPath_eq ns name hns, feed_append _ _ _ (endsLine_line _),
        feed_line _ _ (header_no_newline "DIR ".toList p _ (by decide) hpw hfw),
        loadLine_dir st p _ hr hpw hfw,
        ensureDirectory_create st.root ns name q par hns hname hw hq hf2,
        VFSNode.updateNode_after_push _ _ _ _ par hq, ← hpath]
      have ih := feed_saveChildren cs
        ⟨st.root.updateNode (VFSNode.pushChild
          (VFSNode.setPermissions p (.mk name NodeType.Directory [] [] "rwx".toList))) q,
          false, st.lastFile, st.buffer⟩
        (ns ++ [name]) (q ++ [par.getChildren.length])
        (VFSNode.setPermissions p (.mk name NodeType.Directory [] [] "rwx".toList))
        hkids hnodup hall rfl
        (walk_pushed st.root ns q par _ name hw hq hf2 rfl (properName_spec name hname).2.2.1)
        (getNode_pushed_last st.root q par _ hq)
        (fun _ _ => rfl)
      refine ⟨ih.1, ?_⟩
      rw [ih.2, foldl_push_below cs st.root q par _ hq]
      rfl
    | File =>
      have hc : cs = [] := List.isEmpty_iff.mp hkind
      subst hc
      obtain ⟨hce, _⟩ := properContent_spec c hcontent
      rw [saveNodeRecursive_file, fullPath_eq ns name hns, saveChildren_nil,
        List.append_nil, feed_append _ _ _ (endsLine_line _),
        feed_line _ _ (header_no_newline "FILE ".toList p _ (by decide) hpw hfw),
        loadLine_file st p _ hr hpw hfw,
        createFileAtPath_create st.root ns name q par hns hname hw hq hf2,
        VFSNode.updateNode_after_push _ _ _ _ par hq,
        feed_append _ _ _ (endsLine_line _), feed_line _ _ (by decide), loadLine_begin,
        feed_append _ _ _ hce, feed_content _ _ rfl hcontent,
        feed_line _ _ (by decide), loadLine_end _ (q ++ [par.getChildren.length]) rfl]
      refine ⟨rfl, ?_⟩
      show VFSNode.updateNode _ (VFSNode.updateNode _ st.root q) _ = _
      rw [VFSNode.updateNode_after_push _ _ _ _ par hq]
      rfl
/-- Reading back what the loop over the children wrote: the children are appended in
order. -/
theorem feed_saveChildren : ∀ (cs : List VFSNode) (st : LoadState) (ns : List Str) (q : Pos)
    (par : VFSNode), VFSNode.savableList cs = true → (cs.map VFSNode.getName).Nodup →
    (∀ m ∈ ns, properName m = true) → st.readingContent = false →
    walk st.root [] ns = some q → st.root.getNode q = some par →
    (∀ c ∈ cs, par.findChild c.getName = none) →
    (feed st (saveChildren cs (pathOf ns))).readingContent = false ∧
      (feed st (saveChildren cs (pathOf ns))).root
        = cs.foldl (fun r c => r.updateNode (VFSNode.pushChild c) q) st.root
  | [], st, ns, q, par, _, _, _, hr, _, _, _ => by
    rw [saveChildren_nil, feed_nil]
    exact ⟨hr, rfl⟩
  | c :: cs, st, ns, q, par, hs, hnodup, hns, hr, hw, hq, hf => by
    rw [savableList_cons, Bool.and_eq_true] at hs
    rw [List.map_cons, List.nodup_cons] at hnodup
    have h1 := feed_saveNodeRecursive c st ns q par hs.1 hns hr hw hq (hf c (by simp))
    rw [saveChildren_cons, feed_append _ _ _ (endsLine_saveNodeRecursive false c _)]
    have h2 := feed_saveChildren cs (feed st (saveNodeRecursive false c (pathOf ns))) ns q
      (VFSNode.pushChild c par) hs.2 hnodup.2 hns h1.1
      (by rw [h1.2]; exact walk_push c st.root q par hq ns [] q hw)
      (by rw [h1.2, VFSNode.getNode_updateNode_same, hq]; rfl)
      (by
        intro c' hc'
        have hn : par.findChild c'.getName = none := hf c' (by simp [hc'])
        have hn2 : VFSNode.findIn par.getChildren c'.getName = none := hn
        show VFSNode.findIn (VFSNode.pushChild c par).getChildren c'.getName = none
        rw [VFSNode.pushChild_getChildren, VFSNode.findIn_append_none _ _ _ hn2]
        have hne : ¬ c.getName = c'.getName := by
          intro e
          exact hnodup.1 (by rw [e]; exact List.mem_map_of_mem _ hc')
        rw [if_neg hne])
    refine ⟨h2.1, ?_⟩
    rw [h2.2, h1.2, List.foldl_cons]
end

end VirtualFileSystem

namespace VirtualFileSystem

theorem savableRoot_mk (name : Str) (t : NodeType) (cs : List VFSNode) (c p : Str) :
    VFSNode.savableRoot (.mk name t cs c p)
      = (name == "/".toList && t == NodeType.Directory && c.isEmpty && properPerms p
          && decide ((cs.map VFSNode.getName).Nodup) && VFSNode.savableList cs) := rfl

/-- Loading the text that `save` writes for a savable tree gives the tree again, with
`current` at the root. -/
theorem load_save_eq (fs saved : VirtualFileSystem)
    (h : saved.root.savableRoot = true) :
    load fs (some (save saved)) = ⟨saved.root, some []⟩ := by
  obtain ⟨root, cur⟩ := saved
  obtain ⟨name, t, cs, c, p⟩ := root
  rw [savableRoot_mk] at h
  simp only [Bool.and_eq_true, beq_iff_eq, decide_eq_true_eq, List.isEmpty_iff] at h
  obtain ⟨⟨⟨⟨⟨rfl, rfl⟩, rfl⟩, hperms⟩, hnodup⟩, hkids⟩ := h
  have hpw := properPerms_spec p hperms
  have hslash : IsWord "/".toList := ⟨by decide, by decide⟩
  have h0 : load fs (some (saveNodeRecursive true
      (.mk "/".toList NodeType.Directory cs [] p) "/".toList))
      = ⟨match (feed ⟨(VFSNode.new "/".toList NodeType.Directory).setPermissions
              "rwx".toList, false, none, []⟩
            (saveNodeRecursive true (.mk "/".toList NodeType.Directory cs [] p)
              "/".toList)).readingContent,
          (feed ⟨(VFSNode.new "/".toList NodeType.Directory).setPermissions
              "rwx".toList, false, none, []⟩
            (saveNodeRecursive true (.mk "/".toList NodeType.Directory cs [] p)
              "/".toList)).lastFile with
          | true, some f =>
            (feed ⟨(VFSNode.new "/".toList NodeType.Directory).setPermissions
              "rwx".toList, false, none, []⟩
            (saveNodeRecursive true (.mk "/".toList NodeType.Directory cs [] p)
              "/".toList)).root.updateNode
              (VFSNode.setContent (feed ⟨(VFSNode.new "/".toList
                NodeType.Directory).setPermissions "rwx".toList, false, none, []⟩
                (saveNodeRecursive true (.mk "/".toList NodeType.Directory cs [] p)
                  "/".toList)).buffer) f
          | _, _ =>
            (feed ⟨(VFSNode.new "/".toList NodeType.Directory).setPermissions
              "rwx".toList, false, none, []⟩
            (saveNodeRecursive true (.mk "/".toList NodeType.Directory cs [] p)
              "/".toList)).root,
        some []⟩ := rfl
  have hfeed : feed ⟨(VFSNode.new "/".toList NodeType.Directory).setPermissions
        "rwx".toList, false, none, []⟩
        (saveNodeRecursive true (.mk "/".toList NodeType.Directory cs [] p) "/".toList)
      = feed ⟨.mk "/".toList NodeType.Directory [] [] p, false, none, []⟩
          (saveChildren cs (pathOf [])) := by
    rw [saveNodeRecursive_root, feed_append _ _ _ (endsLine_line _),
      feed_line _ _ (header_no_newline "DIR ".toList p _ (by decide) hpw hslash),
      loadLine_dir _ p _ rfl hpw hslash]
    rfl
  have ih := feed_saveChildren cs ⟨.mk "/".toList NodeType.Directory [] [] p, false, none, []⟩
    [] [] (.mk "/".toList NodeType.Directory [] [] p) hkids hnodup (by simp) rfl rfl rfl
    (fun _ _ => rfl)
  show load fs (some (saveNodeRecursive true
      (.mk "/".toList NodeType.Directory cs [] p) "/".toList)) = _
  rw [h0, hfeed, ih.1, ih.2, foldl_push_root]
  rfl

/-- C1, amended (round trip of `save` and `load`): for every tree whose root is a directory
called `/` without content and in which sibling names are unique, files have no children,
directories have no content, every name below the root is non-empty, is not `.` or `..` and
has no `/` and no white space, every permission string is non-empty without white space,
and every content is empty or ends in a newline and has no line that is `CONTENT_BEGIN` or
`CONTENT_END` or starts with `NODE `, loading the text that `save` writes gives exactly
that tree again, with `current` at the root. -/
theorem load_save_round_trip (fs saved : VirtualFileSystem)
    (h : saved.root.savableRoot = true) :
    load fs (some (save saved)) = ⟨saved.root, some []⟩ :=
  load_save_eq fs saved h

end VirtualFileSystem

/-! ## Evaluation at concrete inputs -/

section Evaluation

open VirtualFileSystem Scenario

set_option maxRecDepth 100000

/-- Counterexample to C1 (round trip), at the input `touch f`, `write f` with the body line
`CONTENT_END`, `save`, `load`: the file holds `CONTENT_END\n` before saving and is empty
after loading, so the loaded tree is not the saved one. -/
theorem save_load_drops_sentinel_body :
    cmdTouch init "f".toList = some ⟨true, [], touchedFs⟩ ∧
    cmdWrite touchedFs "f".toList ["CONTENT_END".toList, ".end".toList]
      = some ⟨true, "Enter text. End with .end\n".toList, sentinelFs⟩ ∧
    (sentinelFs.root.getNode [0]).map VFSNode.getContent = some "CONTENT_END\n".toList ∧
    ((load sentinelFs (some (save sentinelFs))).root.getNode [0]).map VFSNode.getContent
      = some [] ∧
    load sentinelFs (some (save sentinelFs)) ≠ sentinelFs := by
  decide

/-- The paths of the form `/name` at `cmdMkdir` and `cmdTouch`, at `mkdir /a` and at
`touch /t` issued from `/home`: each command succeeds, the new node is made under `/home`
(position `[0, 0]`) and not under the root, and the path does not resolve afterwards. -/
theorem mkdir_rooted_leaf_lands_in_current :
    cmdMkdir init "home".toList = some ⟨true, [], { homeFs with current := some [] }⟩ ∧
    cmdCd { homeFs with current := some [] } "home".toList = some ⟨true, [], homeFs⟩ ∧
    cmdMkdir homeFs "/a".toList = some ⟨true, [], homeWithAFs⟩ ∧
    homeWithAFs.root.getNode [0, 0] = some (dir "a" "rwx" []) ∧
    resolvePath homeWithAFs "/a".toList = some none ∧
    cmdTouch homeFs "/t".toList = some ⟨true, [], homeWithTFs⟩ ∧
    homeWithTFs.root.getNode [0, 0] = some (file "t" "" "rw-") ∧
    resolvePath homeWithTFs "/t".toList = some none := by
  decide

/-- The paths of the form `/name` at `cmdCp`, at `cp ../n /g` issued from `/home`: the copy
succeeds, the new file is made under `/home` (position `[1, 0]`), and `/g` does not resolve
afterwards. -/
theorem cp_rooted_leaf_lands_in_current :
    resolvePath besideFs "../n".toList = some (some [0]) ∧
    cmdCp 1 besideFs "../n".toList "/g".toList = some ⟨true, [], besideWithGFs⟩ ∧
    besideWithGFs.root.getNode [1, 0] = some (file "g" "old\n" "rw-") ∧
    resolvePath besideWithGFs "/g".toList = some none := by
  decide

/-- Witness of C1, amended: the tree `/a/b.txt` holding `hi`, saved with `current` at `/a`,
is savable and is loaded again as it was, with `current` at the root. -/
theorem load_save_round_trip_witness :
    (VirtualFileSystem.mk hiFs.root (some [0])).root.savableRoot = true ∧
    load init (some (save ⟨hiFs.root, some [0]⟩)) = ⟨hiFs.root, some []⟩ :=
  ⟨by decide, load_save_round_trip init ⟨hiFs.root, some [0]⟩ (by decide)⟩

/-- Counterexample to C2 (creation, then resolution), at `mkdir .` and at `touch .` on the
fresh engine: each command succeeds and makes a child of the root called `.` (position
`[0]`), while the path `.` resolves to the root itself, which is not the node just made and,
after `touch .`, is not a file. -/
theorem create_dot_resolves_to_current :
    cmdMkdir init ".".toList
      = some ⟨true, [], ⟨dir "/" "rwx" [dir "." "rwx" []], some []⟩⟩ ∧
    resolvePath ⟨dir "/" "rwx" [dir "." "rwx" []], some []⟩ ".".toList = some (some []) ∧
    resolvePath init ".".toList = some (some []) ∧
    cmdTouch init ".".toList
      = some ⟨true, [], ⟨dir "/" "rwx" [file "." "" "rw-"], some []⟩⟩ ∧
    resolvePath ⟨dir "/" "rwx" [file "." "" "rw-"], some []⟩ ".".toList = some (some []) ∧
    ((dir "/" "rwx" [file "." "" "rw-"]).getNode []).map VFSNode.getType
      = some NodeType.Directory := by
  decide

/-- Witness of C2, amended: on the fresh engine `mkdir a` and `touch a` succeed, and `a`
resolves to the node just made. -/
theorem created_path_resolves_witness :
    (∃ q, resolvePath ⟨dir "/" "rwx" [dir "a" "rwx" []], some []⟩ "a".toList
        = some (some q) ∧
      (dir "/" "rwx" [dir "a" "rwx" []]).getNode q
        = some (.mk (leafNameOf "a".toList) NodeType.Directory [] [] "rwx".toList) ∧
      init.root.getNode q = none) ∧
    (∃ q, resolvePath ⟨dir "/" "rwx" [file "a" "" "rw-"], some []⟩ "a".toList
        = some (some q) ∧
      (dir "/" "rwx" [file "a" "" "rw-"]).getNode q
        = some (.mk (leafNameOf "a".toList) NodeType.File [] [] "rw-".toList) ∧
      init.root.getNode q = none) :=
  ⟨(created_path_resolves init "a".toList (by decide) (by decide)).1
      ⟨true, [], ⟨dir "/" "rwx" [dir "a" "rwx" []], some []⟩⟩ (by decide) rfl,
    (created_path_resolves init "a".toList (by decide) (by decide)).2
      ⟨true, [], ⟨dir "/" "rwx" [file "a" "" "rw-"], some []⟩⟩ (by decide) (by decide)
      rfl⟩

/-- Counterexample to C3 (copy, then resolution), at `cp ../n .` issued from `/home`: the
copy succeeds and makes a file called `.` under `/home` (position `[1, 0]`), while the
destination `.` resolves to `/home` itself, a directory and not a node like the source
file. -/
theorem cp_dot_resolves_to_current :
    resolvePath besideFs "../n".toList = some (some [0]) ∧
    (besideFs.root.getNode [0]).map VFSNode.getType = some NodeType.File ∧
    cmdCp 1 besideFs "../n".toList ".".toList
      = some ⟨true, [],
          ⟨dir "/" "rwx" [file "n" "old\n" "rw-", dir "home" "rwx" [file "." "old\n" "rw-"]],
            some [1]⟩⟩ ∧
    resolvePath
        ⟨dir "/" "rwx" [file "n" "old\n" "rw-", dir "home" "rwx" [file "." "old\n" "rw-"]],
          some [1]⟩ ".".toList = some (some [1]) ∧
    ((dir "/" "rwx" [file "n" "old\n" "rw-",
        dir "home" "rwx" [file "." "old\n" "rw-"]]).getNode [1]).map VFSNode.getType
      = some NodeType.Directory := by
  decide

/-- Witness of C3, amended: `cp a c` on the tree `/a/b.txt` succeeds with fuel 2 and `c`
resolves to a directory with the children of `/a`. -/
theorem cmdCp_then_resolve_witness :
    ∃ src s q, resolvePath hiFs "a".toList = some (some src) ∧
      hiFs.root.getNode src = some s ∧
      resolvePath
          ⟨dir "/" "rwx" [dir "a" "rwx" [file "b.txt" "hi\n" "rw-"],
            dir "c" "rwx" [file "b.txt" "hi\n" "rw-"]], some []⟩ "c".toList
        = some (some q) ∧
      (dir "/" "rwx" [dir "a" "rwx" [file "b.txt" "hi\n" "rw-"],
          dir "c" "rwx" [file "b.txt" "hi\n" "rw-"]]).getNode q
        = some (.mk (leafNameOf "c".toList) s.getType s.getChildren s.getContent
            s.getPermissions) ∧
      hiFs.root.getNode q = none ∧
      (dir "/" "rwx" [dir "a" "rwx" [file "b.txt" "hi\n" "rw-"],
          dir "c" "rwx" [file "b.txt" "hi\n" "rw-"]]).getNode src = some s ∧
      resolvePath
          ⟨dir "/" "rwx" [dir "a" "rwx" [file "b.txt" "hi\n" "rw-"],
            dir "c" "rwx" [file "b.txt" "hi\n" "rw-"]], some []⟩ "a".toList
        = some (some src) :=
  cmdCp_then_resolve 2 hiFs "a".toList "c".toList
    ⟨true, [], ⟨dir "/" "rwx" [dir "a" "rwx" [file "b.txt" "hi\n" "rw-"],
      dir "c" "rwx" [file "b.txt" "hi\n" "rw-"]], some []⟩⟩
    (by decide) (by decide) (by decide) (by decide) rfl

/-- C4 (independence of the copy), at `cp ../n /n` issued from `/home` followed by
`write /n` with the body line `new`: the copy is made as `/home/n`, so the destination path
`/n` still resolves to the source file, and the write replaces the content of the source
(`old\n` before, `new\n` after); the copy keeps `old\n`. -/
theorem cp_rooted_leaf_write_hits_source :
    cmdCp 1 besideFs "../n".toList "/n".toList = some ⟨true, [], besideWithNFs⟩ ∧
    resolvePath besideWithNFs "../n".toList = some (some [0]) ∧
    resolvePath besideWithNFs "/n".toList = some (some [0]) ∧
    (besideWithNFs.root.getNode [0]).map VFSNode.getContent = some "old\n".toList ∧
    cmdWrite besideWithNFs "/n".toList ["new".toList, ".end".toList]
      = some ⟨true, "Enter text. End with .end\n".toList, besideWrittenFs⟩ ∧
    resolvePath besideWrittenFs "../n".toList = some (some [0]) ∧
    (besideWrittenFs.root.getNode [0]).map VFSNode.getContent = some "new\n".toList ∧
    (besideWrittenFs.root.getNode [1, 0]).map VFSNode.getContent = some "old\n".toList := by
  decide

/-- C10 (write permission on the parent), on a tree with the file `/f` and the directory
`/d` whose permissions are `r-x`: `cmdMkdir` and `cmdTouch` into `/d` are refused, but
`cmdCp("f", "d/g")` and `cmdMv("f", "d/g")` succeed and put a child into `/d`; and on the
tree `/d/sub/x` with `/d` at `r-x`, `cmdRm("d/sub")` is refused but `cmdMv("d/sub", "y")`
succeeds and takes the child out of `/d`. -/
theorem cp_mv_skip_write_check :
    (readOnlyDirFs.root.getNode [1]).map (fun d => checkPermission d 'w') = some false ∧
    cmdMkdir readOnlyDirFs "d/g".toList
      = some ⟨false, "Permission denied.\n".toList, readOnlyDirFs⟩ ∧
    cmdTouch readOnlyDirFs "d/g".toList
      = some ⟨false, "Permission denied.\n".toList, readOnlyDirFs⟩ ∧
    cmdCp 1 readOnlyDirFs "f".toList "d/g".toList
      = some ⟨true, [],
          ⟨dir "/" "rwx" [file "f" "x\n" "rw-", dir "d" "r-x" [file "g" "x\n" "rw-"]],
            some []⟩⟩ ∧
    cmdMv 1 readOnlyDirFs "f".toList "d/g".toList
      = some ⟨true, [], ⟨dir "/" "rwx" [dir "d" "r-x" [file "g" "x\n" "rw-"]], some []⟩⟩ ∧
    cmdRm lockedParentFs "d/sub".toList true
      = some ⟨false, "Permission denied.\n".toList, lockedParentFs⟩ ∧
    cmdMv 3 lockedParentFs "d/sub".toList "y".toList
      = some ⟨true, [],
          ⟨dir "/" "rwx" [dir "d" "r-x" [], dir "y" "rwx" [file "x" "" "rw-"]],
            some []⟩⟩ := by
  decide

end Evaluation

/-! ## Permissions -/

namespace VirtualFileSystem
open VFSNode

/-- C11, amended (meaning of a permission string): `checkPermission(node, c)` is true if and
only if the permission string of the node contains the character `c`, at any index.  So a
letter at its own position always grants; and for a permission string in the form of the
specification (three characters, each the letter of its position or `-`) each of `r`, `w`,
`x` is granted exactly when the letter stands at its position. -/
theorem checkPermission_contains (node : VFSNode) (c : Char) :
    (checkPermission node c = true ↔ c ∈ node.getPermissions) ∧
    (grantsAtPosition node.getPermissions c = true → checkPermission node c = true) ∧
    (canonicalPerms node.getPermissions = true → c ∈ ['r', 'w', 'x'] →
      checkPermission node c = grantsAtPosition node.getPermissions c) := by
  refine ⟨?_, ?_, ?_⟩
  · simp [checkPermission]
  · intro h
    simp only [grantsAtPosition] at h
    cases hi : capabilityIndex c with
    | none => rw [hi] at h; cases h
    | some i =>
      rw [hi] at h
      simp only [beq_iff_eq] at h
      obtain ⟨hlt, hget⟩ := List.getElem?_eq_some_iff.mp h
      have hm : c ∈ node.getPermissions := by rw [← hget]; exact List.getElem_mem _
      simpa [checkPermission] using hm
  · intro hcanon hc
    cases hp : node.getPermissions with
    | nil => rw [hp] at hcanon; cases hcanon
    | cons a l1 =>
      cases l1 with
      | nil => rw [hp] at hcanon; cases hcanon
      | cons b l2 =>
        cases l2 with
        | nil => rw [hp] at hcanon; cases hcanon
        | cons d l3 =>
          cases l3 with
          | cons e l4 => rw [hp] at hcanon; cases hcanon
          | nil =>
            rw [hp] at hcanon
            simp only [canonicalPerms, Bool.and_eq_true, Bool.or_eq_true, beq_iff_eq]
              at hcanon
            obtain ⟨⟨ha, hb⟩, hd⟩ := hcanon
            simp only [List.mem_cons, List.mem_singleton, List.not_mem_nil, or_false] at hc
            simp only [checkPermission, hp]
            rcases hc with rfl | rfl | rfl <;> rcases ha with rfl | rfl <;>
              rcases hb with rfl | rfl <;> rcases hd with rfl | rfl <;> decide

/-! ## `cmdChmod` -/

theorem ownData_updateNode_cons (f : VFSNode → VFSNode) (m : VFSNode) (i : Nat) (r : Pos) :
    (m.updateNode f (i :: r)).ownData = m.ownData ∧
      (m.updateNode f (i :: r)).getPermissions = m.getPermissions := by
  rw [updateNode_cons]
  cases hc : m.getChildren[i]? with
  | none => exact ⟨rfl, rfl⟩
  | some ch =>
    cases m with
    | mk nm t cs c p =>
      simp [ownData, setChildren]

theorem getNode_setPermissions_cons (perms : Str) (d : VFSNode) (i : Nat) (r : Pos) :
    (d.setPermissions perms).getNode (i :: r) = d.getNode (i :: r) := by
  cases d; rfl

theorem getNode_setContent_cons (content : Str) (d : VFSNode) (i : Nat) (r : Pos) :
    (d.setContent content).getNode (i :: r) = d.getNode (i :: r) := by
  cases d; rfl

/-- A `setPermissions` at one node leaves every node its name, type, content and number of
children, and every other node its permissions. -/
theorem getNode_updateNode_setPermissions (perms : Str) (root : VFSNode) (n q : Pos) :
    ((root.updateNode (setPermissions perms) n).getNode q).map ownData
        = (root.getNode q).map ownData ∧
      (q ≠ n → ((root.updateNode (setPermissions perms) n).getNode q).map getPermissions
        = (root.getNode q).map getPermissions) := by
  rcases pos_trichotomy n q with ⟨r, rfl⟩ | ⟨i, r, rfl⟩ |
    ⟨common, a, b, p', q', hab, rfl, rfl⟩
  · rw [getNode_updateNode_below, getNode_append]
    cases hn : root.getNode n with
    | none => exact ⟨rfl, fun _ => rfl⟩
    | some old =>
      simp only [Option.some_bind]
      cases r with
      | nil =>
        refine ⟨?_, fun h => absurd (by simp) h⟩
        cases old; rfl
      | cons i r =>
        rw [getNode_setPermissions_cons]
        exact ⟨rfl, fun _ => rfl⟩
  · rw [getNode_updateNode_above]
    cases hq : root.getNode q with
    | none => exact ⟨rfl, fun _ => rfl⟩
    | some m =>
      simp only [Option.map_some', (ownData_updateNode_cons _ m i r).1,
        (ownData_updateNode_cons _ m i r).2]
      exact ⟨trivial, fun _ => trivial⟩
  · rw [getNode_updateNode_beside _ _ _ _ _ _ _ hab]
    exact ⟨rfl, fun _ => rfl⟩

/-- What `cmdChmod(perms, path)` does wherever it reads no dangling `current`: with `current`
pointing at a node of the tree, or a path with a leading `/`, or a permission string not of
3 characters, it returns; it succeeds if and only if `perms` has exactly 3 characters and
the path resolves; on failure the engine is unchanged; on success `current` is unchanged,
the node that the path resolved to has the permission string `perms`, every node keeps its
name, type, content and number of children (so the same positions hold nodes), and every
other node keeps its permissions. -/
theorem cmdChmod_characterisation (fs : VirtualFileSystem) (perms path : Str)
    (hdef : CurrentValid fs ∨ path.head? = some '/' ∨ perms.length ≠ 3) :
    ∃ r, cmdChmod fs perms path = some r ∧
      (r.ok = true ↔ perms.length = 3 ∧ ∃ n, resolvePath fs path = some (some n)) ∧
      (r.ok = false → r.fs = fs) ∧
      (r.ok = true → ∃ n, resolvePath fs path = some (some n) ∧ r.fs.current = fs.current ∧
        (r.fs.root.getNode n).map getPermissions = some perms ∧
        (∀ q, (r.fs.root.getNode q).map ownData = (fs.root.getNode q).map ownData) ∧
        (∀ q, q ≠ n → (r.fs.root.getNode q).map getPermissions
          = (fs.root.getNode q).map getPermissions)) := by
  have hresolve : perms.length = 3 → ∃ o : Option Pos, resolvePath fs path = some o ∧
      ∀ t, o = some t → ∃ n, fs.root.getNode t = some n := by
    intro hlen
    rcases hdef with hcur | hhead | hne
    · exact resolvePath_of_valid fs path hcur
    · cases path with
      | nil => cases hhead
      | cons c cs =>
        have hc : c = '/' := by simpa using hhead
        subst hc
        exact ⟨walk fs.root [] (splitPath ('/' :: cs)), by simp [resolvePath],
          fun t ht => walk_valid fs.root [] _ fs.root t (getNode_nil _) ht⟩
    · exact absurd hlen hne
  by_cases hlen : perms.length = 3
  · obtain ⟨o, hres, hvalid⟩ := hresolve hlen
    cases o with
    | none =>
      refine ⟨⟨false, "chmod: no such file\n".toList, fs⟩, ?_, ?_, ?_, ?_⟩
      · simp [cmdChmod, hlen, hres]
      · simp [hres]
      · intro _; rfl
      · intro h; cases h
    | some n =>
      obtain ⟨old, hold⟩ := hvalid n rfl
      refine ⟨⟨true, [], ⟨fs.root.updateNode (setPermissions perms) n, fs.current⟩⟩,
        ?_, ?_, ?_, ?_⟩
      · simp [cmdChmod, hlen, hres]
      · simp [hres, hlen]
      · intro h; cases h
      · intro _
        refine ⟨n, hres, rfl, ?_, ?_, ?_⟩
        · show ((fs.root.updateNode (setPermissions perms) n).getNode n).map getPermissions
            = some perms
          rw [getNode_updateNode_same, hold]
          cases old; rfl
        · intro q
          exact (getNode_updateNode_setPermissions perms fs.root n q).1
        · intro q hq
          exact (getNode_updateNode_setPermissions perms fs.root n q).2 hq
  · refine ⟨⟨false, "chmod: invalid permissions\n".toList, fs⟩, ?_, ?_, ?_, ?_⟩
    · simp [cmdChmod, hlen]
    · simp [hlen]
    · intro _; rfl
    · intro h; cases h

/-! ## `splitPath` -/

theorem openItems_eq_splitOn (d : Char) (s : Str) : openItems d s = s.splitOn d := by
  induction s with
  | nil => simp [openItems, List.splitOn]
  | cons c s ih =>
    rw [openItems_cons]
    simp only [List.splitOn] at ih ⊢
    rw [List.splitOnP_cons, ← ih]
    by_cases hc : c = d
    · simp [hc]
    · have hc2 : (c == d) = false := by simpa using hc
      rw [if_neg hc, hc2]
      cases ho : openItems d s with
      | nil => exact absurd ho (openItems_ne_nil _ _)
      | cons l ls => rfl

/-- C20 (`splitPath` and resolution): `splitPath(p)` is the list, in order, of the pieces of
`p` between `/` characters without the empty pieces and the `.` pieces (`..` is kept);
`splitPath("//a/./b") = splitPath("a/b") = ["a", "b"]`; and two paths that agree on starting
with `/` and on their `splitPath` resolve alike, in every engine state. -/
theorem splitPath_spec :
    (∀ p : Str, splitPath p
      = (piecesBetweenSlashes p).filter (fun s => decide (s ≠ [] ∧ s ≠ ".".toList))) ∧
    splitPath "//a/./b".toList = ["a".toList, "b".toList] ∧
    splitPath "a/b".toList = ["a".toList, "b".toList] ∧
    splitPath "a/../b".toList = ["a".toList, "..".toList, "b".toList] ∧
    (∀ (fs : VirtualFileSystem) (p1 p2 : Str),
      (p1.head? = some '/' ↔ p2.head? = some '/') → splitPath p1 = splitPath p2 →
      resolvePath fs p1 = resolvePath fs p2) := by
  refine ⟨?_, by decide, by decide, by decide, ?_⟩
  · intro p
    rw [piecesBetweenSlashes, ← openItems_eq_splitOn, filter_openItems _ _ _ (by simp)]
    rfl
  · intro fs p1 p2 hhead hsplit
    have key : ∀ p : Str, resolvePath fs p
        = if p.head? = some '/' then some (walk fs.root [] (splitPath p))
          else fs.current.map (fun cur => walk fs.root cur (splitPath p)) := by
      intro p
      cases p with
      | nil =>
        simp only [resolvePath, List.head?_nil, if_false]
        have : splitPath [] = [] := rfl
        simp [this, walk_nil]
      | cons c cs =>
        simp only [resolvePath, List.head?_cons, Option.some.injEq]
    rw [key p1, key p2, hsplit]
    by_cases h1 : p1.head? = some '/'
    · rw [if_pos h1, if_pos (hhead.mp h1)]
    · rw [if_neg h1, if_neg (fun h2 => h1 (hhead.mpr h2))]

/-! ## The first run of `load` -/

/-- A write below the child that was just pushed onto the root is a push of the written
child. -/
theorem updateNode_pushChild_below (g : VFSNode → VFSNode) (c n : VFSNode) (r : Pos) :
    (pushChild c n).updateNode g (n.getChildren.length :: r)
      = pushChild (c.updateNode g r) n := by
  cases n with
  | mk nm t cs cont p =>
    rw [updateNode_cons]
    simp [pushChild_getChildren]

/-- Without a save file, `load` keeps the tree it finds and appends the directory `home` of
the default layout to the children of the root; `current` goes to the root. -/
theorem load_bootstrap_appends (fs : VirtualFileSystem) :
    load fs none
      = ⟨fs.root.setChildren (fs.root.getChildren ++ defaultLayout.getChildren), some []⟩ := by
  obtain ⟨root, cur⟩ := fs
  have hroot : (load ⟨root, cur⟩ none).root
      = pushChild (.mk "home".toList NodeType.Directory
          [.mk "docs".toList NodeType.Directory
            [.mk "readme.txt".toList NodeType.File [] welcome "rw-".toList] []
            "rwx".toList] [] "rwx".toList) root := by
    simp only [load, updateNode_nil, List.singleton_append, List.cons_append,
      List.nil_append, show addDirectory "home".toList
        = pushChild (VFSNode.new "home".toList NodeType.Directory) from rfl,
      updateNode_pushChild_below]
    rfl
  have hcur : (load ⟨root, cur⟩ none).current = some [] := rfl
  have : load ⟨root, cur⟩ none
      = ⟨(load ⟨root, cur⟩ none).root, (load ⟨root, cur⟩ none).current⟩ := rfl
  rw [this, hroot, hcur]
  cases root
  rfl

end VirtualFileSystem

/-! ## `copyNodeRecursive`: the result whenever it returns -/

namespace VFSNode

theorem copyTrees_set (cs : List VFSNode) (b : Nat) (ch ch' : VFSNode)
    (hb : cs[b]? = some ch) (h : copyTree ch'.getName ch' = copyTree ch.getName ch) :
    copyTrees (cs.set b ch') = copyTrees cs := by
  induction cs generalizing b with
  | nil => rfl
  | cons k cs ih =>
    cases b with
    | zero =>
      simp only [List.getElem?_cons_zero, Option.some.injEq] at hb
      subst hb
      rw [List.set_cons_zero, copyTrees_cons, copyTrees_cons, h]
    | succ b =>
      simp only [List.getElem?_cons_succ] at hb
      rw [List.set_cons_succ, copyTrees_cons, copyTrees_cons, ih b hb]

theorem getName_updateNode_cons (f : VFSNode → VFSNode) (m : VFSNode) (i : Nat) (r : Pos) :
    (m.updateNode f (i :: r)).getName = m.getName := by
  rw [updateNode_cons]
  cases m.getChildren[i]? with
  | none => rfl
  | some ch => cases m; rfl

theorem getType_updateNode_cons (f : VFSNode → VFSNode) (m : VFSNode) (i : Nat) (r : Pos) :
    (m.updateNode f (i :: r)).getType = m.getType := by
  rw [updateNode_cons]
  cases m.getChildren[i]? with
  | none => rfl
  | some ch => cases m; rfl

/-- The copy of a node does not see a write below a file of the node: a file is copied
without its children. -/
theorem copyTree_updateNode_below_file (F : VFSNode → VFSNode) (q : Pos) (a : Nat) (r : Pos) :
    ∀ (n f0 : VFSNode) (nm : Str), n.getNode q = some f0 → f0.isDirectory = false →
      copyTree nm (n.updateNode F (q ++ a :: r)) = copyTree nm n := by
  induction q with
  | nil =>
    intro n f0 nm hq hfile
    rw [getNode_nil] at hq
    obtain rfl : n = f0 := Option.some.inj hq
    have ht := VirtualFileSystem.isDirectory_eq_false n hfile
    rw [List.nil_append, updateNode_cons]
    cases n.getChildren[a]? with
    | none => rfl
    | some ch =>
      cases n with
      | mk nm0 t cs c p =>
        simp only [getType_mk] at ht
        subst ht
        simp only [setChildren, copyTree_mk]
  | cons b q ih =>
    intro n f0 nm hq hfile
    rw [getNode_cons] at hq
    cases hc : n.getChildren[b]? with
    | none => rw [hc] at hq; simp at hq
    | some ch =>
      rw [hc, Option.some_bind] at hq
      rw [List.cons_append, updateNode_cons, hc]
      have hname : (ch.updateNode F (q ++ a :: r)).getName = ch.getName := by
        cases q with
        | nil => exact getName_updateNode_cons _ _ _ _
        | cons b' q' => exact getName_updateNode_cons _ _ _ _
      have hcopy : copyTree (ch.updateNode F (q ++ a :: r)).getName
          (ch.updateNode F (q ++ a :: r)) = copyTree ch.getName ch := by
        rw [hname]; exact ih ch f0 ch.getName hq hfile
      cases n with
      | mk nm0 t cs c p =>
        simp only [getChildren_mk] at hc
        simp only [setChildren, getChildren_mk, copyTree_mk]
        cases t with
        | File => rfl
        | Directory =>
          simp only
          rw [copyTrees_set cs b ch _ hc hcopy]

end VFSNode

namespace VirtualFileSystem
open VFSNode

/-- The loop of `copyNodeRecursive`, given what each of its turns does when it returns. -/
theorem copyLoop_steps (fuel : Nat) (root : VFSNode) (src dst newNode : Pos) (nm : Str)
    (s : VFSNode) (m start : Nat)
    (hstep : ∀ i, start ≤ i → i < start + m → ∀ y,
      copyLoopBody fuel src newNode
        (root.updateNode (pushChild (partialCopy nm s i)) dst) i = some y →
      y = root.updateNode (pushChild (partialCopy nm s (i + 1))) dst)
    (r : VFSNode)
    (h : (List.range' start m).foldlM (copyLoopBody fuel src newNode)
        (root.updateNode (pushChild (partialCopy nm s start)) dst) = some r) :
    r = root.updateNode (pushChild (partialCopy nm s (start + m))) dst := by
  induction m generalizing start with
  | zero =>
    simp only [List.range'_zero, List.foldlM_nil] at h
    cases h; rfl
  | succ m ih =>
    rw [List.range'_succ, List.foldlM_cons] at h
    cases hbody : copyLoopBody fuel src newNode
        (root.updateNode (pushChild (partialCopy nm s start)) dst) start with
    | none => rw [hbody] at h; simp at h
    | some y =>
      rw [hbody] at h
      simp only [Option.bind_eq_bind, Option.some_bind] at h
      rw [hstep start (Nat.le_refl _) (by omega) y hbody] at h
      have := ih (start + 1) (fun i h1 h2 => hstep i (by omega) (by omega)) h
      have e : start + 1 + m = start + (m + 1) := by omega
      rw [e] at this
      exact this

/-- One turn of the loop of `copyNodeRecursive` on a child that does not hold the new node:
it pushes the copy of the child. -/
theorem copyLoop_turn_beside (fuel : Nat) (root : VFSNode) (src dst : Pos) (nm : Str)
    (s d : VFSNode) (hs : root.getNode src = some s) (hd : root.getNode dst = some d)
    (i : Nat) (hi : i < s.getChildren.length)
    (hnot : ¬ (src ++ [i]) <+: (dst ++ [d.getChildren.length])) (y : VFSNode)
    (hy : copyLoopBody fuel src (dst ++ [d.getChildren.length])
      (root.updateNode (pushChild (partialCopy nm s i)) dst) i = some y) :
    y = root.updateNode (pushChild (partialCopy nm s (i + 1))) dst := by
  have hk : s.getChildren[i]? = some s.getChildren[i] := List.getElem?_eq_getElem hi
  have hread : (root.updateNode (pushChild (partialCopy nm s i)) dst).getNode (src ++ [i])
      = some s.getChildren[i] := by
    apply getNode_after_push
    · rw [getNode_append, hs, Option.some_bind, getNode_cons, hk]; simp
    · exact fun hp => hnot (snoc_extends _ _ _ hp)
  simp only [copyLoopBody, hread] at hy
  have := copyNodeRecursive_eq fuel _ _ _ _ _ _ _ hread
    (getNode_pushed_child _ root dst d hd) hnot hy
  rw [this, updateNode_after_push _ _ root dst d hd, pushChild_partialCopy _ _ _ _ hk]

theorem isDirectory_pushChild (c n : VFSNode) : (pushChild c n).isDirectory = n.isDirectory := by
  cases n; rfl

/-- Whenever `copyNodeRecursive(src, dst, newName)` returns, with `dst` a directory, it has
pushed the copy of the source, as the source was before the call, onto `dst` and changed
nothing else.  (When `dst` lies inside the source the call returns only if a file stands
between them, and the copy of that file does not hold what lies below it.) -/
theorem copyNodeRecursive_result (fuel : Nat) (root : VFSNode) (src dst : Pos) (nm : Str)
    (s d r : VFSNode) (hs : root.getNode src = some s) (hd : root.getNode dst = some d)
    (hddir : d.isDirectory = true) (h : copyNodeRecursive fuel root src dst nm = some r) :
    r = root.updateNode (pushChild (copyTree nm s)) dst := by
  induction fuel generalizing root src dst nm s d r with
  | zero => rw [copyNodeRecursive_zero] at h; cases h
  | succ fuel ih =>
    by_cases hpre : src <+: dst
    · by_cases hdir : s.isDirectory = true
      · obtain ⟨rest, rfl⟩ := hpre
        cases rest with
        | nil =>
          exfalso
          rw [List.append_nil] at hd h
          have hnone := copyNodeRecursive_into_itself (fuel + 1) root src src nm
            (List.prefix_refl _) (fun q h1 h2 => by
              have hq : q = src := h2.eq_of_length_le h1.length_le
              subst hq
              exact ⟨s, hs, hdir⟩)
          rw [hnone] at h
          cases h
        | cons j rest =>
          have hchild : ∃ k, s.getChildren[j]? = some k := by
            rw [getNode_append, hs, Option.some_bind, getNode_cons] at hd
            cases hk : s.getChildren[j]? with
            | none => rw [hk] at hd; simp at hd
            | some k => exact ⟨k, rfl⟩
          obtain ⟨k, hk⟩ := hchild
          have hkroot : root.getNode (src ++ [j]) = some k := by
            rw [getNode_append, hs, Option.some_bind, getNode_cons, hk]; simp
          have hdk : k.getNode rest = some d := by
            have e : src ++ j :: rest = (src ++ [j]) ++ rest := by simp
            rw [e, getNode_append, hkroot, Option.some_bind] at hd
            exact hd
          have hs2 : (root.updateNode (pushChild (partialCopy nm s 0))
              (src ++ j :: rest)).getNode src
              = some (s.updateNode (pushChild (partialCopy nm s 0)) (j :: rest)) := by
            rw [getNode_updateNode_above, hs]; rfl
          rw [copyNodeRecursive_dir fuel root src _ nm s d hs hd hdir, hs2] at h
          simp only at h
          rw [getChildren_updateNode_cons _ s j rest k hk, List.length_set,
            List.range_eq_range'] at h
          have hsteps := copyLoop_steps fuel root src (src ++ j :: rest)
            (src ++ j :: rest ++ [d.getChildren.length]) nm s s.getChildren.length 0
            (fun i _ hi y hy => by
              by_cases hij : i = j
              · subst hij
                have hcur : (root.updateNode (pushChild (partialCopy nm s i))
                    (src ++ i :: rest)).getNode (src ++ [i])
                    = some (k.updateNode (pushChild (partialCopy nm s i)) rest) := by
                  have e : src ++ i :: rest = (src ++ [i]) ++ rest := by simp
                  rw [e, getNode_updateNode_above, hkroot]; rfl
                have hnew : (root.updateNode (pushChild (partialCopy nm s i))
                    (src ++ i :: rest)).getNode (src ++ i :: rest ++ [d.getChildren.length])
                    = some (partialCopy nm s i) :=
                  getNode_pushed_child _ root _ d hd
                simp only [copyLoopBody, hcur] at hy
                have hname : (k.updateNode (pushChild (partialCopy nm s i)) rest).getName
                    = k.getName := getName_updateNode _ (pushChild_getName _) k rest
                rw [hname] at hy
                have hy2 := ih _ _ _ _ _ _ _ hcur hnew rfl hy
                have hsame : copyTree k.getName
                    (k.updateNode (pushChild (partialCopy nm s i)) rest)
                    = copyTree k.getName k := by
                  by_cases hall : ∀ q, (src ++ [i]) <+: q →
                      q <+: (src ++ i :: rest ++ [d.getChildren.length]) →
                      ∃ n, (root.updateNode (pushChild (partialCopy nm s i))
                        (src ++ i :: rest)).getNode q = some n ∧ n.isDirectory = true
                  · exfalso
                    have hnone := copyNodeRecursive_into_itself fuel _ (src ++ [i])
                      (src ++ i :: rest ++ [d.getChildren.length]) k.getName
                      ⟨rest ++ [d.getChildren.length], by simp⟩ hall
                    rw [hnone] at hy
                    cases hy
                  · push_neg at hall
                    obtain ⟨q, h1, h2, h3⟩ := hall
                    rcases prefix_snoc_cases _ _ _ h2 with h4 | h4
                    · obtain ⟨r1, rfl⟩ := h1
                      obtain ⟨r2, hr2⟩ := h4
                      have hrest : rest = r1 ++ r2 := by
                        have : src ++ [i] ++ (r1 ++ r2) = src ++ [i] ++ rest := by
                          rw [← List.append_assoc, hr2]; simp
                        exact (List.append_cancel_left this).symm
                      subst hrest
                      have hq0 : ∃ n0, k.getNode r1 = some n0 :=
                        getNode_of_append k r1 r2 d hdk
                      obtain ⟨n0, hn0⟩ := hq0
                      have hq0root : root.getNode (src ++ [i] ++ r1) = some n0 := by
                        rw [getNode_append, hkroot, Option.some_bind, hn0]
                      obtain ⟨n', hn', hty⟩ := getNode_push_above (partialCopy nm s i) root
                        (src ++ i :: (r1 ++ r2)) (src ++ [i] ++ r1) n0 hq0root
                        ⟨r2, by simp⟩
                      have hfile : n0.isDirectory = false := by
                        have := h3 n' hn'
                        simp only [isDirectory, hty] at this
                        simpa [isDirectory] using this
                      cases r2 with
                      | nil =>
                        exfalso
                        rw [List.append_nil] at hdk
                        rw [hdk] at hn0
                        cases hn0
                        rw [hddir] at hfile
                        cases hfile
                      | cons a r2 =>
                        exact copyTree_updateNode_below_file _ r1 a r2 k n0 _ hn0 hfile
                    · exfalso
                      subst h4
                      exact h3 _ hnew rfl
                rw [hy2, hsame, updateNode_after_push _ _ root _ d hd,
                  pushChild_partialCopy _ _ _ _ hk]
              · exact copyLoop_turn_beside fuel root src (src ++ j :: rest) nm s d hs hd i
                  (by omega) (fun hp => by
                    rw [List.append_assoc, List.cons_append] at hp
                    exact hij (snoc_prefix_snoc src i j _ hp)) y hy)
            r h
          rw [hsteps, Nat.zero_add, partialCopy_full nm s hdir]
      · have hfile : s.isDirectory = false := by simpa using hdir
        rw [copyNodeRecursive_file fuel root src dst nm s d hs hd hfile] at h
        cases h; rfl
    · exact copyNodeRecursive_eq (fuel + 1) root src dst nm s d r hs hd hpre h

end VirtualFileSystem

/-! ## `copyNodeRecursive`: when it returns -/

namespace VFSNode

theorem height_mk (nm : Str) (t : NodeType) (cs : List VFSNode) (c p : Str) :
    height (.mk nm t cs c p) = heightList cs + 1 := by
  simp only [height]

theorem heightList_cons (c : VFSNode) (cs : List VFSNode) :
    heightList (c :: cs) = max (height c) (heightList cs) := by
  simp only [heightList]

theorem height_le_heightList (cs : List VFSNode) (i : Nat) (k : VFSNode)
    (h : cs[i]? = some k) : k.height ≤ heightList cs := by
  induction cs generalizing i with
  | nil => simp at h
  | cons c cs ih =>
    rw [heightList_cons]
    cases i with
    | zero =>
      simp only [List.getElem?_cons_zero, Option.some.injEq] at h
      subst h
      exact Nat.le_max_left _ _
    | succ i =>
      simp only [List.getElem?_cons_succ] at h
      exact (ih i h).trans (Nat.le_max_right _ _)

theorem height_child (s : VFSNode) (i : Nat) (k : VFSNode) (h : s.getChildren[i]? = some k) :
    k.height < s.height := by
  cases s with
  | mk nm t cs c p =>
    rw [height_mk]
    exact Nat.lt_succ_of_le (height_le_heightList cs i k h)

theorem height_pos (s : VFSNode) : 0 < s.height := by
  cases s; rw [height_mk]; omega

end VFSNode

namespace VirtualFileSystem
open VFSNode

/-- The loop of `copyNodeRecursive`, given that each of its turns returns. -/
theorem copyLoop_runs (fuel : Nat) (root : VFSNode) (src dst newNode : Pos) (nm : Str)
    (s : VFSNode) (m start : Nat)
    (hstep : ∀ i, start ≤ i → i < start + m →
      copyLoopBody fuel src newNode
        (root.updateNode (pushChild (partialCopy nm s i)) dst) i
        = some (root.updateNode (pushChild (partialCopy nm s (i + 1))) dst)) :
    (List.range' start m).foldlM (copyLoopBody fuel src newNode)
        (root.updateNode (pushChild (partialCopy nm s start)) dst)
      = some (root.updateNode (pushChild (partialCopy nm s (start + m))) dst) := by
  induction m generalizing start with
  | zero => simp
  | succ m ih =>
    rw [List.range'_succ, List.foldlM_cons, hstep start (Nat.le_refl _) (by omega)]
    simp only [Option.bind_eq_bind, Option.some_bind]
    rw [ih (start + 1) (fun i h1 h2 => hstep i (by omega) (by omega))]
    have e : start + 1 + m = start + (m + 1) := by omega
    rw [e]

/-- When the destination is not the source or inside it, `copyNodeRecursive` returns within
a recursion budget of the height of the source, with the copy of the source pushed onto the
destination. -/
theorem copyNodeRecursive_returns (fuel : Nat) (root : VFSNode) (src dst : Pos) (nm : Str)
    (s d : VFSNode) (hs : root.getNode src = some s) (hd : root.getNode dst = some d)
    (hnot : ¬ src <+: dst) (hfuel : s.height ≤ fuel) :
    copyNodeRecursive fuel root src dst nm
      = some (root.updateNode (pushChild (copyTree nm s)) dst) := by
  induction fuel generalizing root src dst nm s d with
  | zero => have := height_pos s; omega
  | succ fuel ih =>
    by_cases hdir : s.isDirectory = true
    · rw [copyNodeRecursive_dir fuel root src dst nm s d hs hd hdir,
        getNode_after_push _ root dst src s hs hnot]
      simp only
      rw [List.range_eq_range', copyLoop_runs fuel root src dst _ nm s s.getChildren.length 0
        (fun i _ hi => by
          have hilen : i < s.getChildren.length := by omega
          have hk : s.getChildren[i]? = some s.getChildren[i] :=
            List.getElem?_eq_getElem hilen
          have hnot2 : ¬ (src ++ [i]) <+: (dst ++ [d.getChildren.length]) := by
            intro hp
            rcases prefix_snoc_cases _ _ _ hp with h1 | h1
            · exact hnot ((List.prefix_append _ _).trans h1)
            · have := List.append_inj' h1 rfl
              exact hnot ⟨[], by rw [List.append_nil]; exact this.1⟩
          have hread : (root.updateNode (pushChild (partialCopy nm s i)) dst).getNode
              (src ++ [i]) = some s.getChildren[i] := by
            apply getNode_after_push
            · rw [getNode_append, hs, Option.some_bind, getNode_cons, hk]; simp
            · exact fun hp => hnot ((List.prefix_append _ _).trans hp)
          simp only [copyLoopBody, hread]
          rw [ih _ _ _ _ _ _ hread (getNode_pushed_child _ root dst d hd) hnot2
            (by have := height_child s i _ hk; omega),
            updateNode_after_push _ _ root dst d hd, pushChild_partialCopy _ _ _ _ hk]),
        Nat.zero_add, partialCopy_full nm s hdir]
    · have hfile : s.isDirectory = false := by simpa using hdir
      exact copyNodeRecursive_file fuel root src dst nm s d hs hd hfile

end VirtualFileSystem

/-! ## Failure leaves the engine as it was -/

namespace VirtualFileSystem
open VFSNode

theorem cmdCd_fail (fs : VirtualFileSystem) (path : Str) (r : Result)
    (h : cmdCd fs path = some r) (hok : r.ok = false) : r.fs = fs := by
  unfold cmdCd at h
  repeat' split at h
  all_goals (cases h <;> first | rfl | cases hok)

theorem cmdMkdir_fail (fs : VirtualFileSystem) (path : Str) (r : Result)
    (h : cmdMkdir fs path = some r) (hok : r.ok = false) : r.fs = fs := by
  unfold cmdMkdir at h
  repeat' split at h
  all_goals (cases h <;> first | rfl | cases hok)

theorem cmdTouch_fail (fs : VirtualFileSystem) (path : Str) (r : Result)
    (h : cmdTouch fs path = some r) (hok : r.ok = false) : r.fs = fs := by
  unfold cmdTouch at h
  repeat' split at h
  all_goals (cases h <;> first | rfl | cases hok)

theorem cmdRm_fail (fs : VirtualFileSystem) (path : Str) (recursive : Bool) (r : Result)
    (h : cmdRm fs path recursive = some r) (hok : r.ok = false) : r.fs = fs := by
  unfold cmdRm at h
  repeat' split at h
  all_goals (cases h <;> first | rfl | cases hok)

theorem cmdCat_same (fs : VirtualFileSystem) (path : Str) (r : Result)
    (h : cmdCat fs path = some r) : r.fs = fs := by
  unfold cmdCat at h
  repeat' split at h
  all_goals (cases h <;> rfl)

theorem cmdCp_fail (fuel : Nat) (fs : VirtualFileSystem) (src dst : Str) (r : Result)
    (h : cmdCp fuel fs src dst = some r) (hok : r.ok = false) : r.fs = fs := by
  unfold cmdCp at h
  repeat' split at h
  all_goals (cases h <;> first | rfl | cases hok)

theorem cmdMv_fail (fuel : Nat) (fs : VirtualFileSystem) (src dst : Str) (r : Result)
    (h : cmdMv fuel fs src dst = some r) (hok : r.ok = false) : r.fs = fs := by
  unfold cmdMv at h
  repeat' split at h
  all_goals (cases h <;> first | rfl | cases hok)

theorem cmdChmod_fail (fs : VirtualFileSystem) (perms path : Str) (r : Result)
    (h : cmdChmod fs perms path = some r) (hok : r.ok = false) : r.fs = fs := by
  unfold cmdChmod at h
  repeat' split at h
  all_goals (cases h <;> first | rfl | cases hok)

theorem writeInto_fail (fs : VirtualFileSystem) (out : Str) (p : Pos) (input : List Str)
    (r : Result) (h : writeInto fs out p input = some r) (hok : r.ok = false) : r.fs = fs := by
  unfold writeInto at h
  repeat' split at h
  all_goals (cases h <;> first | rfl | cases hok)

/-- What a successful `writeInto` went through. -/
theorem writeInto_ok (fs : VirtualFileSystem) (out : Str) (p : Pos) (input : List Str)
    (r : Result) (h : writeInto fs out p input = some r) (hok : r.ok = true) :
    ∃ node buffer, fs.root.getNode p = some node ∧ node.isFile = true ∧
      r.fs = ⟨fs.root.updateNode (setContent buffer) p, fs.current⟩ := by
  unfold writeInto at h
  cases hn : fs.root.getNode p with
  | none => rw [hn] at h; cases h
  | some node =>
    rw [hn] at h
    simp only at h
    cases hf : node.isFile with
    | false => simp only [hf, Bool.not_false, if_true] at h; cases h; cases hok
    | true =>
      simp only [hf, Bool.not_true, Bool.false_eq_true, if_false] at h
      split at h
      · cases h; cases hok
      · split at h
        · cases h
        · rename_i buffer _
          cases h
          exact ⟨node, buffer, rfl, hf, rfl⟩

/-- `resolvePath` as one walk: from the root for a path that starts with `/`, from `current`
otherwise. -/
theorem resolvePath_eq_walk (fs : VirtualFileSystem) (p : Str) :
    resolvePath fs p
      = if p.head? = some '/' then some (walk fs.root [] (splitPath p))
        else fs.current.map (fun cur => walk fs.root cur (splitPath p)) := by
  cases p with
  | nil =>
    simp only [resolvePath, List.head?_nil, if_false]
    have : splitPath [] = [] := rfl
    simp [this, walk_nil]
  | cons c cs =>
    simp only [resolvePath, List.head?_cons, Option.some.injEq]

theorem splitPath_of_no_slash (leaf : Str) (h : '/' ∉ leaf) :
    splitPath leaf = if leaf = [] ∨ leaf = ".".toList then [] else [leaf] := by
  simp only [splitPath]
  rw [getlineItems_of_not_mem '/' leaf h]
  by_cases h1 : leaf = []
  · simp [h1]
  · by_cases h2 : leaf = ".".toList
    · have h2' : leaf = ['.'] := h2
      simp [h1, h2']
    · have h2' : ¬ leaf = ['.'] := h2
      simp [h1, h2']

/-- The walk over the parts of a leaf that is empty, `.` or `..` always arrives. -/
theorem walk_improper_leaf (root : VFSNode) (q : Pos) (leaf : Str) (hs : '/' ∉ leaf)
    (h : ¬ (leaf ≠ [] ∧ leaf ≠ ".".toList ∧ leaf ≠ "..".toList)) :
    ∃ q', walk root q (splitPath leaf) = some q' := by
  rw [splitPath_of_no_slash leaf hs]
  by_cases h1 : leaf = [] ∨ leaf = ".".toList
  · rw [if_pos h1]; exact ⟨q, rfl⟩
  · rw [if_neg h1]
    have h2 : leaf = "..".toList := by
      by_contra h2
      exact h ⟨fun e => h1 (Or.inl e), fun e => h1 (Or.inr e), h2⟩
    rw [h2, walk_cons_up]
    exact ⟨_, rfl⟩

theorem parentPathOf_ne_nil (path : Str) (i : Nat) (h : findLastOf '/' path = some i)
    (hi : i ≠ 0) : parentPathOf path ≠ [] := by
  intro e
  have hd := path_eq_parent_slash_leaf path i h
  rw [e, List.nil_append] at hd
  have := findLastOf_append_delim '/' [] (leafNameOf path) hd.2
  rw [List.nil_append, ← hd.1, h] at this
  simp at this
  exact hi this

/-- A path whose leaf is empty, `.` or `..`, and that is not of the form `/name`, resolves
whenever the parent pointer of the commands is not null. -/
theorem resolvePath_improper_leaf (fs : VirtualFileSystem) (path : Str) (par : Pos)
    (hleaf : ¬ ProperLeaf path) (hrooted : ¬ RootedLeaf path)
    (hptr : parentPtr fs path = some (some par)) :
    ∃ q, resolvePath fs path = some (some q) := by
  unfold parentPtr at hptr
  cases hl : findLastOf '/' path with
  | none =>
    obtain ⟨h1, h2⟩ := leafNameOf_of_no_slash path hl
    rw [if_pos h2] at hptr
    have hs : '/' ∉ path := (findLastOf_eq_none _ _).mp hl
    cases hc : fs.current with
    | none => rw [hc] at hptr; cases hptr
    | some cur =>
      have hhead : ¬ path.head? = some '/' := by
        intro e
        cases path with
        | nil => cases e
        | cons c cs =>
          simp only [List.head?_cons, Option.some.injEq] at e
          exact hs (by rw [e]; exact List.mem_cons_self _ _)
      rw [resolvePath_eq_walk, if_neg hhead, hc]
      have hl2 : ¬ (path ≠ [] ∧ path ≠ ".".toList ∧ path ≠ "..".toList) := by
        intro e; apply hleaf; unfold ProperLeaf; rw [h1]; exact e
      obtain ⟨q', hq'⟩ := walk_improper_leaf fs.root cur path hs hl2
      exact ⟨q', by simp [hq']⟩
  | some i =>
    have hi : i ≠ 0 := fun e => hrooted (by unfold RootedLeaf; rw [hl, e])
    have hne := parentPathOf_ne_nil path i hl hi
    rw [if_neg hne] at hptr
    obtain ⟨hd, hs⟩ := path_eq_parent_slash_leaf path i hl
    have hsplit : splitPath path
        = splitPath (parentPathOf path) ++ splitPath (leafNameOf path) := by
      conv_lhs => rw [hd]
      exact splitPath_append_slash _ _
    have hhead : path.head? = (parentPathOf path).head? := by
      conv_lhs => rw [hd]
      cases hpp : parentPathOf path with
      | nil => exact absurd hpp hne
      | cons c cs => rfl
    rw [resolvePath_eq_walk] at hptr ⊢
    rw [hhead, hsplit]
    by_cases hh : (parentPathOf path).head? = some '/'
    · rw [if_pos hh] at hptr ⊢
      have hw : walk fs.root [] (splitPath (parentPathOf path)) = some par :=
        Option.some.inj hptr
      obtain ⟨q', hq'⟩ := walk_improper_leaf fs.root par (leafNameOf path) hs hleaf
      exact ⟨q', by rw [walk_append, hw, Option.some_bind, hq']⟩
    · rw [if_neg hh] at hptr ⊢
      cases hc : fs.current with
      | none => rw [hc] at hptr; cases hptr
      | some cur =>
        rw [hc] at hptr
        have hw : walk fs.root cur (splitPath (parentPathOf path)) = some par := by
          simpa using hptr
        obtain ⟨q', hq'⟩ := walk_improper_leaf fs.root par (leafNameOf path) hs hleaf
        exact ⟨q', by simp [walk_append, hw, hq']⟩

/-- After `cmdTouch` has made a file for a path that did not resolve, the path resolves to
nothing or to that file. -/
theorem resolvePath_after_touch (fs : VirtualFileSystem) (path : Str) (par p : Pos)
    (parent c : VFSNode) (hres0 : resolvePath fs path = some none)
    (hptr : parentPtr fs path = some (some par)) (hpar : fs.root.getNode par = some parent)
    (hfind : parent.findChild (leafNameOf path) = none) (hname : c.getName = leafNameOf path)
    (hres1 : resolvePath ⟨fs.root.updateNode (pushChild c) par, fs.current⟩ path
      = some (some p)) :
    p = par ++ [parent.getChildren.length] := by
  by_cases hrooted : RootedLeaf path
  · have hl : findLastOf '/' path = some 0 := hrooted
    obtain ⟨hd, hs⟩ := path_eq_parent_slash_leaf path 0 hl
    have hpp : parentPathOf path = [] := by simp [parentPathOf, hl]
    rw [hpp, List.nil_append] at hd
    have hsplit : splitPath path = splitPath (leafNameOf path) := by
      conv_lhs => rw [hd]
      have := splitPath_append_slash [] (leafNameOf path)
      rw [List.nil_append] at this
      rw [this]
      rfl
    have hhead : path.head? = some '/' := by rw [hd]; rfl
    unfold parentPtr at hptr
    rw [if_pos hpp] at hptr
    rw [resolvePath_eq_walk, if_pos hhead, hsplit] at hres0 hres1
    have hw0 : walk fs.root [] (splitPath (leafNameOf path)) = none := by
      simpa using hres0
    have hw1 : walk (fs.root.updateNode (pushChild c) par) [] (splitPath (leafNameOf path))
        = some p := by simpa using hres1
    by_cases hleaf : leafNameOf path ≠ [] ∧ leafNameOf path ≠ ".".toList ∧
        leafNameOf path ≠ "..".toList
    · rw [splitPath_of_no_slash _ hs, if_neg (fun e => e.elim hleaf.1 hleaf.2.1),
        walk_cons_child _ _ _ _ hleaf.2.2] at hw0 hw1
      simp only [stepChild, getNode_nil, Option.some_bind, walk_nil] at hw0 hw1
      cases par with
      | nil =>
        rw [getNode_nil] at hpar
        obtain rfl : fs.root = parent := Option.some.inj hpar
        rw [updateNode_nil] at hw1
        have : (pushChild c fs.root).findChild (leafNameOf path)
            = some fs.root.getChildren.length := by
          show findIn (pushChild c fs.root).getChildren _ = _
          rw [pushChild_getChildren, findIn_append_none _ _ _ hfind, if_pos hname]
        rw [this] at hw1
        simpa using hw1.symm
      | cons i rest =>
        exfalso
        have hsame : (fs.root.updateNode (pushChild c) (i :: rest)).findChild
            (leafNameOf path) = fs.root.findChild (leafNameOf path) :=
          findChild_congr _ _ _
            (childNames_updateNode_cons _ (pushChild_getName c) fs.root i rest)
        rw [hsame] at hw1
        cases hf : fs.root.findChild (leafNameOf path) with
        | none => rw [hf] at hw1; simp at hw1
        | some j => rw [hf] at hw0; simp at hw0
    · exfalso
      obtain ⟨q', hq'⟩ := walk_improper_leaf fs.root [] (leafNameOf path) hs hleaf
      rw [hq'] at hw0
      cases hw0
  · by_cases hleaf : ProperLeaf path
    · have := resolvePath_pushed fs path par parent c hleaf hrooted hptr hpar hfind hname
      rw [this] at hres1
      simpa using hres1.symm
    · exfalso
      obtain ⟨q, hq⟩ := resolvePath_improper_leaf fs path par hleaf hrooted hptr
      rw [hq] at hres0
      cases hres0

theorem cmdWrite_fail (fs : VirtualFileSystem) (path : Str) (input : List Str) (r : Result)
    (h : cmdWrite fs path input = some r) (hok : r.ok = false) : r.fs = fs := by
  unfold cmdWrite at h
  cases hres : resolvePath fs path with
  | none => rw [hres] at h; cases h
  | some o =>
    cases o with
    | some p =>
      rw [hres] at h
      exact writeInto_fail fs [] p input r h hok
    | none =>
      rw [hres] at h
      simp only at h
      cases ht : cmdTouch fs path with
      | none => rw [ht] at h; cases h
      | some r1 =>
        rw [ht] at h
        simp only at h
        cases hok1 : r1.ok with
        | false =>
          simp only [hok1, Bool.not_false, if_true, Option.some.injEq] at h
          rw [← h]
          exact cmdTouch_fail fs path r1 ht hok1
        | true =>
          simp only [hok1, Bool.not_true, Bool.false_eq_true, if_false] at h
          obtain ⟨par, parent, hptr, hpar, -, hcase⟩ := cmdTouch_ok fs path r1 ht hok1
          rcases hcase with ⟨-, rfl⟩ | ⟨hfind, -, rfl⟩
          · simp only [hres] at h
            cases h
          · cases hres1 : resolvePath ⟨fs.root.updateNode
                (pushChild (.mk (leafNameOf path) NodeType.File [] [] "rw-".toList)) par,
                fs.current⟩ path with
            | none => simp only [hres1] at h; cases h
            | some o1 =>
              cases o1 with
              | none => simp only [hres1] at h; cases h
              | some p =>
                simp only [hres1] at h
                have hp := resolvePath_after_touch fs path par p parent
                  (.mk (leafNameOf path) NodeType.File [] [] "rw-".toList) hres hptr hpar
                  hfind rfl hres1
                subst hp
                exfalso
                unfold writeInto at h
                simp only [getNode_pushed_child _ fs.root par parent hpar] at h
                have h1 : (VFSNode.mk (leafNameOf path) NodeType.File [] []
                    "rw-".toList).isFile = true := rfl
                have h2 : checkPermission (VFSNode.mk (leafNameOf path) NodeType.File [] []
                    "rw-".toList) 'w' = true := by
                  simp only [checkPermission, getPermissions_mk]
                  decide
                simp only [h1, h2, Bool.not_true, Bool.false_eq_true, if_false] at h
                split at h
                · cases h
                · cases h; cases hok

end VirtualFileSystem

/-! ## What the commands change in the tree -/

namespace VirtualFileSystem
open VFSNode

/-- C17 (failure atomicity): whenever one of `cmdCd`, `cmdMkdir`, `cmdTouch`, `cmdRm`,
`cmdCat`, `cmdWrite`, `cmdCp`, `cmdMv`, `cmdChmod` returns failure, the tree and `current`
are exactly as before the call. -/
theorem failure_leaves_engine_unchanged (fs : VirtualFileSystem) :
    (∀ path r, cmdCd fs path = some r → r.ok = false → r.fs = fs) ∧
    (∀ path r, cmdMkdir fs path = some r → r.ok = false → r.fs = fs) ∧
    (∀ path r, cmdTouch fs path = some r → r.ok = false → r.fs = fs) ∧
    (∀ path recursive r, cmdRm fs path recursive = some r → r.ok = false → r.fs = fs) ∧
    (∀ path r, cmdCat fs path = some r → r.ok = false → r.fs = fs) ∧
    (∀ path input r, cmdWrite fs path input = some r → r.ok = false → r.fs = fs) ∧
    (∀ fuel src dst r, cmdCp fuel fs src dst = some r → r.ok = false → r.fs = fs) ∧
    (∀ fuel src dst r, cmdMv fuel fs src dst = some r → r.ok = false → r.fs = fs) ∧
    (∀ perms path r, cmdChmod fs perms path = some r → r.ok = false → r.fs = fs) :=
  ⟨fun path r h hok => cmdCd_fail fs path r h hok,
    fun path r h hok => cmdMkdir_fail fs path r h hok,
    fun path r h hok => cmdTouch_fail fs path r h hok,
    fun path recursive r h hok => cmdRm_fail fs path recursive r h hok,
    fun path r h _ => cmdCat_same fs path r h,
    fun path input r h hok => cmdWrite_fail fs path input r h hok,
    fun fuel src dst r h hok => cmdCp_fail fuel fs src dst r h hok,
    fun fuel src dst r h hok => cmdMv_fail fuel fs src dst r h hok,
    fun perms path r h hok => cmdChmod_fail fs perms path r h hok⟩

theorem cmdCd_root (fs : VirtualFileSystem) (path : Str) (r : Result)
    (h : cmdCd fs path = some r) : r.fs.root = fs.root := by
  unfold cmdCd at h
  repeat' split at h
  all_goals (cases h <;> rfl)

theorem cmdRm_root (fs : VirtualFileSystem) (path : Str) (recursive : Bool) (r : Result)
    (h : cmdRm fs path recursive = some r) :
    r.fs.root = fs.root ∨
      ∃ par name, r.fs.root = fs.root.updateNode (removeChild name) par := by
  unfold cmdRm at h
  repeat' split at h
  all_goals (cases h <;> first | exact Or.inl rfl | exact Or.inr ⟨_, _, rfl⟩)

theorem cmdChmod_root (fs : VirtualFileSystem) (perms path : Str) (r : Result)
    (h : cmdChmod fs perms path = some r) :
    r.fs.root = fs.root ∨
      ∃ n, resolvePath fs path = some (some n) ∧
        r.fs.root = fs.root.updateNode (setPermissions perms) n := by
  unfold cmdChmod at h
  split at h
  · cases h; exact Or.inl rfl
  · cases hres : resolvePath fs path with
    | none => rw [hres] at h; cases h
    | some o =>
      cases o with
      | none => rw [hres] at h; cases h; exact Or.inl rfl
      | some n => rw [hres] at h; cases h; exact Or.inr ⟨n, rfl, rfl⟩

theorem mutations_preserve (b : Bool) (I : VFSNode → Prop)
    (hstep : ∀ x y, Mutation b x y → I x → I y) (x y : VFSNode)
    (h : Relation.ReflTransGen (Mutation b) x y) (hx : I x) : I y := by
  induction h with
  | refl => exact hx
  | tail _ hlast ih => exact hstep _ _ hlast ih

theorem cmdMkdir_mutations (b : Bool) (fs : VirtualFileSystem) (path : Str) (r : Result)
    (h : cmdMkdir fs path = some r) : Relation.ReflTransGen (Mutation b) fs.root r.fs.root := by
  cases hok : r.ok with
  | false => rw [cmdMkdir_fail fs path r h hok]
  | true =>
    obtain ⟨par, parent, -, hpar, hdir, hfind, -, rfl⟩ := cmdMkdir_ok fs path r h hok
    exact Relation.ReflTransGen.single (Mutation.leaf _ par parent _ _ _ hpar hdir hfind)

theorem cmdTouch_mutations (b : Bool) (fs : VirtualFileSystem) (path : Str) (r : Result)
    (h : cmdTouch fs path = some r) : Relation.ReflTransGen (Mutation b) fs.root r.fs.root := by
  cases hok : r.ok with
  | false => rw [cmdTouch_fail fs path r h hok]
  | true =>
    obtain ⟨par, parent, -, hpar, hdir, hcase⟩ := cmdTouch_ok fs path r h hok
    rcases hcase with ⟨-, rfl⟩ | ⟨hfind, -, rfl⟩
    · exact Relation.ReflTransGen.refl
    · exact Relation.ReflTransGen.single (Mutation.leaf _ par parent _ _ _ hpar hdir hfind)

theorem cmdRm_mutations (b : Bool) (fs : VirtualFileSystem) (path : Str) (recursive : Bool)
    (r : Result) (h : cmdRm fs path recursive = some r) :
    Relation.ReflTransGen (Mutation b) fs.root r.fs.root := by
  rcases cmdRm_root fs path recursive r h with e | ⟨par, name, e⟩
  · rw [e]
  · rw [e]; exact Relation.ReflTransGen.single (Mutation.remove _ par name)

theorem writeInto_mutations (b : Bool) (fs : VirtualFileSystem) (out : Str) (p : Pos)
    (input : List Str) (r : Result) (h : writeInto fs out p input = some r) :
    Relation.ReflTransGen (Mutation b) fs.root r.fs.root := by
  cases hok : r.ok with
  | false => rw [writeInto_fail fs out p input r h hok]
  | true =>
    obtain ⟨node, buffer, hn, hfile, e⟩ := writeInto_ok fs out p input r h hok
    rw [e]
    exact Relation.ReflTransGen.single (Mutation.content _ p node buffer hn hfile)

theorem cmdWrite_mutations (b : Bool) (fs : VirtualFileSystem) (path : Str)
    (input : List Str) (r : Result) (h : cmdWrite fs path input = some r) :
    Relation.ReflTransGen (Mutation b) fs.root r.fs.root := by
  unfold cmdWrite at h
  cases hres : resolvePath fs path with
  | none => rw [hres] at h; cases h
  | some o =>
    cases o with
    | some p =>
      rw [hres] at h
      exact writeInto_mutations b fs [] p input r h
    | none =>
      rw [hres] at h
      simp only at h
      cases ht : cmdTouch fs path with
      | none => rw [ht] at h; cases h
      | some r1 =>
        rw [ht] at h
        simp only at h
        have h1 := cmdTouch_mutations b fs path r1 ht
        cases hok1 : r1.ok with
        | false =>
          simp only [hok1, Bool.not_false, if_true, Option.some.injEq] at h
          rw [← h]
          exact h1
        | true =>
          simp only [hok1, Bool.not_true, Bool.false_eq_true, if_false] at h
          cases hres1 : resolvePath r1.fs path with
          | none => rw [hres1] at h; cases h
          | some o1 =>
            cases o1 with
            | none => rw [hres1] at h; cases h
            | some p =>
              rw [hres1] at h
              exact h1.trans (writeInto_mutations b r1.fs r1.out p input r h)

theorem cmdCp_mutations (b : Bool) (fuel : Nat) (fs : VirtualFileSystem) (src dst : Str)
    (r : Result) (h : cmdCp fuel fs src dst = some r) :
    Relation.ReflTransGen (Mutation b) fs.root r.fs.root := by
  cases hok : r.ok with
  | false => rw [cmdCp_fail fuel fs src dst r h hok]
  | true =>
    obtain ⟨sp, s, par, parent, root1, -, hs, -, -, hpar, hdir, hfind, hcopy, rfl⟩ :=
      cmdCp_ok fuel fs src dst r h hok
    have := copyNodeRecursive_result fuel fs.root sp par _ s parent root1 hs hpar hdir hcopy
    subst this
    exact Relation.ReflTransGen.single (Mutation.copy _ sp s par parent _ hs hpar hdir hfind)

theorem cmdMv_mutations (b : Bool) (fuel : Nat) (fs : VirtualFileSystem) (src dst : Str)
    (r : Result) (h : cmdMv fuel fs src dst = some r) :
    Relation.ReflTransGen (Mutation b) fs.root r.fs.root := by
  cases hok : r.ok with
  | false => rw [cmdMv_fail fuel fs src dst r h hok]
  | true =>
    obtain ⟨sp, oldParent, par, parent, root1, s1, old, -, -, -, hpar, hdir, hfind, hcopy, -,
      -, rfl⟩ := cmdMv_ok fuel fs src dst r h hok
    obtain ⟨s, d, hs, -⟩ := copyNodeRecursive_some fuel fs.root sp par _ root1 hcopy
    have := copyNodeRecursive_result fuel fs.root sp par _ s parent root1 hs hpar hdir hcopy
    subst this
    exact (Relation.ReflTransGen.single
      (Mutation.copy _ sp s par parent _ hs hpar hdir hfind)).tail
      (Mutation.remove _ oldParent s1.getName)

theorem cmdChmod_mutations (b : Bool) (fs : VirtualFileSystem) (perms path : Str) (r : Result)
    (hb : b = true → resolvePath fs path ≠ some (some []))
    (h : cmdChmod fs perms path = some r) :
    Relation.ReflTransGen (Mutation b) fs.root r.fs.root := by
  rcases cmdChmod_root fs perms path r h with e | ⟨n, hres, e⟩
  · rw [e]
  · rw [e]
    exact Relation.ReflTransGen.single (Mutation.perms _ n perms (fun hbt hn => by
      subst hn; exact hb hbt hres))

/-- Every command changes the tree by a sequence of mutations; with `keepRoot` when the
operation cannot write the permissions of the root. -/
theorem result_mutations (b : Bool) (op : Op) (fs : VirtualFileSystem) (r : Result)
    (hop : ∀ file, op ≠ Op.load file) (hb : b = true → keepsRootPermissions op fs)
    (h : op.result fs = some r) : Relation.ReflTransGen (Mutation b) fs.root r.fs.root := by
  cases op with
  | cd path => rw [cmdCd_root fs path r h]
  | mkdir path => exact cmdMkdir_mutations b fs path r h
  | touch path => exact cmdTouch_mutations b fs path r h
  | rm path recursive => exact cmdRm_mutations b fs path recursive r h
  | cat path => rw [cmdCat_same fs path r h]
  | write path input => exact cmdWrite_mutations b fs path input r h
  | cp fuel src dst => exact cmdCp_mutations b fuel fs src dst r h
  | mv fuel src dst => exact cmdMv_mutations b fuel fs src dst r h
  | chmod perms path => exact cmdChmod_mutations b fs perms path r hb h
  | load file => exact absurd rfl (hop file)

end VirtualFileSystem

/-! ## What `load` changes in the tree it builds -/

namespace VirtualFileSystem
open VFSNode

theorem ensureLoop_growth (parts : List Str) :
    ∀ (root : VFSNode) (node : Pos),
      Relation.ReflTransGen Growth root (ensureLoop root node parts).1 := by
  induction parts with
  | nil => intro root node; exact Relation.ReflTransGen.refl
  | cons part parts ih =>
    intro root node
    simp only [ensureLoop]
    cases hn : root.getNode node with
    | none => exact Relation.ReflTransGen.refl
    | some n =>
      simp only
      cases hf : n.findChild part with
      | some i => exact ih root _
      | none =>
        simp only
        have e : (root.updateNode (addDirectory part) node).updateNode
            (setPermissions "rwx".toList) (node ++ [n.getChildren.length])
            = root.updateNode
              (pushChild (.mk part NodeType.Directory [] [] "rwx".toList)) node := by
          rw [show addDirectory part = pushChild (VFSNode.new part NodeType.Directory)
            from rfl, updateNode_after_push _ _ root node n hn]
          rfl
        rw [e]
        exact (Relation.ReflTransGen.single
          (Growth.push root node n part _ _ hn hf)).trans (ih _ _)

theorem ensureDirectory_growth (root : VFSNode) (dirPath : Str) :
    Relation.ReflTransGen Growth root (ensureDirectory root dirPath).1 := by
  unfold ensureDirectory
  split
  · exact Relation.ReflTransGen.refl
  · exact ensureLoop_growth _ _ _

theorem createFileAtPath_growth (root : VFSNode) (filePath : Str) :
    Relation.ReflTransGen Growth root (createFileAtPath root filePath).1 := by
  unfold createFileAtPath
  simp only
  generalize hres : ensureDirectory root _ = res
  have h1 : Relation.ReflTransGen Growth root res.1 := by
    rw [← hres]; exact ensureDirectory_growth _ _
  obtain ⟨root1, parent⟩ := res
  simp only at h1 ⊢
  cases hp : root1.getNode parent with
  | none => exact h1
  | some par =>
    simp only
    cases hf : par.findChild (leafNameOf filePath) with
    | some i => exact h1
    | none =>
      simp only
      have e : (root1.updateNode (addFile (leafNameOf filePath)) parent).updateNode
          (setPermissions "rw-".toList) (parent ++ [par.getChildren.length])
          = root1.updateNode
            (pushChild (.mk (leafNameOf filePath) NodeType.File [] [] "rw-".toList))
            parent := by
        rw [show addFile (leafNameOf filePath)
          = pushChild (VFSNode.new (leafNameOf filePath) NodeType.File) from rfl,
          updateNode_after_push _ _ root1 parent par hp]
        rfl
      rw [e]
      exact h1.tail (Growth.push root1 parent par _ _ _ hp hf)

theorem loadLine_growth (st : LoadState) (line : Str) :
    Relation.ReflTransGen Growth st.root (loadLine st line).root := by
  unfold loadLine
  split
  · have h1 : Relation.ReflTransGen Growth st.root
        (match st.readingContent, st.lastFile with
          | true, some f =>
            ({ st with root := st.root.updateNode (VFSNode.setContent st.buffer) f
                       buffer := [], readingContent := false } : LoadState)
          | _, _ => st).root := by
      split
      · exact Relation.ReflTransGen.single (Growth.content _ _ _)
      · exact Relation.ReflTransGen.refl
    simp only
    split
    · exact (h1.trans (ensureDirectory_growth _ _)).tail (Growth.perms _ _ _)
    · split
      · exact (h1.trans (createFileAtPath_growth _ _)).tail (Growth.perms _ _ _)
      · exact h1
  · split
    · exact Relation.ReflTransGen.refl
    · split
      · simp only
        split
        · exact Relation.ReflTransGen.single (Growth.content _ _ _)
        · exact Relation.ReflTransGen.refl
      · split
        · exact Relation.ReflTransGen.refl
        · exact Relation.ReflTransGen.refl

theorem foldl_loadLine_growth (lines : List Str) (st : LoadState) :
    Relation.ReflTransGen Growth st.root (lines.foldl loadLine st).root := by
  induction lines generalizing st with
  | nil => exact Relation.ReflTransGen.refl
  | cons l lines ih =>
    rw [List.foldl_cons]
    exact (loadLine_growth st l).trans (ih _)

/-- A load from a save file builds its tree from the fresh root by a sequence of growth
steps, whatever the text. -/
theorem load_growth (fs : VirtualFileSystem) (text : Str) :
    Relation.ReflTransGen Growth
      ((VFSNode.new "/".toList NodeType.Directory).setPermissions "rwx".toList)
      (load fs (some text)).root := by
  have h := foldl_loadLine_growth (getlineItems '\n' text)
    ⟨(VFSNode.new "/".toList NodeType.Directory).setPermissions "rwx".toList, false, none, []⟩
  simp only [load]
  split
  · exact h.tail (Growth.content _ _ _)
  · exact h

theorem growth_preserve (I : VFSNode → Prop) (hstep : ∀ x y, Growth x y → I x → I y)
    (x y : VFSNode) (h : Relation.ReflTransGen Growth x y) (hx : I x) : I y := by
  induction h with
  | refl => exact hx
  | tail _ hlast ih => exact hstep _ _ hlast ih

/-! ## The root -/

theorem pushChild_getType (c n : VFSNode) : (pushChild c n).getType = n.getType := by
  cases n; rfl

theorem pushChild_getPermissions (c n : VFSNode) :
    (pushChild c n).getPermissions = n.getPermissions := by
  cases n; rfl

theorem removeChild_getType (nm : Str) (n : VFSNode) :
    (removeChild nm n).getType = n.getType := by
  cases n; rfl

theorem removeChild_getPermissions (nm : Str) (n : VFSNode) :
    (removeChild nm n).getPermissions = n.getPermissions := by
  cases n; rfl

theorem setContent_getName (b : Str) (n : VFSNode) : (setContent b n).getName = n.getName := by
  cases n; rfl

theorem setContent_getType (b : Str) (n : VFSNode) : (setContent b n).getType = n.getType := by
  cases n; rfl

theorem setContent_getPermissions (b : Str) (n : VFSNode) :
    (setContent b n).getPermissions = n.getPermissions := by
  cases n; rfl

theorem setPermissions_getName (b : Str) (n : VFSNode) :
    (setPermissions b n).getName = n.getName := by
  cases n; rfl

theorem setPermissions_getType (b : Str) (n : VFSNode) :
    (setPermissions b n).getType = n.getType := by
  cases n; rfl

theorem getPermissions_updateNode (f : VFSNode → VFSNode)
    (hf : ∀ x, (f x).getPermissions = x.getPermissions) (n : VFSNode) (p : Pos) :
    (n.updateNode f p).getPermissions = n.getPermissions := by
  cases p with
  | nil => simp [hf]
  | cons i rest => exact (ownData_updateNode_cons f n i rest).2

theorem mutation_root_name_type (b : Bool) (x y : VFSNode) (h : Mutation b x y) :
    y.getName = x.getName ∧ y.getType = x.getType := by
  cases h with
  | leaf par parent name t perms _ _ _ =>
    exact ⟨getName_updateNode _ (pushChild_getName _) _ _,
      getType_updateNode _ (pushChild_getType _) _ _⟩
  | copy src s par parent name _ _ _ _ =>
    exact ⟨getName_updateNode _ (pushChild_getName _) _ _,
      getType_updateNode _ (pushChild_getType _) _ _⟩
  | remove par name =>
    exact ⟨getName_updateNode _ (removeChild_getName _) _ _,
      getType_updateNode _ (removeChild_getType _) _ _⟩
  | content p node buffer _ _ =>
    exact ⟨getName_updateNode _ (setContent_getName _) _ _,
      getType_updateNode _ (setContent_getType _) _ _⟩
  | perms p perms _ =>
    exact ⟨getName_updateNode _ (setPermissions_getName _) _ _,
      getType_updateNode _ (setPermissions_getType _) _ _⟩

theorem mutation_root_permissions (x y : VFSNode) (h : Mutation true x y) :
    y.getPermissions = x.getPermissions := by
  cases h with
  | leaf par parent name t perms _ _ _ =>
    exact getPermissions_updateNode _ (pushChild_getPermissions _) _ _
  | copy src s par parent name _ _ _ _ =>
    exact getPermissions_updateNode _ (pushChild_getPermissions _) _ _
  | remove par name => exact getPermissions_updateNode _ (removeChild_getPermissions _) _ _
  | content p node buffer _ _ =>
    exact getPermissions_updateNode _ (setContent_getPermissions _) _ _
  | perms p perms hp =>
    cases p with
    | nil => exact absurd rfl (hp rfl)
    | cons i rest => exact (ownData_updateNode_cons _ x i rest).2

theorem growth_root_name_type (x y : VFSNode) (h : Growth x y) :
    y.getName = x.getName ∧ y.getType = x.getType := by
  cases h with
  | push par parent name t perms _ _ =>
    exact ⟨getName_updateNode _ (pushChild_getName _) _ _,
      getType_updateNode _ (pushChild_getType _) _ _⟩
  | content p buffer =>
    exact ⟨getName_updateNode _ (setContent_getName _) _ _,
      getType_updateNode _ (setContent_getType _) _ _⟩
  | perms p perms =>
    exact ⟨getName_updateNode _ (setPermissions_getName _) _ _,
      getType_updateNode _ (setPermissions_getType _) _ _⟩

theorem run_eq_some (op : Op) (fs fs' : VirtualFileSystem) (h : op.run fs = some fs') :
    ∃ r, op.result fs = some r ∧ r.fs = fs' := by
  unfold Op.run at h
  cases hr : op.result fs with
  | none => rw [hr] at h; cases h
  | some r => rw [hr] at h; exact ⟨r, rfl, by simpa using h⟩

/-- One operation leaves the root its name and its type. -/
theorem run_root_name_type (op : Op) (fs fs' : VirtualFileSystem)
    (h : op.run fs = some fs') :
    fs'.root.getName = fs.root.getName ∧ fs'.root.getType = fs.root.getType ∨
      fs'.root.getName = "/".toList ∧ fs'.root.getType = NodeType.Directory := by
  obtain ⟨r, hr, rfl⟩ := run_eq_some op fs _ h
  by_cases hop : ∀ file, op ≠ Op.load file
  · left
    exact mutations_preserve false
      (fun y => y.getName = fs.root.getName ∧ y.getType = fs.root.getType)
      (fun x y hxy hx => by
        obtain ⟨h1, h2⟩ := mutation_root_name_type false x y hxy
        exact ⟨h1.trans hx.1, h2.trans hx.2⟩)
      _ _ (result_mutations false op fs r hop (fun e => by cases e) hr) ⟨rfl, rfl⟩
  · push_neg at hop
    obtain ⟨file, rfl⟩ := hop
    simp only [Op.result, Option.some.injEq] at hr
    subst hr
    cases file with
    | none =>
      left
      simp only [load_bootstrap_appends]
      cases fs.root
      exact ⟨rfl, rfl⟩
    | some text =>
      right
      exact growth_preserve
        (fun y => y.getName = "/".toList ∧ y.getType = NodeType.Directory)
        (fun x y hxy hx => by
          obtain ⟨h1, h2⟩ := growth_root_name_type x y hxy
          exact ⟨h1.trans hx.1, h2.trans hx.2⟩)
        _ _ (load_growth fs text) ⟨rfl, rfl⟩

/-- One operation that cannot write the permissions of the root leaves them as they were. -/
theorem run_root_permissions (op : Op) (fs fs' : VirtualFileSystem)
    (hkeep : keepsRootPermissions op fs) (h : op.run fs = some fs') :
    fs'.root.getPermissions = fs.root.getPermissions := by
  obtain ⟨r, hr, rfl⟩ := run_eq_some op fs _ h
  by_cases hop : ∀ file, op ≠ Op.load file
  · exact mutations_preserve true
      (fun y => y.getPermissions = fs.root.getPermissions)
      (fun x y hxy hx => (mutation_root_permissions x y hxy).trans hx)
      _ _ (result_mutations true op fs r hop (fun _ => hkeep) hr) rfl
  · push_neg at hop
    obtain ⟨file, rfl⟩ := hop
    simp only [Op.result, Option.some.injEq] at hr
    subst hr
    cases file with
    | none =>
      simp only [load_bootstrap_appends]
      cases fs.root
      rfl
    | some text => exact absurd hkeep (by simp [keepsRootPermissions])

/-- C13, amended (root invariant): in every state reachable from the construction of the
engine by any sequence of operations the root has the name `/`, is a directory and has no
parent; its permissions are `rwx` in every state reached without a `cmdChmod` whose path
resolves to the root and without a load from a save file. -/
theorem root_invariant (fs : VirtualFileSystem) :
    (Reachable fs →
      fs.root.getName = "/".toList ∧ fs.root.getType = NodeType.Directory ∧
        parentPos ([] : Pos) = none) ∧
    (ReachableBy keepsRootPermissions fs → fs.root.getPermissions = "rwx".toList) := by
  constructor
  · intro h
    refine ⟨?_, ?_, rfl⟩
    · induction h with
      | init => rfl
      | step op fs1 fs2 _ _ hrun ih =>
        rcases run_root_name_type op fs1 fs2 hrun with h1 | h1
        · exact h1.1.trans ih
        · exact h1.1
    · induction h with
      | init => rfl
      | step op fs1 fs2 _ _ hrun ih =>
        rcases run_root_name_type op fs1 fs2 hrun with h1 | h1
        · exact h1.2.trans ih
        · exact h1.2
  · intro h
    induction h with
    | init => rfl
    | step op fs1 fs2 _ hkeep hrun ih =>
      exact (run_root_permissions op fs1 fs2 hkeep hrun).trans ih

end VirtualFileSystem

/-! ## Sibling names -/

namespace VFSNode
open VirtualFileSystem

theorem siblingsUnique_mk (nm : Str) (t : NodeType) (cs : List VFSNode) (c p : Str) :
    siblingsUnique (.mk nm t cs c p)
      = ((match t with
          | NodeType.File => true
          | NodeType.Directory => decide ((cs.map getName).Nodup))
        && siblingsUniqueList cs) := by
  cases t <;> simp only [siblingsUnique]

theorem siblingsUniqueList_cons (c : VFSNode) (cs : List VFSNode) :
    siblingsUniqueList (c :: cs) = (siblingsUnique c && siblingsUniqueList cs) := by
  simp only [siblingsUniqueList]

theorem siblingsUniqueList_iff (cs : List VFSNode) :
    siblingsUniqueList cs = true ↔ ∀ c ∈ cs, siblingsUnique c = true := by
  induction cs with
  | nil => simp [siblingsUniqueList]
  | cons k cs ih => simp [siblingsUniqueList_cons, ih]

theorem siblingsUnique_iff (n : VFSNode) :
    siblingsUnique n = true ↔
      (n.isDirectory = true → (childNames n).Nodup) ∧
        ∀ c ∈ n.getChildren, siblingsUnique c = true := by
  cases n with
  | mk nm t cs c p =>
    rw [siblingsUnique_mk, Bool.and_eq_true, siblingsUniqueList_iff]
    cases t <;> simp [isDirectory, childNames]

theorem siblingsUnique_getNode (root : VFSNode) (q : Pos) (n : VFSNode)
    (h : siblingsUnique root = true) (hn : root.getNode q = some n) :
    siblingsUnique n = true := by
  induction q generalizing root with
  | nil => simp at hn; subst hn; exact h
  | cons i rest ih =>
    rw [getNode_cons] at hn
    cases hc : root.getChildren[i]? with
    | none => rw [hc] at hn; simp at hn
    | some ch =>
      rw [hc, Option.some_bind] at hn
      exact ih ch (((siblingsUnique_iff root).mp h).2 ch (List.getElem?_mem hc)) hn

/-- A change of one node that keeps every name keeps the sibling names unique, if the
changed node has them unique. -/
theorem siblingsUnique_updateNode (f : VFSNode → VFSNode)
    (hname : ∀ x, (f x).getName = x.getName) (p : Pos) :
    ∀ root : VFSNode, siblingsUnique root = true →
      (∀ d, root.getNode p = some d → siblingsUnique (f d) = true) →
      siblingsUnique (root.updateNode f p) = true := by
  induction p with
  | nil =>
    intro root _ hf
    rw [updateNode_nil]
    exact hf root (getNode_nil root)
  | cons i rest ih =>
    intro root hroot hf
    cases hc : root.getChildren[i]? with
    | none => rw [updateNode_cons, hc]; exact hroot
    | some ch =>
      obtain ⟨h1, h2⟩ := (siblingsUnique_iff root).mp hroot
      rw [siblingsUnique_iff]
      constructor
      · intro hdir
        rw [childNames_updateNode_cons f hname]
        apply h1
        simpa [isDirectory, getType_updateNode_cons] using hdir
      · intro c hmem
        rw [getChildren_updateNode_cons f root i rest ch hc] at hmem
        rcases List.mem_or_eq_of_mem_set hmem with h3 | h3
        · exact h2 c h3
        · rw [h3]
          apply ih ch (h2 ch (List.getElem?_mem hc))
          intro d hd
          apply hf d
          rw [getNode_cons, hc]
          exact hd

theorem siblingsUnique_pushChild (c d : VFSNode) (hd : siblingsUnique d = true)
    (hc : siblingsUnique c = true) (hfind : d.findChild c.getName = none) :
    siblingsUnique (pushChild c d) = true := by
  obtain ⟨h1, h2⟩ := (siblingsUnique_iff d).mp hd
  rw [siblingsUnique_iff]
  constructor
  · intro hdir
    have hdir' : d.isDirectory = true := by
      rw [← VirtualFileSystem.isDirectory_pushChild c d]; exact hdir
    simp only [childNames, pushChild_getChildren, List.map_append, List.map_cons,
      List.map_nil]
    have hnot : c.getName ∉ d.getChildren.map getName := by
      intro hm
      obtain ⟨k, hk, hkn⟩ := List.mem_map.mp hm
      exact (findIn_none _ _).mp hfind k hk hkn
    exact List.Nodup.append (h1 hdir') (List.nodup_singleton _)
      (by
        intro a ha hb
        rw [List.mem_singleton] at hb
        subst hb
        exact hnot ha)
  · intro k hk
    rw [pushChild_getChildren, List.mem_append, List.mem_singleton] at hk
    rcases hk with hk | hk
    · exact h2 k hk
    · rw [hk]; exact hc

theorem siblingsUnique_removeChild (nm : Str) (d : VFSNode) (hd : siblingsUnique d = true) :
    siblingsUnique (removeChild nm d) = true := by
  obtain ⟨h1, h2⟩ := (siblingsUnique_iff d).mp hd
  rw [siblingsUnique_iff]
  constructor
  · intro hdir
    have hdir' : d.isDirectory = true := by cases d; exact hdir
    simp only [childNames, removeChild_getChildren]
    exact List.Nodup.sublist ((List.filter_sublist _).map _) (h1 hdir')
  · intro k hk
    rw [removeChild_getChildren] at hk
    exact h2 k (List.mem_of_mem_filter hk)

theorem siblingsUnique_setContent (b : Str) (d : VFSNode) (hd : siblingsUnique d = true) :
    siblingsUnique (setContent b d) = true := by
  cases d
  simpa [siblingsUnique_mk] using hd

theorem siblingsUnique_setPermissions (b : Str) (d : VFSNode)
    (hd : siblingsUnique d = true) : siblingsUnique (setPermissions b d) = true := by
  cases d
  simpa [siblingsUnique_mk] using hd

theorem copyTrees_names (ks : List VFSNode) :
    (copyTrees ks).map getName = ks.map getName := by
  induction ks with
  | nil => simp [copyTrees_nil]
  | cons k ks ih =>
    rw [copyTrees_cons, List.map_cons, List.map_cons, ih]
    cases k
    simp [copyTree_mk]

mutual
/-- The copy of a subtree with unique sibling names has unique sibling names. -/
theorem siblingsUnique_copyTree : ∀ (nm : Str) (n : VFSNode), siblingsUnique n = true →
    siblingsUnique (copyTree nm n) = true
  | nm, .mk n0 t cs c p, h => by
    rw [siblingsUnique_mk, Bool.and_eq_true] at h
    rw [copyTree_mk, siblingsUnique_mk, Bool.and_eq_true]
    cases t with
    | File => exact ⟨rfl, rfl⟩
    | Directory =>
      simp only at h ⊢
      rw [copyTrees_names]
      exact ⟨h.1, siblingsUniqueList_copyTrees cs h.2⟩
/-- The copies of a child vector with unique sibling names have unique sibling names. -/
theorem siblingsUniqueList_copyTrees : ∀ (ks : List VFSNode),
    siblingsUniqueList ks = true → siblingsUniqueList (copyTrees ks) = true
  | [], _ => by rw [copyTrees_nil]; rfl
  | k :: ks, h => by
    rw [siblingsUniqueList_cons, Bool.and_eq_true] at h
    rw [copyTrees_cons, siblingsUniqueList_cons, Bool.and_eq_true]
    exact ⟨siblingsUnique_copyTree k.getName k h.1, siblingsUniqueList_copyTrees ks h.2⟩
end

end VFSNode

namespace VirtualFileSystem
open VFSNode

theorem mutation_siblingsUnique (b : Bool) (x y : VFSNode) (h : Mutation b x y)
    (hx : siblingsUnique x = true) : siblingsUnique y = true := by
  cases h with
  | leaf par parent name t perms hpar _ hfind =>
    apply siblingsUnique_updateNode _ (pushChild_getName _) par x hx
    intro d hd
    rw [hpar] at hd
    obtain rfl : parent = d := Option.some.inj hd
    apply siblingsUnique_pushChild (.mk name t [] [] perms) _
      (siblingsUnique_getNode x par _ hx hpar) _ hfind
    rw [siblingsUnique_mk]
    cases t <;> rfl
  | copy src s par parent name hs hpar _ hfind =>
    apply siblingsUnique_updateNode _ (pushChild_getName _) par x hx
    intro d hd
    rw [hpar] at hd
    obtain rfl : parent = d := Option.some.inj hd
    apply siblingsUnique_pushChild _ _ (siblingsUnique_getNode x par _ hx hpar)
      (siblingsUnique_copyTree name s (siblingsUnique_getNode x src s hx hs))
    have : (copyTree name s).getName = name := by cases s; rfl
    rw [this]
    exact hfind
  | remove par name =>
    apply siblingsUnique_updateNode _ (removeChild_getName _) par x hx
    intro d hd
    exact siblingsUnique_removeChild _ _ (siblingsUnique_getNode x par _ hx hd)
  | content p node buffer _ _ =>
    apply siblingsUnique_updateNode _ (setContent_getName _) p x hx
    intro d hd
    exact siblingsUnique_setContent _ _ (siblingsUnique_getNode x p _ hx hd)
  | perms p perms _ =>
    apply siblingsUnique_updateNode _ (setPermissions_getName _) p x hx
    intro d hd
    exact siblingsUnique_setPermissions _ _ (siblingsUnique_getNode x p _ hx hd)

end VirtualFileSystem

/-! ## Node kinds -/

namespace VFSNode
open VirtualFileSystem

theorem kindsOkList_iff (cs : List VFSNode) :
    kindsOkList cs = true ↔ ∀ c ∈ cs, kindsOk c = true := by
  induction cs with
  | nil => simp [kindsOkList]
  | cons k cs ih => simp [kindsOkList_cons, ih]

theorem kindsOk_iff (n : VFSNode) :
    kindsOk n = true ↔
      ((n.isDirectory = false → n.getChildren = []) ∧
        (n.isDirectory = true → n.getContent = [])) ∧
        ∀ c ∈ n.getChildren, kindsOk c = true := by
  cases n with
  | mk nm t cs c p =>
    rw [kindsOk_mk, Bool.and_eq_true, kindsOkList_iff]
    cases t <;> simp [isDirectory]

/-- A change of one node keeps the node kinds, if the changed node has them. -/
theorem kindsOk_updateNode (f : VFSNode → VFSNode) (p : Pos) :
    ∀ root : VFSNode, kindsOk root = true →
      (∀ d, root.getNode p = some d → kindsOk (f d) = true) →
      kindsOk (root.updateNode f p) = true := by
  induction p with
  | nil =>
    intro root _ hf
    rw [updateNode_nil]
    exact hf root (getNode_nil root)
  | cons i rest ih =>
    intro root hroot hf
    cases hc : root.getChildren[i]? with
    | none => rw [updateNode_cons, hc]; exact hroot
    | some ch =>
      obtain ⟨⟨h1, h2⟩, h3⟩ := (kindsOk_iff root).mp hroot
      have hdir : root.isDirectory = true := isDirectory_of_child root hroot i ch hc
      have hty : (root.updateNode f (i :: rest)).isDirectory = true := by
        simpa [isDirectory, getType_updateNode_cons] using hdir
      have hcont : (root.updateNode f (i :: rest)).getContent = root.getContent := by
        have := (ownData_updateNode_cons f root i rest).1
        simp only [ownData, Prod.mk.injEq] at this
        exact this.2.2.1
      rw [kindsOk_iff]
      refine ⟨⟨fun e => ?_, fun _ => ?_⟩, ?_⟩
      · rw [hty] at e; cases e
      · rw [hcont]; exact h2 hdir
      · intro c hmem
        rw [getChildren_updateNode_cons f root i rest ch hc] at hmem
        rcases List.mem_or_eq_of_mem_set hmem with h4 | h4
        · exact h3 c h4
        · rw [h4]
          apply ih ch (h3 ch (List.getElem?_mem hc))
          intro d hd
          apply hf d
          rw [getNode_cons, hc]
          exact hd

theorem kindsOk_pushChild (c d : VFSNode) (hd : kindsOk d = true) (hc : kindsOk c = true)
    (hdir : d.isDirectory = true) : kindsOk (pushChild c d) = true := by
  obtain ⟨⟨_, h2⟩, h3⟩ := (kindsOk_iff d).mp hd
  rw [kindsOk_iff]
  refine ⟨⟨fun e => ?_, fun _ => ?_⟩, ?_⟩
  · rw [isDirectory_pushChild, hdir] at e; cases e
  · have : (pushChild c d).getContent = d.getContent := by cases d; rfl
    rw [this]; exact h2 hdir
  · intro k hk
    rw [pushChild_getChildren, List.mem_append, List.mem_singleton] at hk
    rcases hk with hk | hk
    · exact h3 k hk
    · rw [hk]; exact hc

theorem kindsOk_removeChild (nm : Str) (d : VFSNode) (hd : kindsOk d = true) :
    kindsOk (removeChild nm d) = true := by
  obtain ⟨⟨h1, h2⟩, h3⟩ := (kindsOk_iff d).mp hd
  have hty : (removeChild nm d).isDirectory = d.isDirectory := by cases d; rfl
  have hcont : (removeChild nm d).getContent = d.getContent := by cases d; rfl
  rw [kindsOk_iff]
  refine ⟨⟨fun e => ?_, fun e => ?_⟩, ?_⟩
  · rw [removeChild_getChildren, h1 (hty ▸ e)]; rfl
  · rw [hcont]; exact h2 (hty ▸ e)
  · intro k hk
    rw [removeChild_getChildren] at hk
    exact h3 k (List.mem_of_mem_filter hk)

theorem kindsOk_setContent (b : Str) (d : VFSNode) (hd : kindsOk d = true)
    (hfile : d.isFile = true) : kindsOk (setContent b d) = true := by
  cases d with
  | mk nm t cs c p =>
    cases t with
    | Directory => simp [isFile] at hfile
    | File => simpa [kindsOk_mk] using hd

theorem kindsOk_setPermissions (b : Str) (d : VFSNode) (hd : kindsOk d = true) :
    kindsOk (setPermissions b d) = true := by
  cases d
  simpa [kindsOk_mk] using hd

theorem kindsOk_copyTree (nm : Str) (s : VFSNode) (hs : kindsOk s = true) :
    kindsOk (copyTree nm s) = true := by
  rw [copyTree_of_kindsOk nm s hs]
  cases s
  simpa [kindsOk_mk] using hs

mutual
/-- A savable subtree has the node kinds of the data model. -/
theorem kindsOk_of_savable : ∀ n : VFSNode, savable n = true → kindsOk n = true
  | .mk nm t cs c p, h => by
    rw [savable_mk] at h
    simp only [Bool.and_eq_true] at h
    rw [kindsOk_mk, Bool.and_eq_true]
    exact ⟨h.1.1.2, kindsOkList_of_savableList cs h.2⟩
/-- A savable child vector has the node kinds of the data model. -/
theorem kindsOkList_of_savableList : ∀ cs : List VFSNode,
    savableList cs = true → kindsOkList cs = true
  | [], _ => rfl
  | c :: cs, h => by
    rw [savableList_cons, Bool.and_eq_true] at h
    rw [kindsOkList_cons, Bool.and_eq_true]
    exact ⟨kindsOk_of_savable c h.1, kindsOkList_of_savableList cs h.2⟩
end

end VFSNode

namespace VirtualFileSystem
open VFSNode

theorem mutation_kindsOk (b : Bool) (x y : VFSNode) (h : Mutation b x y)
    (hx : kindsOk x = true) : kindsOk y = true := by
  cases h with
  | leaf par parent name t perms hpar hdir _ =>
    apply kindsOk_updateNode _ par x hx
    intro d hd
    rw [hpar] at hd
    obtain rfl : parent = d := Option.some.inj hd
    apply kindsOk_pushChild _ _ (kindsOk_getNode x par _ hx hpar) _ hdir
    rw [kindsOk_mk]
    cases t <;> rfl
  | copy src s par parent name hs hpar hdir _ =>
    apply kindsOk_updateNode _ par x hx
    intro d hd
    rw [hpar] at hd
    obtain rfl : parent = d := Option.some.inj hd
    exact kindsOk_pushChild _ _ (kindsOk_getNode x par _ hx hpar)
      (kindsOk_copyTree name s (kindsOk_getNode x src s hx hs)) hdir
  | remove par name =>
    apply kindsOk_updateNode _ par x hx
    intro d hd
    exact kindsOk_removeChild _ _ (kindsOk_getNode x par _ hx hd)
  | content p node buffer hn hfile =>
    apply kindsOk_updateNode _ p x hx
    intro d hd
    rw [hn] at hd
    obtain rfl : node = d := Option.some.inj hd
    exact kindsOk_setContent _ _ (kindsOk_getNode x p _ hx hn) hfile
  | perms p perms _ =>
    apply kindsOk_updateNode _ p x hx
    intro d hd
    exact kindsOk_setPermissions _ _ (kindsOk_getNode x p _ hx hd)

end VirtualFileSystem

/-! ## Termination of `cmdCp` and `cmdMv` -/

namespace VirtualFileSystem
open VFSNode

theorem parentPtr_of_valid (fs : VirtualFileSystem) (path : Str) (h : CurrentValid fs) :
    ∃ o : Option Pos, parentPtr fs path = some o ∧
      ∀ t, o = some t → ∃ n, fs.root.getNode t = some n := by
  unfold parentPtr
  split
  · obtain ⟨cur, c, hcur, hc⟩ := h
    refine ⟨some cur, by simp [hcur], ?_⟩
    intro t ht; cases ht; exact ⟨c, hc⟩
  · exact resolvePath_of_valid fs _ h

/-- `cmdCp` returns, within a recursion budget of the height of the source, whenever the
directory that takes the copy is not the source or inside it. -/
theorem cmdCp_returns (fs : VirtualFileSystem) (srcPath dstPath : Str)
    (hcur : CurrentValid fs)
    (hout : ∀ src par, resolvePath fs srcPath = some (some src) →
      parentPtr fs dstPath = some (some par) → ¬ src <+: par) :
    ∃ fuel r, cmdCp fuel fs srcPath dstPath = some r := by
  obtain ⟨o1, hres, hv1⟩ := resolvePath_of_valid fs srcPath hcur
  obtain ⟨o2, hptr, hv2⟩ := parentPtr_of_valid fs dstPath hcur
  cases o1 with
  | none => exact ⟨0, Option.isSome_iff_exists.mp (by simp only [cmdCp, hres,
          Option.isSome_some])⟩
  | some src =>
    obtain ⟨s, hs⟩ := hv1 src rfl
    by_cases hr : checkPermission s 'r' = true
    · cases o2 with
      | none =>
        exact ⟨0, Option.isSome_iff_exists.mp
          (by simp only [cmdCp, hres, hs, hr, hptr, Bool.not_true,
          Bool.false_eq_true, if_false,
          Option.isSome_some])⟩
      | some par =>
        obtain ⟨parent, hpar⟩ := hv2 par rfl
        by_cases hdir : parent.isDirectory = true
        · cases hfind : parent.findChild (leafNameOf dstPath) with
          | some j =>
            exact ⟨0, Option.isSome_iff_exists.mp
              (by simp only [cmdCp, hres, hs, hr, hptr, hpar, hdir, hfind,
              Bool.not_true, Bool.false_eq_true, if_false, Option.isSome_some, if_true,
          Option.isSome_some])⟩
          | none =>
            have hcopy := copyNodeRecursive_returns s.height fs.root src par
              (leafNameOf dstPath) s parent hs hpar (hout src par hres hptr) (Nat.le_refl _)
            exact ⟨s.height, Option.isSome_iff_exists.mp
              (by simp only [cmdCp, hres, hs, hr, hptr, hpar, hdir, hfind,
              Bool.not_true, Bool.false_eq_true, if_false, Option.isSome_none, hcopy,
          Option.isSome_some])⟩
        · have hdir' : parent.isDirectory = false := by simpa using hdir
          exact ⟨0, Option.isSome_iff_exists.mp
            (by simp only [cmdCp, hres, hs, hr, hptr, hpar, hdir', Bool.not_true,
            Bool.false_eq_true, if_false, Bool.not_false, if_true,
          Option.isSome_some])⟩
    · have hr' : checkPermission s 'r' = false := by simpa using hr
      exact ⟨0, Option.isSome_iff_exists.mp
        (by simp only [cmdCp, hres, hs, hr', Bool.not_false, if_true,
          Option.isSome_some])⟩

/-- The recursion of `cmdMv` ends within a budget of the height of the source whenever the
directory that takes the copy is not the source or inside it: the command returns, or the
copy is made and the removal reads the freed name of the source. -/
theorem cmdMv_returns (fs : VirtualFileSystem) (srcPath dstPath : Str)
    (hcur : CurrentValid fs)
    (hout : ∀ src par, resolvePath fs srcPath = some (some src) →
      parentPtr fs dstPath = some (some par) → ¬ src <+: par) :
    ∃ fuel, (∃ r, cmdMv fuel fs srcPath dstPath = some r) ∨
      ∃ src oldParent par root1 old, resolvePath fs srcPath = some (some src) ∧
        parentPos src = some oldParent ∧ parentPtr fs dstPath = some (some par) ∧
        copyNodeRecursive fuel fs.root src par (leafNameOf dstPath) = some root1 ∧
        root1.getNode oldParent = some old ∧
        removeReadsFreed old.getChildren (src.getLastD 0) = true := by
  obtain ⟨o1, hres, hv1⟩ := resolvePath_of_valid fs srcPath hcur
  obtain ⟨o2, hptr, hv2⟩ := parentPtr_of_valid fs dstPath hcur
  cases o1 with
  | none => exact ⟨0, Or.inl <| Option.isSome_iff_exists.mp (by simp only [cmdMv, hres,
          Option.isSome_some])⟩
  | some src =>
    obtain ⟨s, hs⟩ := hv1 src rfl
    cases hpp : parentPos src with
    | none =>
      exact ⟨0, Or.inl <| Option.isSome_iff_exists.mp
        (by simp only [cmdMv, hres, hpp, Option.isSome_some])⟩
    | some oldParent =>
      cases o2 with
      | none =>
        exact ⟨0, Or.inl <| Option.isSome_iff_exists.mp
          (by simp only [cmdMv, hres, hpp, hptr, Option.isSome_some])⟩
      | some par =>
        obtain ⟨parent, hpar⟩ := hv2 par rfl
        by_cases hdir : parent.isDirectory = true
        · cases hfind : parent.findChild (leafNameOf dstPath) with
          | some j =>
            exact ⟨0, Or.inl <| Option.isSome_iff_exists.mp
              (by simp only [cmdMv, hres, hpp, hptr, hpar, hdir, hfind,
              Bool.not_true, Bool.false_eq_true, if_false, Option.isSome_some, if_true,
          Option.isSome_some])⟩
          | none =>
            have hnot := hout src par hres hptr
            have hcopy := copyNodeRecursive_returns s.height fs.root src par
              (leafNameOf dstPath) s parent hs hpar hnot (Nat.le_refl _)
            have hs1 := getNode_after_push (copyTree (leafNameOf dstPath) s) fs.root par src
              s hs hnot
            obtain ⟨i, hi⟩ := parentPos_eq_some src oldParent hpp
            obtain ⟨old0, hold0⟩ : ∃ m, fs.root.getNode oldParent = some m := by
              rw [hi] at hs
              exact getNode_of_append fs.root oldParent [i] s hs
            obtain ⟨old, hold⟩ : ∃ m, (fs.root.updateNode
                (pushChild (copyTree (leafNameOf dstPath) s)) par).getNode oldParent
                = some m := by
              by_cases hpre : oldParent <+: par
              · obtain ⟨n', hn', -⟩ := getNode_push_above
                  (copyTree (leafNameOf dstPath) s) fs.root par oldParent old0 hold0 hpre
                exact ⟨n', hn'⟩
              · exact ⟨old0, getNode_after_push _ fs.root par oldParent old0 hold0 hpre⟩
            by_cases hfree : removeReadsFreed old.getChildren (src.getLastD 0) = true
            · exact ⟨s.height, Or.inr ⟨src, oldParent, par, _, old, hres, hpp, hptr, hcopy,
                hold, hfree⟩⟩
            · exact ⟨s.height, Or.inl <| Option.isSome_iff_exists.mp
                (by simp only [cmdMv, hres, hpp, hptr, hpar, hdir, hfind,
                  Bool.not_true, Bool.false_eq_true, if_false, Option.isSome_none, hcopy,
                  hs1, hold, hfree, Option.isSome_some])⟩
        · have hdir' : parent.isDirectory = false := by simpa using hdir
          exact ⟨0, Or.inl <| Option.isSome_iff_exists.mp
            (by simp only [cmdMv, hres, hpp, hptr, hpar, hdir', Bool.not_true,
            Bool.false_eq_true, if_false, Bool.not_false, if_true,
          Option.isSome_some])⟩

/-- In a tree where files have no children, a `cmdCp` whose checks pass and whose
destination directory is the source or inside it does not return, whatever the recursion
budget. -/
theorem cmdCp_into_itself (fs : VirtualFileSystem) (srcPath dstPath : Str) (src par : Pos)
    (s parent : VFSNode) (hkinds : fs.root.kindsOk = true)
    (hres : resolvePath fs srcPath = some (some src)) (hs : fs.root.getNode src = some s)
    (hr : checkPermission s 'r' = true)
    (hptr : parentPtr fs dstPath = some (some par))
    (hpar : fs.root.getNode par = some parent) (hdir : parent.isDirectory = true)
    (hfind : parent.findChild (leafNameOf dstPath) = none) (hpre : src <+: par)
    (fuel : Nat) : cmdCp fuel fs srcPath dstPath = none := by
  cases hcopy : copyNodeRecursive fuel fs.root src par (leafNameOf dstPath) with
  | none =>
    simp only [cmdCp, hres, hs, hr, hptr, hpar, hdir, hfind, Bool.not_true,
      Bool.false_eq_true, if_false, Option.isSome_none, hcopy]
  | some root1 =>
    exact absurd hpre (not_prefix_of_copy fuel fs.root src par _ parent root1 hkinds hpar
      hdir hcopy)

/-- In a tree where files have no children, a `cmdMv` whose checks pass and whose
destination directory is the source or inside it does not return, whatever the recursion
budget. -/
theorem cmdMv_into_itself (fs : VirtualFileSystem) (srcPath dstPath : Str)
    (src oldParent par : Pos) (parent : VFSNode) (hkinds : fs.root.kindsOk = true)
    (hres : resolvePath fs srcPath = some (some src))
    (hpp : parentPos src = some oldParent)
    (hptr : parentPtr fs dstPath = some (some par))
    (hpar : fs.root.getNode par = some parent) (hdir : parent.isDirectory = true)
    (hfind : parent.findChild (leafNameOf dstPath) = none) (hpre : src <+: par)
    (fuel : Nat) : cmdMv fuel fs srcPath dstPath = none := by
  cases hcopy : copyNodeRecursive fuel fs.root src par (leafNameOf dstPath) with
  | none =>
    simp only [cmdMv, hres, hpp, hptr, hpar, hdir, hfind, Bool.not_true,
      Bool.false_eq_true, if_false, Option.isSome_none, hcopy]
  | some root1 =>
    exact absurd hpre (not_prefix_of_copy fuel fs.root src par _ parent root1 hkinds hpar
      hdir hcopy)

end VirtualFileSystem

/-! ## Evaluation at concrete inputs: permissions, invariants, bootstrap, termination -/

section EvaluationInvariants

open VirtualFileSystem VFSNode Scenario

set_option maxRecDepth 100000

/-- Counterexample to C11 (positional permissions): after `touch f` and `chmod --r f` the
permission string of `/f` has `r` at index 2 and `-` at index 0, the positional reading
grants no `r`, and `checkPermission` grants it: `cat f` succeeds. -/
theorem checkPermission_letter_out_of_place :
    cmdChmod touchedFs "--r".toList "f".toList
      = some ⟨true, [], ⟨dir "/" "rwx" [file "f" "" "--r"], some []⟩⟩ ∧
    grantsAtPosition "--r".toList 'r' = false ∧
    checkPermission (file "f" "" "--r") 'r' = true ∧
    cmdCat ⟨dir "/" "rwx" [file "f" "" "--r"], some []⟩ "f".toList
      = some ⟨true, "\n".toList, ⟨dir "/" "rwx" [file "f" "" "--r"], some []⟩⟩ := by
  decide

/-- The characterisation of `cmdChmod` at `chmod r-- a/b.txt` on the tree `/a/b.txt`, with
`current` at the root. -/
theorem cmdChmod_characterisation_witness :
    ∃ r, cmdChmod hiFs "r--".toList "a/b.txt".toList = some r ∧
      (r.ok = true ↔ "r--".toList.length = 3 ∧
        ∃ n, resolvePath hiFs "a/b.txt".toList = some (some n)) ∧
      (r.ok = false → r.fs = hiFs) ∧
      (r.ok = true → ∃ n, resolvePath hiFs "a/b.txt".toList = some (some n) ∧
        r.fs.current = hiFs.current ∧
        (r.fs.root.getNode n).map getPermissions = some "r--".toList ∧
        (∀ q, (r.fs.root.getNode q).map ownData = (hiFs.root.getNode q).map ownData) ∧
        (∀ q, q ≠ n → (r.fs.root.getNode q).map getPermissions
          = (hiFs.root.getNode q).map getPermissions)) :=
  cmdChmod_characterisation hiFs "r--".toList "a/b.txt".toList
    (Or.inl ⟨[], hiFs.root, rfl, rfl⟩)

/-- C12 (`cmdChmod` in every engine state), at `mkdir a`, `cd a`, `rm -r ../a`,
`chmod rwx x`: the removal leaves `current` on the destroyed node; the path `x` is relative,
so `resolvePath` reads the dangling `current`, and `cmdChmod` has no result, neither success
nor failure, although the permission string has 3 characters.  In the same state
`chmod rwx /x` fails with not-found, `chmod r-x /` succeeds and `chmod rw x` is refused for
its length, as the claim says. -/
theorem cmdChmod_reads_dangling_current :
    Reachable ⟨dir "/" "rwx" [], none⟩ ∧
    resolvePath ⟨dir "/" "rwx" [], none⟩ "x".toList = none ∧
    cmdChmod ⟨dir "/" "rwx" [], none⟩ "rwx".toList "x".toList = none ∧
    cmdChmod ⟨dir "/" "rwx" [], none⟩ "rwx".toList "/x".toList
      = some ⟨false, "chmod: no such file\n".toList, ⟨dir "/" "rwx" [], none⟩⟩ ∧
    cmdChmod ⟨dir "/" "rwx" [], none⟩ "r-x".toList "/".toList
      = some ⟨true, [], ⟨dir "/" "r-x" [], none⟩⟩ ∧
    cmdChmod ⟨dir "/" "rwx" [], none⟩ "rw".toList "x".toList
      = some ⟨false, "chmod: invalid permissions\n".toList, ⟨dir "/" "rwx" [], none⟩⟩ :=
  ⟨ReachableBy.step (Op.rm "../a".toList true) ⟨dir "/" "rwx" [dir "a" "rwx" []], some [0]⟩ _
      (ReachableBy.step (Op.cd "a".toList) ⟨dir "/" "rwx" [dir "a" "rwx" []], some []⟩ _
        (ReachableBy.step (Op.mkdir "a".toList) init _ ReachableBy.init trivial (by decide))
        trivial (by decide))
      trivial (by decide),
    by decide, by decide, by decide, by decide, by decide⟩

/-- Counterexample to C13 (root invariant): `chmod --- /` on the fresh engine succeeds, so a
state whose root has the permissions `---` is reachable; and so is, by a load of the text
`NODE DIR r-- /`, a state whose root has the permissions `r--`. -/
theorem chmod_changes_root_permissions :
    cmdChmod init "---".toList "/".toList = some ⟨true, [], noExecRootFs⟩ ∧
    Reachable noExecRootFs ∧
    noExecRootFs.root.getPermissions = "---".toList ∧
    Reachable ⟨dir "/" "r--" [], some []⟩ :=
  ⟨by decide,
    ReachableBy.step (Op.chmod "---".toList "/".toList) init _ ReachableBy.init trivial
      (by decide),
    by decide,
    ReachableBy.step (Op.load (some "NODE DIR r-- /\n".toList)) init _ ReachableBy.init
      trivial (by decide)⟩

/-- C14 (current-directory invariant), at `mkdir a`, `cd a` and then `rm -r ../a` or
`mv ../a ../b`: each of the two succeeds and destroys the node that `current` points to, so
a state with a dangling `current` is reachable; in it `getCurrentPath` and every command on
a relative path read the dangling pointer. -/
theorem rm_mv_leave_current_dangling :
    cmdMkdir init "a".toList = some ⟨true, [], ⟨dir "/" "rwx" [dir "a" "rwx" []], some []⟩⟩ ∧
    cmdCd ⟨dir "/" "rwx" [dir "a" "rwx" []], some []⟩ "a".toList
      = some ⟨true, [], ⟨dir "/" "rwx" [dir "a" "rwx" []], some [0]⟩⟩ ∧
    cmdRm ⟨dir "/" "rwx" [dir "a" "rwx" []], some [0]⟩ "../a".toList true
      = some ⟨true, [], ⟨dir "/" "rwx" [], none⟩⟩ ∧
    cmdMv 1 ⟨dir "/" "rwx" [dir "a" "rwx" []], some [0]⟩ "../a".toList "../b".toList
      = some ⟨true, [], ⟨dir "/" "rwx" [dir "b" "rwx" []], none⟩⟩ ∧
    Reachable ⟨dir "/" "rwx" [], none⟩ ∧
    ¬ CurrentIsDirectory ⟨dir "/" "rwx" [], none⟩ ∧
    getCurrentPath ⟨dir "/" "rwx" [], none⟩ = none ∧
    cmdMkdir ⟨dir "/" "rwx" [], none⟩ "x".toList = none :=
  ⟨by decide, by decide, by decide, by decide,
    ReachableBy.step (Op.rm "../a".toList true) ⟨dir "/" "rwx" [dir "a" "rwx" []], some [0]⟩ _
      (ReachableBy.step (Op.cd "a".toList) ⟨dir "/" "rwx" [dir "a" "rwx" []], some []⟩ _
        (ReachableBy.step (Op.mkdir "a".toList) init _ ReachableBy.init trivial (by decide))
        trivial (by decide))
      trivial (by decide),
    (by rintro ⟨_, _, h, _⟩; cases h),
    by decide, by decide⟩

/-- Witness of C17: `mkdir d/g` fails on a directory `/d` without `w`, and the engine is as
before. -/
theorem failure_leaves_engine_unchanged_witness :
    cmdMkdir readOnlyDirFs "d/g".toList
      = some ⟨false, "Permission denied.\n".toList, readOnlyDirFs⟩ ∧
    (Result.mk false "Permission denied.\n".toList readOnlyDirFs).fs = readOnlyDirFs :=
  ⟨by decide,
    (failure_leaves_engine_unchanged readOnlyDirFs).2.1 "d/g".toList
      ⟨false, "Permission denied.\n".toList, readOnlyDirFs⟩ (by decide) rfl⟩

/-- C18 (first-run bootstrap), at `mkdir x` followed by a load without a save file, and at
two loads without a save file in a row: on the fresh engine the load gives the default
layout; on the engine that holds `/x` it keeps `/x` beside `home`; and the second of two
loads leaves two directories called `home` under the root. -/
theorem load_bootstrap_on_used_engine :
    load init none = ⟨defaultLayout, some []⟩ ∧
    cmdMkdir init "x".toList = some ⟨true, [], ⟨dir "/" "rwx" [dir "x" "rwx" []], some []⟩⟩ ∧
    (load ⟨dir "/" "rwx" [dir "x" "rwx" []], some []⟩ none).root
      = .mk "/".toList NodeType.Directory
          (dir "x" "rwx" [] :: defaultLayout.getChildren) [] "rwx".toList ∧
    (load ⟨dir "/" "rwx" [dir "x" "rwx" []], some []⟩ none).root ≠ defaultLayout ∧
    (load (load init none) none).root
      = .mk "/".toList NodeType.Directory
          (defaultLayout.getChildren ++ defaultLayout.getChildren) [] "rwx".toList ∧
    (load (load init none) none).root.siblingsUnique = false := by
  decide

/-- C19 (copy and move run to completion), at `cp / x` on the fresh engine and at
`cp home home/b` and `mv home home/b` on the tree `/home`: none of the three returns,
whatever the recursion budget (`mv / x` is refused). -/
theorem cp_mv_into_itself_never_return :
    (∀ fuel, cmdCp fuel init "/".toList "x".toList = none) ∧
    (∀ fuel, cmdCp fuel ⟨dir "/" "rwx" [dir "home" "rwx" []], some []⟩ "home".toList
      "home/b".toList = none) ∧
    (∀ fuel, cmdMv fuel ⟨dir "/" "rwx" [dir "home" "rwx" []], some []⟩ "home".toList
      "home/b".toList = none) ∧
    (∀ fuel, cmdMv fuel init "/".toList "x".toList
      = some ⟨false, "mv: cannot move root\n".toList, init⟩) :=
  ⟨fun fuel => cmdCp_into_itself init "/".toList "x".toList [] [] init.root init.root
      (by decide) (by decide) rfl (by decide) (by decide) rfl (by decide) (by decide)
      (List.prefix_refl _) fuel,
    fun fuel => cmdCp_into_itself ⟨dir "/" "rwx" [dir "home" "rwx" []], some []⟩
      "home".toList "home/b".toList [0] [0] (dir "home" "rwx" []) (dir "home" "rwx" [])
      (by decide) (by decide) rfl (by decide) (by decide) rfl (by decide) (by decide)
      (List.prefix_refl _) fuel,
    fun fuel => cmdMv_into_itself ⟨dir "/" "rwx" [dir "home" "rwx" []], some []⟩
      "home".toList "home/b".toList [0] [] [0] (dir "home" "rwx" [])
      (by decide) (by decide) (by decide) (by decide) rfl (by decide) (by decide)
      (List.prefix_refl _) fuel,
    fun _ => rfl⟩

end EvaluationInvariants

/-! ## The tree printer -/

namespace VirtualFileSystem

open VFSNode TreeSpec

theorem printNode_mk (isRoot : Bool) (lead : Str) (last : Bool) (name : Str) (t : NodeType)
    (cs : List VFSNode) (c p : Str) :
    printNode isRoot lead last (.mk name t cs c p)
      = lead ++ (if isRoot then [] else if last then "`-- ".toList else "|-- ".toList)
        ++ (if isRoot then "/\n".toList else name ++ "\n".toList)
        ++ printKids
          (if isRoot then lead
            else lead ++ (if last then "    ".toList else "|   ".toList)) cs := by
  simp only [printNode]

theorem printKids_nil (lead : Str) : printKids lead [] = [] := by
  simp only [printKids]

theorem printKids_one (lead : Str) (c : VFSNode) :
    printKids lead [c] = printNode false lead true c := by
  simp only [printKids]

theorem printKids_cons_cons (lead : Str) (c d : VFSNode) (cs : List VFSNode) :
    printKids lead (c :: d :: cs)
      = printNode false lead false c ++ printKids lead (d :: cs) := by
  simp only [printKids]

theorem preorderPositions_mk (name : Str) (t : NodeType) (cs : List VFSNode) (c p : Str) :
    preorderPositions (.mk name t cs c p) = [] :: preorderBelow 0 cs := by
  simp only [preorderPositions]

theorem preorderBelow_nil (i : Nat) : preorderBelow i [] = [] := by
  simp only [preorderBelow]

theorem preorderBelow_cons (i : Nat) (c : VFSNode) (cs : List VFSNode) :
    preorderBelow i (c :: cs)
      = (preorderPositions c).map (i :: ·) ++ preorderBelow (i + 1) cs := by
  simp only [preorderBelow]

theorem inits_tail_snoc (q : Pos) (j : Nat) :
    (q ++ [j]).inits.tail = q.inits.tail ++ [q ++ [j]] := by
  rw [List.inits_append]
  cases q with
  | nil => rfl
  | cons a q => simp [List.inits_cons]

theorem nonRootProperAncestors_snoc (q : Pos) (j : Nat) :
    nonRootProperAncestors (q ++ [j]) = q.inits.tail := by
  unfold nonRootProperAncestors
  rw [inits_tail_snoc, List.dropLast_concat]

theorem branchLead_snoc (root : VFSNode) (q : Pos) (j : Nat) :
    branchLead root (q ++ [j]) = leadBelow root q := by
  unfold branchLead leadBelow
  rw [nonRootProperAncestors_snoc]

theorem leadBelow_nil (root : VFSNode) : leadBelow root [] = [] := rfl

theorem leadBelow_snoc (root : VFSNode) (q : Pos) (j : Nat) :
    leadBelow root (q ++ [j])
      = leadBelow root q
        ++ (if isLastChild root (q ++ [j]) then "    ".toList else "|   ".toList) := by
  unfold leadBelow
  rw [inits_tail_snoc, List.map_append, List.flatten_append]
  simp

theorem isLastChild_snoc (root : VFSNode) (q : Pos) (j : Nat) (parent : VFSNode)
    (h : root.getNode q = some parent) :
    isLastChild root (q ++ [j]) = (j + 1 == parent.getChildren.length) := by
  unfold isLastChild
  simp [h]

theorem treeLine_snoc (root : VFSNode) (q : Pos) (j : Nat) (n : VFSNode)
    (h : root.getNode (q ++ [j]) = some n) :
    treeLine root (q ++ [j])
      = leadBelow root q
        ++ (if isLastChild root (q ++ [j]) then "`-- ".toList else "|-- ".toList)
        ++ n.getName := by
  unfold treeLine
  rw [if_neg (by simp), branchLead_snoc, h]
  rfl

mutual
/-- What `Helper::print` writes for a node other than the root: the lines of the nodes of
its subtree, in pre-order. -/
theorem printNode_lines (root : VFSNode) : ∀ (n : VFSNode) (q : Pos) (j : Nat),
    root.getNode (q ++ [j]) = some n →
    printNode false (leadBelow root q) (isLastChild root (q ++ [j])) n
      = ((preorderPositions n).map
          (fun p => treeLine root ((q ++ [j]) ++ p) ++ "\n".toList)).flatten
  | .mk name t cs c p, q, j, h => by
    rw [printNode_mk, preorderPositions_mk, List.map_cons, List.flatten_cons,
      List.append_nil, treeLine_snoc root q j _ h]
    simp only [Bool.false_eq_true, if_false, getName_mk]
    rw [← leadBelow_snoc,
      printKids_lines root cs (q ++ [j]) (.mk name t cs c p) 0 h (by simp)]
    simp only [List.append_assoc]
/-- What the loop over `kids` writes for the children from index `i` on: the lines of the
nodes of their subtrees, in pre-order. -/
theorem printKids_lines (root : VFSNode) : ∀ (cs : List VFSNode) (Q : Pos)
    (parent : VFSNode) (i : Nat), root.getNode Q = some parent →
    parent.getChildren.drop i = cs →
    printKids (leadBelow root Q) cs
      = ((preorderBelow i cs).map
          (fun p => treeLine root (Q ++ p) ++ "\n".toList)).flatten
  | [], _, _, _, _, _ => by
    rw [printKids_nil, preorderBelow_nil]; rfl
  | c :: cs, Q, parent, i, hQ, hdrop => by
    have hlen : parent.getChildren.length = i + (cs.length + 1) := by
      have := congrArg List.length hdrop
      rw [List.length_drop, List.length_cons] at this
      omega
    have hc : root.getNode (Q ++ [i]) = some c := by
      rw [getNode_snoc root Q i parent hQ]
      have := congrArg (fun l => l[0]?) hdrop
      simpa using this
    have hrest : parent.getChildren.drop (i + 1) = cs := by
      rw [← List.drop_drop, hdrop]
      rfl
    have hmap : ((preorderPositions c).map (i :: ·)).map
        (fun p => treeLine root (Q ++ p) ++ "\n".toList)
        = (preorderPositions c).map
          (fun p => treeLine root ((Q ++ [i]) ++ p) ++ "\n".toList) := by
      rw [List.map_map]
      apply List.map_congr_left
      intro p _
      simp
    rw [preorderBelow_cons, List.map_append, List.flatten_append, hmap,
      ← printNode_lines root c Q i hc, ← printKids_lines root cs Q parent (i + 1) hQ hrest,
      isLastChild_snoc root Q i parent hQ, hlen]
    cases cs with
    | nil =>
      rw [printKids_one, printKids_nil, List.append_nil]
      simp
    | cons d cs =>
      rw [printKids_cons_cons]
      have : (i + 1 == i + ((d :: cs).length + 1)) = false := by
        simp
      rw [this]
end

theorem cmdTree_eq_lines (fs : VirtualFileSystem) :
    cmdTree fs = ((treeLines fs.root).map (· ++ "\n".toList)).flatten := by
  unfold cmdTree treeLines
  obtain ⟨root, cur⟩ := fs
  cases hroot : root with
  | mk name t cs c p =>
    simp only
    rw [printNode_mk, preorderPositions_mk, List.map_cons, List.map_cons,
      List.flatten_cons]
    simp only [if_true, List.nil_append, List.append_nil]
    have h := printKids_lines (.mk name t cs c p) cs [] (.mk name t cs c p) 0 rfl rfl
    rw [leadBelow_nil] at h
    rw [h, List.map_map]
    rfl

end VirtualFileSystem

/-! ## The positions in pre-order and the lines of the output -/

namespace VirtualFileSystem

open VFSNode TreeSpec

mutual
/-- The positions in pre-order are the positions of the nodes of the tree. -/
theorem mem_preorderPositions : ∀ (n : VFSNode) (p : Pos),
    p ∈ preorderPositions n ↔ ∃ m, n.getNode p = some m
  | .mk name t cs c perms, [] => by
    rw [preorderPositions_mk]
    simp [getNode_nil]
  | .mk name t cs c perms, i :: rest => by
    rw [preorderPositions_mk, List.mem_cons, mem_preorderBelow cs 0 (i :: rest),
      getNode_cons]
    simp only [getChildren_mk]
    constructor
    · rintro (h | ⟨i', rest', h, -, c', hc, m, hm⟩)
      · cases h
      · cases h
        rw [Nat.sub_zero] at hc
        exact ⟨m, by rw [hc]; exact hm⟩
    · rintro ⟨m, hm⟩
      right
      cases hc : cs[i]? with
      | none => rw [hc] at hm; cases hm
      | some c' =>
        rw [hc] at hm
        exact ⟨i, rest, rfl, Nat.zero_le _, c', by rw [Nat.sub_zero]; exact hc, m, hm⟩
/-- The positions in pre-order under the children from index `k` on. -/
theorem mem_preorderBelow : ∀ (cs : List VFSNode) (k : Nat) (q : Pos),
    q ∈ preorderBelow k cs ↔
      ∃ i rest, q = i :: rest ∧ k ≤ i ∧ ∃ c, cs[i - k]? = some c ∧
        ∃ m, c.getNode rest = some m
  | [], k, q => by
    rw [preorderBelow_nil]
    simp
  | c :: cs, k, q => by
    rw [preorderBelow_cons, List.mem_append, List.mem_map, mem_preorderBelow cs (k + 1) q]
    constructor
    · rintro (⟨p, hp, rfl⟩ | ⟨i, rest, rfl, hk, c', hc, m, hm⟩)
      · obtain ⟨m, hm⟩ := (mem_preorderPositions c p).mp hp
        exact ⟨k, p, rfl, Nat.le_refl _, c, by simp, m, hm⟩
      · refine ⟨i, rest, rfl, by omega, c', ?_, m, hm⟩
        have : i - k = (i - (k + 1)) + 1 := by omega
        rw [this, List.getElem?_cons_succ]
        exact hc
    · rintro ⟨i, rest, rfl, hk, c', hc, m, hm⟩
      by_cases hik : i = k
      · subst hik
        left
        rw [Nat.sub_self, List.getElem?_cons_zero] at hc
        cases hc
        exact ⟨rest, (mem_preorderPositions c rest).mpr ⟨m, hm⟩, rfl⟩
      · right
        refine ⟨i, rest, rfl, by omega, c', ?_, m, hm⟩
        have : i - k = (i - (k + 1)) + 1 := by omega
        rw [this, List.getElem?_cons_succ] at hc
        exact hc
end

mutual
/-- No position occurs twice in the pre-order. -/
theorem nodup_preorderPositions : ∀ (n : VFSNode), (preorderPositions n).Nodup
  | .mk name t cs c perms => by
    rw [preorderPositions_mk, List.nodup_cons]
    refine ⟨?_, nodup_preorderBelow cs 0⟩
    intro h
    obtain ⟨i, rest, h, -⟩ := (mem_preorderBelow cs 0 []).mp h
    cases h
/-- No position occurs twice in the pre-order under a child vector. -/
theorem nodup_preorderBelow : ∀ (cs : List VFSNode) (k : Nat), (preorderBelow k cs).Nodup
  | [], k => by
    rw [preorderBelow_nil]
    exact List.nodup_nil
  | c :: cs, k => by
    rw [preorderBelow_cons, List.nodup_append]
    refine ⟨(nodup_preorderPositions c).map ?_, nodup_preorderBelow cs (k + 1), ?_⟩
    · intro a b h
      exact (List.cons.inj h).2
    · intro q h1 h2
      obtain ⟨p, -, rfl⟩ := List.mem_map.mp h1
      obtain ⟨i, rest, h, hk, -⟩ := (mem_preorderBelow cs (k + 1) _).mp h2
      cases h
      omega
end

theorem getlineItems_lines (lines : List Str) (h : ∀ l ∈ lines, '\n' ∉ l) :
    getlineItems '\n' ((lines.map (· ++ "\n".toList)).flatten) = lines := by
  induction lines with
  | nil => rfl
  | cons l ls ih =>
    rw [List.map_cons, List.flatten_cons]
    have : l ++ "\n".toList ++ (ls.map (· ++ "\n".toList)).flatten
        = l ++ '\n' :: (ls.map (· ++ "\n".toList)).flatten := by
      simp
    rw [this, getlineItems_append_delim,
      openItems_of_not_mem _ _ (h l (List.mem_cons_self _ _)),
      ih (fun l' hl' => h l' (List.mem_cons_of_mem _ hl'))]
    rfl

theorem branchLead_no_newline (root : VFSNode) (p : Pos) : '\n' ∉ branchLead root p := by
  unfold branchLead
  intro h
  obtain ⟨s, hs, hmem⟩ := List.mem_flatten.mp h
  obtain ⟨a, -, rfl⟩ := List.mem_map.mp hs
  by_cases hl : isLastChild root a = true
  · rw [if_pos hl] at hmem
    revert hmem
    decide
  · rw [if_neg hl] at hmem
    revert hmem
    decide

theorem treeLine_no_newline (root : VFSNode) (h : namesOnOneLine root) (p : Pos) :
    '\n' ∉ treeLine root p := by
  unfold treeLine
  by_cases hp : p = []
  · rw [if_pos hp]
    decide
  · rw [if_neg hp]
    intro hmem
    rw [List.mem_append, List.mem_append] at hmem
    rcases hmem with (hmem | hmem) | hmem
    · exact branchLead_no_newline root p hmem
    · by_cases hl : isLastChild root p = true
      · rw [if_pos hl] at hmem
        revert hmem
        decide
      · rw [if_neg hl] at hmem
        revert hmem
        decide
    · cases hn : root.getNode p with
      | none =>
        rw [hn] at hmem
        cases hmem
      | some n =>
        rw [hn] at hmem
        exact h p n hn hmem

/-- C21 (tree printer): for every tree, `cmdTree` writes one line for every node, in
pre-order with the children in stored order, each followed by a newline: the positions
listed are exactly the positions of the nodes, each once; the line of the root is `/`; the
line of every other node is its branch lead (for every non-root proper ancestor, from the
top down, four spaces if that ancestor is the last child of its parent and a bar with three
spaces otherwise), then the marker of a last child or the marker of another child, then its
name.  When no name holds a newline, the output cut at the newlines is this list of
lines. -/
theorem cmdTree_spec (fs : VirtualFileSystem) :
    cmdTree fs
      = ((preorderPositions fs.root).map
          (fun p => treeLine fs.root p ++ "\n".toList)).flatten ∧
    (∀ p, p ∈ preorderPositions fs.root ↔ ∃ n, fs.root.getNode p = some n) ∧
    (preorderPositions fs.root).Nodup ∧
    treeLine fs.root [] = "/".toList ∧
    (∀ p n, p ≠ [] → fs.root.getNode p = some n →
      treeLine fs.root p
        = ((nonRootProperAncestors p).map
            (fun a => if isLastChild fs.root a then "    ".toList else "|   ".toList)).flatten
          ++ (if isLastChild fs.root p then "`-- ".toList else "|-- ".toList)
          ++ n.getName) ∧
    (namesOnOneLine fs.root → getlineItems '\n' (cmdTree fs) = treeLines fs.root) := by
  refine ⟨?_, mem_preorderPositions fs.root, nodup_preorderPositions fs.root, rfl, ?_, ?_⟩
  · rw [cmdTree_eq_lines, treeLines, List.map_map]
    rfl
  · intro p n hp hn
    unfold treeLine branchLead
    rw [if_neg hp, hn]
    rfl
  · intro h
    rw [cmdTree_eq_lines]
    apply getlineItems_lines
    intro l hl
    obtain ⟨p, -, rfl⟩ := List.mem_map.mp hl
    exact treeLine_no_newline fs.root h p

end VirtualFileSystem

/-! ## The second resolution of `cmdWrite` -/

namespace VirtualFileSystem

open VFSNode

theorem findLastOf_slash_cons (leaf : Str) (hs : '/' ∉ leaf) :
    findLastOf '/' ('/' :: leaf) = some 0 := by
  have h := (findLastOf_eq_none '/' leaf).mpr hs
  simp only [findLastOf, h, if_true]

theorem rootedLeaf_shape (path : Str) (h : RootedLeaf path) :
    path = '/' :: leafNameOf path ∧ '/' ∉ leafNameOf path := by
  have hl : findLastOf '/' path = some 0 := h
  obtain ⟨hd, hs⟩ := path_eq_parent_slash_leaf path 0 hl
  have hpp : parentPathOf path = [] := by simp [parentPathOf, hl]
  rw [hpp, List.nil_append] at hd
  exact ⟨hd, hs⟩

theorem cmdTouch_rooted_leaf (fs : VirtualFileSystem) (leaf : Str) (hs : '/' ∉ leaf)
    (hne : leaf ≠ []) : cmdTouch fs ('/' :: leaf) = cmdTouch fs leaf := by
  have h0 := findLastOf_slash_cons leaf hs
  have h1 := (findLastOf_eq_none '/' leaf).mpr hs
  have hp : parentPtr fs ('/' :: leaf) = parentPtr fs leaf := by
    simp [parentPtr, parentPathOf, h0, h1]
  have hl : leafNameOf ('/' :: leaf) = leafNameOf leaf := by
    simp [leafNameOf, h0, h1]
  unfold cmdTouch
  rw [hp, hl, if_neg (List.cons_ne_nil _ _), if_neg hne]

theorem resolvePath_rooted_leaf (fs : VirtualFileSystem) (leaf : Str)
    (hcur : fs.current = some []) (hs : '/' ∉ leaf) (hne : leaf ≠ []) :
    resolvePath fs ('/' :: leaf) = resolvePath fs leaf := by
  have hsplit : splitPath ('/' :: leaf) = splitPath leaf := by
    have := splitPath_append_slash [] leaf
    rw [List.nil_append] at this
    rw [this]
    rfl
  have hhead : leaf.head? ≠ some '/' := by
    cases leaf with
    | nil => exact absurd rfl hne
    | cons c cs =>
      intro h
      apply hs
      rw [List.head?_cons, Option.some.injEq] at h
      rw [h]
      exact List.mem_cons_self _ _
  have e : ('/' :: leaf).head? = some '/' := rfl
  rw [resolvePath_eq_walk, resolvePath_eq_walk, if_pos e, if_neg hhead, hsplit, hcur]
  rfl

theorem cmdTouch_current (fs : VirtualFileSystem) (path : Str) (r : Result)
    (h : cmdTouch fs path = some r) : r.fs.current = fs.current := by
  cases hok : r.ok with
  | false => rw [cmdTouch_fail fs path r h hok]
  | true =>
    obtain ⟨par, parent, -, -, -, hcase⟩ := cmdTouch_ok fs path r h hok
    rcases hcase with ⟨-, rfl⟩ | ⟨-, -, rfl⟩ <;> rfl

/-- After a successful `cmdTouch` on a path that did not resolve, the path resolves to a
node of the tree, unless the path is of the form `/name` and `current` is not the root. -/
theorem touch_then_resolve_exists (fs : VirtualFileSystem) (path : Str) (r : Result)
    (hshape : RootedLeaf path → fs.current = some [])
    (habsent : resolvePath fs path = some none)
    (h : cmdTouch fs path = some r) (hok : r.ok = true) :
    ∃ q node, resolvePath r.fs path = some (some q) ∧ r.fs.root.getNode q = some node := by
  have plain : ∀ (path : Str), ¬ RootedLeaf path → resolvePath fs path = some none →
      cmdTouch fs path = some r →
      ∃ q node, resolvePath r.fs path = some (some q) ∧
        r.fs.root.getNode q = some node := by
    intro path hrooted habsent h
    by_cases hleaf : ProperLeaf path
    · obtain ⟨q, hq, hn, -⟩ := cmdTouch_then_resolve fs path r hleaf hrooted habsent h hok
      exact ⟨q, _, hq, hn⟩
    · obtain ⟨par, parent, hptr, -⟩ := cmdTouch_ok fs path r h hok
      obtain ⟨q, hq⟩ := resolvePath_improper_leaf fs path par hleaf hrooted hptr
      rw [hq] at habsent
      cases habsent
  by_cases hrooted : RootedLeaf path
  · have hcur := hshape hrooted
    obtain ⟨hd, hs⟩ := rootedLeaf_shape path hrooted
    by_cases hne : leafNameOf path = []
    · rw [hd, hne] at habsent
      have e : (['/'] : Str).head? = some '/' := rfl
      rw [resolvePath_eq_walk, if_pos e] at habsent
      cases habsent
    · rw [hd, resolvePath_rooted_leaf fs _ hcur hs hne] at habsent
      rw [hd, cmdTouch_rooted_leaf fs _ hs hne] at h
      have hnot : ¬ RootedLeaf (leafNameOf path) := by
        intro hr
        have h1 := (findLastOf_eq_none '/' (leafNameOf path)).mpr hs
        have h2 : findLastOf '/' (leafNameOf path) = some 0 := hr
        rw [h1] at h2
        cases h2
      obtain ⟨q, node, hq, hn⟩ := plain (leafNameOf path) hnot habsent h
      have hcur' : r.fs.current = some [] := by
        rw [cmdTouch_current fs _ r h, hcur]
      refine ⟨q, node, ?_, hn⟩
      rw [hd, resolvePath_rooted_leaf r.fs _ hcur' hs hne]
      exact hq
  · exact plain path hrooted habsent h

/-- With the guarantee of `touch_then_resolve_exists`, `cmdWrite` on a path that does not
resolve reaches its checks with an existing node: it returns what `cmdTouch` says when that
fails, and the result of the checks and the input loop on the node of the path
otherwise. -/
theorem cmdWrite_after_touch (fs : VirtualFileSystem) (path : Str) (input : List Str)
    (r : Result) (hshape : RootedLeaf path → fs.current = some [])
    (habsent : resolvePath fs path = some none)
    (h : cmdTouch fs path = some r) (hok : r.ok = true) :
    ∃ q node, resolvePath r.fs path = some (some q) ∧ r.fs.root.getNode q = some node ∧
      cmdWrite fs path input = writeInto r.fs r.out q input := by
  obtain ⟨q, node, hq, hn⟩ := touch_then_resolve_exists fs path r hshape habsent h hok
  refine ⟨q, node, hq, hn, ?_⟩
  unfold cmdWrite
  simp only [habsent, h, hok, hq, Bool.not_true, Bool.false_eq_true, if_false]

end VirtualFileSystem

/-! ## The restricted round trip, from the restrictions as stated -/

namespace VirtualFileSystem

open VFSNode RoundTripSpec

theorem restrictedAsStated_mk (name : Str) (t : NodeType) (cs : List VFSNode) (c p : Str) :
    restrictedAsStated (.mk name t cs c p)
      = (properName name && properPerms p
          && (match t with
              | NodeType.File => cs.isEmpty && properContent c
              | NodeType.Directory => true)
          && decide ((cs.map getName).Nodup) && restrictedAsStatedList cs) := by
  cases t <;> simp only [restrictedAsStated]

theorem restrictedAsStatedList_cons (c : VFSNode) (cs : List VFSNode) :
    restrictedAsStatedList (c :: cs)
      = (restrictedAsStated c && restrictedAsStatedList cs) := by
  simp only [restrictedAsStatedList]

mutual
/-- A subtree under the restrictions as stated, whose directories have no content, is
savable. -/
theorem savable_of_restricted : ∀ (n : VFSNode), restrictedAsStated n = true →
    kindsOk n = true → savable n = true
  | .mk name t cs c p, h, hk => by
    rw [restrictedAsStated_mk] at h
    rw [kindsOk_mk] at hk
    rw [savable_mk]
    simp only [Bool.and_eq_true] at h hk ⊢
    obtain ⟨⟨⟨⟨hname, hperms⟩, ht⟩, hnodup⟩, hkids⟩ := h
    have hlist := savableList_of_restricted cs hkids hk.2
    cases t with
    | File =>
      simp only [Bool.and_eq_true] at ht
      exact ⟨⟨⟨⟨⟨hname, hperms⟩, ht.2⟩, ht.1⟩, hnodup⟩, hlist⟩
    | Directory =>
      have hc : c = [] := List.isEmpty_iff.mp hk.1
      subst hc
      exact ⟨⟨⟨⟨⟨hname, hperms⟩, by decide⟩, rfl⟩, hnodup⟩, hlist⟩
/-- The same for a child vector. -/
theorem savableList_of_restricted : ∀ (cs : List VFSNode),
    restrictedAsStatedList cs = true → kindsOkList cs = true → savableList cs = true
  | [], _, _ => rfl
  | c :: cs, h, hk => by
    rw [restrictedAsStatedList_cons, Bool.and_eq_true] at h
    rw [kindsOkList_cons, Bool.and_eq_true] at hk
    rw [savableList_cons, Bool.and_eq_true]
    exact ⟨savable_of_restricted c h.1 hk.1, savableList_of_restricted cs h.2 hk.2⟩
end

theorem savableRoot_of_restricted (root : VFSNode)
    (h : restrictedRootAsStated root = true) (hk : kindsOk root = true) :
    savableRoot root = true := by
  obtain ⟨name, t, cs, c, p⟩ := root
  rw [savableRoot_mk]
  rw [kindsOk_mk] at hk
  simp only [restrictedRootAsStated, Bool.and_eq_true, beq_iff_eq] at h hk ⊢
  obtain ⟨⟨⟨⟨hname, ht⟩, hperms⟩, hnodup⟩, hkids⟩ := h
  subst ht
  exact ⟨⟨⟨⟨⟨hname, rfl⟩, hk.1⟩, hperms⟩, hnodup⟩,
    savableList_of_restricted cs hkids hk.2⟩

/-- C23, amended (restricted round trip): for every tree of an engine (the root is the
directory `/`) in which sibling names are unique, files have no children, directories have
no content, every name under the root is non-empty, is not `.` or `..` and has no `/` and
no white space, every permission string is non-empty without white space, and every file
content is empty or ends in a newline and has no line equal to `CONTENT_BEGIN` or
`CONTENT_END` and no line starting with `NODE `, loading the text that `save` writes for the
tree gives exactly that tree, with `current` at the root. -/
theorem restricted_round_trip (fs saved : VirtualFileSystem)
    (h : restrictedRootAsStated saved.root = true) (hdir : kindsOk saved.root = true) :
    load fs (some (save saved)) = ⟨saved.root, some []⟩ :=
  load_save_eq fs saved (savableRoot_of_restricted saved.root h hdir)

end VirtualFileSystem

/-! ## The invariant of `current`: a directory reached by a walk over child names -/

namespace VirtualFileSystem

open VFSNode

theorem getlineItems_no_delim (d : Char) (s : Str) :
    ∀ item ∈ getlineItems d s, d ∉ item := by
  induction s with
  | nil => intro item h; cases h
  | cons c cs ih =>
    intro item h
    rw [getlineItems_cons] at h
    by_cases hc : c = d
    · rw [if_pos hc] at h
      rcases List.mem_cons.mp h with rfl | h
      · exact List.not_mem_nil _
      · exact ih item h
    · rw [if_neg hc] at h
      cases hg : getlineItems d cs with
      | nil =>
        rw [hg] at h
        simp only [List.mem_singleton] at h
        subst h
        intro hmem
        rcases List.mem_singleton.mp hmem with rfl
        exact hc rfl
      | cons item0 items =>
        rw [hg] at h ih
        simp only at h
        rcases List.mem_cons.mp h with rfl | h
        · intro hmem
          rcases List.mem_cons.mp hmem with rfl | hmem
          · exact hc rfl
          · exact ih item0 (List.mem_cons_self _ _) hmem
        · exact ih item (List.mem_cons_of_mem _ h)

theorem splitPath_items (path : Str) :
    ∀ part ∈ splitPath path, part = "..".toList ∨ IsPart part := by
  intro part h
  unfold splitPath at h
  rw [List.mem_filter] at h
  obtain ⟨hmem, hkeep⟩ := h
  have hk := of_decide_eq_true hkeep
  by_cases hup : part = "..".toList
  · exact Or.inl hup
  · exact Or.inr ⟨hk.1, hk.2, hup, getlineItems_no_delim '/' path part hmem⟩

theorem anchored_root (root : VFSNode) : Anchored root [] :=
  ⟨[], fun _ h => absurd h (List.not_mem_nil _), walk_nil root []⟩

theorem walk_single (root : VFSNode) (q : Pos) (part : Str) (h : part ≠ "..".toList) :
    walk root q [part] = stepChild root q part := by
  rw [walk_cons_child root q part [] h]
  cases stepChild root q part with
  | none => rfl
  | some q1 => exact walk_nil root q1

theorem anchored_step (root : VFSNode) (q q1 : Pos) (part : Str) (hq : Anchored root q)
    (hpart : IsPart part) (h : stepChild root q part = some q1) : Anchored root q1 := by
  obtain ⟨parts, hparts, hw⟩ := hq
  refine ⟨parts ++ [part], ?_, ?_⟩
  · intro x hx
    rcases List.mem_append.mp hx with hx | hx
    · exact hparts x hx
    · rw [List.mem_singleton.mp hx]
      exact hpart
  · rw [walk_append, hw, Option.some_bind, walk_single root q part hpart.2.2.1, h]

theorem anchored_dropLast (root : VFSNode) (q : Pos) (hq : Anchored root q) :
    Anchored root q.dropLast := by
  obtain ⟨parts, hparts, hw⟩ := hq
  rcases List.eq_nil_or_concat parts with rfl | ⟨ps, p, rfl⟩
  · rw [walk_nil] at hw
    cases hw
    exact anchored_root root
  · rw [List.concat_eq_append] at hparts hw
    have hp : IsPart p := hparts p (by simp)
    rw [walk_append] at hw
    cases hps : walk root [] ps with
    | none => rw [hps] at hw; cases hw
    | some q' =>
      rw [hps, Option.some_bind, walk_single root q' p hp.2.2.1] at hw
      obtain ⟨n, i, c, -, -, rfl, -⟩ := stepChild_eq_some root q' p q hw
      rw [List.dropLast_concat]
      exact ⟨ps, fun x hx => hparts x (by simp [hx]), hps⟩

/-- A walk over the parts of a path, started from a position that a walk over child names
reaches, ends in such a position. -/
theorem anchored_walk (root : VFSNode) (parts : List Str)
    (hparts : ∀ part ∈ parts, part = "..".toList ∨ IsPart part) :
    ∀ (q r : Pos), Anchored root q → walk root q parts = some r → Anchored root r := by
  induction parts with
  | nil =>
    intro q r hq h
    rw [walk_nil] at h
    cases h
    exact hq
  | cons part parts ih =>
    intro q r hq h
    have ih' := ih (fun x hx => hparts x (List.mem_cons_of_mem _ hx))
    rcases hparts part (List.mem_cons_self _ _) with rfl | hpart
    · rw [walk_cons_up] at h
      exact ih' _ r (anchored_dropLast root q hq) h
    · rw [walk_cons_child root q part parts hpart.2.2.1] at h
      cases hs : stepChild root q part with
      | none => rw [hs] at h; cases h
      | some q1 =>
        rw [hs, Option.some_bind] at h
        exact ih' q1 r (anchored_step root q q1 part hq hpart hs) h

theorem anchored_resolvePath (fs : VirtualFileSystem) (path : Str) (target : Pos)
    (hcur : ∀ cur, fs.current = some cur → Anchored fs.root cur)
    (h : resolvePath fs path = some (some target)) : Anchored fs.root target := by
  rw [resolvePath_eq_walk] at h
  by_cases hh : path.head? = some '/'
  · rw [if_pos hh] at h
    exact anchored_walk fs.root _ (splitPath_items path) [] target (anchored_root _)
      (Option.some.inj h)
  · rw [if_neg hh] at h
    cases hc : fs.current with
    | none => rw [hc] at h; cases h
    | some cur =>
      rw [hc] at h
      exact anchored_walk fs.root _ (splitPath_items path) cur target (hcur cur hc)
        (Option.some.inj h)

/-- The names from the root down to a position that a walk over child names reaches are the
names walked over. -/
theorem namesTo_of_walk (root : VFSNode) (parts : List Str)
    (hparts : ∀ part ∈ parts, IsPart part) :
    ∀ (q r : Pos) (n : VFSNode), root.getNode q = some n → walk root q parts = some r →
      ∃ rest, r = q ++ rest ∧ namesTo n rest = parts := by
  induction parts with
  | nil =>
    intro q r n _ h
    rw [walk_nil] at h
    cases h
    exact ⟨[], (List.append_nil _).symm, by cases n; rfl⟩
  | cons part parts ih =>
    intro q r n hn h
    have hpart := hparts part (List.mem_cons_self _ _)
    rw [walk_cons_child root q part parts hpart.2.2.1] at h
    cases hs : stepChild root q part with
    | none => rw [hs] at h; cases h
    | some q1 =>
      rw [hs, Option.some_bind] at h
      obtain ⟨n', i, c, hn', -, rfl, hc, hname, hq1⟩ := stepChild_eq_some root q part q1 hs
      rw [hn] at hn'
      cases hn'
      obtain ⟨rest, rfl, hnames⟩ :=
        ih (fun x hx => hparts x (List.mem_cons_of_mem _ hx)) (q ++ [i]) r c hq1 h
      refine ⟨i :: rest, by simp, ?_⟩
      cases n with
      | mk nm t cs ct p =>
        rw [getChildren_mk] at hc
        simp only [namesTo, getChildren_mk, hc, hname, hnames]

theorem namesTo_of_anchored (root : VFSNode) (cur : Pos) (parts : List Str)
    (hparts : ∀ part ∈ parts, IsPart part) (h : walk root [] parts = some cur) :
    namesTo root cur = parts := by
  obtain ⟨rest, hr, hnames⟩ := namesTo_of_walk root parts hparts [] cur root (getNode_nil root) h
  rw [List.nil_append] at hr
  rw [hr]
  exact hnames

end VirtualFileSystem

/-! ## The invariant of `current` under the operations -/

namespace VirtualFileSystem

open VFSNode

theorem isDirectory_of_getType (a b : VFSNode) (h : a.getType = b.getType) :
    a.isDirectory = b.isDirectory := by
  unfold isDirectory
  rw [h]

theorem getType_getNode_updateNode (f : VFSNode → VFSNode)
    (htype : ∀ x, (f x).getType = x.getType)
    (hkids : ∀ x, (f x).getChildren = x.getChildren) (root : VFSNode) (P q : Pos) :
    ((root.updateNode f P).getNode q).map getType = (root.getNode q).map getType := by
  rcases pos_trichotomy P q with ⟨r, rfl⟩ | ⟨i, r, rfl⟩ |
    ⟨common, a, b, p', q', hab, rfl, rfl⟩
  · rw [getNode_updateNode_below, getNode_append]
    cases root.getNode P with
    | none => rfl
    | some d =>
      cases r with
      | nil =>
        simp only [Option.some_bind, getNode_nil, Option.map_some', htype]
      | cons i r =>
        simp only [Option.some_bind, getNode_cons, hkids]
  · rw [getNode_updateNode_above]
    cases root.getNode q with
    | none => rfl
    | some m =>
      simp only [Option.map_some', getType_updateNode_cons]
  · rw [getNode_updateNode_beside f root common a b p' q' hab]

/-- A directory at a position stays one when a child is pushed somewhere in the tree. -/
theorem directoryAt_push (c : VFSNode) (root : VFSNode) (dst q : Pos) (n : VFSNode)
    (hq : root.getNode q = some n) (hdir : n.isDirectory = true) :
    ∃ n', (root.updateNode (pushChild c) dst).getNode q = some n' ∧
      n'.isDirectory = true := by
  by_cases hpre : q <+: dst
  · obtain ⟨n', hn', ht⟩ := getNode_push_above c root dst q n hq hpre
    exact ⟨n', hn', by rw [isDirectory_of_getType n' n ht]; exact hdir⟩
  · exact ⟨n, getNode_after_push c root dst q n hq hpre, hdir⟩

theorem directoryAt_update (f : VFSNode → VFSNode)
    (htype : ∀ x, (f x).getType = x.getType)
    (hkids : ∀ x, (f x).getChildren = x.getChildren) (root : VFSNode) (P q : Pos)
    (n : VFSNode) (hq : root.getNode q = some n) (hdir : n.isDirectory = true) :
    ∃ n', (root.updateNode f P).getNode q = some n' ∧ n'.isDirectory = true := by
  have h := getType_getNode_updateNode f htype hkids root P q
  rw [hq] at h
  cases hn : (root.updateNode f P).getNode q with
  | none => rw [hn] at h; cases h
  | some n' =>
    rw [hn] at h
    refine ⟨n', rfl, ?_⟩
    rw [isDirectory_of_getType n' n (Option.some.inj h)]
    exact hdir

theorem rebase_of_above (kids : List VFSNode) (name : Str) (q r : Pos) :
    rebase kids name (q ++ r) q = some q := by
  cases r with
  | nil => rw [List.append_nil]; exact rebase_self kids name q
  | cons i r => exact rebase_above kids name q i r

theorem directoryAt_remove (root : VFSNode) (par : Pos) (parent : VFSNode) (name : Str)
    (hpar : root.getNode par = some parent) (q q' : Pos) (n : VFSNode)
    (hr : rebase parent.getChildren name par q = some q')
    (hq : root.getNode q = some n) (hdir : n.isDirectory = true) :
    ∃ n', (root.updateNode (removeChild name) par).getNode q' = some n' ∧
      n'.isDirectory = true := by
  by_cases hpre : q <+: par
  · obtain ⟨r, rfl⟩ := hpre
    rw [rebase_of_above] at hr
    cases hr
    rw [getNode_updateNode_above, hq]
    refine ⟨_, rfl, ?_⟩
    rw [isDirectory_of_getType _ n
      (getType_updateNode _ (removeChild_getType name) n r)]
    exact hdir
  · exact ⟨n, getNode_removeChild_kept root par parent name hpar q q' n hr hq hpre, hdir⟩

theorem anchored_push (c : VFSNode) (root : VFSNode) (dst : Pos) (d : VFSNode)
    (hd : root.getNode dst = some d) (q : Pos) (h : Anchored root q) :
    Anchored (root.updateNode (pushChild c) dst) q := by
  obtain ⟨parts, hparts, hw⟩ := h
  exact ⟨parts, hparts, walk_push c root dst d hd parts [] q hw⟩

theorem anchored_update (f : VFSNode → VFSNode)
    (hname : ∀ x, (f x).getName = x.getName)
    (hkids : ∀ x, (f x).getChildren = x.getChildren) (root : VFSNode) (P q : Pos)
    (h : Anchored root q) : Anchored (root.updateNode f P) q := by
  obtain ⟨parts, hparts, hw⟩ := h
  refine ⟨parts, hparts, ?_⟩
  rw [← walk_congr root (root.updateNode f P)
    (fun q => (childNames_getNode_updateNode f hname hkids root P q).symm)]
  exact hw

theorem not_mem_of_parts (parts : List Str) (h : ∀ part ∈ parts, IsPart part) :
    "..".toList ∉ parts :=
  fun hmem => (h _ hmem).2.2.1 rfl

theorem anchored_remove (root : VFSNode) (par : Pos) (parent : VFSNode) (name : Str)
    (hpar : root.getNode par = some parent) (q q' : Pos)
    (hr : rebase parent.getChildren name par q = some q') (h : Anchored root q) :
    Anchored (root.updateNode (removeChild name) par) q' := by
  obtain ⟨parts, hparts, hw⟩ := h
  exact ⟨parts, hparts,
    walk_removeChild_down root par parent name hpar parts [] [] q q'
      (not_mem_of_parts parts hparts) (rebase_root _ _ _) hw hr⟩

theorem currentAnchored_push (fs : VirtualFileSystem) (c : VFSNode) (dst : Pos)
    (d : VFSNode) (hd : fs.root.getNode dst = some d) (h : CurrentAnchored fs) :
    CurrentAnchored ⟨fs.root.updateNode (pushChild c) dst, fs.current⟩ := by
  intro cur hcur
  obtain ⟨ha, n, hn, hdir⟩ := h cur hcur
  exact ⟨anchored_push c fs.root dst d hd cur ha,
    directoryAt_push c fs.root dst cur n hn hdir⟩

theorem currentAnchored_update (f : VFSNode → VFSNode)
    (hname : ∀ x, (f x).getName = x.getName) (htype : ∀ x, (f x).getType = x.getType)
    (hkids : ∀ x, (f x).getChildren = x.getChildren) (fs : VirtualFileSystem) (P : Pos)
    (h : CurrentAnchored fs) : CurrentAnchored ⟨fs.root.updateNode f P, fs.current⟩ := by
  intro cur hcur
  obtain ⟨ha, n, hn, hdir⟩ := h cur hcur
  exact ⟨anchored_update f hname hkids fs.root P cur ha,
    directoryAt_update f htype hkids fs.root P cur n hn hdir⟩

theorem currentAnchored_removeAt (fs : VirtualFileSystem) (par : Pos) (parent : VFSNode)
    (name : Str) (hpar : fs.root.getNode par = some parent) (h : CurrentAnchored fs) :
    CurrentAnchored (removeAt fs par parent name) := by
  intro cur' hcur'
  unfold removeAt at hcur' ⊢
  simp only at hcur' ⊢
  cases hc : fs.current with
  | none => rw [hc] at hcur'; cases hcur'
  | some cur =>
    rw [hc, Option.some_bind] at hcur'
    obtain ⟨ha, n, hn, hdir⟩ := h cur hc
    exact ⟨anchored_remove fs.root par parent name hpar cur cur' hcur' ha,
      directoryAt_remove fs.root par parent name hpar cur cur' n hcur' hn hdir⟩

theorem setContent_getChildren (b : Str) (n : VFSNode) :
    (setContent b n).getChildren = n.getChildren := by
  cases n; rfl

theorem setPermissions_getChildren (b : Str) (n : VFSNode) :
    (setPermissions b n).getChildren = n.getChildren := by
  cases n; rfl

theorem cmdCd_cases (fs : VirtualFileSystem) (path : Str) (r : Result)
    (h : cmdCd fs path = some r) :
    r.fs = fs ∨ r.fs = ⟨fs.root, some []⟩ ∨
      ∃ target t, resolvePath fs path = some (some target) ∧
        fs.root.getNode target = some t ∧ t.isDirectory = true ∧
        r.fs = ⟨fs.root, some target⟩ := by
  unfold cmdCd at h
  by_cases hp : path = []
  · rw [if_pos hp] at h
    cases h
    exact Or.inr (Or.inl rfl)
  · rw [if_neg hp] at h
    cases hres : resolvePath fs path with
    | none => rw [hres] at h; cases h
    | some o =>
      cases o with
      | none => rw [hres] at h; cases h; exact Or.inl rfl
      | some target =>
        rw [hres] at h
        simp only at h
        cases ht : fs.root.getNode target with
        | none => rw [ht] at h; cases h
        | some t =>
          rw [ht] at h
          simp only at h
          cases hdir : t.isDirectory with
          | false =>
            simp only [hdir, Bool.not_false, if_true, Option.some.injEq] at h
            subst h
            exact Or.inl rfl
          | true =>
            simp only [hdir, Bool.not_true, Bool.false_eq_true, if_false] at h
            split at h
            · cases h; exact Or.inl rfl
            · cases h
              exact Or.inr (Or.inr ⟨target, t, rfl, ht, hdir, rfl⟩)

theorem cmdRm_cases (fs : VirtualFileSystem) (path : Str) (recursive : Bool) (r : Result)
    (h : cmdRm fs path recursive = some r) :
    r.fs = fs ∨ ∃ par parent, fs.root.getNode par = some parent ∧
      r.fs = removeAt fs par parent (leafNameOf path) := by
  cases hok : r.ok with
  | false => exact Or.inl (cmdRm_fail fs path recursive r h hok)
  | true =>
    right
    unfold cmdRm at h
    repeat' split at h
    all_goals (cases h <;> first | (refine ⟨_, _, ?_, rfl⟩; assumption) | cases hok)

theorem cmdChmod_cases (fs : VirtualFileSystem) (perms path : Str) (r : Result)
    (h : cmdChmod fs perms path = some r) :
    r.fs = fs ∨ ∃ n, r.fs = ⟨fs.root.updateNode (setPermissions perms) n, fs.current⟩ := by
  unfold cmdChmod at h
  repeat' split at h
  all_goals (cases h <;> first | exact Or.inl rfl | exact Or.inr ⟨_, rfl⟩)

theorem currentAnchored_writeInto (fs : VirtualFileSystem) (out : Str) (p : Pos)
    (input : List Str) (r : Result) (h : writeInto fs out p input = some r)
    (hinv : CurrentAnchored fs) : CurrentAnchored r.fs := by
  cases hok : r.ok with
  | false => rw [writeInto_fail fs out p input r h hok]; exact hinv
  | true =>
    obtain ⟨node, buffer, -, -, e⟩ := writeInto_ok fs out p input r h hok
    rw [e]
    exact currentAnchored_update _ (setContent_getName buffer) (setContent_getType buffer)
      (setContent_getChildren buffer) fs p hinv

theorem currentAnchored_touch (fs : VirtualFileSystem) (path : Str) (r : Result)
    (h : cmdTouch fs path = some r) (hinv : CurrentAnchored fs) : CurrentAnchored r.fs := by
  cases hok : r.ok with
  | false => rw [cmdTouch_fail fs path r h hok]; exact hinv
  | true =>
    obtain ⟨par, parent, -, hpar, -, hcase⟩ := cmdTouch_ok fs path r h hok
    rcases hcase with ⟨-, rfl⟩ | ⟨-, -, rfl⟩
    · exact hinv
    · exact currentAnchored_push fs _ par parent hpar hinv

theorem currentAnchored_write (fs : VirtualFileSystem) (path : Str) (input : List Str)
    (r : Result) (h : cmdWrite fs path input = some r) (hinv : CurrentAnchored fs) :
    CurrentAnchored r.fs := by
  unfold cmdWrite at h
  cases hres : resolvePath fs path with
  | none => rw [hres] at h; cases h
  | some o =>
    cases o with
    | some p =>
      rw [hres] at h
      exact currentAnchored_writeInto fs [] p input r h hinv
    | none =>
      rw [hres] at h
      simp only at h
      cases ht : cmdTouch fs path with
      | none => rw [ht] at h; cases h
      | some r1 =>
        rw [ht] at h
        simp only at h
        have h1 := currentAnchored_touch fs path r1 ht hinv
        cases hok1 : r1.ok with
        | false =>
          simp only [hok1, Bool.not_false, if_true, Option.some.injEq] at h
          rw [← h]
          exact h1
        | true =>
          simp only [hok1, Bool.not_true, Bool.false_eq_true, if_false] at h
          cases hres1 : resolvePath r1.fs path with
          | none => rw [hres1] at h; cases h
          | some o1 =>
            cases o1 with
            | none => rw [hres1] at h; cases h
            | some p =>
              rw [hres1] at h
              exact currentAnchored_writeInto r1.fs r1.out p input r h h1

/-- Every operation keeps the invariant of `current`, in a tree whose root is a
directory. -/
theorem currentAnchored_run (op : Op) (fs fs' : VirtualFileSystem)
    (hroot : fs.root.isDirectory = true) (hinv : CurrentAnchored fs)
    (h : op.run fs = some fs') : CurrentAnchored fs' := by
  have hroot' : fs'.root.isDirectory = true := by
    rcases run_root_name_type op fs fs' h with ⟨-, ht⟩ | ⟨-, ht⟩
    · rw [isDirectory_of_getType _ _ ht]; exact hroot
    · unfold isDirectory; rw [ht]; rfl
  obtain ⟨r, hr, rfl⟩ := run_eq_some op fs _ h
  cases op with
  | cd path =>
    rcases cmdCd_cases fs path r hr with e | e | ⟨target, t, hres, ht, hdir, e⟩
    · rw [e]; exact hinv
    · rw [e]
      intro cur hcur
      cases hcur
      exact ⟨anchored_root _, fs.root, getNode_nil _, hroot⟩
    · rw [e]
      intro cur hcur
      cases hcur
      exact ⟨anchored_resolvePath fs path target (fun c hc => (hinv c hc).1) hres,
        t, ht, hdir⟩
  | mkdir path =>
    cases hok : r.ok with
    | false => rw [cmdMkdir_fail fs path r hr hok]; exact hinv
    | true =>
      obtain ⟨par, parent, -, hpar, -, -, -, rfl⟩ := cmdMkdir_ok fs path r hr hok
      exact currentAnchored_push fs _ par parent hpar hinv
  | touch path => exact currentAnchored_touch fs path r hr hinv
  | rm path recursive =>
    rcases cmdRm_cases fs path recursive r hr with e | ⟨par, parent, hpar, e⟩
    · rw [e]; exact hinv
    · rw [e]; exact currentAnchored_removeAt fs par parent _ hpar hinv
  | cat path => rw [cmdCat_same fs path r hr]; exact hinv
  | write path input => exact currentAnchored_write fs path input r hr hinv
  | cp fuel src dst =>
    cases hok : r.ok with
    | false => rw [cmdCp_fail fuel fs src dst r hr hok]; exact hinv
    | true =>
      obtain ⟨sp, s, par, parent, root1, -, hs, -, -, hpar, hdir, -, hcopy, rfl⟩ :=
        cmdCp_ok fuel fs src dst r hr hok
      have := copyNodeRecursive_result fuel fs.root sp par _ s parent root1 hs hpar hdir
        hcopy
      subst this
      exact currentAnchored_push fs _ par parent hpar hinv
  | mv fuel src dst =>
    cases hok : r.ok with
    | false => rw [cmdMv_fail fuel fs src dst r hr hok]; exact hinv
    | true =>
      obtain ⟨sp, oldParent, par, parent, root1, s1, old, -, -, -, hpar, hdir, -, hcopy, -,
        hold, rfl⟩ := cmdMv_ok fuel fs src dst r hr hok
      obtain ⟨s, d, hs, -⟩ := copyNodeRecursive_some fuel fs.root sp par _ root1 hcopy
      have := copyNodeRecursive_result fuel fs.root sp par _ s parent root1 hs hpar hdir
        hcopy
      subst this
      exact currentAnchored_removeAt _ oldParent old _ hold
        (currentAnchored_push fs _ par parent hpar hinv)
  | chmod perms path =>
    rcases cmdChmod_cases fs perms path r hr with e | ⟨n, e⟩
    · rw [e]; exact hinv
    · rw [e]
      exact currentAnchored_update _ (setPermissions_getName perms)
        (setPermissions_getType perms) (setPermissions_getChildren perms) fs n hinv
  | load file =>
    simp only [Op.result, Option.some.injEq] at hr
    subst hr
    have hc : (load fs file).current = some [] := by
      cases file <;> rfl
    intro cur hcur
    rw [hc] at hcur
    cases hcur
    exact ⟨anchored_root _, _, getNode_nil _, hroot'⟩

/-- In every state that the engine reaches, the root is a directory and `current`, when it
refers to a node, refers to a directory that a walk over child names reaches. -/
theorem reachable_currentAnchored (fs : VirtualFileSystem) (h : Reachable fs) :
    fs.root.isDirectory = true ∧ CurrentAnchored fs := by
  induction h with
  | init =>
    refine ⟨rfl, ?_⟩
    intro cur hcur
    cases hcur
    exact ⟨anchored_root _, _, rfl, rfl⟩
  | step op fs fs' _ _ hrun ih =>
    refine ⟨?_, currentAnchored_run op fs fs' ih.1 ih.2 hrun⟩
    rcases run_root_name_type op fs fs' hrun with ⟨-, ht⟩ | ⟨-, ht⟩
    · rw [isDirectory_of_getType _ _ ht]; exact ih.1
    · unfold isDirectory; rw [ht]; rfl

end VirtualFileSystem

/-! ## `getCurrentPath` and the resolution of its result -/

namespace VirtualFileSystem

open VFSNode

theorem namesTo_nil (root : VFSNode) : namesTo root [] = [] := by
  cases root; rfl

theorem namesTo_cons (root : VFSNode) (i : Nat) (rest : Pos) (ch : VFSNode)
    (h : root.getChildren[i]? = some ch) :
    namesTo root (i :: rest) = ch.getName :: namesTo ch rest := by
  cases root with
  | mk nm t cs c p =>
    rw [getChildren_mk] at h
    simp only [namesTo, getChildren_mk, h]

/-- The names that `getCurrentPath` collects are the names of the nodes on the way from the
root down to the position, one for every node below the root. -/
theorem namesTo_spec : ∀ (cur : Pos) (root c : VFSNode), root.getNode cur = some c →
    (namesTo root cur).length = cur.length ∧
    ∀ k, k < cur.length →
      (namesTo root cur)[k]? = (root.getNode (cur.take (k + 1))).map getName
  | [], root, _, _ => by
    rw [namesTo_nil]
    exact ⟨rfl, fun k hk => absurd hk (Nat.not_lt_zero _)⟩
  | i :: rest, root, c, h => by
    rw [getNode_cons] at h
    cases hch : root.getChildren[i]? with
    | none => rw [hch] at h; cases h
    | some ch =>
      rw [hch, Option.some_bind] at h
      obtain ⟨hlen, hnames⟩ := namesTo_spec rest ch c h
      rw [namesTo_cons root i rest ch hch]
      refine ⟨by rw [List.length_cons, List.length_cons, hlen], ?_⟩
      intro k hk
      cases k with
      | zero =>
        rw [List.take_succ_cons, List.take_zero, getNode_cons, hch, Option.some_bind,
          getNode_nil]
        simp
      | succ k =>
        rw [List.take_succ_cons, getNode_cons, hch, Option.some_bind,
          List.getElem?_cons_succ]
        exact hnames k (by rw [List.length_cons] at hk; omega)

theorem intercalate_cons_cons (sep a b : Str) (l : List Str) :
    sep.intercalate (a :: b :: l) = a ++ sep ++ sep.intercalate (b :: l) := by
  simp [List.intercalate, List.intersperse]

theorem intercalate_singleton (sep a : Str) : sep.intercalate [a] = a := by
  simp [List.intercalate, List.intersperse]

theorem splitPath_intercalate (parts : List Str) (h : ∀ part ∈ parts, IsPart part) :
    splitPath ("/".toList.intercalate parts) = parts := by
  induction parts with
  | nil => rfl
  | cons p ps ih =>
    have hp := h p (List.mem_cons_self _ _)
    have hleaf := splitPath_leaf p hp.2.2.2 hp.1 hp.2.1
    cases ps with
    | nil => rw [intercalate_singleton, hleaf]
    | cons q qs =>
      rw [intercalate_cons_cons]
      have : p ++ "/".toList ++ "/".toList.intercalate (q :: qs)
          = p ++ '/' :: "/".toList.intercalate (q :: qs) := by
        simp
      rw [this, splitPath_append_slash, hleaf,
        ih (fun x hx => h x (List.mem_cons_of_mem _ hx))]
      rfl

theorem splitPath_cons_slash (s : Str) : splitPath ('/' :: s) = splitPath s := by
  have := splitPath_append_slash [] s
  rw [List.nil_append] at this
  rw [this]
  rfl

theorem intercalate_getLast (parts : List Str) (h : ∀ part ∈ parts, IsPart part)
    (hne : parts ≠ []) :
    ('/' :: "/".toList.intercalate parts).getLast? ≠ some '/' := by
  induction parts with
  | nil => exact absurd rfl hne
  | cons p ps ih =>
    have hp := h p (List.mem_cons_self _ _)
    cases ps with
    | nil =>
      rw [intercalate_singleton]
      obtain ⟨x, hx⟩ := List.exists_cons_of_ne_nil hp.1
      obtain ⟨y, rfl⟩ := hx
      rw [List.getLast?_cons_cons]
      intro hlast
      exact hp.2.2.2 (List.mem_of_getLast?_eq_some hlast)
    | cons q qs =>
      rw [intercalate_cons_cons]
      have e : '/' :: (p ++ "/".toList ++ "/".toList.intercalate (q :: qs))
          = ('/' :: p) ++ ('/' :: "/".toList.intercalate (q :: qs)) := by
        simp
      rw [e, List.getLast?_append_of_ne_nil _ (List.cons_ne_nil _ _)]
      exact ih (fun x hx => h x (List.mem_cons_of_mem _ hx)) (List.cons_ne_nil _ _)

/-- C24 (`getCurrentPath` and resolution): in every state that the engine reaches from its
construction by any sequence of operations that have a result (the commands, and loads as
well; a `cmdMv` whose removal reads the freed name of its source has none) and in which
`current` still refers to a node, that node is a directory; `getCurrentPath` returns a slash
followed by the names of the nodes on the way from the root down to `current`, one for every
node below the root, with a slash between them: `/` for the root, and without a slash at the
end otherwise; resolving this path returns exactly `current`; and `cmdCd` on it returns,
leaves the engine as it is, and succeeds exactly when `current` grants `x`. -/
theorem getCurrentPath_resolves (fs : VirtualFileSystem) (h : Reachable fs) (cur : Pos)
    (hcur : fs.current = some cur) :
    ∃ path c, getCurrentPath fs = some path ∧
      fs.root.getNode cur = some c ∧ c.isDirectory = true ∧
      path = '/' :: "/".toList.intercalate (namesTo fs.root cur) ∧
      (namesTo fs.root cur).length = cur.length ∧
      (∀ k, k < cur.length →
        (namesTo fs.root cur)[k]? = (fs.root.getNode (cur.take (k + 1))).map getName) ∧
      (cur = [] → path = "/".toList) ∧
      (cur ≠ [] → path.getLast? ≠ some '/') ∧
      resolvePath fs path = some (some cur) ∧
      ∃ r, cmdCd fs path = some r ∧ r.fs = fs ∧
        (r.ok = true ↔ checkPermission c 'x' = true) := by
  obtain ⟨-, hinv⟩ := reachable_currentAnchored fs h
  obtain ⟨⟨parts, hparts, hw⟩, c, hc, hdir⟩ := hinv cur hcur
  have hnames := namesTo_of_anchored fs.root cur parts hparts hw
  obtain ⟨hlen, hat⟩ := namesTo_spec cur fs.root c hc
  have hres : resolvePath fs ('/' :: "/".toList.intercalate parts) = some (some cur) := by
    have e : ('/' :: "/".toList.intercalate parts).head? = some '/' := rfl
    rw [resolvePath_eq_walk, if_pos e, splitPath_cons_slash,
      splitPath_intercalate parts hparts, hw]
  refine ⟨'/' :: "/".toList.intercalate parts, c, ?_, hc, hdir, by rw [hnames], hlen, hat,
    ?_, ?_, hres, ?_⟩
  · unfold getCurrentPath
    rw [hcur, Option.map_some', hnames]
  · intro hnil
    subst hnil
    rw [namesTo_nil] at hnames
    rw [← hnames]
    rfl
  · intro hne
    apply intercalate_getLast parts hparts
    intro hp
    apply hne
    rw [hnames, hp] at hlen
    exact List.length_eq_zero.mp hlen.symm
  · unfold cmdCd
    rw [if_neg (List.cons_ne_nil _ _), hres]
    simp only [hc, hdir, Bool.not_true, Bool.false_eq_true, if_false]
    have hfs : ({ fs with current := some cur } : VirtualFileSystem) = fs := by
      cases fs
      simp only at hcur
      rw [hcur]
    cases hx : checkPermission c 'x' with
    | false =>
      exact ⟨⟨false, "Permission denied.\n".toList, fs⟩,
        by simp only [Bool.not_false, if_true], rfl, by simp⟩
    | true =>
      exact ⟨⟨true, [], { fs with current := some cur }⟩,
        by simp only [Bool.not_true, Bool.false_eq_true, if_false], hfs, by simp⟩

end VirtualFileSystem

/-! ## Evaluation at concrete inputs: tree printer, write path, round trip, current path -/

section EvaluationPaths

open VirtualFileSystem VFSNode Scenario TreeSpec RoundTripSpec

set_option maxRecDepth 100000

/-- The output of `cmdTree` for a tree with two directories and two files. -/
theorem cmdTree_example :
    cmdTree ⟨dir "/" "rwx"
        [dir "a" "rwx" [file "x" "" "rw-", file "y" "" "rw-"], dir "b" "rwx" []], some []⟩
      = "/\n|-- a\n|   |-- x\n|   `-- y\n`-- b\n".toList ∧
    treeLines (dir "/" "rwx"
        [dir "a" "rwx" [file "x" "" "rw-", file "y" "" "rw-"], dir "b" "rwx" []])
      = ["/".toList, "|-- a".toList, "|   |-- x".toList, "|   `-- y".toList,
          "`-- b".toList] := by
  decide

/-- C22 (`cmdWrite` never uses a missing node), at `mkdir a`, `cd a`, `write /f`: the path
`/f` does not resolve, the inner `cmdTouch` succeeds and makes the file under `current`
(`/a/f`), the second resolution of `/f` returns no node again, and `cmdWrite` goes on
through the null pointer: it has no result, whatever the input.  The same happens when
`/a/f` is there already. -/
theorem write_rooted_leaf_uses_missing_node :
    Reachable ⟨dir "/" "rwx" [dir "a" "rwx" []], some [0]⟩ ∧
    resolvePath ⟨dir "/" "rwx" [dir "a" "rwx" []], some [0]⟩ "/f".toList = some none ∧
    cmdTouch ⟨dir "/" "rwx" [dir "a" "rwx" []], some [0]⟩ "/f".toList
      = some ⟨true, [], ⟨dir "/" "rwx" [dir "a" "rwx" [file "f" "" "rw-"]], some [0]⟩⟩ ∧
    resolvePath ⟨dir "/" "rwx" [dir "a" "rwx" [file "f" "" "rw-"]], some [0]⟩ "/f".toList
      = some none ∧
    (∀ input, cmdWrite ⟨dir "/" "rwx" [dir "a" "rwx" []], some [0]⟩ "/f".toList input
      = none) ∧
    cmdTouch ⟨dir "/" "rwx" [dir "a" "rwx" [file "f" "" "rw-"]], some [0]⟩ "/f".toList
      = some ⟨true, [], ⟨dir "/" "rwx" [dir "a" "rwx" [file "f" "" "rw-"]], some [0]⟩⟩ ∧
    (∀ input,
      cmdWrite ⟨dir "/" "rwx" [dir "a" "rwx" [file "f" "" "rw-"]], some [0]⟩ "/f".toList
        input = none) :=
  ⟨ReachableBy.step (Op.cd "a".toList) ⟨dir "/" "rwx" [dir "a" "rwx" []], some []⟩ _
      (ReachableBy.step (Op.mkdir "a".toList) init _ ReachableBy.init trivial (by decide))
      trivial (by decide),
    by decide, by decide, by decide, fun _ => rfl, by decide, fun _ => rfl⟩

/-- Counterexample to C23 (restricted round trip): the tree with the directory `/d` that
holds the content `x`, which a load builds, meets every restriction that the claim states;
`save` writes no content for a directory, and the load of the text it writes gives `/d`
without content. -/
theorem save_drops_directory_content :
    restrictedRootAsStated
      (dir "/" "rwx" [.mk "d".toList NodeType.Directory [] "x\n".toList "rw-".toList])
      = true ∧
    Reachable
      ⟨dir "/" "rwx" [.mk "d".toList NodeType.Directory [] "x\n".toList "rw-".toList],
        some []⟩ ∧
    save ⟨dir "/" "rwx" [.mk "d".toList NodeType.Directory [] "x\n".toList "rw-".toList],
        some []⟩
      = "NODE DIR rwx /\nNODE DIR rw- /d\n".toList ∧
    load init (some (save
        ⟨dir "/" "rwx" [.mk "d".toList NodeType.Directory [] "x\n".toList "rw-".toList],
          some []⟩))
      = ⟨dir "/" "rwx" [dir "d" "rw-" []], some []⟩ ∧
    dir "/" "rwx" [dir "d" "rw-" []]
      ≠ dir "/" "rwx" [.mk "d".toList NodeType.Directory [] "x\n".toList "rw-".toList] :=
  ⟨by decide,
    ReachableBy.step
      (Op.load (some
        "NODE DIR rwx /d\nNODE FILE rw- /d\nCONTENT_BEGIN\nx\nCONTENT_END\n".toList))
      init _ ReachableBy.init trivial (by decide),
    by decide, by decide, by decide⟩

/-- Witness of C23, amended: the tree `/a/b.txt` meets the restrictions, its directories
have no content, and the load of the text that `save` writes for it gives the tree. -/
theorem restricted_round_trip_witness :
    restrictedRootAsStated hiFs.root = true ∧ kindsOk hiFs.root = true ∧
    load init (some (save hiFs)) = ⟨hiFs.root, some []⟩ :=
  ⟨by decide, by decide, restricted_round_trip init hiFs (by decide) (by decide)⟩

/-- Witness of C24: after `mkdir a` and `cd a`, `getCurrentPath` returns `/a`, which
resolves to `current`. -/
theorem getCurrentPath_resolves_witness :
    Reachable ⟨dir "/" "rwx" [dir "a" "rwx" []], some [0]⟩ ∧
    getCurrentPath ⟨dir "/" "rwx" [dir "a" "rwx" []], some [0]⟩ = some "/a".toList ∧
    ∃ path c, getCurrentPath ⟨dir "/" "rwx" [dir "a" "rwx" []], some [0]⟩ = some path ∧
      (dir "/" "rwx" [dir "a" "rwx" []]).getNode [0] = some c ∧ c.isDirectory = true ∧
      path = '/' :: "/".toList.intercalate (namesTo (dir "/" "rwx" [dir "a" "rwx" []]) [0]) ∧
      (namesTo (dir "/" "rwx" [dir "a" "rwx" []]) [0]).length = [0].length ∧
      (∀ k, k < [0].length →
        (namesTo (dir "/" "rwx" [dir "a" "rwx" []]) [0])[k]?
          = ((dir "/" "rwx" [dir "a" "rwx" []]).getNode ([0].take (k + 1))).map getName) ∧
      (([0] : Pos) = [] → path = "/".toList) ∧
      (([0] : Pos) ≠ [] → path.getLast? ≠ some '/') ∧
      resolvePath ⟨dir "/" "rwx" [dir "a" "rwx" []], some [0]⟩ path = some (some [0]) ∧
      ∃ r, cmdCd ⟨dir "/" "rwx" [dir "a" "rwx" []], some [0]⟩ path = some r ∧
        r.fs = ⟨dir "/" "rwx" [dir "a" "rwx" []], some [0]⟩ ∧
        (r.ok = true ↔ checkPermission c 'x' = true) :=
  ⟨ReachableBy.step (Op.cd "a".toList) ⟨dir "/" "rwx" [dir "a" "rwx" []], some []⟩ _
      (ReachableBy.step (Op.mkdir "a".toList) init _ ReachableBy.init trivial (by decide))
      trivial (by decide),
    by decide,
    getCurrentPath_resolves ⟨dir "/" "rwx" [dir "a" "rwx" []], some [0]⟩
      (ReachableBy.step (Op.cd "a".toList) ⟨dir "/" "rwx" [dir "a" "rwx" []], some []⟩ _
        (ReachableBy.step (Op.mkdir "a".toList) init _ ReachableBy.init trivial (by decide))
        trivial (by decide))
      [0] rfl⟩

end EvaluationPaths

/-! ## The nodes a resolution stands on, and removal -/

namespace VirtualFileSystem

open VFSNode

theorem walkTrace_nil (root : VFSNode) (q : Pos) : walkTrace root q [] = [q] := by
  cases q <;> rfl

theorem walkTrace_cons_up (root : VFSNode) (q : Pos) (parts : List Str) :
    walkTrace root q ("..".toList :: parts) = q :: walkTrace root q.dropLast parts := by
  cases q with
  | nil => simp [walkTrace, parentPos]
  | cons i rest => simp [walkTrace, parentPos]

theorem walkTrace_cons_child (root : VFSNode) (q : Pos) (part : Str) (parts : List Str)
    (h : part ≠ "..".toList) :
    walkTrace root q (part :: parts)
      = q :: ((stepChild root q part).map (fun q1 => walkTrace root q1 parts)).getD [] := by
  simp only [walkTrace, h, if_false, stepChild]
  cases root.getNode q with
  | none => rfl
  | some n =>
    simp only [Option.some_bind]
    cases n.findChild part <;> rfl

/-- The node that the loop of `resolvePath` stands on after some of the parts is among the
nodes of its trace. -/
theorem mem_walkTrace_of_walk (root : VFSNode) (parts : List Str) :
    ∀ (q p : Pos) (k : Nat), walk root q (parts.take k) = some p →
      p ∈ walkTrace root q parts := by
  induction parts with
  | nil =>
    intro q p k h
    rw [List.take_nil, walk_nil] at h
    cases h
    rw [walkTrace_nil]
    exact List.mem_singleton_self _
  | cons part parts ih =>
    intro q p k h
    cases k with
    | zero =>
      rw [List.take_zero, walk_nil] at h
      cases h
      by_cases hp : part = "..".toList
      · rw [hp, walkTrace_cons_up]; exact List.mem_cons_self _ _
      · rw [walkTrace_cons_child _ _ _ _ hp]; exact List.mem_cons_self _ _
    | succ k =>
      rw [List.take_succ_cons] at h
      by_cases hp : part = "..".toList
      · rw [hp, walk_cons_up] at h
        rw [hp, walkTrace_cons_up]
        exact List.mem_cons_of_mem _ (ih _ p k h)
      · rw [walk_cons_child _ _ _ _ hp] at h
        rw [walkTrace_cons_child _ _ _ _ hp]
        cases hs : stepChild root q part with
        | none => rw [hs] at h; cases h
        | some q1 =>
          rw [hs, Option.some_bind] at h
          exact List.mem_cons_of_mem _ (ih q1 p k h)

theorem resolvePath_eq_start (fs : VirtualFileSystem) (path : Str) :
    resolvePath fs path
      = (startNode fs path).map (fun st => walk fs.root st (splitPath path)) := by
  rw [resolvePath_eq_walk]
  unfold startNode
  by_cases h : path.head? = some '/'
  · rw [if_pos h, if_pos h]; rfl
  · rw [if_neg h, if_neg h]

theorem mem_visited_of_walk (fs : VirtualFileSystem) (path : Str) (st p : Pos) (k : Nat)
    (hst : startNode fs path = some st)
    (h : walk fs.root st ((splitPath path).take k) = some p) : p ∈ visited fs path := by
  unfold visited
  rw [hst]
  exact mem_walkTrace_of_walk fs.root _ st p k h

/-- The loop of `resolvePath` before and after `removeChild(name)` on the node at `Q`: when
every node that it stands on survives the removal, it leads to the same node as before. -/
theorem walk_removeChild_clear (T : VFSNode) (Q : Pos) (parent : VFSNode) (nm : Str)
    (hQ : T.getNode Q = some parent) (parts : List Str) :
    ∀ (q q' r : Pos), rebase parent.getChildren nm Q q = some q' →
      walk T q parts = some r →
      (∀ k p, walk T q (parts.take k) = some p →
        ∃ p', rebase parent.getChildren nm Q p = some p') →
      ∃ r', rebase parent.getChildren nm Q r = some r' ∧
        walk (T.updateNode (removeChild nm) Q) q' parts = some r' := by
  induction parts with
  | nil =>
    intro q q' r hq hw _
    rw [walk_nil] at hw
    cases hw
    exact ⟨q', hq, walk_nil _ _⟩
  | cons part parts ih =>
    intro q q' r hq hw hclear
    by_cases hp : part = "..".toList
    · subst hp
      rw [walk_cons_up] at hw ⊢
      apply ih q.dropLast q'.dropLast r (rebase_dropLast _ _ _ _ _ hq) hw
      intro k p h
      apply hclear (k + 1) p
      rw [List.take_succ_cons, walk_cons_up]
      exact h
    · rw [walk_cons_child _ _ _ _ hp] at hw ⊢
      cases hs : stepChild T q part with
      | none => rw [hs] at hw; cases hw
      | some q1 =>
        rw [hs, Option.some_bind] at hw
        have hq1 : ∃ p', rebase parent.getChildren nm Q q1 = some p' := by
          apply hclear 1 q1
          rw [List.take_succ_cons, List.take_zero, walk_cons_child _ _ _ _ hp, hs,
            Option.some_bind, walk_nil]
        rcases stepChild_removeChild T Q parent nm hQ q q' part q1 hq hs with
          ⟨hnone, -⟩ | ⟨q1', hq1', hsome⟩
        · obtain ⟨p', hp'⟩ := hq1
          rw [hnone] at hp'
          cases hp'
        · rw [hsome, Option.some_bind]
          apply ih q1 q1' r hq1' hw
          intro k p h
          apply hclear (k + 1) p
          rw [List.take_succ_cons, walk_cons_child _ _ _ _ hp, hs, Option.some_bind]
          exact h

/-- Resolution before and after `removeChild(name)` on the node at `Q`: when every node
that the resolution stands on survives the removal, the path resolves to the same node as
before. -/
theorem resolvePath_removeAt_clear (fs : VirtualFileSystem) (Q : Pos) (parent : VFSNode)
    (nm : Str) (hQ : fs.root.getNode Q = some parent) (path : Str) (r : Pos)
    (hres : resolvePath fs path = some (some r))
    (hclear : ∀ st k p, startNode fs path = some st →
      walk fs.root st ((splitPath path).take k) = some p →
      ∃ p', rebase parent.getChildren nm Q p = some p') :
    ∃ r', rebase parent.getChildren nm Q r = some r' ∧
      resolvePath (removeAt fs Q parent nm) path = some (some r') := by
  rw [resolvePath_eq_start] at hres ⊢
  cases hst : startNode fs path with
  | none => rw [hst] at hres; cases hres
  | some st =>
    rw [hst, Option.map_some', Option.some.injEq] at hres
    obtain ⟨st', hst'⟩ := hclear st 0 st hst (by rw [List.take_zero, walk_nil])
    obtain ⟨r', hr', hw⟩ := walk_removeChild_clear fs.root Q parent nm hQ (splitPath path)
      st st' r hst' hres (fun k p h => hclear st k p hst h)
    refine ⟨r', hr', ?_⟩
    have hstart : startNode (removeAt fs Q parent nm) path = some st' := by
      unfold startNode at hst ⊢
      by_cases hh : path.head? = some '/'
      · rw [if_pos hh] at hst ⊢
        cases hst
        rw [rebase_root] at hst'
        exact hst'.symm ▸ rfl
      · rw [if_neg hh] at hst ⊢
        simp only [removeAt, hst, Option.some_bind]
        exact hst'
    rw [hstart, Option.map_some']
    simp only [removeAt]
    rw [hw]

/-- The parts of a path with a proper leaf that is not of the form `/name`: the parts that
lead to the directory the commands take as parent, from the node the resolution starts
from, and then the leaf. -/
theorem parentPtr_walk (fs : VirtualFileSystem) (path : Str) (par : Pos)
    (hleaf : ProperLeaf path) (hrooted : ¬ RootedLeaf path)
    (hptr : parentPtr fs path = some (some par)) :
    ∃ st pparts, startNode fs path = some st ∧
      splitPath path = pparts ++ [leafNameOf path] ∧ walk fs.root st pparts = some par := by
  cases h : findLastOf '/' path with
  | none =>
    have hl := leafNameOf_of_no_slash path h
    have hsp := splitPath_no_slash path hleaf h
    have hns : '/' ∉ path := (findLastOf_eq_none _ _).mp h
    have hhead : path.head? ≠ some '/' := by
      intro e
      cases path with
      | nil => cases e
      | cons c cs =>
        rw [List.head?_cons, Option.some.injEq] at e
        exact hns (by rw [e]; exact List.mem_cons_self _ _)
    unfold parentPtr at hptr
    rw [if_pos hl.2] at hptr
    cases hc : fs.current with
    | none => rw [hc] at hptr; cases hptr
    | some cur =>
      rw [hc, Option.map_some', Option.some.injEq, Option.some.injEq] at hptr
      subst hptr
      refine ⟨cur, [], ?_, ?_, walk_nil _ _⟩
      · unfold startNode
        rw [if_neg hhead, hc]
      · rw [hsp, hl.1]
        rfl
  | some i =>
    obtain ⟨hd, -⟩ := path_eq_parent_slash_leaf path i h
    have hsp := splitPath_parent_leaf path hleaf (by rw [h]; simp)
    have hi : i ≠ 0 := by
      intro e; apply hrooted; unfold RootedLeaf; rw [h, e]
    have hppne := parentPathOf_ne_nil path i h hi
    have hhead : path.head? = (parentPathOf path).head? := by
      conv_lhs => rw [hd]
      cases hpp : parentPathOf path with
      | nil => exact absurd hpp hppne
      | cons c cs => rfl
    unfold parentPtr at hptr
    rw [if_neg hppne, resolvePath_eq_start] at hptr
    have hstart : startNode fs (parentPathOf path) = startNode fs path := by
      unfold startNode
      rw [hhead]
    rw [hstart] at hptr
    cases hst : startNode fs path with
    | none => rw [hst] at hptr; cases hptr
    | some st =>
      rw [hst, Option.map_some', Option.some.injEq] at hptr
      exact ⟨st, splitPath (parentPathOf path), rfl, hsp, hptr⟩

theorem walk_of_append (root : VFSNode) (q r : Pos) (A B : List Str)
    (h : walk root q (A ++ B) = some r) : ∃ m, walk root q A = some m := by
  rw [walk_append] at h
  cases hA : walk root q A with
  | none => rw [hA] at h; cases h
  | some m => exact ⟨m, rfl⟩

end VirtualFileSystem

namespace VFSNode

mutual
/-- Unique names among the children of every node give unique names among the children of
every directory. -/
theorem siblingsUnique_of_namesUnique : ∀ (n : VFSNode), namesUnique n = true →
    siblingsUnique n = true
  | .mk nm t cs c p, h => by
    have hn := namesUnique_nodup (.mk nm t cs c p) h
    rw [getChildren_mk] at hn
    rw [siblingsUnique_mk, Bool.and_eq_true]
    refine ⟨?_, siblingsUniqueList_of_namesUniqueList cs hn.2⟩
    cases t with
    | File => rfl
    | Directory => exact decide_eq_true hn.1
/-- The same for a child vector. -/
theorem siblingsUniqueList_of_namesUniqueList : ∀ (cs : List VFSNode),
    namesUniqueList cs = true → siblingsUniqueList cs = true
  | [], _ => rfl
  | c :: cs, h => by
    rw [namesUniqueList_cons, Bool.and_eq_true] at h
    rw [siblingsUniqueList_cons, Bool.and_eq_true]
    exact ⟨siblingsUnique_of_namesUnique c h.1, siblingsUniqueList_of_namesUniqueList cs h.2⟩
end

end VFSNode

/-! ## The freed name in the removal of `cmdMv` -/

namespace VirtualFileSystem

open VFSNode

theorem readsFreedName_nil (name : Str) (s result : Nat) (freed : Bool) :
    readsFreedName name s result freed [] = false := by
  simp only [readsFreedName]

theorem readsFreedName_cons (name : Str) (s result : Nat) (freed : Bool) (c : VFSNode)
    (rest : List VFSNode) :
    readsFreedName name s result freed (c :: rest)
      = if freed then true
        else if c.getName = name then readsFreedName name s result false rest
        else readsFreedName name s (result + 1) (result == s) rest := by
  simp only [readsFreedName]

theorem findIn_of_nodup (kids : List VFSNode) (h : (kids.map getName).Nodup) (s : Nat)
    (src : VFSNode) (hs : kids[s]? = some src) : findIn kids src.getName = some s := by
  cases hf : findIn kids src.getName with
  | none =>
    have hmem : src ∈ kids := by
      obtain ⟨hlt, heq⟩ := List.getElem?_eq_some_iff.mp hs
      rw [← heq]; exact List.getElem_mem hlt
    exact absurd rfl ((findIn_none _ _).mp hf src hmem)
  | some i =>
    obtain ⟨c, hc, hname, -⟩ := findIn_some kids _ i hf
    rw [index_eq_of_name_eq kids h i s c src hc hs hname]

/-- With unique names in the child vector, the removal of `cmdMv` reads the freed name of
the source exactly when two or more children stand behind the source. -/
theorem removeReadsFreed_of_nodup (kids : List VFSNode) (h : (kids.map getName).Nodup)
    (s : Nat) (src : VFSNode) (hs : kids[s]? = some src) :
    removeReadsFreed kids s = decide (s + 2 < kids.length) := by
  unfold removeReadsFreed
  rw [hs]
  simp only [findIn_of_nodup kids h s src hs]
  have hother : ∀ c ∈ kids.drop (s + 1), c.getName ≠ src.getName := by
    intro c hc hname
    obtain ⟨j, hj⟩ := List.mem_iff_getElem?.mp hc
    rw [List.getElem?_drop] at hj
    have := index_eq_of_name_eq kids h (s + 1 + j) s c src hj hs hname
    omega
  have hlen : (kids.drop (s + 1)).length = kids.length - (s + 1) := List.length_drop _ _
  cases hd : kids.drop (s + 1) with
  | nil =>
    rw [hd] at hlen
    rw [readsFreedName_nil]
    simp only [List.length_nil] at hlen
    exact (decide_eq_false (by omega)).symm
  | cons c rest =>
    rw [hd] at hother hlen
    rw [readsFreedName_cons]
    simp only [Bool.false_eq_true, if_false, if_neg (hother c (List.mem_cons_self _ _)),
      beq_self_eq_true]
    cases rest with
    | nil =>
      rw [readsFreedName_nil]
      simp only [List.length_cons, List.length_nil] at hlen
      exact (decide_eq_false (by omega)).symm
    | cons d rest =>
      rw [readsFreedName_cons]
      simp only [if_true]
      simp only [List.length_cons] at hlen
      exact (decide_eq_true (by omega)).symm

end VirtualFileSystem

/-! ## `cmdMv`: the moved node under its new path -/

section MvClaims
open VirtualFileSystem VFSNode Scenario

/-- C5, as amended.  In a tree where files have no children, directories have no content
and sibling names are unique, let `cmdMv(src, dst)` return success (its removal then read no
freed name) for a destination path with a proper leaf (not empty, `.` or `..`), not of the
form `/name`, whose resolution before the call stands on no node that is the source or
inside it.  Then `src` resolved to a node before the call; afterwards `dst` resolves to a
node that carries the leaf of `dst` as its name and the type, permissions, content and
children (in order) of that source node; and `src` no longer resolves: resolution gives
not-found, or has no result when `current` itself was inside the moved subtree. -/
theorem cmdMv_moves (fuel : Nat) (fs : VirtualFileSystem) (srcPath dstPath : Str)
    (r : Result) (hkinds : fs.root.kindsOk = true) (huniq : fs.root.namesUnique = true)
    (hleaf : ProperLeaf dstPath) (hrooted : ¬ RootedLeaf dstPath)
    (hclear : ∀ src, resolvePath fs srcPath = some (some src) →
      ∀ q ∈ visited fs dstPath, ¬ src <+: q)
    (hmv : cmdMv fuel fs srcPath dstPath = some r) (hok : r.ok = true) :
    ∃ src s, resolvePath fs srcPath = some (some src) ∧ fs.root.getNode src = some s ∧
      (∃ q, resolvePath r.fs dstPath = some (some q) ∧
        r.fs.root.getNode q
          = some (.mk (leafNameOf dstPath) s.getType s.getChildren s.getContent
              s.getPermissions)) ∧
      (resolvePath r.fs srcPath = some none ∨
        (r.fs.current = none ∧ resolvePath r.fs srcPath = none)) := by
  obtain ⟨src, oldParent, par, parent, root1, s1, old, hsrc, hpp, hptr, hpar, hpdir, hfind,
    hcopy, hs1, hold, rfl⟩ := cmdMv_ok fuel fs srcPath dstPath r hmv hok
  obtain ⟨s, _, hs, -⟩ := copyNodeRecursive_some _ _ _ _ _ _ hcopy
  have hnot := not_prefix_of_copy fuel fs.root src par _ parent root1 hkinds hpar hpdir hcopy
  have hroot1 := copyNodeRecursive_eq fuel fs.root src par _ s parent root1 hs hpar hnot hcopy
  subst hroot1
  rw [getNode_after_push _ fs.root par src s hs hnot] at hs1
  obtain rfl : s = s1 := Option.some.inj hs1
  obtain ⟨i0, rfl⟩ := parentPos_eq_some src oldParent hpp
  -- the source is child `i0` of the old parent, before and after the push
  have hold_i0 : old.getChildren[i0]? = some s := by
    rw [← getNode_snoc _ oldParent i0 old hold]
    exact getNode_after_push _ fs.root par _ s hs hnot
  obtain ⟨old0, hold0⟩ := getNode_of_append fs.root oldParent [i0] s hs
  have hlen_none : fs.root.getNode (par ++ [parent.getChildren.length]) = none := by
    rw [getNode_snoc _ par _ parent hpar]; simp
  have hsks : (copyTree (leafNameOf dstPath) s)
      = .mk (leafNameOf dstPath) s.getType s.getChildren s.getContent s.getPermissions :=
    copyTree_of_kindsOk _ s (kindsOk_getNode _ _ _ hkinds hs)
  have hcopyname : (copyTree (leafNameOf dstPath) s).getName = leafNameOf dstPath := by
    rw [hsks]; rfl
  -- the names of the children of the old parent are unique after the push
  have hmut : Mutation false fs.root
      (fs.root.updateNode (pushChild (copyTree (leafNameOf dstPath) s)) par) :=
    Mutation.copy fs.root _ s par parent _ hs hpar hpdir hfind
  have hnodup : (old.getChildren.map getName).Nodup := by
    have hsib := siblingsUnique_getNode _ oldParent old
      (mutation_siblingsUnique false _ _ hmut (siblingsUnique_of_namesUnique _ huniq)) hold
    have hk := kindsOk_getNode _ oldParent old (mutation_kindsOk false _ _ hmut hkinds) hold
    exact ((siblingsUnique_iff old).mp hsib).1 (isDirectory_of_child old hk i0 s hold_i0)
  -- a node that is not the source or inside it survives the removal
  have hdefined : ∀ p, ¬ oldParent ++ [i0] <+: p →
      ∃ p', rebase old.getChildren s.getName oldParent p = some p' := by
    intro p hp
    cases hrb : rebase old.getChildren s.getName oldParent p with
    | some p' => exact ⟨p', rfl⟩
    | none =>
      exfalso
      obtain ⟨i, rest, c, hform, hci, hcname⟩ := rebase_eq_none _ _ _ _ hrb
      have hi : i = i0 := index_eq_of_name_eq _ hnodup i i0 c s hci hold_i0 hcname
      subst hi
      exact hp ⟨rest, by rw [hform]; simp⟩
  have hfresh : ¬ oldParent ++ [i0] <+: par ++ [parent.getChildren.length] := by
    intro hpre
    rcases prefix_snoc_cases _ _ _ hpre with h | h
    · exact hnot h
    · rw [h, hlen_none] at hs
      cases hs
  refine ⟨oldParent ++ [i0], s, hsrc, hs, ?_, ?_⟩
  · -- the copy survives the removal, and so does every node on the way to it
    have hres1 : resolvePath
        { fs with root := fs.root.updateNode (pushChild (copyTree (leafNameOf dstPath) s)) par }
        dstPath = some (some (par ++ [parent.getChildren.length])) := by
      rw [resolvePath_eq_parentPtr _ dstPath hleaf hrooted,
        parentPtr_push _ fs par parent hpar dstPath par hptr]
      simp only [Option.map_some', Option.some_bind, stepChild,
        getNode_pushed _ fs.root par parent hpar, findChild, pushChild_getChildren]
      rw [findIn_append_none _ _ _ hfind, if_pos hcopyname]
      rfl
    obtain ⟨st, pparts, hst, hsplit, hwalk⟩ :=
      parentPtr_walk fs dstPath par hleaf hrooted hptr
    obtain ⟨r', hr', hres2⟩ := resolvePath_removeAt_clear
      { fs with root := fs.root.updateNode (pushChild (copyTree (leafNameOf dstPath) s)) par }
      oldParent old s.getName hold dstPath _ hres1 (by
        intro st1 k p hst1 hw
        have hst1' : st1 = st := by
          have : startNode fs dstPath = some st1 := hst1
          rw [hst] at this
          exact (Option.some.inj this).symm
        subst hst1'
        by_cases hk : k ≤ pparts.length
        · -- a node on the way to the destination directory
          rw [hsplit, List.take_append_of_le_length hk] at hw
          have hw0 : walk fs.root st1 (pparts.take k ++ pparts.drop k) = some par := by
            rw [List.take_append_drop]; exact hwalk
          obtain ⟨m, hm⟩ := walk_of_append _ _ _ _ _ hw0
          have hm1 := walk_push (copyTree (leafNameOf dstPath) s) fs.root par parent hpar
            _ st1 m hm
          simp only at hw
          rw [hm1] at hw
          cases hw
          apply hdefined
          apply hclear _ hsrc
          apply mem_visited_of_walk fs dstPath st1 _ k hst
          rw [hsplit, List.take_append_of_le_length hk]
          exact hm
        · -- the copy itself
          rw [List.take_of_length_le (by rw [hsplit, List.length_append]; simp; omega)] at hw
          rw [resolvePath_eq_start, hst1, Option.map_some', Option.some.injEq] at hres1
          rw [hres1] at hw
          cases hw
          exact hdefined _ hfresh)
    refine ⟨r', hres2, ?_⟩
    rw [← hsks]
    apply getNode_removeChild_kept _ oldParent old s.getName hold _ r' _ hr'
      (getNode_pushed_child _ fs.root par parent hpar)
    intro hpre
    obtain ⟨t, ht⟩ := hpre
    rw [← ht] at hold0
    obtain ⟨m, hm⟩ := getNode_of_append _ _ _ _ hold0
    rw [hlen_none] at hm
    cases hm
  · -- the source is gone
    have hres1 := resolvePath_push (copyTree (leafNameOf dstPath) s) fs par parent hpar
      srcPath (oldParent ++ [i0]) hsrc
    have hgone : rebase old.getChildren s.getName oldParent (oldParent ++ [i0]) = none :=
      rebase_below_removed _ _ _ _ _ _ hold_i0 rfl
    rcases resolvePath_removeAt _ oldParent old s.getName hold srcPath _ hres1 with
      h | h | ⟨r', hr', -⟩
    · right; exact ⟨resolvePath_eq_none _ _ h, h⟩
    · left; exact h
    · rw [hgone] at hr'; cases hr'

set_option maxRecDepth 100000 in
/-- Witness of `cmdMv_moves`: the scenario of the specification, `mv a c` on `/a/b.txt`;
and `mv a ../c` issued from `/x` on `/x/a/b.txt`, whose destination goes up through `..`. -/
theorem cmdMv_moves_witness :
    (∃ src s, resolvePath hiFs "a".toList = some (some src) ∧
      hiFs.root.getNode src = some s ∧
      (∃ q, resolvePath movedFs "c".toList = some (some q) ∧
        movedFs.root.getNode q
          = some (.mk (leafNameOf "c".toList) s.getType s.getChildren s.getContent
              s.getPermissions)) ∧
      (resolvePath movedFs "a".toList = some none ∨
        (movedFs.current = none ∧ resolvePath movedFs "a".toList = none))) ∧
    (∃ src s,
      resolvePath
          ⟨dir "/" "rwx" [dir "x" "rwx" [dir "a" "rwx" [file "b.txt" "hi\n" "rw-"]]], some [0]⟩
          "a".toList = some (some src) ∧
      (dir "/" "rwx" [dir "x" "rwx" [dir "a" "rwx" [file "b.txt" "hi\n" "rw-"]]]).getNode src
        = some s ∧
      (∃ q,
        resolvePath
            ⟨dir "/" "rwx" [dir "x" "rwx" [], dir "c" "rwx" [file "b.txt" "hi\n" "rw-"]],
              some [0]⟩ "../c".toList = some (some q) ∧
        (dir "/" "rwx" [dir "x" "rwx" [], dir "c" "rwx" [file "b.txt" "hi\n" "rw-"]]).getNode q
          = some (.mk (leafNameOf "../c".toList) s.getType s.getChildren s.getContent
              s.getPermissions)) ∧
      (resolvePath
          ⟨dir "/" "rwx" [dir "x" "rwx" [], dir "c" "rwx" [file "b.txt" "hi\n" "rw-"]],
            some [0]⟩ "a".toList = some none ∨
        ((some [0] : Option Pos) = none ∧
          resolvePath
            ⟨dir "/" "rwx" [dir "x" "rwx" [], dir "c" "rwx" [file "b.txt" "hi\n" "rw-"]],
              some [0]⟩ "a".toList = none))) :=
  ⟨cmdMv_moves 3 hiFs "a".toList "c".toList ⟨true, [], movedFs⟩
      (by decide) (by decide) (by decide) (by decide)
      (fun src h => by
        have e : resolvePath hiFs "a".toList = some (some [0]) := by decide
        rw [e] at h
        cases h
        decide)
      (by decide) rfl,
    cmdMv_moves 3
      ⟨dir "/" "rwx" [dir "x" "rwx" [dir "a" "rwx" [file "b.txt" "hi\n" "rw-"]]], some [0]⟩
      "a".toList "../c".toList
      ⟨true, [],
        ⟨dir "/" "rwx" [dir "x" "rwx" [], dir "c" "rwx" [file "b.txt" "hi\n" "rw-"]],
          some [0]⟩⟩
      (by decide) (by decide) (by decide) (by decide)
      (fun src h => by
        have e : resolvePath
            ⟨dir "/" "rwx" [dir "x" "rwx" [dir "a" "rwx" [file "b.txt" "hi\n" "rw-"]]],
              some [0]⟩ "a".toList = some (some [0, 0]) := by decide
        rw [e] at h
        cases h
        decide)
      (by decide) rfl⟩

set_option maxRecDepth 100000 in
/-- C5 as stated fails when the resolution of the destination stands on the moved node: on
`/a/b.txt`, `cmdMv("a", "a/../c")` succeeds and leaves `/c/b.txt`, and `a/../c` does not
resolve afterwards. -/
theorem cmdMv_destination_through_source :
    cmdMv 3 hiFs "a".toList "a/../c".toList = some ⟨true, [], movedFs⟩ ∧
    resolvePath hiFs "a".toList = some (some [0]) ∧
    visited hiFs "a/../c".toList = [[], [0], []] ∧
    resolvePath movedFs "a/../c".toList = some none := by
  decide

set_option maxRecDepth 100000 in
/-- The removal of `cmdMv` at `mkdir a`, `mkdir b`, `mv a c`: the copy `c` is pushed behind
`b`, two children stand behind the source, and `std::remove_if` compares the name of `c`
with the name of the source after it has moved `b` onto the source: the move has no result,
whatever the recursion budget.  With `b` in front of `a` the move returns. -/
theorem mv_reads_freed_name :
    Reachable ⟨dir "/" "rwx" [dir "a" "rwx" [], dir "b" "rwx" []], some []⟩ ∧
    removeReadsFreed [dir "a" "rwx" [], dir "b" "rwx" [], dir "c" "rwx" []] 0 = true ∧
    (∀ fuel, cmdMv fuel ⟨dir "/" "rwx" [dir "a" "rwx" [], dir "b" "rwx" []], some []⟩
      "a".toList "c".toList = none) ∧
    cmdMv 1 ⟨dir "/" "rwx" [dir "b" "rwx" [], dir "a" "rwx" []], some []⟩
        "a".toList "c".toList
      = some ⟨true, [], ⟨dir "/" "rwx" [dir "b" "rwx" [], dir "c" "rwx" []], some []⟩⟩ :=
  ⟨ReachableBy.step (Op.mkdir "b".toList) ⟨dir "/" "rwx" [dir "a" "rwx" []], some []⟩ _
      (ReachableBy.step (Op.mkdir "a".toList) init _ ReachableBy.init trivial (by decide))
      trivial (by decide),
    by decide,
    fun fuel => by cases fuel <;> rfl,
    by decide⟩

end MvClaims
